import Mathlib

/-! MAI-UNIX kernel core: a shallow embedding and its verified properties.

The definitions below transcribe the C sources of the kernel
(`proc/proc.c`, `mm/pmm.c`, `mm/vmm.c`, `mm/heap.c`, `fs/vfs.c`,
`fs/ramfs.c`, `syscall/syscall.c`, `drivers/irq.c`) into pure Lean
functions over explicit state.  Pointers are natural numbers with `0`
standing for `NULL`; `uint32_t` arithmetic is written with an explicit
`% 2 ^ 32` wherever the C expression can wrap.
-/

namespace MaiUnix

/-! ## Process table and scheduler (`proc/proc.c`, `include/kernel/proc.h`) -/

def MAX_FDS : Nat := 32
def MAX_PROCS : Nat := 64

/-- The enum `proc_state_t`. -/
inductive proc_state_t
  | PROC_UNUSED
  | PROC_RUNNING
  | PROC_READY
  | PROC_BLOCKED
  | PROC_ZOMBIE
  | PROC_SLEEPING
  deriving DecidableEq, Repr

open proc_state_t

/-- The struct `process_t`.  The saved stack pointer and the 8 KiB kernel
stack are not represented: a state of the model is a state of the kernel
observed between calls, when no context switch is in flight.  `fds` holds
the `file_t*` of each descriptor slot (`0` is `NULL`). -/
structure process_t where
  pid : Int
  ppid : Int
  state : proc_state_t
  page_dir : Nat
  fds : List Nat
  exit_code : Int
  pending_sigs : Nat
  sleep_until : Nat
  name : List Char
  cwd : List Char
  deriving DecidableEq, Repr

/-- A record after `kmemset(p, 0, sizeof(process_t))`. -/
def zero_proc : process_t :=
  { pid := 0, ppid := 0, state := PROC_UNUSED, page_dir := 0,
    fds := List.replicate MAX_FDS 0, exit_code := 0, pending_sigs := 0,
    sleep_until := 0, name := [], cwd := [] }

/-- The globals of `proc.c`: `proc_table`, `current_proc` (as an index into
the table; every state of the model comes after `proc_init`, where the
pointer is not `NULL`), `ticks`, and the two function-local `static pid_t
next_pid` counters of `proc_create_kernel` and `proc_fork`.  `kernel_dir`
is the value of `vmm_get_kernel_directory()`. -/
structure Kernel where
  proc_table : Nat → process_t
  current_proc : Nat
  ticks : Nat
  next_pid_kernel : Int
  next_pid_fork : Int
  kernel_dir : Nat

/-- The assignment `proc_table[i] = p`. -/
def setProc (t : Nat → process_t) (i : Nat) (p : process_t) : Nat → process_t :=
  fun j => if j = i then p else t j

/-- The assignment `proc_table[i].state = s`. -/
def setState (t : Nat → process_t) (i : Nat) (s : proc_state_t) : Nat → process_t :=
  setProc t i { t i with state := s }

/-- The loop of `alloc_proc`: the first slot whose state is `PROC_UNUSED`. -/
def alloc_proc (t : Nat → process_t) : Option Nat :=
  (List.range MAX_PROCS).find? (fun i => decide ((t i).state = PROC_UNUSED))

/-- The function `proc_init`. -/
def proc_init (kernel_dir : Nat) : Kernel :=
  { proc_table := setProc (fun _ => zero_proc) 0
      { zero_proc with pid := 0, ppid := 0, state := PROC_RUNNING,
                       page_dir := kernel_dir, name := "idle".toList, cwd := "/".toList },
    current_proc := 0,
    ticks := 0,
    next_pid_kernel := 1,
    next_pid_fork := 100,
    kernel_dir := kernel_dir }

/-- The function `proc_create_kernel`; the result is the new state and the
index of the new record (`none` for `NULL`). -/
def proc_create_kernel (k : Kernel) (name : List Char) : Kernel × Option Nat :=
  match alloc_proc k.proc_table with
  | none => (k, none)
  | some i =>
    let t1 := setProc k.proc_table i zero_proc
    let p : process_t :=
      { t1 i with pid := k.next_pid_kernel,
                  ppid := (t1 k.current_proc).pid,
                  state := PROC_READY,
                  page_dir := k.kernel_dir,
                  name := name,
                  cwd := "/".toList }
    ({ k with proc_table := setProc t1 i p,
              next_pid_kernel := k.next_pid_kernel + 1 }, some i)

/-- The first loop of `scheduler_tick`: every `PROC_SLEEPING` record with
`ticks >= sleep_until` becomes `PROC_READY`. -/
def wake_sleepers (ticks : Nat) (t : Nat → process_t) : Nat → process_t :=
  fun i =>
    if i < MAX_PROCS ∧ (t i).state = PROC_SLEEPING ∧ (t i).sleep_until ≤ ticks
    then { t i with state := PROC_READY } else t i

/-- The second loop of `scheduler_tick`: for `i = 1 .. MAX_PROCS`, the first
`idx = (cur_idx + i) % MAX_PROCS` whose state is `PROC_READY`. -/
def find_next (t : Nat → process_t) (cur_idx : Nat) : Option Nat :=
  ((List.map (fun i => (cur_idx + (i + 1)) % MAX_PROCS) (List.range MAX_PROCS)).find?
    (fun idx => decide ((t idx).state = PROC_READY)))

/-- The function `scheduler_tick`.  The context switch itself leaves the
process table alone; after it the code of `next` is what runs. -/
def scheduler_tick (k : Kernel) : Kernel :=
  let ticks := (k.ticks + 1) % 2 ^ 32
  let t1 := wake_sleepers ticks k.proc_table
  match find_next t1 k.current_proc with
  | none => { k with ticks := ticks, proc_table := t1 }
  | some next_idx =>
    if next_idx = k.current_proc then { k with ticks := ticks, proc_table := t1 }
    else
      let prev := k.current_proc
      let t2 := if (t1 prev).state = PROC_RUNNING then setState t1 prev PROC_READY else t1
      let t3 := setState t2 next_idx PROC_RUNNING
      { k with ticks := ticks, proc_table := t3, current_proc := next_idx }

/-- The function `proc_yield`. -/
def proc_yield (k : Kernel) : Kernel :=
  if (k.proc_table k.current_proc).state = PROC_RUNNING then
    scheduler_tick { k with proc_table := setState k.proc_table k.current_proc PROC_READY }
  else scheduler_tick k

/-- The function `proc_sleep`. -/
def proc_sleep (k : Kernel) (ms : Nat) : Kernel :=
  let c := k.current_proc
  let p := k.proc_table c
  let p1 : process_t :=
    { p with sleep_until := (k.ticks + (ms / 10 + 1)) % 2 ^ 32, state := PROC_SLEEPING }
  proc_yield { k with proc_table := setProc k.proc_table c p1 }

/-- The function `proc_get`: the first record with that pid that is not
`PROC_UNUSED`. -/
def proc_get (t : Nat → process_t) (pid : Int) : Option Nat :=
  (List.range MAX_PROCS).find?
    (fun i => decide ((t i).pid = pid ∧ (t i).state ≠ PROC_UNUSED))

/-- The function `proc_fork`, as far as the process table goes.  `clone_dir`
is the directory that `vmm_clone(current_proc->page_dir)` returns.  The
record has no field for `kernel_stack`, `esp` and `kernel_stack_top`, so the
last step of the function is not part of this definition: it copies
`stack_offset = current_proc->kernel_stack_top - current_proc->esp` bytes
(`fork_stack_offset`) from the caller's saved stack pointer to the top of the
child's kernel stack.  The copy stays inside the child's `kernel_stack`, and
the call returns with the table computed here, when `stack_offset` is at
most the size of that stack.  A kernel thread that has not been switched out
has the `esp` that `proc_create_kernel` stored, `kernel_stack_top - 20`
(`created_esp`), so 20 bytes are copied.  The idle record is zeroed by
`proc_init` and is given no stack: its `kernel_stack_top` is 0, and so is its
`esp` (0 bytes are copied) until a switch away from it saves a stack pointer
there through `context_switch(&prev->esp, ..)`; from then on `stack_offset`
is `-esp` modulo `2 ^ 32`, a copy of almost the whole address space, for
which this definition is not a model. -/
def proc_fork (k : Kernel) (clone_dir : Nat) : Kernel × Option Nat :=
  match alloc_proc k.proc_table with
  | none => (k, none)
  | some i =>
    let t1 := setProc k.proc_table i zero_proc
    let parent := t1 k.current_proc
    let child : process_t :=
      { parent with pid := k.next_pid_fork,
                    ppid := parent.pid,
                    state := PROC_READY,
                    page_dir := clone_dir }
    ({ k with proc_table := setProc t1 i child,
              next_pid_fork := k.next_pid_fork + 1 }, some i)

/-- The function `proc_exit`, up to the point where it yields for good. -/
def proc_exit (k : Kernel) (code : Int) : Kernel :=
  let c := k.current_proc
  let t1 := setProc k.proc_table c
    { k.proc_table c with state := PROC_ZOMBIE, exit_code := code }
  let t2 :=
    match proc_get t1 (t1 c).ppid with
    | none => t1
    | some parent =>
      if (t1 parent).state = PROC_BLOCKED then setState t1 parent PROC_READY else t1
  let t3 :=
    if (t2 c).page_dir ≠ k.kernel_dir
    then setProc t2 c { t2 c with page_dir := k.kernel_dir } else t2
  proc_yield { k with proc_table := t3 }

/-- The zombie scan of `proc_wait`: the first `PROC_ZOMBIE` record whose
`ppid` is the caller's pid and whose pid is the one asked for (any, for
`-1`). -/
def find_zombie (t : Nat → process_t) (cur : Nat) (pid : Int) : Option Nat :=
  (List.range MAX_PROCS).find?
    (fun i => decide ((t i).state = PROC_ZOMBIE ∧ (t i).ppid = (t cur).pid ∧
                      (pid = -1 ∨ (t i).pid = pid)))

/-- The `has_child` scan of `proc_wait`. -/
def has_child (t : Nat → process_t) (cur : Nat) : Bool :=
  (List.range MAX_PROCS).any
    (fun i => decide ((t i).ppid = (t cur).pid ∧ (t i).state ≠ PROC_UNUSED))

/-- What one pass through the `while (1)` of `proc_wait` gives: the new
state, the value returned (`none` when the caller did not return but went
`PROC_BLOCKED` and yielded; the loop is re-entered when it runs again), and
the value stored through `status`, if any. -/
structure WaitResult where
  kernel : Kernel
  ret : Option Int
  status : Option Int

/-- The function `proc_wait`, called with a non-null `status`. -/
def proc_wait (k : Kernel) (pid : Int) : WaitResult :=
  let t := k.proc_table
  match find_zombie t k.current_proc pid with
  | some i =>
    { kernel := { k with proc_table := setState t i PROC_UNUSED },
      ret := some (t i).pid,
      status := some (t i).exit_code }
  | none =>
    if has_child t k.current_proc then
      { kernel := proc_yield { k with proc_table := setState t k.current_proc PROC_BLOCKED },
        ret := none, status := none }
    else { kernel := k, ret := some (-1), status := none }

/-- The function `proc_kill`. -/
def proc_kill (k : Kernel) (pid : Int) (sig : Nat) : Kernel :=
  match proc_get k.proc_table pid with
  | none => k
  | some i =>
    let p := k.proc_table i
    let t1 := setProc k.proc_table i
      { p with pending_sigs := (p.pending_sigs ||| (1 <<< sig)) % 2 ^ 32 }
    if (t1 i).state = PROC_BLOCKED ∨ (t1 i).state = PROC_SLEEPING
    then { k with proc_table := setState t1 i PROC_READY }
    else { k with proc_table := t1 }

/-- The calls that change the process table. -/
inductive ProcOp
  | tick
  | yield
  | sleep (ms : Nat)
  | wait (pid : Int)
  | exit (code : Int)
  | kill (pid : Int) (sig : Nat)
  | create (name : List Char)
  | fork (clone_dir : Nat)

/-- One call, made by whatever process is current. -/
def ProcOp.apply (k : Kernel) : ProcOp → Kernel
  | .tick => scheduler_tick k
  | .yield => proc_yield k
  | .sleep ms => proc_sleep k ms
  | .wait pid => (proc_wait k pid).kernel
  | .exit code => proc_exit k code
  | .kill pid sig => proc_kill k pid sig
  | .create name => (proc_create_kernel k name).1
  | .fork d => (proc_fork k d).1

/-- The state after a sequence of calls, starting from `proc_init`. -/
def runProc (kernel_dir : Nat) (ops : List ProcOp) : Kernel :=
  ops.foldl ProcOp.apply (proc_init kernel_dir)

/-- The number of records whose state is `PROC_RUNNING`. -/
def countRunning (k : Kernel) : Nat :=
  ((List.range MAX_PROCS).filter
    (fun i => decide ((k.proc_table i).state = PROC_RUNNING))).length


/-! ## Physical frame allocator (`mm/pmm.c`) -/

def PAGE_SIZE : Nat := 4096
def MAX_MEM_MB : Nat := 256
def BITMAP_LEN : Nat := MAX_MEM_MB * 1024 * 1024 / PAGE_SIZE / 32

/-- The statics of `pmm.c`.  `bitmap w` is the 32-bit word `bitmap[w]`; the
function is total, so a word index at or beyond `BITMAP_LEN` stands for the
memory that follows the array. -/
structure Pmm where
  bitmap : Nat → Nat
  total_pages : Nat
  used_pages : Nat

/-- The function `set_bit`: `bitmap[page / 32] |= (1U << (page % 32))`. -/
def set_bit (b : Nat → Nat) (page : Nat) : Nat → Nat :=
  fun w => if w = page / 32 then b w ||| (1 <<< (page % 32)) else b w

/-- The function `clear_bit`: `bitmap[page / 32] &= ~(1U << (page % 32))`. -/
def clear_bit (b : Nat → Nat) (page : Nat) : Nat → Nat :=
  fun w => if w = page / 32 then b w &&& (0xFFFFFFFF ^^^ (1 <<< (page % 32))) else b w

/-- The function `test_bit`: `(bitmap[page / 32] >> (page % 32)) & 1`. -/
def test_bit (b : Nat → Nat) (page : Nat) : Bool :=
  ((b (page / 32) >>> (page % 32)) &&& 1) != 0

/-- The value `start_page` of `pmm_init`:
`((kernel_end + PAGE_SIZE - 1) & ~(PAGE_SIZE - 1)) / PAGE_SIZE` in 32 bits. -/
def start_page (kernel_end : Nat) : Nat :=
  (((kernel_end + PAGE_SIZE - 1) % 2 ^ 32) &&& (0xFFFFFFFF ^^^ (PAGE_SIZE - 1))) / PAGE_SIZE

/-- The function `pmm_init`; `old` is the content of the memory before the
call. -/
def pmm_init (old : Nat → Nat) (mem_size kernel_end : Nat) : Pmm :=
  let total := mem_size / PAGE_SIZE
  let b1 : Nat → Nat := fun w => if w < BITMAP_LEN then 0xFFFFFFFF else old w
  let sp := start_page kernel_end
  let b2 := (List.range (total - sp)).foldl (fun b i => clear_bit b (sp + i)) b1
  { bitmap := b2, total_pages := total, used_pages := sp }

/-- The function `pmm_alloc`; `none` is `NULL`. -/
def pmm_alloc (s : Pmm) : Pmm × Option Nat :=
  match (List.range s.total_pages).find? (fun i => !test_bit s.bitmap i) with
  | some i =>
    ({ s with bitmap := set_bit s.bitmap i, used_pages := (s.used_pages + 1) % 2 ^ 32 },
     some ((i * PAGE_SIZE) % 2 ^ 32))
  | none => (s, none)

/-- The function `pmm_free`. -/
def pmm_free (s : Pmm) (addr : Nat) : Pmm :=
  let page := addr / PAGE_SIZE
  if test_bit s.bitmap page then
    { s with bitmap := clear_bit s.bitmap page,
             used_pages := (s.used_pages + 2 ^ 32 - 1) % 2 ^ 32 }
  else s

/-- A call of the allocator. -/
inductive PmmOp
  | alloc
  | free (addr : Nat)

/-- The allocator together with the bookkeeping of a run: the frames
`pmm_alloc` has returned so far, and those returned and not freed since. -/
structure PmmTrace where
  pmm : Pmm
  returned : List Nat
  outstanding : List Nat

/-- One call of a run. -/
def PmmTrace.step (s : PmmTrace) : PmmOp → PmmTrace
  | .alloc =>
    match pmm_alloc s.pmm with
    | (p, some a) => { pmm := p, returned := a :: s.returned, outstanding := a :: s.outstanding }
    | (p, none) => { s with pmm := p }
  | .free a => { s with pmm := pmm_free s.pmm a, outstanding := s.outstanding.erase a }

/-- The run of a sequence of calls after `pmm_init`. -/
def pmmRun (old : Nat → Nat) (mem_size kernel_end : Nat) (ops : List PmmOp) : PmmTrace :=
  ops.foldl PmmTrace.step
    { pmm := pmm_init old mem_size kernel_end, returned := [], outstanding := [] }

/-- Every `pmm_free` of the sequence is applied to a frame that an earlier
`pmm_alloc` returned. -/
def pmmLifetimes (s : PmmTrace) : List PmmOp → Prop
  | [] => True
  | .alloc :: ops => pmmLifetimes (s.step .alloc) ops
  | .free a :: ops => a ∈ s.returned ∧ pmmLifetimes (s.step (.free a)) ops

instance pmmLifetimes_decidable : (s : PmmTrace) → (ops : List PmmOp) →
    Decidable (pmmLifetimes s ops)
  | _, [] => isTrue trivial
  | s, .alloc :: ops => pmmLifetimes_decidable (s.step .alloc) ops
  | s, .free a :: ops =>
    match List.instDecidableMemOfLawfulBEq a s.returned with
    | isFalse h => isFalse (fun hh => h hh.1)
    | isTrue h =>
      match pmmLifetimes_decidable (s.step (.free a)) ops with
      | isTrue h2 => isTrue ⟨h, h2⟩
      | isFalse h2 => isFalse (fun hh => h2 hh.2)


/-! ## Virtual memory (`mm/vmm.c`, `include/kernel/mm.h`) -/

def PAGE_PRESENT : Nat := 0x001
def PAGE_WRITE : Nat := 0x002
def PAGE_USER : Nat := 0x004
def PAGE_COW : Nat := 0x200

/-- The constant `~0xFFF` as a 32-bit value. -/
def ADDR_MASK : Nat := 0xFFFFF000

/-- The memory that holds page directories and page tables: `get p i` is
`((page_t*)p)[i]`, the `i`-th entry of the table that starts at address `p`.
Tables are whole frames, so tables at different addresses do not overlap. -/
structure Tables where
  get : Nat → Nat → Nat

instance : CoeFun Tables (fun _ => Nat → Nat → Nat) := ⟨Tables.get⟩

/-- The statics of `vmm.c` together with the frame allocator and the
page-table memory. -/
structure Vmm where
  pmm : Pmm
  tables : Tables
  kernel_dir : Nat
  current_dir : Nat

/-- The assignment `((page_t*)p)[i] = v`. -/
def setEntry (t : Tables) (p i v : Nat) : Tables :=
  ⟨fun q j => if q = p ∧ j = i then v else t q j⟩

/-- The call `memset32(p, 0, 1024)`. -/
def memset32_zero (t : Tables) (p : Nat) : Tables :=
  ⟨fun q j => if q = p ∧ j < 1024 then 0 else t q j⟩

/-- The pointer a call of `pmm_alloc` hands back (`0` for `NULL`; the
callers in `vmm.c` do not test it). -/
def allocPtr (r : Option Nat) : Nat :=
  match r with
  | some a => a
  | none => 0

/-- The function `vmm_map` (the TLB flush has no effect on the state). -/
def vmm_map (v : Vmm) (pd virt phys flags : Nat) : Vmm :=
  let pd_idx := virt >>> 22
  let pt_idx := (virt >>> 12) &&& 0x3FF
  if v.tables pd pd_idx &&& PAGE_PRESENT = 0 then
    let r := pmm_alloc v.pmm
    let pt := allocPtr r.2
    let t1 := memset32_zero v.tables pt
    let t2 := setEntry t1 pd pd_idx
      (pt ||| PAGE_PRESENT ||| PAGE_WRITE ||| (flags &&& PAGE_USER))
    { v with pmm := r.1,
             tables := setEntry t2 pt pt_idx ((phys &&& ADDR_MASK) ||| PAGE_PRESENT ||| flags) }
  else
    let pt := v.tables pd pd_idx &&& ADDR_MASK
    { v with tables := setEntry v.tables pt pt_idx
               ((phys &&& ADDR_MASK) ||| PAGE_PRESENT ||| flags) }

/-- The function `vmm_unmap`. -/
def vmm_unmap (v : Vmm) (pd virt : Nat) : Vmm :=
  let pd_idx := virt >>> 22
  let pt_idx := (virt >>> 12) &&& 0x3FF
  if v.tables pd pd_idx &&& PAGE_PRESENT = 0 then v
  else { v with tables := setEntry v.tables (v.tables pd pd_idx &&& ADDR_MASK) pt_idx 0 }

/-- The function `vmm_get_physical`. -/
def vmm_get_physical (v : Vmm) (pd virt : Nat) : Nat :=
  let pd_idx := virt >>> 22
  let pt_idx := (virt >>> 12) &&& 0x3FF
  if v.tables pd pd_idx &&& PAGE_PRESENT = 0 then 0
  else
    ((v.tables (v.tables pd pd_idx &&& ADDR_MASK) pt_idx &&& ADDR_MASK) + (virt &&& 0xFFF))
      % 2 ^ 32

/-- The function `vmm_switch`. -/
def vmm_switch (v : Vmm) (pd : Nat) : Vmm := { v with current_dir := pd }

/-- The function `vmm_create_directory`. -/
def vmm_create_directory (v : Vmm) : Vmm × Nat :=
  let r := pmm_alloc v.pmm
  let pd := allocPtr r.2
  let t1 := memset32_zero v.tables pd
  let t2 := (List.range 256).foldl
    (fun t i => setEntry t pd (768 + i) (t v.kernel_dir (768 + i))) t1
  ({ v with pmm := r.1, tables := t2 }, pd)

/-- The inner loop of `vmm_clone` over the entries `j` of one source table. -/
def clone_table (t : Tables) (src_pt dst_pt : Nat) : Tables :=
  (List.range 1024).foldl
    (fun t j =>
      if t src_pt j &&& PAGE_PRESENT = 0 then t
      else
        let t1 := setEntry t src_pt j (t src_pt j &&& (0xFFFFFFFF ^^^ PAGE_WRITE))
        let t2 := setEntry t1 src_pt j (t1 src_pt j ||| PAGE_COW)
        setEntry t2 dst_pt j (t2 src_pt j)) t

/-- The body of the outer loop of `vmm_clone` for directory index `i`. -/
def clone_dir_entry (src dst : Nat) (v : Vmm) (i : Nat) : Vmm :=
  if v.tables src i &&& PAGE_PRESENT = 0 then v
  else
    let src_pt := v.tables src i &&& ADDR_MASK
    let r := pmm_alloc v.pmm
    let dst_pt := allocPtr r.2
    let t1 := memset32_zero v.tables dst_pt
    let t2 := clone_table t1 src_pt dst_pt
    { v with pmm := r.1,
             tables := setEntry t2 dst i (dst_pt ||| (t2 src i &&& 0xFFF)) }

/-- The function `vmm_clone`. -/
def vmm_clone (v : Vmm) (src : Nat) : Vmm × Nat :=
  let r := vmm_create_directory v
  ((List.range 768).foldl (clone_dir_entry src r.2) r.1, r.2)

/-- The function `vmm_destroy_directory`. -/
def vmm_destroy_directory (v : Vmm) (pd : Nat) : Vmm :=
  let p1 := (List.range 768).foldl
    (fun p i =>
      if v.tables pd i &&& PAGE_PRESENT = 0 then p
      else
        let pt := v.tables pd i &&& ADDR_MASK
        let p2 := (List.range 1024).foldl
          (fun q j =>
            if v.tables pt j &&& PAGE_PRESENT = 0 then q
            else pmm_free q (v.tables pt j &&& ADDR_MASK)) p
        pmm_free p2 pt) v.pmm
  { v with pmm := pmm_free p1 pd }

/-! ## Exceptions (`drivers/irq.c`) -/

/-- The fields of `regs_t` that the handlers read or write. -/
structure regs_t where
  eax : Nat
  ebx : Nat
  ecx : Nat
  edx : Nat
  int_no : Nat
  err_code : Nat
  eip : Nat
  cs : Nat
  eflags : Nat

/-- A diagnostic printed by an exception handler. -/
inductive Diag
  | page_fault (address eip err_code : Nat) (proc_name : List Char) (pid : Int)
  | exception (int_no eip cs eflags : Nat) (proc_name : List Char) (pid : Int)
  deriving DecidableEq, Repr

/-- The machine as the exception handlers see it: the address spaces, the
process table, what has been printed, and whether `cli; hlt` has stopped
the processor. -/
structure Machine where
  vmm : Vmm
  kernel : Kernel
  console : List Diag
  halted : Bool

/-- The function `handle_page_fault`; `cr2` is the faulting address.  The
branch for `(err_code & 3) == 3` has an empty body in the source. -/
def handle_page_fault (m : Machine) (r : regs_t) (cr2 : Nat) : Machine :=
  let m1 := if r.err_code &&& 3 = 3 then m else m
  let cur := m1.kernel.proc_table m1.kernel.current_proc
  { m1 with console := m1.console ++ [Diag.page_fault cr2 r.eip r.err_code cur.name cur.pid],
            halted := true }

/-- The function `isr_handler`. -/
def isr_handler (m : Machine) (r : regs_t) (cr2 : Nat) : Machine :=
  if r.int_no = 14 then handle_page_fault m r cr2
  else if r.int_no < 20 then
    let cur := m.kernel.proc_table m.kernel.current_proc
    { m with console := m.console ++ [Diag.exception r.int_no r.eip r.cs r.eflags cur.name cur.pid],
             halted := true }
  else m

/-- The leaf entry that directory `pd` holds for directory index `i` and
table index `j`, when the second-level table is present. -/
def leaf (t : Tables) (pd i j : Nat) : Option Nat :=
  if t pd i &&& PAGE_PRESENT = 0 then none
  else some (t (t pd i &&& ADDR_MASK) j)

/-- The leaf at `(i, j)` of `pd` exists and has `PAGE_PRESENT` set. -/
def leafPresent (t : Tables) (pd i j : Nat) : Prop :=
  ∃ e, leaf t pd i j = some e ∧ e &&& PAGE_PRESENT ≠ 0


/-- A run in which the idle process (pid 0, slot 0) creates a kernel thread
(pid 1, slot 1, `ppid` 0), the thread runs and calls `proc_exit(42)`, and the
idle process is running again. -/
def idleWaitScenario : Kernel :=
  runProc 0 [ProcOp.create "worker".toList, ProcOp.tick, ProcOp.exit 42]

/-- The state after `n` further invocations of `scheduler_tick`, nothing
else happening in between. -/
def ticksFrom (k : Kernel) : Nat → Kernel
  | 0 => k
  | n + 1 => scheduler_tick (ticksFrom k n)


/-! ## Kernel heap (`mm/heap.c`) -/

def HEAP_START : Nat := 0x01000000
def HEAP_MAX : Nat := 0x04000000
def HEAP_MAGIC : Nat := 0xCAFEBABE

/-- The value of `sizeof(block_header_t)`: five 32-bit fields. -/
def HDR_SIZE : Nat := 20

/-- The struct `block_header_t`. -/
structure block_header_t where
  magic : Nat
  size : Nat
  free : Nat
  next : Nat
  prev : Nat
  deriving DecidableEq, Repr

/-- The statics of `heap.c` and the memory of the arena: `hdr a` is the
`block_header_t` read at address `a` (a header that a merge has left behind
keeps its last content), `mem a` is the payload byte at address `a`.  The
frames that `heap_expand` maps behind the arena are not represented. -/
structure Heap where
  hdr : Nat → block_header_t
  heap_head : Nat
  heap_brk : Nat
  mem : Nat → Nat

/-- The assignment `*(block_header_t*)a = v`. -/
def setHdr (m : Nat → block_header_t) (a : Nat) (v : block_header_t) : Nat → block_header_t :=
  fun x => if x = a then v else m x

/-- The function `heap_expand`: the break moves up by `bytes` rounded up to
whole pages. -/
def heap_expand (h : Heap) (bytes : Nat) : Heap :=
  let needed := ((bytes + PAGE_SIZE - 1) % 2 ^ 32) &&& (0xFFFFFFFF ^^^ (PAGE_SIZE - 1))
  { h with heap_brk := (h.heap_brk + needed) % 2 ^ 32 }

/-- The function `heap_init`, run on the initial statics (`heap_head =
NULL`, `heap_brk = HEAP_START`); `hdr0` and `mem0` are the content of the
memory before the call. -/
def heap_init (hdr0 : Nat → block_header_t) (mem0 : Nat → Nat) : Heap :=
  let h0 : Heap := { hdr := hdr0, heap_head := 0, heap_brk := HEAP_START, mem := mem0 }
  let h1 := heap_expand h0 PAGE_SIZE
  { h1 with heap_head := HEAP_START,
            hdr := setHdr h1.hdr HEAP_START
              { magic := HEAP_MAGIC, size := PAGE_SIZE - HDR_SIZE, free := 1, next := 0, prev := 0 } }

/-- The first `if` of `coalesce`: absorb `b->next` when it is free. -/
def coalesce_next (m : Nat → block_header_t) (b : Nat) : Nat → block_header_t :=
  if (m b).next ≠ 0 ∧ (m (m b).next).free ≠ 0 then
    let m2 := setHdr m b
      { m b with size := ((m b).size + HDR_SIZE + (m (m b).next).size) % 2 ^ 32 }
    let m3 := setHdr m2 b { m2 b with next := (m2 (m2 b).next).next }
    if (m3 b).next ≠ 0 then setHdr m3 (m3 b).next { m3 (m3 b).next with prev := b } else m3
  else m

/-- The second `if` of `coalesce`: let `b->prev` absorb `b` when it is
free. -/
def coalesce_prev (m : Nat → block_header_t) (b : Nat) : Nat → block_header_t :=
  if (m b).prev ≠ 0 ∧ (m (m b).prev).free ≠ 0 then
    let m2 := setHdr m (m b).prev
      { m (m b).prev with
        size := ((m (m b).prev).size + HDR_SIZE + (m b).size) % 2 ^ 32 }
    let m3 := setHdr m2 (m2 b).prev { m2 (m2 b).prev with next := (m2 b).next }
    if (m3 b).next ≠ 0 then
      setHdr m3 (m3 b).next { m3 (m3 b).next with prev := (m3 b).prev }
    else m3
  else m

/-- The function `coalesce`: `next` is examined first, then `prev`. -/
def coalesce (m : Nat → block_header_t) (b : Nat) : Nat → block_header_t :=
  coalesce_prev (coalesce_next m b) b

/-- The rounding `(size + 7) & ~7` of `kmalloc`, in 32 bits. -/
def align8 (size : Nat) : Nat :=
  ((size + 7) % 2 ^ 32) &&& (0xFFFFFFFF ^^^ 7)

/-- The first loop of `kmalloc`: walk the list from `cur` to the first block
that is free and large enough.  The result is that block, or `0` when the
walk reaches `NULL`; `none` when `fuel` links were followed without an
end. -/
def find_fit (m : Nat → block_header_t) (size : Nat) : Nat → Nat → Option Nat
  | 0, _ => none
  | fuel + 1, cur =>
    if cur = 0 then some 0
    else if (m cur).free ≠ 0 ∧ size ≤ (m cur).size then some cur
    else find_fit m size fuel (m cur).next

/-- The loop `while (last->next) last = last->next`. -/
def find_last (m : Nat → block_header_t) : Nat → Nat → Option Nat
  | 0, _ => none
  | fuel + 1, last =>
    if (m last).next ≠ 0 then find_last m fuel (m last).next else some last

/-- The body of the first loop of `kmalloc` once a block `cur` fits: split
it when it is large enough, mark it used, return the payload address.  The
header of `split` is written field by field in the source; `split` is a
different address than `cur`, so one record assignment is the same. -/
def alloc_block (h : Heap) (cur size : Nat) : Heap × Nat :=
  let m := h.hdr
  let m1 :=
    if (size + HDR_SIZE + 8) % 2 ^ 32 ≤ (m cur).size then
      let split := (cur + HDR_SIZE + size) % 2 ^ 32
      let m2 := setHdr m split
        { magic := HEAP_MAGIC,
          size := ((m cur).size + 2 * 2 ^ 32 - size - HDR_SIZE) % 2 ^ 32,
          free := 1,
          next := (m cur).next,
          prev := cur }
      let m3 :=
        if (m2 cur).next ≠ 0 then setHdr m2 (m2 cur).next { m2 (m2 cur).next with prev := split }
        else m2
      let m4 := setHdr m3 cur { m3 cur with next := split }
      setHdr m4 cur { m4 cur with size := size }
    else m
  ({ h with hdr := setHdr m1 cur { m1 cur with free := 0 } }, (cur + HDR_SIZE) % 2 ^ 32)

/-- The part of `kmalloc` that follows the first loop when no block fits:
extend the arena by `size + sizeof(block_header_t) + PAGE_SIZE`, write the
header of the new block at the old break, append it to the list and
`coalesce` it.  `none` when the walk to the last block does not end within
`fuel` links. -/
def kmalloc_grow (fuel : Nat) (h : Heap) (size : Nat) : Option Heap :=
  let expand := (size + HDR_SIZE + PAGE_SIZE) % 2 ^ 32
  let old_brk := h.heap_brk
  let h1 := heap_expand h expand
  let m1 := setHdr h1.hdr old_brk
    { magic := HEAP_MAGIC,
      size := (h1.heap_brk + 2 * 2 ^ 32 - old_brk - HDR_SIZE) % 2 ^ 32,
      free := 1, next := 0, prev := 0 }
  match find_last m1 fuel h1.heap_head with
  | none => none
  | some last =>
    let m2 := setHdr m1 last { m1 last with next := old_brk }
    let m3 := setHdr m2 old_brk { m2 old_brk with prev := last }
    some { h1 with hdr := coalesce m3 old_brk }

/-- The function `kmalloc`.  `fuel` bounds both the number of links a walk
follows and the depth of the `return kmalloc(size)` recursion; the result
is `none` when it is used up, and the returned pointer is `0` for
`NULL`. -/
def kmalloc_fuel : Nat → Heap → Nat → Option (Heap × Nat)
  | 0, _, _ => none
  | fuel + 1, h, size0 =>
    if size0 = 0 then some (h, 0)
    else
      let size := align8 size0
      match find_fit h.hdr size (fuel + 1) h.heap_head with
      | none => none
      | some cur =>
        if cur ≠ 0 then some (alloc_block h cur size)
        else
          match kmalloc_grow (fuel + 1) h size with
          | none => none
          | some h2 => kmalloc_fuel fuel h2 size

/-- The fuel given to `kmalloc`: more links than a 32-bit address space
has room for headers. -/
def HEAP_FUEL : Nat := 2 ^ 32

/-- The function `kmalloc`. -/
def kmalloc (h : Heap) (size : Nat) : Option (Heap × Nat) :=
  kmalloc_fuel HEAP_FUEL h size

/-- The function `kfree`. -/
def kfree (h : Heap) (ptr : Nat) : Heap :=
  if ptr = 0 then h
  else
    let hd := (ptr + 2 ^ 32 - HDR_SIZE) % 2 ^ 32
    if (h.hdr hd).magic ≠ HEAP_MAGIC then h
    else
      let m1 := setHdr h.hdr hd { h.hdr hd with free := 1 }
      { h with hdr := coalesce m1 hd }

/-- The byte loop `for (i = 0; i < n; i++) d[i] = s[i]`. -/
def kmemcpy (mem : Nat → Nat) (dst src n : Nat) : Nat → Nat :=
  (List.range n).foldl
    (fun m i => fun a => if a = (dst + i) % 2 ^ 32 then m ((src + i) % 2 ^ 32) else m a) mem

/-- The function `krealloc`. -/
def krealloc (h : Heap) (ptr new_size : Nat) : Option (Heap × Nat) :=
  if ptr = 0 then kmalloc h new_size
  else
    let hd := (ptr + 2 ^ 32 - HDR_SIZE) % 2 ^ 32
    if new_size ≤ (h.hdr hd).size then some (h, ptr)
    else
      match kmalloc h new_size with
      | none => none
      | some (h1, newp) =>
        if newp = 0 then some (h1, 0)
        else
          let h2 := { h1 with mem := kmemcpy h1.mem newp ptr (h1.hdr hd).size }
          some (kfree h2 ptr, newp)

/-- A call of the heap interface. -/
inductive HeapOp
  | alloc (size : Nat)
  | free (ptr : Nat)
  deriving DecidableEq, Repr

/-- The heap together with the pointers `kmalloc` has returned and `kfree`
has not been given since. -/
structure HeapTrace where
  heap : Heap
  outstanding : List Nat

/-- One call of a run; `none` when `kmalloc` does not return. -/
def HeapTrace.step (s : HeapTrace) : HeapOp → Option HeapTrace
  | .alloc size =>
    match kmalloc s.heap size with
    | none => none
    | some (h, p) =>
      some { heap := h, outstanding := if p = 0 then s.outstanding else p :: s.outstanding }
  | .free p => some { heap := kfree s.heap p, outstanding := s.outstanding.erase p }

/-- The run of a sequence of calls from a given state. -/
def heapRunFrom : HeapTrace → List HeapOp → Option HeapTrace
  | s, [] => some s
  | s, op :: ops =>
    match s.step op with
    | none => none
    | some s1 => heapRunFrom s1 ops

/-- The run of a sequence of calls after `heap_init`. -/
def heapRun (hdr0 : Nat → block_header_t) (mem0 : Nat → Nat) (ops : List HeapOp) :
    Option HeapTrace :=
  heapRunFrom { heap := heap_init hdr0 mem0, outstanding := [] } ops

/-- The sequence respects lifetimes: every `kfree` is applied to a pointer
that `kmalloc` returned and that has not been freed since; and every
`kmalloc` is called while the break is far enough below the top of the
32-bit address space for the request (rounded up, with a header and the
page that `kmalloc` adds, to a whole number of pages) to fit. -/
def heapLifetimes : HeapTrace → List HeapOp → Bool
  | _, [] => true
  | s, .alloc size :: ops =>
    decide (s.heap.heap_brk + size + 2 * PAGE_SIZE + HDR_SIZE + 8 ≤ 2 ^ 32) &&
      (match s.step (.alloc size) with
       | none => true
       | some s1 => heapLifetimes s1 ops)
  | s, .free p :: ops =>
    decide (p ∈ s.outstanding) &&
      (match s.step (.free p) with
       | none => true
       | some s1 => heapLifetimes s1 ops)


/-! ### The block list of the heap, seen as a list of `(size, free)` pairs -/

/-- The `next` pointer of a block whose payload ends at `x`, in an arena
that ends at `e`: `NULL` for the last block. -/
def nxt (e x : Nat) : Nat := if x = e then 0 else x

/-- The `int` stored in the field `free`. -/
def flag (f : Bool) : Nat := if f then 1 else 0

/-- The address just past the blocks `bs` laid out from `a`. -/
def endAddr (a : Nat) : List (Nat × Bool) → Nat
  | [] => a
  | b :: r => endAddr (a + HDR_SIZE + b.1) r

/-- The address of the last of the blocks `bs` laid out from `a` (`prev`
when there is none). -/
def lastAddr (prev a : Nat) : List (Nat × Bool) → Nat
  | [] => prev
  | b :: r => lastAddr a (a + HDR_SIZE + b.1) r

/-- The headers in `m` from address `a` on are those of the blocks `bs`,
laid out one after the other, each carrying the magic word and linked to
its neighbours; `prev` is the block before `a`. -/
def Seg (m : Nat → block_header_t) (e : Nat) : Nat → Nat → List (Nat × Bool) → Prop
  | _, _, [] => True
  | prev, a, b :: r =>
    m a = { magic := HEAP_MAGIC, size := b.1, free := flag b.2,
            next := nxt e (a + HDR_SIZE + b.1), prev := prev } ∧
    Seg m e a (a + HDR_SIZE + b.1) r

/-- The payload pointers of the blocks in use among `bs` laid out from `a`. -/
def allocPtrs (a : Nat) : List (Nat × Bool) → List Nat
  | [] => []
  | b :: r =>
    if b.2 then allocPtrs (a + HDR_SIZE + b.1) r
    else (a + HDR_SIZE) :: allocPtrs (a + HDR_SIZE + b.1) r

/-- No two neighbouring blocks are both free. -/
def NoAdjFree (bs : List (Nat × Bool)) : Prop :=
  List.Chain' (fun x y => ¬ (x.2 = true ∧ y.2 = true)) bs

/-- The heap `h` is the well-formed block list `bs`. -/
structure HeapWF (h : Heap) (bs : List (Nat × Bool)) : Prop where
  head : h.heap_head = HEAP_START
  seg : Seg h.hdr h.heap_brk 0 HEAP_START bs
  fin : endAddr HEAP_START bs = h.heap_brk
  ne : bs ≠ []
  brk_lt : h.heap_brk < 2 ^ 32
  naf : NoAdjFree bs

/-- The block the first loop of `kmalloc` stops at, read off the block
list: the address of the first block that is free and large enough, `0`
when there is none. -/
def fitAddr (size a : Nat) : List (Nat × Bool) → Nat
  | [] => 0
  | b :: r => if b.2 = true ∧ size ≤ b.1 then a else fitAddr size (a + HDR_SIZE + b.1) r

/-- The block after a free block of size `s` has absorbed its successor,
if that one is free. -/
def mergeNext (s : Nat) : List (Nat × Bool) → Nat × List (Nat × Bool)
  | [] => (s, [])
  | b :: r => if b.2 = true then (s + HDR_SIZE + b.1, r) else (s, b :: r)

/-- What a run of the heap keeps true: the heap is a well-formed block list
and the outstanding pointers are exactly the payloads of its blocks in
use. -/
def HeapInv (s : HeapTrace) : Prop :=
  ∃ bs, HeapWF s.heap bs ∧ s.outstanding.Nodup ∧
    ∀ q, q ∈ s.outstanding ↔ q ∈ allocPtrs HEAP_START bs


/-! ## Virtual file system and ramfs (`fs/vfs.c`, `fs/ramfs.c`, `include/kernel/vfs.h`) -/

def VFS_NAME_LEN : Nat := 128
def VFS_PATH_LEN : Nat := 256
def VFS_FILE : Nat := 1
def VFS_DIR : Nat := 2
def VFS_CHARDEV : Nat := 3
def VFS_PIPE : Nat := 4
def RAMFS_MAX_CHILDREN : Nat := 64
def RAMFS_BLOCK_SIZE : Nat := 4096

def O_RDONLY : Nat := 0
def O_WRONLY : Nat := 1
def O_RDWR : Nat := 2
def O_CREAT : Nat := 0x40
def O_TRUNC : Nat := 0x200
def O_APPEND : Nat := 0x400
def SEEK_SET : Nat := 0
def SEEK_CUR : Nat := 1
def SEEK_END : Nat := 2
def S_IFDIR : Nat := 0x4000
def S_IFREG : Nat := 0x8000
def S_IXUSR : Nat := 0x0040
def S_IWUSR : Nat := 0x0080
def S_IRUSR : Nat := 0x0100

def ENOENT : Int := 2
def EIO : Int := 5
def EBADF : Int := 9
def ENOTDIR : Int := 20
def EISDIR : Int := 21
def EMFILE : Int := 24
def ENOSPC : Int := 28

/-- The two operation tables of the sources: `ramfs_ops` (every entry set)
and `tty_vnode_ops` (only `read` and `write`). -/
inductive vnode_ops_t
  | ramfs_ops
  | tty_vnode_ops
  deriving DecidableEq, Repr

/-- The struct `vnode_t` (`uid` and `gid` are never used); `ops` is `none`
for a `NULL` table, `mount_point` is `0` for `NULL`. -/
structure vnode_t where
  name : List Char
  type : Nat
  size : Nat
  inode : Nat
  permissions : Nat
  ops : Option vnode_ops_t
  data : Nat
  mount_point : Nat
  ref_count : Nat
  deriving DecidableEq, Repr

/-- The struct `ramfs_node_t` without its embedded `vnode`, which is kept in
`Fs.vnodes` at address `n + VNODE_OFFSET`.  `children` lists
`children[0 .. nchildren)`; `data` is the address of the byte buffer. -/
structure ramfs_node_t where
  name : List Char
  type : Nat
  data : Nat
  size : Nat
  capacity : Nat
  inode : Nat
  children : List Nat
  deriving DecidableEq, Repr

/-- The struct `file_t`. -/
structure file_t where
  offset : Int
  vnode : Nat
  flags : Nat
  ref : Int
  deriving DecidableEq, Repr

/-- The offset of the field `vnode` in `ramfs_node_t`, so that
`&n->vnode = n + VNODE_OFFSET`. -/
def VNODE_OFFSET : Nat := 408

/-- The value of `sizeof(ramfs_node_t)`. -/
def RAMFS_NODE_SIZE : Nat := 572

/-- The value of `sizeof(file_t)`. -/
def FILE_SIZE : Nat := 16

/-- The file-system state: the heap, the static `vfs_root`, the vnodes, the
ramfs nodes and the open files by address, the static `next_inode`, the
bytes written to the console and the characters waiting in the keyboard
buffer. -/
structure Fs where
  heap : Heap
  vfs_root : Nat
  vnodes : Nat → vnode_t
  nodes : Nat → ramfs_node_t
  files : Nat → file_t
  next_inode : Nat
  console : List Nat
  keyboard : List Nat

/-- A value of type `ssize_t`, `off_t` or `int` read from 32 bits. -/
def toInt32 (x : Nat) : Int :=
  if x % 2 ^ 32 < 2 ^ 31 then ((x % 2 ^ 32 : Nat) : Int) else ((x % 2 ^ 32 : Nat) : Int) - 2 ^ 32

/-- The cast `(uint32_t)x` of a signed value. -/
def toUInt32 (x : Int) : Nat := (x % 2 ^ 32).toNat

/-- Signed 32-bit addition as the machine does it. -/
def add32 (a b : Int) : Int := toInt32 (toUInt32 (a + b))

/-- The inner loop of `vfs_lookup`, `while (*path && *path != '/') part[i++]
= *path++`, followed by `if (*path == '/') path++`: the component read and
the rest of the path. -/
def take_part : List Char → List Char × List Char
  | [] => ([], [])
  | c :: cs => if c = '/' then ([], cs) else (c :: (take_part cs).1, (take_part cs).2)

/-- The function `ramfs_finddir`; the result is the address of the child's
vnode, `0` for `NULL`. -/
def ramfs_finddir (fs : Fs) (v : Nat) (name : List Char) : Nat :=
  let n := (fs.vnodes v).data
  if (fs.nodes n).type ≠ VFS_DIR then 0
  else
    match (fs.nodes n).children.find? (fun c => decide ((fs.nodes c).name = name)) with
    | some c => c + VNODE_OFFSET
    | none => 0

/-- Whether `ops` is not `NULL` and `ops->finddir` is set (likewise
`create`, `open`, `close`, `truncate`, `unlink`, `readdir`, `stat`: set in
`ramfs_ops` only). -/
def ops_is_ramfs : Option vnode_ops_t → Bool
  | some .ramfs_ops => true
  | _ => false

/-- Whether `ops` is not `NULL` and `ops->read` is set (likewise `write`). -/
def ops_has_rw : Option vnode_ops_t → Bool
  | some _ => true
  | none => false

/-- The outer loop of `vfs_lookup` and the mount-point step after it.
Every round consumes at least one character of `path`, so `fuel` larger
than the length of `path` is never used up. -/
def lookup_loop (fs : Fs) : Nat → Nat → List Char → Nat
  | 0, _, _ => 0
  | fuel + 1, node, path =>
    if path = [] then
      (if node ≠ 0 ∧ (fs.vnodes node).mount_point ≠ 0 then (fs.vnodes node).mount_point
       else node)
    else
      let part := (take_part path).1
      let rest := (take_part path).2
      if part = [] then lookup_loop fs fuel node rest
      else if part = ['.'] then lookup_loop fs fuel node rest
      else if part = ['.', '.'] then lookup_loop fs fuel node rest
      else
        let node1 :=
          if (fs.vnodes node).mount_point ≠ 0 then (fs.vnodes node).mount_point else node
        if ops_is_ramfs (fs.vnodes node1).ops = false then 0
        else
          let node2 := ramfs_finddir fs node1 part
          if node2 = 0 then 0 else lookup_loop fs fuel node2 rest

/-- The function `vfs_lookup`, for a path that is not `NULL`; the characters
of `path` are those before the terminating NUL. -/
def vfs_lookup (fs : Fs) (path : List Char) : Nat :=
  if fs.vfs_root = 0 then 0
  else
    let path1 := match path with
      | '/' :: r => r
      | p => p
    lookup_loop fs (path1.length + 1) fs.vfs_root path1

/-- The components of a path: the pieces between the `'/'` characters. -/
def splitSlash : List Char → List (List Char)
  | [] => [[]]
  | c :: cs =>
    if c = '/' then [] :: splitSlash cs
    else
      match splitSlash cs with
      | [] => [[c]]
      | h :: t => (c :: h) :: t

/-- A component that `vfs_lookup` acts on: not empty, not `.`, not `..`. -/
def realComp (c : List Char) : Bool :=
  decide (c ≠ [] ∧ c ≠ ['.'] ∧ c ≠ ['.', '.'])

/-- The components of a path that remain after the empty ones, `.` and `..`
are removed. -/
def comps (p : List Char) : List (List Char) := (splitSlash p).filter realComp

/-- Components joined with single `'/'` characters. -/
def joinSlash : List (List Char) → List Char
  | [] => []
  | [c] => c
  | c :: d :: r => c ++ '/' :: joinSlash (d :: r)

/-- The canonical form of a path, as the specification words it: the path
with its empty components, its `.` components and its `..` components
removed, absolute when the path was. -/
def canonicalize (p : List Char) : List Char :=
  match p with
  | '/' :: _ => '/' :: joinSlash (comps p)
  | _ => joinSlash (comps p)

/-- The walk of `vfs_lookup` along a list of components. -/
def walkComps (fs : Fs) (node : Nat) : List (List Char) → Nat
  | [] =>
    if node ≠ 0 ∧ (fs.vnodes node).mount_point ≠ 0 then (fs.vnodes node).mount_point else node
  | part :: rest =>
    let node1 :=
      if (fs.vnodes node).mount_point ≠ 0 then (fs.vnodes node).mount_point else node
    if ops_is_ramfs (fs.vnodes node1).ops = false then 0
    else
      let node2 := ramfs_finddir fs node1 part
      if node2 = 0 then 0 else walkComps fs node2 rest


/-- The assignment `*(vnode_t*)a = v`. -/
def setVnode (m : Nat → vnode_t) (a : Nat) (v : vnode_t) : Nat → vnode_t :=
  fun x => if x = a then v else m x

/-- The assignment `*(ramfs_node_t*)a = n` (all fields but `vnode`). -/
def setNode (m : Nat → ramfs_node_t) (a : Nat) (n : ramfs_node_t) : Nat → ramfs_node_t :=
  fun x => if x = a then n else m x

/-- The assignment `*(file_t*)a = f`. -/
def setFile (m : Nat → file_t) (a : Nat) (f : file_t) : Nat → file_t :=
  fun x => if x = a then f else m x

/-- The function `new_ramfs_node`; `name` is the characters before the
terminating NUL.  `kstrcpy(n->name, name)` and `kstrcpy(n->vnode.name, name)`
copy without a bound into `char name[VFS_NAME_LEN]`: a name of
`VFS_NAME_LEN` or more characters runs over the fields that follow the
buffer (`data`, `size`, `capacity` and `children` of the node are not
assigned again afterwards), and over the end of the block.  The record is
defined only for a name that fits, with its NUL, in the buffer; the result is
`none` for a longer name, and when `kmalloc` does not return. -/
def new_ramfs_node (fs : Fs) (name : List Char) (type : Nat) : Option (Fs × Nat) :=
  if VFS_NAME_LEN ≤ name.length then none
  else
  match kmalloc fs.heap RAMFS_NODE_SIZE with
  | none => none
  | some (h, n) =>
    let node : ramfs_node_t :=
      { name := name, type := type, data := 0, size := 0, capacity := 0,
        inode := fs.next_inode, children := [] }
    let vn : vnode_t :=
      { name := name, type := type, size := 0, inode := fs.next_inode,
        permissions :=
          if type = VFS_DIR then S_IFDIR ||| S_IRUSR ||| S_IWUSR ||| S_IXUSR
          else S_IFREG ||| S_IRUSR ||| S_IWUSR,
        ops := some vnode_ops_t.ramfs_ops, data := n, mount_point := 0, ref_count := 0 }
    some ({ fs with heap := h, nodes := setNode fs.nodes n node,
                    vnodes := setVnode fs.vnodes (n + VNODE_OFFSET) vn,
                    next_inode := (fs.next_inode + 1) % 2 ^ 32 }, n)

/-- The bytes `p[0 .. n)` of the memory `mem`. -/
def read_bytes (mem : Nat → Nat) (p n : Nat) : List Nat :=
  (List.range n).map (fun i => mem ((p + i) % 2 ^ 32))

/-- The loop `for (i = 0; i < n; i++) d[i] = buf[i]`, from a buffer given by
its content. -/
def write_bytes (mem : Nat → Nat) (dst n : Nat) (buf : Nat → Nat) : Nat → Nat :=
  (List.range n).foldl (fun m i => fun a => if a = (dst + i) % 2 ^ 32 then buf i else m a) mem

/-- The function `ramfs_read`: the value returned and the bytes copied to
`buf`. -/
def ramfs_read (fs : Fs) (v : Nat) (off : Int) (sz : Nat) : Int × List Nat :=
  let n := fs.nodes (fs.vnodes v).data
  if n.type ≠ VFS_FILE then (-EISDIR, [])
  else if n.size ≤ toUInt32 off then (0, [])
  else
    let avail := n.size - toUInt32 off
    let to_read := if sz < avail then sz else avail
    (toInt32 to_read, read_bytes fs.heap.mem ((n.data + toUInt32 off) % 2 ^ 32) to_read)

/-- The function `ramfs_write`; `buf i` is the `i`-th byte of the source
buffer.  `none` when `krealloc` does not return. -/
def ramfs_write (fs : Fs) (v : Nat) (off : Int) (sz : Nat) (buf : Nat → Nat) :
    Option (Fs × Int) :=
  let np := (fs.vnodes v).data
  let n := fs.nodes np
  if n.type ≠ VFS_FILE then some (fs, -EISDIR)
  else
    let needed := (toUInt32 off + sz) % 2 ^ 32
    let grown : Option (Heap × ramfs_node_t) :=
      if n.capacity < needed then
        let new_cap := (needed + RAMFS_BLOCK_SIZE) % 2 ^ 32
        match krealloc fs.heap n.data new_cap with
        | none => none
        | some (h, d) => some (h, { n with data := d, capacity := new_cap })
      else some (fs.heap, n)
    match grown with
    | none => none
    | some (h, n1) =>
      let mem1 := write_bytes h.mem ((n1.data + toUInt32 off) % 2 ^ 32) sz buf
      let n2 : ramfs_node_t := if n1.size < needed then { n1 with size := needed } else n1
      let vn : vnode_t := { fs.vnodes v with size := n2.size }
      some ({ fs with heap := { h with mem := mem1 },
                      nodes := setNode fs.nodes np n2,
                      vnodes := setVnode fs.vnodes v vn }, toInt32 sz)

/-- The function `ramfs_create`; `none` when `new_ramfs_node` has no defined
result (a name that does not fit its buffer, or `kmalloc` does not return). -/
def ramfs_create (fs : Fs) (v : Nat) (name : List Char) (type : Nat) : Option (Fs × Int) :=
  let pp := (fs.vnodes v).data
  if (fs.nodes pp).type ≠ VFS_DIR then some (fs, -ENOTDIR)
  else if RAMFS_MAX_CHILDREN ≤ (fs.nodes pp).children.length then some (fs, -ENOSPC)
  else
    match new_ramfs_node fs name type with
    | none => none
    | some (fs1, child) =>
      let parent := fs1.nodes pp
      let parent1 : ramfs_node_t := { parent with children := parent.children ++ [child] }
      some ({ fs1 with nodes := setNode fs1.nodes pp parent1 }, 0)

/-- The function `ramfs_truncate`. -/
def ramfs_truncate (fs : Fs) (v : Nat) (size : Nat) : Fs × Int :=
  let np := (fs.vnodes v).data
  let n := fs.nodes np
  let r : Heap × ramfs_node_t :=
    if size = 0 then (kfree fs.heap n.data, { n with data := 0, size := 0, capacity := 0 })
    else if size < n.size then (fs.heap, { n with size := size })
    else (fs.heap, n)
  let vn : vnode_t := { fs.vnodes v with size := r.2.size }
  ({ fs with heap := r.1, nodes := setNode fs.nodes np r.2,
             vnodes := setVnode fs.vnodes v vn }, 0)

/-- The function `ramfs_create_root`. -/
def ramfs_create_root (fs : Fs) : Option (Fs × Nat) :=
  match new_ramfs_node fs "/".toList VFS_DIR with
  | none => none
  | some (fs1, root) => some (fs1, root + VNODE_OFFSET)

/-- The function `ramfs_mkdir`. -/
def ramfs_mkdir (fs : Fs) (parent : Nat) (name : List Char) : Option Fs :=
  if ops_is_ramfs (fs.vnodes parent).ops then
    match ramfs_create fs parent name VFS_DIR with
    | none => none
    | some (fs1, _) => some fs1
  else some fs

/-- The function `vfs_init`. -/
def vfs_init (fs : Fs) : Fs := { fs with vfs_root := 0 }

/-- The function `vfs_mount`. -/
def vfs_mount (fs : Fs) (path : List Char) (fs_root : Nat) : Fs × Int :=
  if path = "/".toList then ({ fs with vfs_root := fs_root }, 0)
  else
    let node := vfs_lookup fs path
    if node = 0 then (fs, -ENOENT)
    else
      let vn : vnode_t := { fs.vnodes node with mount_point := fs_root }
      ({ fs with vnodes := setVnode fs.vnodes node vn }, 0)

/-- The index at which the loop `while (slash > path && *slash != '/')
slash--` of `file_open` stops, started at `i`. -/
def find_slash (path : List Char) : Nat → Nat
  | 0 => 0
  | i + 1 => if path.getD (i + 1) ' ' = '/' then i + 1 else find_slash path i

/-- The function `tty_vfs_write`: the bytes go to the console. -/
def tty_vfs_write (fs : Fs) (sz : Nat) (buf : Nat → Nat) : Fs × Int :=
  ({ fs with console := fs.console ++ (List.range sz).map buf }, toInt32 sz)

/-- The function `file_open`, for a path that is not empty.  The result is
the address of the new `file_t`, `0` for `NULL`; `none` when `kmalloc` does
not return. -/
def file_open (fs : Fs) (path : List Char) (flags : Nat) : Option (Fs × Nat) :=
  let found := vfs_lookup fs path
  let created : Option (Fs × Nat) :=
    if found ≠ 0 then some (fs, found)
    else if flags &&& O_CREAT = 0 then some (fs, 0)
    else
      let slash := find_slash path (path.length - 1)
      let plen := if slash = 0 then 1 else slash
      let parent := vfs_lookup fs (if 1 < plen then path.take plen else "/".toList)
      if parent = 0 ∨ ops_is_ramfs (fs.vnodes parent).ops = false then some (fs, 0)
      else
        let fname :=
          if path.getD slash ' ' = '/' ∧ slash = 0 then path.drop 1 else path.drop (slash + 1)
        match ramfs_create fs parent fname VFS_FILE with
        | none => none
        | some (fs1, r) =>
          if r < 0 then some (fs1, 0)
          else some (fs1, ramfs_finddir fs1 parent fname)
  match created with
  | none => none
  | some (fs1, node) =>
    if node = 0 then some (fs1, 0)
    else
      let fs2 :=
        if flags &&& O_TRUNC ≠ 0 ∧ ops_is_ramfs (fs1.vnodes node).ops then
          (ramfs_truncate fs1 node 0).1
        else fs1
      match kmalloc fs2.heap FILE_SIZE with
      | none => none
      | some (h, f) =>
        let vn := fs2.vnodes node
        let file : file_t :=
          { vnode := node, flags := flags,
            offset := if flags &&& O_APPEND ≠ 0 then toInt32 vn.size else 0,
            ref := 1 }
        let vn1 : vnode_t := { vn with ref_count := (vn.ref_count + 1) % 2 ^ 32 }
        some ({ fs2 with heap := h, files := setFile fs2.files f file,
                         vnodes := setVnode fs2.vnodes node vn1 }, f)

/-- The function `file_close`.  The `close` handler of a vnode has no effect
on the state: `ramfs_close` returns 0 and the tty has none. -/
def file_close (fs : Fs) (f : Nat) : Fs × Int :=
  if f = 0 then (fs, -EBADF)
  else
    let file := fs.files f
    let file1 : file_t := { file with ref := add32 file.ref (-1) }
    let files1 := setFile fs.files f file1
    if file1.ref ≤ 0 then
      let vn := fs.vnodes file1.vnode
      let vn1 : vnode_t := { vn with ref_count := (vn.ref_count + 2 ^ 32 - 1) % 2 ^ 32 }
      ({ fs with files := files1, vnodes := setVnode fs.vnodes file1.vnode vn1,
                 heap := kfree fs.heap f }, 0)
    else ({ fs with files := files1 }, 0)

/-- The loop of `tty_vfs_read`: take characters from the keyboard buffer
until `sz` have been read or a newline or carriage return has; `none` when
the buffer runs out first (the reader then waits for the keyboard). -/
def tty_read_loop : Nat → List Nat → List Nat → Option (List Nat × List Nat)
  | 0, kb, acc => some (kb, acc)
  | _ + 1, [], _ => none
  | k + 1, c :: kb, acc =>
    if c = 10 ∨ c = 13 then some (kb, acc ++ [c]) else tty_read_loop k kb (acc ++ [c])

/-- The function `file_read`: the state, the value returned and the bytes
copied to `buf`; `none` when the console has to wait for the keyboard. -/
def file_read (fs : Fs) (f : Nat) (size : Nat) : Option (Fs × Int × List Nat) :=
  if f = 0 ∨ (fs.files f).vnode = 0 then some (fs, -EBADF, [])
  else
    let file := fs.files f
    match (fs.vnodes file.vnode).ops with
    | none => some (fs, - EIO, [])
    | some ops =>
      let r : Option (Fs × Int × List Nat) :=
        match ops with
        | .ramfs_ops =>
          some (fs, (ramfs_read fs file.vnode file.offset size).1,
            (ramfs_read fs file.vnode file.offset size).2)
        | .tty_vnode_ops =>
          match tty_read_loop size fs.keyboard [] with
          | none => none
          | some (kb, bytes) => some ({ fs with keyboard := kb }, toInt32 bytes.length, bytes)
      match r with
      | none => none
      | some (fs1, n, bytes) =>
        if 0 < n then
          let file1 : file_t := { fs1.files f with offset := add32 (fs1.files f).offset n }
          some ({ fs1 with files := setFile fs1.files f file1 }, n, bytes)
        else some (fs1, n, bytes)

/-- The function `file_write`; `none` when `krealloc` does not return. -/
def file_write (fs : Fs) (f : Nat) (size : Nat) (buf : Nat → Nat) : Option (Fs × Int) :=
  if f = 0 ∨ (fs.files f).vnode = 0 then some (fs, -EBADF)
  else
    let file := fs.files f
    match (fs.vnodes file.vnode).ops with
    | none => some (fs, - EIO)
    | some ops =>
      let r : Option (Fs × Int) :=
        match ops with
        | .ramfs_ops => ramfs_write fs file.vnode file.offset size buf
        | .tty_vnode_ops => some (tty_vfs_write fs size buf)
      match r with
      | none => none
      | some (fs1, n) =>
        if 0 < n then
          let file1 : file_t := { fs1.files f with offset := add32 (fs1.files f).offset n }
          some ({ fs1 with files := setFile fs1.files f file1 }, n)
        else some (fs1, n)

/-- The function `file_seek`. -/
def file_seek (fs : Fs) (f : Nat) (offset : Int) (whence : Nat) : Fs × Int :=
  if f = 0 then (fs, -EBADF)
  else
    let file := fs.files f
    let off1 : Int :=
      if whence = SEEK_SET then offset
      else if whence = SEEK_CUR then add32 file.offset offset
      else if whence = SEEK_END then add32 (toInt32 (fs.vnodes file.vnode).size) offset
      else file.offset
    let file1 : file_t := { file with offset := off1 }
    ({ fs with files := setFile fs.files f file1 }, off1)


/-- A file system before `vfs_init`: a freshly initialised heap and nothing
else. -/
def emptyFs : Fs :=
  { heap := heap_init (fun _ => ⟨0, 0, 0, 0, 0⟩) (fun _ => 0),
    vfs_root := 0,
    vnodes := fun _ => ⟨[], 0, 0, 0, 0, none, 0, 0, 0⟩,
    nodes := fun _ => ⟨[], 0, 0, 0, 0, 0, []⟩,
    files := fun _ => ⟨0, 0, 0, 0⟩,
    next_inode := 1,
    console := [],
    keyboard := [] }

/-- The start of `build_initfs`: `vfs_init`, a ramfs root mounted at `/`,
and the directory `tmp`. -/
def tmpFs : Option Fs :=
  match ramfs_create_root (vfs_init emptyFs) with
  | none => none
  | some (fs1, root) => ramfs_mkdir (vfs_mount fs1 "/".toList root).1 root "tmp".toList

/-- The state after `file_open("/tmp/a", O_CREAT | O_RDWR)` on `tmpFs`, and
the `file_t*` returned. -/
def tmpFileOpen : Option (Fs × Nat) :=
  match tmpFs with
  | none => none
  | some fs => file_open fs "/tmp/a".toList (O_CREAT ||| O_RDWR)

/-- The content of a source buffer holding the bytes `d`. -/
def bufOf (d : List Nat) : Nat → Nat := fun i => d.getD i 0


/-- The file system of `tmpFileOpen` and its open file. -/
def tmpOpenFs : Fs := (tmpFileOpen.getD (emptyFs, 0)).1

/-- The `file_t*` that `tmpFileOpen` returns. -/
def tmpOpenFile : Nat := (tmpFileOpen.getD (emptyFs, 0)).2

/-- The bytes of `"hello"`. -/
def helloBytes : List Nat := [104, 101, 108, 108, 111]

/-- The bytes of `"world"`. -/
def worldBytes : List Nat := [119, 111, 114, 108, 100]

/-- On the file of `tmpFileOpen`: write `"hello"`, seek to offset `-5`,
write `"world"`, seek to `-5` again and read 5 bytes.  The result is the
value returned by the second `file_write`, the value returned by
`file_read`, and the bytes read. -/
def negativeOffsetRun : Option (Int × Int × List Nat) :=
  match file_write tmpOpenFs tmpOpenFile 5 (bufOf helloBytes) with
  | none => none
  | some (fs1, _) =>
    match file_write (file_seek fs1 tmpOpenFile (-5) SEEK_SET).1 tmpOpenFile 5
        (bufOf worldBytes) with
    | none => none
    | some (fs2, w) =>
      match file_read (file_seek fs2 tmpOpenFile (-5) SEEK_SET).1 tmpOpenFile 5 with
      | none => none
      | some (_, r, bytes) => some (w, r, bytes)

instance Seg.decidable (m : Nat → block_header_t) (e : Nat) :
    (bs : List (Nat × Bool)) → (prev a : Nat) → Decidable (Seg m e prev a bs)
  | [], _, _ => isTrue trivial
  | b :: r, prev, a =>
    match decEq (m a) { magic := HEAP_MAGIC, size := b.1, free := flag b.2,
                        next := nxt e (a + HDR_SIZE + b.1), prev := prev },
          Seg.decidable m e r a (a + HDR_SIZE + b.1) with
    | isTrue h1, isTrue h2 => isTrue ⟨h1, h2⟩
    | isFalse h1, _ => isFalse (fun h => h1 h.1)
    | _, isFalse h2 => isFalse (fun h => h2 h.2)


/-- The path `"//tmp/./a/"`. -/
def messyPath : List Char := ['/', '/', 't', 'm', 'p', '/', '.', '/', 'a', '/']


/-! ## File descriptors (`syscall/syscall.c`) -/

/-- The kernel state the descriptor system calls act on: the process table
and the file system. -/
structure Sys where
  kernel : Kernel
  fs : Fs

/-- The record `*current_proc`. -/
def Sys.cur (s : Sys) : process_t := s.kernel.proc_table s.kernel.current_proc

/-- The assignment `current_proc->fds[i] = f`. -/
def set_fd (s : Sys) (i f : Nat) : Sys :=
  let p1 : process_t := { s.cur with fds := s.cur.fds.set i f }
  let t1 := setProc s.kernel.proc_table s.kernel.current_proc p1
  { s with kernel := { s.kernel with proc_table := t1 } }

/-- The function `fd_get`. -/
def fd_get (s : Sys) (fd : Int) : Nat :=
  if fd < 0 ∨ fd ≥ MAX_FDS then 0 else s.cur.fds.getD fd.toNat 0

/-- The function `fd_alloc`. -/
def fd_alloc (s : Sys) (f : Nat) : Sys × Int :=
  match (List.range MAX_FDS).find? (fun i => decide (s.cur.fds.getD i 0 = 0)) with
  | some i => (set_fd s i f, (i : Int))
  | none => (s, -EMFILE)

/-- The function `sys_open`.  The result is `none` when the call has no
defined result: `kmalloc` does not return, the path does not fit in
`full_path`, or the path is relative and `cwd` does not end in `/` (the code
then overwrites the terminator of `full_path` and measures the string
through the uninitialised rest of the buffer). -/
def sys_open (s : Sys) (path : List Char) (flags : Nat) : Option (Sys × Int) :=
  let full : Option (List Char) :=
    if path.head? = some '/' then some path
    else if s.cur.cwd.getLast? = some '/' then some (s.cur.cwd ++ path)
    else none
  match full with
  | none => none
  | some full_path =>
    if VFS_PATH_LEN ≤ full_path.length then none
    else
      match file_open s.fs full_path flags with
      | none => none
      | some (fs1, f) =>
        if f = 0 then some ({ s with fs := fs1 }, -ENOENT)
        else
          let r := fd_alloc { s with fs := fs1 } f
          if r.2 < 0 then some ({ r.1 with fs := (file_close r.1.fs f).1 }, r.2)
          else some r

/-- The function `sys_close`. -/
def sys_close (s : Sys) (fd : Int) : Sys × Int :=
  let f := fd_get s fd
  if f = 0 then (s, -EBADF)
  else
    let s1 := set_fd s fd.toNat 0
    let r := file_close s1.fs f
    ({ s1 with fs := r.1 }, r.2)

/-- The function `sys_dup2`. -/
def sys_dup2 (s : Sys) (oldfd newfd : Int) : Sys × Int :=
  let f := fd_get s oldfd
  if f = 0 then (s, -EBADF)
  else if newfd < 0 ∨ newfd ≥ MAX_FDS then (s, -EBADF)
  else
    let old := s.cur.fds.getD newfd.toNat 0
    let fs1 := if old ≠ 0 then (file_close s.fs old).1 else s.fs
    let s1 := set_fd { s with fs := fs1 } newfd.toNat f
    let file := s1.fs.files f
    let files1 := setFile s1.fs.files f { file with ref := add32 file.ref 1 }
    ({ s1 with fs := { s1.fs with files := files1 } }, newfd)

/-- The call `proc_fork()` on the combined state; `clone_dir` is the
directory `vmm_clone` returns. -/
def Sys.fork (s : Sys) (clone_dir : Nat) : Sys :=
  { s with kernel := (proc_fork s.kernel clone_dir).1 }

/-- The number of descriptor slots, over all records in use, that hold the
`file_t*` `f`. -/
def slotCount (s : Sys) (f : Nat) : Nat :=
  ((List.range MAX_PROCS).map fun i =>
    if (s.kernel.proc_table i).state = PROC_UNUSED then 0
    else (s.kernel.proc_table i).fds.count f).sum

/-- What the kernel records about the open file `f`: the number of slots that
hold it, `f->ref`, `f->vnode->ref_count`, and the `free` field of the heap
block of `f`. -/
def fdReport (s : Sys) (f : Nat) : Nat × Int × Nat × Nat :=
  (slotCount s f, (s.fs.files f).ref, (s.fs.vnodes (s.fs.files f).vnode).ref_count,
   (s.fs.heap.hdr (f - HDR_SIZE)).free)

/-- The state after `proc_init`, the start of `build_initfs`, and
`sys_open("/tmp/a", O_CREAT | O_RDWR)` in the idle process, with the
descriptor returned. -/
def openScenario : Option (Sys × Int) :=
  match tmpFs with
  | none => none
  | some fs => sys_open { kernel := proc_init 0x100000, fs := fs } "/tmp/a".toList
      (O_CREAT ||| O_RDWR)


/-! ### Copy-on-write cloning: entries, free frames, loop invariant -/

/-- What the inner loop of `vmm_clone` does to a source entry it visits: a
present entry loses `PAGE_WRITE` and gains `PAGE_COW`, an entry that is not
present is skipped. -/
def cow (e : Nat) : Nat :=
  if e &&& PAGE_PRESENT = 0 then e else (e &&& (0xFFFFFFFF ^^^ PAGE_WRITE)) ||| PAGE_COW

/-- The number of frames below `total_pages` whose bit is clear: the frames
`pmm_alloc` can still hand out. -/
def freeFrames (s : Pmm) : Nat :=
  ((List.range s.total_pages).filter (fun i => !test_bit s.bitmap i)).length

/-- The state `w` of the outer loop of `vmm_clone(src)` before iteration `n`,
against the state `v0` before the call, `dst` being the new directory.  The
frames marked used in `v0` hold the old tables, whose entries have at most
been turned copy-on-write; the tables allocated since are fresh; for every
present directory entry `i < n` the new table holds the copy-on-write
entries of the source table and zero elsewhere; the other user entries of
`dst` are zero, its kernel entries are those `vmm_create_directory` wrote,
and at most `n + 1` frames have been allocated. -/
structure CloneInv (v0 : Vmm) (src dst n : Nat) (w : Vmm) : Prop where
  total : w.pmm.total_pages = v0.pmm.total_pages
  mono : ∀ x, test_bit v0.pmm.bitmap x = true → test_bit w.pmm.bitmap x = true
  dst_new : test_bit v0.pmm.bitmap (dst / PAGE_SIZE) = false
  dst_used : test_bit w.pmm.bitmap (dst / PAGE_SIZE) = true
  free : 768 ≤ freeFrames w.pmm + n
  old : ∀ p j, test_bit v0.pmm.bitmap (p / PAGE_SIZE) = true →
    w.tables p j = v0.tables p j ∨ w.tables p j = cow (v0.tables p j)
  done : ∀ i, i < n → v0.tables src i &&& PAGE_PRESENT ≠ 0 →
    w.tables dst i &&& PAGE_PRESENT ≠ 0 ∧
    test_bit v0.pmm.bitmap ((w.tables dst i &&& ADDR_MASK) / PAGE_SIZE) = false ∧
    test_bit w.pmm.bitmap ((w.tables dst i &&& ADDR_MASK) / PAGE_SIZE) = true ∧
    w.tables dst i &&& ADDR_MASK ≠ dst ∧
    ∀ j, j < 1024 →
      w.tables (w.tables dst i &&& ADDR_MASK) j =
        (if v0.tables (v0.tables src i &&& ADDR_MASK) j &&& PAGE_PRESENT = 0 then 0
         else cow (v0.tables (v0.tables src i &&& ADDR_MASK) j)) ∧
      w.tables (v0.tables src i &&& ADDR_MASK) j =
        cow (v0.tables (v0.tables src i &&& ADDR_MASK) j)
  rest : ∀ i, i < 768 → (n ≤ i ∨ v0.tables src i &&& PAGE_PRESENT = 0) → w.tables dst i = 0
  dstk : ∀ j, 768 ≤ j → w.tables dst j = (vmm_create_directory v0).1.tables dst j
  spent : freeFrames v0.pmm ≤ freeFrames w.pmm + n + 1

/-- An address space with one user page: the directory at `0x1000` has entry 0
pointing to the table at `0x2000`, whose entry 5 maps frame `0x5000`
present, writable, user.  Frames 0 to 7 of 1024 are marked used. -/
def cloneDemo : Vmm :=
  { pmm := { bitmap := fun w => if w = 0 then 0xFF else 0, total_pages := 1024, used_pages := 8 },
    tables := ⟨fun p i =>
      if p = 0x1000 ∧ i = 0 then 0x2007 else if p = 0x2000 ∧ i = 5 then 0x5007 else 0⟩,
    kernel_dir := 0x3000,
    current_dir := 0x1000 }

/-- What a run of the allocator keeps true; `sp` is `start_page`. -/
structure PmmInv (s : PmmTrace) (sp : Nat) : Prop where
  total_le : s.pmm.total_pages ≤ 2 ^ 20
  sp_le : sp ≤ 2 ^ 20
  ret_form : ∀ a ∈ s.returned, ∃ i, i < s.pmm.total_pages ∧ a = i * PAGE_SIZE
  sub : ∀ a ∈ s.outstanding, a ∈ s.returned
  nodup : s.outstanding.Nodup
  bits : ∀ a ∈ s.returned, (test_bit s.pmm.bitmap (a / PAGE_SIZE) = true ↔ a ∈ s.outstanding)
  used : s.pmm.used_pages = sp + s.outstanding.length


/-- The calls `A = kmalloc(100); B = kmalloc(100); C = kmalloc(100);
kfree(B); kfree(A)` on a fresh heap: `A`, `B`, `C` are the pointers
`HEAP_START + 20`, `HEAP_START + 144`, `HEAP_START + 268`. -/
def freeBthenA : List HeapOp :=
  [HeapOp.alloc 100, HeapOp.alloc 100, HeapOp.alloc 100,
   HeapOp.free 16777360, HeapOp.free 16777236]

/-- The header at `HEAP_START` and the header of `C` after a run on a heap
whose memory was zero before `heap_init`, with the pointers still
outstanding. -/
def headAndC (ops : List HeapOp) : Option (block_header_t × block_header_t × List Nat) :=
  (heapRun (fun _ => ⟨0, 0, 0, 0, 0⟩) (fun _ => 0) ops).map
    fun s => (s.heap.hdr HEAP_START, s.heap.hdr 16777464, s.outstanding)


/-- One round of a short-lived kernel thread: the idle process creates it,
the timer switches to it, it exits, and the idle process reaps it. -/
def recycleOps : List ProcOp :=
  [ProcOp.create "worker".toList, ProcOp.tick, ProcOp.exit 0, ProcOp.wait (-1)]

/-- Ninety-nine such rounds, then one more thread, a timer tick that
switches to it, and a `proc_fork` by that thread in its first time slice
(its `esp` is still the one `proc_create_kernel` stored). -/
def pidClashOps : List ProcOp :=
  (List.replicate 99 recycleOps).flatten ++
    [ProcOp.create "worker".toList, ProcOp.tick, ProcOp.fork 0]

/-- The value `proc_create_kernel` stores in `p->esp`, where `stack_top` is
`&p->kernel_stack[8192]`: `stack_top -= 4` for the entry address and
`stack_top -= 16` for the four registers `context_switch` pops. -/
def created_esp (stack_top : Nat) : Nat :=
  ((stack_top + 2 ^ 32 - 4) % 2 ^ 32 + 2 ^ 32 - 16) % 2 ^ 32

/-- The number of bytes `proc_fork` copies to the child's kernel stack:
`stack_offset = current_proc->kernel_stack_top - current_proc->esp`. -/
def fork_stack_offset (kernel_stack_top esp : Nat) : Nat :=
  (kernel_stack_top + 2 ^ 32 - esp) % 2 ^ 32

/-- A process table in which only slots 0 and 1 can be in use: the idle
record (pid 0, ppid 0) in state `s0`, slot 1 in state `s1` (a child of the
idle process running in the kernel directory when it is in use), every
other slot `PROC_UNUSED`; `c` is the current slot and `n` the next pid
`proc_create_kernel` will hand out. -/
structure TwoSlots (k : Kernel) (c : Nat) (s0 s1 : proc_state_t) (n : Int) : Prop where
  cur : k.current_proc = c
  st0 : (k.proc_table 0).state = s0
  pid0 : (k.proc_table 0).pid = 0
  st1 : (k.proc_table 1).state = s1
  ppid1 : s1 ≠ PROC_UNUSED → (k.proc_table 1).ppid = 0
  dir1 : s1 ≠ PROC_UNUSED → (k.proc_table 1).page_dir = k.kernel_dir
  rest : ∀ i, 2 ≤ i → (k.proc_table i).state = PROC_UNUSED
  npk : k.next_pid_kernel = n
  npf : k.next_pid_fork = 100


/-! ### Address spaces: the kernel part of every directory -/

/-- The first virtual address of kernel space (`KERNEL_VIRT_BASE`): directory
index 768. -/
def KERNEL_VIRT_BASE : Nat := 0xC0000000

/-- The function `vmm_init`: the kernel directory is allocated and cleared,
the first 4 MiB are identity-mapped page by page, and the directory is
switched to. -/
def vmm_init (v : Vmm) : Vmm :=
  let r := pmm_alloc v.pmm
  let kd := allocPtr r.2
  let v1 : Vmm := { v with pmm := r.1, kernel_dir := kd, tables := memset32_zero v.tables kd }
  let v2 := (List.range 1024).foldl
    (fun w i => vmm_map w kd (i * PAGE_SIZE) (i * PAGE_SIZE) (PAGE_PRESENT ||| PAGE_WRITE)) v1
  vmm_switch v2 kd

/-- A call into `vmm.c` after `vmm_init`.  Directories are named by the order
of their creation: `0` is the kernel directory, `n` the `n`-th directory
returned by `vmm_create_directory` or `vmm_clone`. -/
inductive VmmOp where
  | create
  | clone (src : Nat)
  | map (pd virt phys flags : Nat)
deriving DecidableEq, Repr

/-- The state of `vmm.c` with the directories created so far, oldest first. -/
structure AddrSpaces where
  vmm : Vmm
  dirs : List Nat

/-- One call. -/
def AddrSpaces.step (s : AddrSpaces) : VmmOp → AddrSpaces
  | .create =>
    let r := vmm_create_directory s.vmm
    { vmm := r.1, dirs := s.dirs ++ [r.2] }
  | .clone src =>
    let r := vmm_clone s.vmm (s.dirs.getD src 0)
    { vmm := r.1, dirs := s.dirs ++ [r.2] }
  | .map pd virt phys flags =>
    { s with vmm := vmm_map s.vmm (s.dirs.getD pd 0) virt phys flags }

/-- The state after `vmm_init`: the kernel directory is the only one. -/
def vmmBoot (v : Vmm) : AddrSpaces :=
  { vmm := vmm_init v, dirs := [(vmm_init v).kernel_dir] }

/-- The state after `vmm_init` and the calls `ops`. -/
def vmmRun (v : Vmm) (ops : List VmmOp) : AddrSpaces :=
  ops.foldl AddrSpaces.step (vmmBoot v)

/-- The most frames a call can take from the allocator: a directory, a page
table, or a directory and 768 page tables. -/
def vmmCost : VmmOp → Nat
  | .create => 1
  | .clone _ => 769
  | .map _ _ _ _ => 1

/-- Every call names a directory that exists when it is made (`n` directories
exist before the first call) and a 32-bit address, and a `vmm_map` of a
kernel address (at or above `KERNEL_VIRT_BASE`) is made either while the
kernel directory is the only directory, or at a directory index that such an
earlier call has mapped (the indices `mapped`): no call installs a page
table in a kernel entry once a second directory exists. -/
def sharedOps (n : Nat) (mapped : List Nat) : List VmmOp → Bool
  | [] => true
  | .create :: ops => sharedOps (n + 1) mapped ops
  | .clone src :: ops => decide (src < n) && sharedOps (n + 1) mapped ops
  | .map pd virt _ _ :: ops =>
    decide (pd < n) && decide (virt < 2 ^ 32) &&
      (if virt < KERNEL_VIRT_BASE then sharedOps n mapped ops
       else if n = 1 then sharedOps n ((virt >>> 22) :: mapped) ops
       else decide ((virt >>> 22) ∈ mapped) && sharedOps n mapped ops)

/-- The directory indices of the kernel addresses mapped while the kernel
directory was the only directory, added to `mapped`. -/
def kernelMapped (n : Nat) (mapped : List Nat) : List VmmOp → List Nat
  | [] => mapped
  | .create :: ops => kernelMapped (n + 1) mapped ops
  | .clone _ :: ops => kernelMapped (n + 1) mapped ops
  | .map _ virt _ _ :: ops =>
    if virt < KERNEL_VIRT_BASE then kernelMapped n mapped ops
    else if n = 1 then kernelMapped n ((virt >>> 22) :: mapped) ops
    else kernelMapped n mapped ops

/-- The invariant of the directories `dirs` in the state `v`: each is a frame
marked used; a present user entry of a directory points to a frame marked
used that is not a directory; the kernel entries of every directory are
zero. -/
structure VmmInv (v : Vmm) (dirs : List Nat) : Prop where
  total : v.pmm.total_pages ≤ 2 ^ 20
  kd : v.kernel_dir ∈ dirs
  nodup : dirs.Nodup
  used : ∀ d, d ∈ dirs → test_bit v.pmm.bitmap (d / PAGE_SIZE) = true
  tabs : ∀ d, d ∈ dirs → ∀ i, i < 768 → v.tables d i &&& PAGE_PRESENT ≠ 0 →
    test_bit v.pmm.bitmap ((v.tables d i &&& ADDR_MASK) / PAGE_SIZE) = true ∧
    (v.tables d i &&& ADDR_MASK) ∉ dirs
  kern : ∀ d, d ∈ dirs → ∀ i, 768 ≤ i → i < 1024 → v.tables d i = 0

/-- The invariant of the directories `dirs` in the state `v`: each is a frame
marked used; a present entry of a directory points to a frame marked used
that is not a directory; the kernel entries (768..1023) of every directory
are those of the kernel directory. -/
structure SharedInv (v : Vmm) (dirs : List Nat) : Prop where
  total : v.pmm.total_pages ≤ 2 ^ 20
  kd : v.kernel_dir ∈ dirs
  nodup : dirs.Nodup
  used : ∀ d, d ∈ dirs → test_bit v.pmm.bitmap (d / PAGE_SIZE) = true
  tabs : ∀ d, d ∈ dirs → ∀ i, i < 1024 → v.tables d i &&& PAGE_PRESENT ≠ 0 →
    test_bit v.pmm.bitmap ((v.tables d i &&& ADDR_MASK) / PAGE_SIZE) = true ∧
    (v.tables d i &&& ADDR_MASK) ∉ dirs
  kern : ∀ d, d ∈ dirs → ∀ i, 768 ≤ i → i < 1024 →
    v.tables d i = v.tables v.kernel_dir i

/-- A machine with 1024 frames, the first eight in use, before `vmm_init`. -/
def bootVmm : Vmm :=
  { pmm := { bitmap := fun w => if w = 0 then 0xFF else 0, total_pages := 1024, used_pages := 8 },
    tables := ⟨fun _ _ => 0⟩, kernel_dir := 0, current_dir := 0 }


/-! ### Sleeping and the state table -/

/-- The number of ticks the specification asks `proc_sleep(ms)` to wait:
`ceil(ms / 10)`, the tick period being 10 ms. -/
def ceilTicks (ms : Nat) : Nat := (ms + 9) / 10

/-- The transitions of the state table of the specification. -/
def allowedTransition : proc_state_t → proc_state_t → Bool
  | PROC_UNUSED, PROC_READY => true
  | PROC_READY, PROC_RUNNING => true
  | PROC_RUNNING, PROC_READY => true
  | PROC_RUNNING, PROC_BLOCKED => true
  | PROC_RUNNING, PROC_SLEEPING => true
  | PROC_RUNNING, PROC_ZOMBIE => true
  | PROC_BLOCKED, PROC_READY => true
  | PROC_SLEEPING, PROC_READY => true
  | PROC_ZOMBIE, PROC_UNUSED => true
  | _, _ => false

/-- The state `k` with the tick counter at `n`. -/
def setTicks (k : Kernel) (n : Nat) : Kernel := { k with ticks := n }

/-- The state in which `proc_sleep(ms)` calls `proc_yield`: the caller's
`sleep_until` and `state` have been assigned. -/
def asleep (k : Kernel) (ms : Nat) : Kernel :=
  let c := k.current_proc
  let p := k.proc_table c
  let p1 : process_t :=
    { p with sleep_until := (k.ticks + (ms / 10 + 1)) % 2 ^ 32, state := PROC_SLEEPING }
  { k with proc_table := setProc k.proc_table c p1 }

/-! ### Paths, the current directory and the initial file system -/

/-- The assignment of the text `c` to the buffer `current_proc->cwd`. -/
def set_cwd (s : Sys) (c : List Char) : Sys :=
  let p1 : process_t := { s.cur with cwd := c }
  let t1 := setProc s.kernel.proc_table s.kernel.current_proc p1
  { s with kernel := { s.kernel with proc_table := t1 } }

/-- The function `sys_chdir`.  The result is `none` when the call has no
defined result in this model: the new text does not fit in the 256 bytes of
`cwd`, or the path is relative and `cwd` does not end in `/` (the code then
overwrites the terminator of `cwd` and measures the string through whatever
an earlier, longer text has left in the rest of the buffer). -/
def sys_chdir (s : Sys) (path : List Char) : Option (Sys × Int) :=
  let node := vfs_lookup s.fs path
  if node = 0 ∨ (s.fs.vnodes node).type ≠ VFS_DIR then some (s, -ENOENT)
  else
    let cwd1 : Option (List Char) :=
      if path.head? = some '/' then some path
      else if s.cur.cwd.getLast? = some '/' then some (s.cur.cwd ++ path)
      else none
    match cwd1 with
    | none => none
    | some c => if 256 ≤ c.length then none else some (set_cwd s c, 0)

/-- The file system of `tmpFs` with the directory `/tmp/sub` added. -/
def subFs : Option Fs :=
  match tmpFs with
  | none => none
  | some fs => ramfs_mkdir fs (vfs_lookup fs "/tmp".toList) "sub".toList

/-- In the idle process on `subFs`: `sys_chdir("/tmp")`, then
`sys_chdir("sub")`.  The result is the value returned by the first call, the
`cwd` after it, whether `"/tmp/sub"` resolves to a directory, the vnode that
`vfs_lookup("sub")` returns, and the value returned by the second call. -/
def chdirRun : Option (Int × List Char × Bool × Nat × Int) :=
  match subFs with
  | none => none
  | some fs =>
    match sys_chdir { kernel := proc_init 0x100000, fs := fs } "/tmp".toList with
    | none => none
    | some (s1, r1) =>
      match sys_chdir s1 "sub".toList with
      | none => none
      | some (_, r2) =>
        some (r1, s1.cur.cwd,
          decide (vfs_lookup s1.fs "/tmp/sub".toList ≠ 0 ∧
            (s1.fs.vnodes (vfs_lookup s1.fs "/tmp/sub".toList)).type = VFS_DIR),
          vfs_lookup s1.fs "sub".toList, r2)

/-- On `tmpFs`: `file_open("ab", O_CREAT | O_RDWR)`.  The result is whether a
file was returned, the name of its vnode, the names of the children of the
root directory afterwards, whether `vfs_lookup("ab")` returns the vnode of
the file afterwards, and whether `vfs_lookup("/b")` does. -/
def createRelativeRun : Option (Bool × List Char × List (List Char) × Bool × Bool) :=
  match tmpFs with
  | none => none
  | some fs =>
    match file_open fs "ab".toList (O_CREAT ||| O_RDWR) with
    | none => none
    | some (fs1, f) =>
      some (decide (f ≠ 0), (fs1.vnodes (fs1.files f).vnode).name,
        (fs1.nodes (fs1.vnodes fs1.vfs_root).data).children.map (fun c => (fs1.nodes c).name),
        decide (vfs_lookup fs1 "ab".toList = (fs1.files f).vnode),
        decide (vfs_lookup fs1 "/b".toList = (fs1.files f).vnode))

/-- The address of the static `tty_vnode` of `tty.c` (in the kernel image,
below the heap); the value of `tty_get_vnode()`. -/
def tty_get_vnode : Nat := 0x00200000

/-- The static initialiser of `tty_vnode`. -/
def tty_vnode : vnode_t :=
  { name := "tty".toList, type := VFS_CHARDEV, size := 0, inode := 0, permissions := 0,
    ops := some vnode_ops_t.tty_vnode_ops, data := 0, mount_point := 0, ref_count := 0 }

/-- The state at the start of `build_initfs`: the heap after `heap_init`, and
the statics of `tty.c`. -/
def bootFs : Fs := { emptyFs with vnodes := setVnode emptyFs.vnodes tty_get_vnode tty_vnode }

/-- The function `ramfs_write_file`; `data i` is the `i`-th byte at `data`.
`none` when `kmalloc` or `krealloc` does not return, or when `ops->create`
is `NULL` and is called. -/
def ramfs_write_file (fs : Fs) (parent : Nat) (name : List Char) (data : Nat → Nat)
    (size : Nat) : Option Fs :=
  match (fs.vnodes parent).ops with
  | none => some fs
  | some .tty_vnode_ops => none
  | some .ramfs_ops =>
    match ramfs_create fs parent name VFS_FILE with
    | none => none
    | some (fs1, _) =>
      let f := ramfs_finddir fs1 parent name
      if f ≠ 0 ∧ ops_has_rw (fs1.vnodes f).ops then
        match (fs1.vnodes f).ops with
        | some .ramfs_ops =>
          match ramfs_write fs1 f 0 size data with
          | none => none
          | some (fs2, _) => some fs2
        | some .tty_vnode_ops => some (tty_vfs_write fs1 size data).1
        | none => some fs1
      else some fs1

/-- The bytes of a string literal, followed by zeros. -/
def literal (s : String) : Nat → Nat := bufOf (s.toList.map Char.toNat)

/-- The function `build_initfs`.  `ramfs_write_file` is given more bytes than
the literals `motd` and `readme` hold (100 and 300); the bytes it reads past
their terminators are taken to be zero. -/
def build_initfs (fs0 : Fs) : Option Fs := do
  let fs1 := vfs_init fs0
  let (fs2, root) ← ramfs_create_root fs1
  let fs3 := (vfs_mount fs2 "/".toList root).1
  let fs4 ← ramfs_mkdir fs3 root "bin".toList
  let fs5 ← ramfs_mkdir fs4 root "etc".toList
  let fs6 ← ramfs_mkdir fs5 root "home".toList
  let fs7 ← ramfs_mkdir fs6 root "tmp".toList
  let fs8 ← ramfs_mkdir fs7 root "dev".toList
  let fs9 ← ramfs_mkdir fs8 root "proc".toList
  let home := ramfs_finddir fs9 root "home".toList
  let fs10 ← if home ≠ 0 then ramfs_mkdir fs9 home "user".toList else some fs9
  let etc := ramfs_finddir fs10 root "etc".toList
  let fs11 ← if etc ≠ 0 then
      (ramfs_write_file fs10 etc "motd".toList
        (literal ("Welcome to MyOS!\n" ++ "A minimal Unix-like OS written in C.\n" ++
          "Type 'help' for available commands.\n")) 100).bind
        (fun fs => ramfs_write_file fs etc "hostname".toList (literal "myos\n") 6)
    else some fs10
  let fs12 ← if etc ≠ 0 then
      ramfs_write_file fs11 etc "passwd".toList
        (literal "root:x:0:0:root:/home/root:/bin/sh\n") 36
    else some fs11
  let fs13 ← ramfs_write_file fs12 root "README".toList
    (literal ("MyOS - Minimal Unix-like Operating System\n" ++
      "==========================================\n" ++
      "Built from scratch in C.\n" ++
      "Features:\n" ++
      "  - x86 protected mode\n" ++
      "  - Paging / virtual memory (CoW)\n" ++
      "  - Round-robin scheduler\n" ++
      "  - ramfs virtual filesystem\n" ++
      "  - POSIX-like system calls\n" ++
      "  - Interactive shell\n")) 300
  let dev := ramfs_finddir fs13 root "dev".toList
  if dev ≠ 0 then ramfs_mkdir fs13 dev "tty0".toList else some fs13

/-- After `build_initfs`: whether `"/dev/tty0"` resolves to the vnode of the
tty, the type of the vnode it resolves to, and whether the operations of
that vnode are `ramfs_ops`; then `file_open("/dev/tty0", O_WRONLY)` and a
`file_write` of the five bytes of `"hello"` on the file returned: the value
`file_write` returned and the bytes on the console. -/
def ttyRun : Option (Bool × Nat × Bool × Int × List Nat) :=
  match build_initfs bootFs with
  | none => none
  | some fs =>
    match file_open fs "/dev/tty0".toList O_WRONLY with
    | none => none
    | some (fs1, f) =>
      match file_write fs1 f 5 (bufOf helloBytes) with
      | none => none
      | some (fs2, r) =>
        some (decide (vfs_lookup fs "/dev/tty0".toList = tty_get_vnode),
          (fs.vnodes (vfs_lookup fs "/dev/tty0".toList)).type,
          decide ((fs.vnodes (vfs_lookup fs "/dev/tty0".toList)).ops =
            some vnode_ops_t.ramfs_ops),
          r, fs2.console)

/-! ### The system-call dispatcher (`syscall/syscall.c`) -/

def ENOSYS : Int := 38

/-- The case labels of the `switch` in `syscall_dispatch`. -/
inductive Syscall
  | SYS_EXIT
  | SYS_FORK
  | SYS_READ
  | SYS_WRITE
  | SYS_OPEN
  | SYS_CLOSE
  | SYS_WAITPID
  | SYS_EXECVE
  | SYS_CHDIR
  | SYS_GETPID
  | SYS_GETPPID
  | SYS_MKDIR
  | SYS_UNLINK
  | SYS_LSEEK
  | SYS_KILL
  | SYS_DUP2
  | SYS_SLEEP
  | SYS_READDIR
  | SYS_GETCWD
  deriving DecidableEq, Repr

/-- The `switch (r->eax)` of `syscall_dispatch`: the case a call number
selects, `none` for `default`.  The numbers are the `#define`s of
`syscall.c`; `SYS_STAT` (106) and `SYS_BRK` (45) are defined there but have
no case. -/
def syscall_case (eax : Nat) : Option Syscall :=
  if eax = 1 then some .SYS_EXIT
  else if eax = 2 then some .SYS_FORK
  else if eax = 3 then some .SYS_READ
  else if eax = 4 then some .SYS_WRITE
  else if eax = 5 then some .SYS_OPEN
  else if eax = 6 then some .SYS_CLOSE
  else if eax = 7 then some .SYS_WAITPID
  else if eax = 11 then some .SYS_EXECVE
  else if eax = 12 then some .SYS_CHDIR
  else if eax = 20 then some .SYS_GETPID
  else if eax = 64 then some .SYS_GETPPID
  else if eax = 39 then some .SYS_MKDIR
  else if eax = 10 then some .SYS_UNLINK
  else if eax = 19 then some .SYS_LSEEK
  else if eax = 37 then some .SYS_KILL
  else if eax = 63 then some .SYS_DUP2
  else if eax = 162 then some .SYS_SLEEP
  else if eax = 89 then some .SYS_READDIR
  else if eax = 183 then some .SYS_GETCWD
  else none

/-- The function `syscall_dispatch`.  `call c s r` is what the handler of
case `c` does when it is invoked with the arguments the case takes from the
frame `r`: the new state and the value returned.  The handlers read user
memory and are not part of this model except through `call`; none of them
writes to `*r` (`sys_fork`, the only one that is given `r`, writes to the
frame of the child).  The last statement stores the value returned, cast to
`uint32_t`, in `r->eax`. -/
def syscall_dispatch (call : Syscall → Sys → regs_t → Sys × Int) (s : Sys) (r : regs_t) :
    Sys × regs_t :=
  match syscall_case r.eax with
  | some c => ((call c s r).1, { r with eax := toUInt32 (call c s r).2 })
  | none => (s, { r with eax := toUInt32 (-ENOSYS) })

/-- The call numbers that have a case in `syscall_dispatch`, as the
specification lists them. -/
def dispatched : List Nat :=
  [1, 2, 3, 4, 5, 6, 7, 10, 11, 12, 19, 20, 37, 39, 63, 64, 89, 162, 183]

/-- A register frame of an `int 0x80` with `eax = 106` (`SYS_STAT`). -/
def statFrame : regs_t :=
  { eax := 106, ebx := 3, ecx := 0x8000, edx := 0, int_no := 128, err_code := 0,
    eip := 0x400000, cs := 0x1B, eflags := 0x202 }

/-! ### Opening files -/

/-- The file system of `tmpFs` (`emptyFs` if it were `none`). -/
def tmpDirFs : Fs := tmpFs.getD emptyFs

/-- The file system of `tmpOpenFs` after `file_write(f, "hello", 5)` on its
open file. -/
def helloFs : Fs :=
  ((file_write tmpOpenFs tmpOpenFile 5 (bufOf helloBytes)).getD (emptyFs, 0)).1

/-- The file system `helloFs` after `file_seek(f, 2, SEEK_SET)`. -/
def helloAt2 : Fs := (file_seek helloFs tmpOpenFile 2 SEEK_SET).1

/-- On `helloFs` (a file of size 5): `file_seek(f, -5, SEEK_SET)`, then
`file_read(f, buf, 5)`.  The result is the size of the file, the offset
before the read, the value returned, the bytes copied and the offset after
the read. -/
def negativeReadRun : Option (Nat × Int × Int × List Nat × Int) :=
  match file_read (file_seek helloFs tmpOpenFile (-5) SEEK_SET).1 tmpOpenFile 5 with
  | none => none
  | some (fs1, r, bytes) =>
    some ((helloFs.nodes (helloFs.vnodes (helloFs.files tmpOpenFile).vnode).data).size,
      ((file_seek helloFs tmpOpenFile (-5) SEEK_SET).1.files tmpOpenFile).offset,
      r, bytes, (fs1.files tmpOpenFile).offset)


/-- The indices of the words of `bitmap` that `pmm_init` accesses, in program
order: the fill loop writes `bitmap[0 .. BITMAP_LEN)`, then `clear_bit(i)`
accesses `bitmap[i / 32]` for every `i` from `start_page` up to
`total_pages`. -/
def pmm_init_words (mem_size kernel_end : Nat) : List Nat :=
  List.range BITMAP_LEN ++
    (List.range (mem_size / PAGE_SIZE - start_page kernel_end)).map
      (fun i => (start_page kernel_end + i) / 32)

/-- The indices of the words of `bitmap` that `pmm_alloc` accesses:
`test_bit(i)` for every page scanned, and `set_bit(i)` for the page found. -/
def pmm_alloc_words (s : Pmm) : List Nat :=
  match (List.range s.total_pages).find? (fun i => !test_bit s.bitmap i) with
  | some i => (List.range (i + 1)).map (fun j => j / 32) ++ [i / 32]
  | none => (List.range s.total_pages).map (fun j => j / 32)

/-- The indices of the words of `bitmap` that `pmm_free` accesses:
`test_bit(page)`, and `clear_bit(page)` when the bit is set. -/
def pmm_free_words (s : Pmm) (addr : Nat) : List Nat :=
  let page := addr / PAGE_SIZE
  if test_bit s.bitmap page then [page / 32, page / 32] else [page / 32]

/-- The function `ramfs_unlink`: the loop looks for the first index `i` with
`kstrcmp(parent->children[i]->name, name) == 0`; that child is freed and
`parent->children[i] = parent->children[--parent->nchildren]` moves the last
child into its slot. -/
def ramfs_unlink (fs : Fs) (v : Nat) (name : List Char) : Fs × Int :=
  let pp := (fs.vnodes v).data
  let parent := fs.nodes pp
  match (List.range parent.children.length).find?
      (fun i => decide ((fs.nodes (parent.children.getD i 0)).name = name)) with
  | some i =>
    let h1 := kfree fs.heap (parent.children.getD i 0)
    let last := parent.children.getD (parent.children.length - 1) 0
    let parent1 : ramfs_node_t :=
      { parent with children := (parent.children.set i last).take (parent.children.length - 1) }
    ({ fs with heap := h1, nodes := setNode fs.nodes pp parent1 }, 0)
  | none => (fs, -ENOENT)

/-- The function `sys_mkdir`, for a path that is not empty and fits in
`parent_path`; `none` when `kmalloc` does not return. -/
def sys_mkdir (fs : Fs) (path : List Char) : Option (Fs × Int) :=
  let slash := find_slash path (path.length - 1)
  let parent := vfs_lookup fs (if slash = 0 then "/".toList else path.take slash)
  if parent = 0 then some (fs, -ENOENT)
  else
    let dname := if path.getD slash ' ' = '/' then path.drop (slash + 1) else path.drop slash
    if ops_is_ramfs (fs.vnodes parent).ops then ramfs_create fs parent dname VFS_DIR
    else some (fs, - EIO)

/-- The names of the children of the root directory. -/
def rootNames (fs : Fs) : List (List Char) :=
  (fs.nodes (fs.vnodes fs.vfs_root).data).children.map (fun c => (fs.nodes c).name)

/-- On `tmpFs`, where the root holds the directory `tmp`: `sys_mkdir("/tmp")`.
The result is the value returned, the names of the children of the root
afterwards, and whether `vfs_lookup("/tmp")` returns the vnode of the first
child and of the second. -/
def mkdirTwiceRun : Option (Int × List (List Char) × Bool × Bool) :=
  match tmpFs with
  | none => none
  | some fs =>
    match sys_mkdir fs "/tmp".toList with
    | none => none
    | some (fs1, r) =>
      let ch := (fs1.nodes (fs1.vnodes fs1.vfs_root).data).children
      some (r, rootNames fs1,
        decide (vfs_lookup fs1 "/tmp".toList = ch.getD 0 0 + VNODE_OFFSET),
        decide (vfs_lookup fs1 "/tmp".toList = ch.getD 1 0 + VNODE_OFFSET))

/-- On `tmpFs`: `ramfs_create(root, "x", VFS_FILE)` twice.  The result is the
two values returned and the names of the children of the root afterwards. -/
def createTwiceRun : Option (Int × Int × List (List Char)) :=
  match tmpFs with
  | none => none
  | some fs =>
    match ramfs_create fs fs.vfs_root "x".toList VFS_FILE with
    | none => none
    | some (fs1, r1) =>
      match ramfs_create fs1 fs1.vfs_root "x".toList VFS_FILE with
      | none => none
      | some (fs2, r2) => some (r1, r2, rootNames fs2)

/-- On `tmpFs`: `file_open("ab", O_CREAT | O_RDWR)` twice.  The result is
whether each call returned a file and the names of the children of the root
afterwards. -/
def openCreateTwiceRun : Option (Bool × Bool × List (List Char)) :=
  match tmpFs with
  | none => none
  | some fs =>
    match file_open fs "ab".toList (O_CREAT ||| O_RDWR) with
    | none => none
    | some (fs1, f1) =>
      match file_open fs1 "ab".toList (O_CREAT ||| O_RDWR) with
      | none => none
      | some (fs2, f2) => some (decide (f1 ≠ 0), decide (f2 ≠ 0), rootNames fs2)

/-- The file system of `tmpFs` with the files `a` and `b` created in the
root after `tmp`. -/
def unlinkDemo : Fs :=
  match tmpFs with
  | none => emptyFs
  | some fs =>
    match ramfs_create fs fs.vfs_root "a".toList VFS_FILE with
    | none => emptyFs
    | some (fs1, _) =>
      match ramfs_create fs1 fs1.vfs_root "b".toList VFS_FILE with
      | none => emptyFs
      | some (fs2, _) => fs2


/-- What the first loop of `kmalloc` makes of a free block of size `s` that
fits a (rounded) request of `size` bytes: a block in use of exactly `size`
bytes followed by a free block of the rest when `s` is at least
`size + sizeof(block_header_t) + 8`, the whole block in use otherwise. -/
def splitBlock (s size : Nat) : List (Nat × Bool) :=
  if size + HDR_SIZE + 8 ≤ s then [(size, false), (s - size - HDR_SIZE, true)] else [(s, false)]

/-- On a freshly initialised heap: `kmalloc(size)`.  The result is the
pointer returned, the header of its block, and the header of the block that
follows it in the list. -/
def allocOnFresh (size : Nat) : Option (Nat × block_header_t × block_header_t) :=
  match kmalloc (heap_init (fun _ => ⟨0, 0, 0, 0, 0⟩) (fun _ => 0)) size with
  | none => none
  | some (h, p) => some (p, h.hdr (p - HDR_SIZE), h.hdr (h.hdr (p - HDR_SIZE)).next)

/-- On a freshly initialised heap: `p = kmalloc(100)`, then
`krealloc(p, new_size)`.  The result is `p`, the size recorded for its
block, the pointer `krealloc` returns and the size recorded for that
block. -/
def reallocOnFresh (new_size : Nat) : Option (Nat × Nat × Nat × Nat) :=
  match kmalloc (heap_init (fun _ => ⟨0, 0, 0, 0, 0⟩) (fun _ => 0)) 100 with
  | none => none
  | some (h1, p) =>
    match krealloc h1 p new_size with
    | none => none
    | some (h2, q) => some (p, (h1.hdr (p - HDR_SIZE)).size, q, (h2.hdr (q - HDR_SIZE)).size)

/-- The block list after `kmalloc` has extended the arena by `needed` bytes:
the new block (free, `needed` bytes with its header) is appended, and
`coalesce` merges it into the last block when that one is free. -/
def grownBlocks (bs : List (Nat × Bool)) (needed : Nat) : List (Nat × Bool) :=
  match bs.getLast? with
  | some (sL, true) => bs.dropLast ++ [(sL + needed, true)]
  | _ => bs ++ [(needed - HDR_SIZE, true)]

/-- The sum over the blocks `bs` of `sizeof(block_header_t) + size`. -/
def blockBytes (bs : List (Nat × Bool)) : Nat :=
  (bs.map (fun b => HDR_SIZE + b.1)).sum


/-- The payload pointers of the blocks in use among `bs` laid out from `a`,
each with the size of its block. -/
def allocBlocks (a : Nat) : List (Nat × Bool) → List (Nat × Nat)
  | [] => []
  | b :: r =>
    if b.2 then allocBlocks (a + HDR_SIZE + b.1) r
    else (a + HDR_SIZE, b.1) :: allocBlocks (a + HDR_SIZE + b.1) r

/-- A freshly initialised heap over zeroed memory. -/
def freshHeap : Heap := heap_init (fun _ => ⟨0, 0, 0, 0, 0⟩) (fun _ => 0)

/-- The heap after `kmalloc(100)` on `freshHeap`: a block in use of 104 bytes
at `HEAP_START + 20`, followed by a free block of 3952 bytes. -/
def oneBlockHeap : Heap :=
  match kmalloc freshHeap 100 with
  | none => freshHeap
  | some (h, _) => h

end MaiUnix

namespace MaiUnix

open proc_state_t

/-- C1 (fails on the code): after `proc_init` followed by one `proc_yield`
no record of the process table is `PROC_RUNNING`; the record `current_proc`
points to, the idle process, is left `PROC_READY`. -/
theorem C1_yield_leaves_no_running :
    countRunning (runProc 0 [ProcOp.yield]) = 0 ∧
    ((runProc 0 [ProcOp.yield]).proc_table
        (runProc 0 [ProcOp.yield]).current_proc).state = PROC_READY := by
  decide


/-! ### Frame allocator: bit-level facts -/

theorem test_bit_eq_testBit (b : Nat → Nat) (p : Nat) :
    test_bit b p = (b (p / 32)).testBit (p % 32) := by
  unfold test_bit Nat.testBit
  rw [Nat.and_comm]

theorem page_split {i j : Nat} (h : j ≠ i) : j / 32 ≠ i / 32 ∨ j % 32 ≠ i % 32 := by
  omega

theorem test_bit_set_bit (b : Nat → Nat) (i j : Nat) :
    test_bit (set_bit b i) j = if j = i then true else test_bit b j := by
  simp only [test_bit_eq_testBit, set_bit]
  by_cases hji : j = i
  · subst hji
    simp [Nat.testBit_lor, Nat.one_shiftLeft, Nat.testBit_two_pow]
  · simp only [hji, if_false]
    by_cases hw : j / 32 = i / 32
    · have hb : j % 32 ≠ i % 32 := by omega
      simp only [hw, if_true, Nat.testBit_lor, Nat.one_shiftLeft, Nat.testBit_two_pow]
      have : decide (i % 32 = j % 32) = false := by
        simp only [decide_eq_false_iff_not]; omega
      rw [this, Bool.or_false]
    · simp [hw]

theorem testBit_mask (k j : Nat) (hj : j < 32) :
    (0xFFFFFFFF ^^^ (1 <<< k)).testBit j = decide (j ≠ k) := by
  have h1 : (0xFFFFFFFF : Nat) = 2 ^ 32 - 1 := by norm_num
  rw [Nat.testBit_xor, h1, Nat.testBit_two_pow_sub_one, Nat.one_shiftLeft, Nat.testBit_two_pow]
  by_cases h : k = j
  · subst h; simp [hj]
  · have h2 : j ≠ k := fun e => h e.symm
    simp [hj, h, h2]

theorem test_bit_clear_bit (b : Nat → Nat) (i j : Nat) :
    test_bit (clear_bit b i) j = if j = i then false else test_bit b j := by
  simp only [test_bit_eq_testBit, clear_bit]
  have hi : i % 32 < 32 := Nat.mod_lt _ (by norm_num)
  have hj : j % 32 < 32 := Nat.mod_lt _ (by norm_num)
  by_cases hji : j = i
  · subst hji
    simp [Nat.testBit_and, testBit_mask _ _ hi]
  · simp only [hji, if_false]
    by_cases hw : j / 32 = i / 32
    · have hb : j % 32 ≠ i % 32 := by omega
      simp [hw, Nat.testBit_and, testBit_mask _ _ hj, hb]
    · simp [hw]


/-! ### Frame allocator: the used-page counter along a run -/

theorem frames_length_le (l : List Nat) (n : Nat) (hn : l.Nodup)
    (hf : ∀ a ∈ l, ∃ i, i < n ∧ a = i * PAGE_SIZE) : l.length ≤ n := by
  have hsub : l ⊆ (List.range n).map (fun i => i * PAGE_SIZE) := by
    intro a ha
    obtain ⟨i, hi, rfl⟩ := hf a ha
    exact List.mem_map.mpr ⟨i, List.mem_range.mpr hi, rfl⟩
  have := (List.subperm_of_subset hn hsub).length_le
  simpa using this

theorem start_page_le (kernel_end : Nat) : start_page kernel_end ≤ 2 ^ 20 := by
  unfold start_page
  have h1 : (kernel_end + PAGE_SIZE - 1) % 2 ^ 32 < 2 ^ 32 := Nat.mod_lt _ (by norm_num)
  have h2 := @Nat.and_le_left ((kernel_end + PAGE_SIZE - 1) % 2 ^ 32)
    (0xFFFFFFFF ^^^ (PAGE_SIZE - 1))
  have h3 : (((kernel_end + PAGE_SIZE - 1) % 2 ^ 32) &&& (0xFFFFFFFF ^^^ (PAGE_SIZE - 1)))
      < 2 ^ 32 := lt_of_le_of_lt h2 h1
  simp only [PAGE_SIZE] at *
  omega

theorem pmmInv_init (old : Nat → Nat) (mem_size kernel_end : Nat) (hm : mem_size < 2 ^ 32) :
    PmmInv { pmm := pmm_init old mem_size kernel_end, returned := [], outstanding := [] }
      (start_page kernel_end) where
  total_le := by
    show mem_size / PAGE_SIZE ≤ 2 ^ 20
    simp only [PAGE_SIZE]; omega
  sp_le := start_page_le kernel_end
  ret_form := by intro a ha; cases ha
  sub := by intro a ha; cases ha
  nodup := List.nodup_nil
  bits := by intro a ha; cases ha
  used := by simp [pmm_init]

theorem pmmInv_step {s : PmmTrace} {sp : Nat} (h : PmmInv s sp) (op : PmmOp)
    (hop : ∀ a, op = PmmOp.free a → a ∈ s.returned) : PmmInv (s.step op) sp := by
  have hlen : s.outstanding.length ≤ s.pmm.total_pages :=
    frames_length_le _ _ h.nodup (fun a ha => h.ret_form a (h.sub a ha))
  have htl := h.total_le
  have hsp := h.sp_le
  have hused := h.used
  cases op with
  | alloc =>
    unfold PmmTrace.step pmm_alloc
    cases hf : (List.range s.pmm.total_pages).find? (fun i => !test_bit s.pmm.bitmap i) with
    | none => exact ⟨h.total_le, h.sp_le, h.ret_form, h.sub, h.nodup, h.bits, h.used⟩
    | some i =>
      have hi : i < s.pmm.total_pages := List.mem_range.mp (List.mem_of_find?_eq_some hf)
      have hclear : test_bit s.pmm.bitmap i = false := by
        have := List.find?_some hf
        simpa using this
      have hmod : (i * PAGE_SIZE) % 2 ^ 32 = i * PAGE_SIZE := by
        apply Nat.mod_eq_of_lt
        simp only [PAGE_SIZE]; omega
      have hdiv : i * PAGE_SIZE / PAGE_SIZE = i := by
        simp [PAGE_SIZE]
      have hnotin : i * PAGE_SIZE ∉ s.outstanding := by
        intro hin
        have := (h.bits _ (h.sub _ hin)).mpr hin
        rw [hdiv, hclear] at this
        cases this
      have hnd : (i * PAGE_SIZE :: s.outstanding).Nodup := List.nodup_cons.mpr ⟨hnotin, h.nodup⟩
      have hform : ∀ a ∈ i * PAGE_SIZE :: s.returned,
          ∃ j, j < s.pmm.total_pages ∧ a = j * PAGE_SIZE := by
        intro a ha
        rcases List.mem_cons.mp ha with rfl | ha
        · exact ⟨i, hi, rfl⟩
        · exact h.ret_form a ha
      have hlen2 : (i * PAGE_SIZE :: s.outstanding).length ≤ s.pmm.total_pages :=
        frames_length_le _ _ hnd (by
          intro a ha
          rcases List.mem_cons.mp ha with rfl | ha
          · exact ⟨i, hi, rfl⟩
          · exact h.ret_form a (h.sub a ha))
      simp only [hmod]
      refine ⟨h.total_le, h.sp_le, hform, ?_, hnd, ?_, ?_⟩
      · intro a ha
        rcases List.mem_cons.mp ha with rfl | ha
        · exact List.mem_cons_self _ _
        · exact List.mem_cons_of_mem _ (h.sub a ha)
      · intro a ha
        show test_bit (set_bit s.pmm.bitmap i) (a / PAGE_SIZE) = true ↔ _
        rw [test_bit_set_bit]
        by_cases hai : a = i * PAGE_SIZE
        · subst hai
          simp [hdiv]
        · have har : a ∈ s.returned := by
            rcases List.mem_cons.mp ha with e | ha
            · exact absurd e hai
            · exact ha
          obtain ⟨j, _, rfl⟩ := h.ret_form a har
          have hj : j * PAGE_SIZE / PAGE_SIZE = j := by simp [PAGE_SIZE]
          have hji : j ≠ i := by
            intro e; apply hai; rw [e]
          have hb := h.bits _ har
          rw [hj] at hb ⊢
          simp only [hji, if_false, List.mem_cons, hai, false_or]
          exact hb
      · show (s.pmm.used_pages + 1) % 2 ^ 32 = sp + (i * PAGE_SIZE :: s.outstanding).length
        simp only [List.length_cons] at hlen2 ⊢
        rw [hused]
        omega
  | free a =>
    have har := hop a rfl
    obtain ⟨i, hi, rfl⟩ := h.ret_form a har
    have hdiv : i * PAGE_SIZE / PAGE_SIZE = i := by simp [PAGE_SIZE]
    unfold PmmTrace.step pmm_free
    simp only [hdiv]
    by_cases ht : test_bit s.pmm.bitmap i = true
    · have hin : i * PAGE_SIZE ∈ s.outstanding := by
        have := (h.bits _ har).mp
        rw [hdiv] at this
        exact this ht
      have hpos : 0 < s.outstanding.length := List.length_pos_of_mem hin
      simp only [ht, if_true]
      refine ⟨h.total_le, h.sp_le, h.ret_form, ?_, h.nodup.erase _, ?_, ?_⟩
      · intro b hb
        exact h.sub b (List.mem_of_mem_erase hb)
      · intro b hb
        show test_bit (clear_bit s.pmm.bitmap i) (b / PAGE_SIZE) = true ↔ _
        rw [test_bit_clear_bit, h.nodup.mem_erase_iff]
        obtain ⟨j, _, rfl⟩ := h.ret_form b hb
        have hj : j * PAGE_SIZE / PAGE_SIZE = j := by simp [PAGE_SIZE]
        have hbits := h.bits _ hb
        rw [hj] at hbits ⊢
        by_cases hji : j = i
        · subst hji; simp
        · have hne : j * PAGE_SIZE ≠ i * PAGE_SIZE := by
            intro e; apply hji
            simpa [PAGE_SIZE] using e
          simp only [hji, if_false, hne, ne_eq, not_false_eq_true, true_and]
          exact hbits
      · show (s.pmm.used_pages + 2 ^ 32 - 1) % 2 ^ 32 = sp + (s.outstanding.erase _).length
        rw [List.length_erase_of_mem hin, hused]
        omega
    · have hnin : i * PAGE_SIZE ∉ s.outstanding := by
        intro hin
        have := (h.bits _ har).mpr hin
        rw [hdiv] at this
        exact ht this
      simp only [ht]
      rw [List.erase_of_not_mem hnin]
      exact ⟨h.total_le, h.sp_le, h.ret_form, h.sub, h.nodup, h.bits, h.used⟩

theorem pmmInv_run {sp : Nat} (ops : List PmmOp) :
    ∀ s : PmmTrace, PmmInv s sp → pmmLifetimes s ops →
      PmmInv (ops.foldl PmmTrace.step s) sp := by
  induction ops with
  | nil => intro s h _; exact h
  | cons op ops ih =>
    intro s h hl
    cases op with
    | alloc =>
      exact ih _ (pmmInv_step h .alloc (by intro a e; cases e)) hl
    | free a =>
      exact ih _ (pmmInv_step h (.free a) (by intro b e; cases e; exact hl.1)) hl.2

/-- C5 (as the code has it): after `pmm_init(mem_size, kernel_end)` and any
sequence of `pmm_alloc` and `pmm_free` calls in which every `pmm_free` is
applied to a frame an earlier `pmm_alloc` returned, `used_pages` equals
`start_page` (the frames reserved below the page-aligned `kernel_end`) plus
the number of frames returned by `pmm_alloc` and not yet freed. -/
theorem C5_used_pages_is_start_page_plus_outstanding (old : Nat → Nat)
    (mem_size kernel_end : Nat) (ops : List PmmOp) (hm : mem_size < 2 ^ 32)
    (hl : pmmLifetimes
      { pmm := pmm_init old mem_size kernel_end, returned := [], outstanding := [] } ops) :
    (pmmRun old mem_size kernel_end ops).pmm.used_pages =
      start_page kernel_end + (pmmRun old mem_size kernel_end ops).outstanding.length :=
  (pmmInv_run ops _ (pmmInv_init old mem_size kernel_end hm) hl).used


/-- C5, at a concrete run: 64 KiB of memory, `kernel_end = 0x2000`, two
allocations and the release of the first frame. -/
theorem C5_used_pages_witness :
    (65536 < 2 ^ 32 ∧
      pmmLifetimes
        { pmm := pmm_init (fun _ => 0) 65536 8192, returned := [], outstanding := [] }
        [PmmOp.alloc, PmmOp.alloc, PmmOp.free 8192]) ∧
    (pmmRun (fun _ => 0) 65536 8192 [PmmOp.alloc, PmmOp.alloc, PmmOp.free 8192]).pmm.used_pages =
      start_page 8192 +
        (pmmRun (fun _ => 0) 65536 8192
          [PmmOp.alloc, PmmOp.alloc, PmmOp.free 8192]).outstanding.length :=
  ⟨⟨by decide, by decide⟩,
   C5_used_pages_is_start_page_plus_outstanding (fun _ => 0) 65536 8192
     [PmmOp.alloc, PmmOp.alloc, PmmOp.free 8192] (by decide) (by decide)⟩

/-- C5 as stated fails: after `pmm_init(65536, 0x2000)`, two allocations and
one release, one frame is outstanding while `used_pages` is 3 (right after
`pmm_init`, with nothing allocated, it is already 2). -/
theorem C5_used_pages_counterexample :
    pmmLifetimes
        { pmm := pmm_init (fun _ => 0) 65536 8192, returned := [], outstanding := [] }
        [PmmOp.alloc, PmmOp.alloc, PmmOp.free 8192] ∧
    (pmmRun (fun _ => 0) 65536 8192
        [PmmOp.alloc, PmmOp.alloc, PmmOp.free 8192]).outstanding = [12288] ∧
    (pmmRun (fun _ => 0) 65536 8192
        [PmmOp.alloc, PmmOp.alloc, PmmOp.free 8192]).pmm.used_pages = 3 ∧
    (pmmRun (fun _ => 0) 65536 8192
        [PmmOp.alloc, PmmOp.alloc, PmmOp.free 8192]).pmm.used_pages ≠
      (pmmRun (fun _ => 0) 65536 8192
        [PmmOp.alloc, PmmOp.alloc, PmmOp.free 8192]).outstanding.length := by
  decide


/-! ### Page faults -/

/-- C3 (fails on the code): for every page fault, and so for a
present+write fault (`err_code & 3 == 3`) on a page whose entry has the CoW
bit, `handle_page_fault` halts the processor after printing the diagnostic;
it allocates no frame and changes no page-table entry. -/
theorem C3_page_fault_always_halts (m : Machine) (r : regs_t) (cr2 : Nat) :
    (isr_handler m { r with int_no := 14, err_code := 3 } cr2).halted = true ∧
    (isr_handler m { r with int_no := 14, err_code := 3 } cr2).vmm = m.vmm ∧
    (handle_page_fault m r cr2).halted = true ∧
    (handle_page_fault m r cr2).vmm = m.vmm := by
  simp [isr_handler, handle_page_fault]


/-! ### Process table: searching the table -/

theorem find_range_first (p : Nat → Bool) (n i : Nat) (hi : i < n) (hp : p i = true)
    (hfirst : ∀ j, j < i → p j = false) : (List.range n).find? p = some i := by
  induction n with
  | zero => omega
  | succ n ih =>
    rw [List.range_succ, List.find?_append]
    by_cases h : i < n
    · rw [ih h]; rfl
    · have hin : i = n := by omega
      subst hin
      have : (List.range i).find? p = none := by
        rw [List.find?_eq_none]
        intro x hx
        rw [hfirst x (List.mem_range.mp hx)]
        simp
      rw [this]
      simp [hp]

theorem setState_same (t : Nat → process_t) (i : Nat) (s : proc_state_t) :
    (setState t i s i).state = s := by
  simp [setState, setProc]

theorem setState_other (t : Nat → process_t) (i j : Nat) (s : proc_state_t) (h : j ≠ i) :
    setState t i s j = t j := by
  simp [setState, setProc, h]

theorem setState_pid (t : Nat → process_t) (i j : Nat) (s : proc_state_t) :
    (setState t i s j).pid = (t j).pid := by
  by_cases h : j = i
  · subst h; simp [setState, setProc]
  · rw [setState_other t i j s h]

theorem setState_ppid (t : Nat → process_t) (i j : Nat) (s : proc_state_t) :
    (setState t i s j).ppid = (t j).ppid := by
  by_cases h : j = i
  · subst h; simp [setState, setProc]
  · rw [setState_other t i j s h]

/-- When slot `i` holds a `PROC_ZOMBIE` child of the current process, and it
is the child the scan of `proc_wait(pid, &st)` meets (`pid` is `-1` or the
child's pid, and no earlier slot holds another zombie child that matches),
the call returns the child's pid without blocking, stores the child's exit
code in `st`, sets that record `PROC_UNUSED` and leaves every other record
as it was.  If no other record that is in use has the caller's pid as
`ppid`, the caller's own record included, every further `proc_wait` returns
`-1` at once and changes nothing. -/
theorem proc_wait_reaps_zombie (k : Kernel) (pid : Int) (i : Nat)
    (hi : i < MAX_PROCS)
    (hz : (k.proc_table i).state = PROC_ZOMBIE)
    (hp : (k.proc_table i).ppid = (k.proc_table k.current_proc).pid)
    (hreq : pid = -1 ∨ (k.proc_table i).pid = pid)
    (hfirst : ∀ j, j < i → ¬ ((k.proc_table j).state = PROC_ZOMBIE ∧
        (k.proc_table j).ppid = (k.proc_table k.current_proc).pid ∧
        (pid = -1 ∨ (k.proc_table j).pid = pid))) :
    (proc_wait k pid).ret = some (k.proc_table i).pid ∧
    (proc_wait k pid).status = some (k.proc_table i).exit_code ∧
    ((proc_wait k pid).kernel.proc_table i).state = PROC_UNUSED ∧
    (∀ j, j ≠ i → (proc_wait k pid).kernel.proc_table j = k.proc_table j) ∧
    (proc_wait k pid).kernel.current_proc = k.current_proc ∧
    ((∀ j, j < MAX_PROCS → j ≠ i →
        ¬ ((k.proc_table j).ppid = (k.proc_table k.current_proc).pid ∧
           (k.proc_table j).state ≠ PROC_UNUSED)) →
      ∀ pid2 : Int,
        (proc_wait (proc_wait k pid).kernel pid2).ret = some (-1) ∧
        (proc_wait (proc_wait k pid).kernel pid2).status = none ∧
        (proc_wait (proc_wait k pid).kernel pid2).kernel = (proc_wait k pid).kernel) := by
  have hfind : find_zombie k.proc_table k.current_proc pid = some i := by
    unfold find_zombie
    apply find_range_first _ _ _ hi
    · simp [hz, hp, hreq]
    · intro j hj
      have := hfirst j hj
      simpa using this
  have hw : proc_wait k pid =
      { kernel := { k with proc_table := setState k.proc_table i PROC_UNUSED },
        ret := some (k.proc_table i).pid,
        status := some (k.proc_table i).exit_code } := by
    unfold proc_wait
    simp only [hfind]
  rw [hw]
  refine ⟨rfl, rfl, setState_same _ _ _, fun j hj => setState_other _ _ _ _ hj, rfl, ?_⟩
  intro hno pid2
  have hnz : find_zombie (setState k.proc_table i PROC_UNUSED) k.current_proc pid2 = none := by
    unfold find_zombie
    rw [List.find?_eq_none]
    intro j hj
    have hjlt := List.mem_range.mp hj
    simp only [decide_eq_true_eq, setState_ppid, setState_pid]
    rintro ⟨hst, hpp, _⟩
    by_cases hji : j = i
    · subst hji
      rw [setState_same] at hst
      cases hst
    · rw [setState_other _ _ _ _ hji] at hst
      exact hno j hjlt hji ⟨hpp, by rw [hst]; decide⟩
  have hnc : has_child (setState k.proc_table i PROC_UNUSED) k.current_proc = false := by
    unfold has_child
    rw [List.any_eq_false]
    intro j hj
    have hjlt := List.mem_range.mp hj
    simp only [decide_eq_true_eq, setState_ppid, setState_pid]
    rintro ⟨hpp, hst⟩
    by_cases hji : j = i
    · subst hji
      rw [setState_same] at hst
      exact hst rfl
    · rw [setState_other _ _ _ _ hji] at hst
      exact hno j hjlt hji ⟨hpp, hst⟩
  unfold proc_wait
  simp only [hnz, hnc]
  simp

/-- C6 fails for the idle process.  In `idleWaitScenario` the idle process
is current and slot 1 holds its `PROC_ZOMBIE` child (pid 1, `ppid` 0, exit
code 42).  The first `proc_wait(-1, &st)`, and likewise `proc_wait(1, &st)`,
returns 1, stores 42 and sets the record `PROC_UNUSED`; after it every
record but the caller's own is `PROC_UNUSED`, so the caller has no other
children.  The second `proc_wait` for that child (and for `-1`) still does
not return an error: the idle record has `pid = ppid = 0`, the `has_child`
scan counts it as a child of itself, and the caller is set `PROC_BLOCKED` and
yields. -/
theorem C6_second_wait_blocks_for_idle :
    (idleWaitScenario.current_proc = 0 ∧
      (idleWaitScenario.proc_table 0).pid = 0 ∧
      (idleWaitScenario.proc_table 0).state = PROC_RUNNING ∧
      (idleWaitScenario.proc_table 1).state = PROC_ZOMBIE ∧
      (idleWaitScenario.proc_table 1).pid = 1 ∧
      (idleWaitScenario.proc_table 1).ppid = 0 ∧
      (idleWaitScenario.proc_table 1).exit_code = 42) ∧
    ((proc_wait idleWaitScenario (-1)).ret = some 1 ∧
      (proc_wait idleWaitScenario (-1)).status = some 42 ∧
      ((proc_wait idleWaitScenario (-1)).kernel.proc_table 1).state = PROC_UNUSED ∧
      (proc_wait idleWaitScenario 1).ret = some 1 ∧
      (proc_wait idleWaitScenario 1).status = some 42 ∧
      ((proc_wait idleWaitScenario 1).kernel.proc_table 1).state = PROC_UNUSED) ∧
    (∀ i, i < MAX_PROCS → i ≠ 0 →
      ((proc_wait idleWaitScenario (-1)).kernel.proc_table i).state = PROC_UNUSED) ∧
    ((proc_wait (proc_wait idleWaitScenario (-1)).kernel 1).ret = none ∧
      (proc_wait (proc_wait idleWaitScenario (-1)).kernel (-1)).ret = none ∧
      ((proc_wait (proc_wait idleWaitScenario (-1)).kernel 1).kernel.proc_table 0).state
        = PROC_BLOCKED ∧
      (proc_wait (proc_wait idleWaitScenario 1).kernel 1).ret = none) := by
  refine ⟨by decide, ⟨by decide, by decide, by decide, by decide, by decide, by decide⟩,
    by decide, by decide, by decide, by decide, by decide⟩


/-! ### Scheduler: a `PROC_READY` record that is never selected -/

theorem yielded_eq :
    runProc 0 [ProcOp.yield] =
      { proc_init 0 with
        ticks := 1,
        proc_table := wake_sleepers 1 (setState (proc_init 0).proc_table 0 PROC_READY) } := by
  rfl

theorem yielded_state (i : Nat) :
    ((runProc 0 [ProcOp.yield]).proc_table i).state ≠ PROC_SLEEPING := by
  rw [yielded_eq]
  by_cases h : i = 0
  · subst h; decide
  · simp [wake_sleepers, setState, setProc, proc_init, zero_proc, h]

theorem wake_sleepers_yielded (tk : Nat) :
    wake_sleepers tk (runProc 0 [ProcOp.yield]).proc_table =
      (runProc 0 [ProcOp.yield]).proc_table := by
  funext i
  simp [wake_sleepers, yielded_state i]

theorem tick_yielded (k : Kernel)
    (ht : k.proc_table = (runProc 0 [ProcOp.yield]).proc_table) (hc : k.current_proc = 0) :
    (scheduler_tick k).proc_table = (runProc 0 [ProcOp.yield]).proc_table ∧
    (scheduler_tick k).current_proc = 0 := by
  have hf : find_next (runProc 0 [ProcOp.yield]).proc_table 0 = some 0 := by decide
  unfold scheduler_tick
  simp only [ht, hc, wake_sleepers_yielded, hf, if_true]
  exact ⟨trivial, trivial⟩

/-- C8 (fails on the code): in the process table that `proc_init` followed
by `proc_yield` leaves, record 0 is `PROC_READY`, and however many times
`scheduler_tick` is then invoked (64 times in particular) it stays
`PROC_READY` and is never made `PROC_RUNNING`. -/
theorem C8_ready_current_never_selected (n : Nat) :
    ((runProc 0 [ProcOp.yield]).proc_table 0).state = PROC_READY ∧
    ((ticksFrom (runProc 0 [ProcOp.yield]) n).proc_table 0).state = PROC_READY ∧
    countRunning (ticksFrom (runProc 0 [ProcOp.yield]) n) = 0 := by
  have key : (ticksFrom (runProc 0 [ProcOp.yield]) n).proc_table =
        (runProc 0 [ProcOp.yield]).proc_table ∧
      (ticksFrom (runProc 0 [ProcOp.yield]) n).current_proc = 0 := by
    induction n with
    | zero => exact ⟨rfl, by decide⟩
    | succ n ih => exact tick_yielded _ ih.1 ih.2
  refine ⟨by decide, ?_, ?_⟩
  · rw [key.1]; decide
  · unfold countRunning
    rw [key.1]; decide


/-! ### Heap: the block list and the memory -/

theorem endAddr_append (a : Nat) (xs ys : List (Nat × Bool)) :
    endAddr a (xs ++ ys) = endAddr (endAddr a xs) ys := by
  induction xs generalizing a with
  | nil => rfl
  | cons b r ih => simp [endAddr, ih]

theorem lastAddr_append (prev a : Nat) (xs ys : List (Nat × Bool)) :
    lastAddr prev a (xs ++ ys) = lastAddr (lastAddr prev a xs) (endAddr a xs) ys := by
  induction xs generalizing prev a with
  | nil => rfl
  | cons b r ih => simp [lastAddr, endAddr, ih]

theorem le_endAddr (a : Nat) (bs : List (Nat × Bool)) : a ≤ endAddr a bs := by
  induction bs generalizing a with
  | nil => exact le_refl _
  | cons b r ih =>
    have := ih (a + HDR_SIZE + b.1)
    simp only [endAddr]
    omega

theorem lt_endAddr (a : Nat) (bs : List (Nat × Bool)) (h : bs ≠ []) : a + HDR_SIZE ≤ endAddr a bs := by
  cases bs with
  | nil => exact absurd rfl h
  | cons b r =>
    have := le_endAddr (a + HDR_SIZE + b.1) r
    simp only [endAddr]
    omega

theorem lastAddr_ge (prev a : Nat) (bs : List (Nat × Bool)) (h : bs ≠ []) :
    a ≤ lastAddr prev a bs ∧ lastAddr prev a bs < endAddr a bs := by
  induction bs generalizing prev a with
  | nil => exact absurd rfl h
  | cons b r ih =>
    cases r with
    | nil => simp [lastAddr, endAddr, HDR_SIZE]; omega
    | cons b2 r2 =>
      have := ih a (a + HDR_SIZE + b.1) (by simp)
      simp only [lastAddr, endAddr] at this ⊢
      omega

theorem Seg_append (m : Nat → block_header_t) (e prev a : Nat) (xs ys : List (Nat × Bool)) :
    Seg m e prev a (xs ++ ys) ↔
      Seg m e prev a xs ∧ Seg m e (lastAddr prev a xs) (endAddr a xs) ys := by
  induction xs generalizing prev a with
  | nil => simp [Seg, lastAddr, endAddr]
  | cons b r ih =>
    show (_ ∧ Seg m e a (a + HDR_SIZE + b.1) (r ++ ys)) ↔ _
    rw [ih]
    simp only [Seg, lastAddr, endAddr, and_assoc]

theorem Seg_congr (m m2 : Nat → block_header_t) (e prev a : Nat) (bs : List (Nat × Bool))
    (hm : ∀ x, a ≤ x → x < endAddr a bs → m2 x = m x) (h : Seg m e prev a bs) :
    Seg m2 e prev a bs := by
  induction bs generalizing prev a with
  | nil => trivial
  | cons b r ih =>
    have hle := le_endAddr (a + HDR_SIZE + b.1) r
    refine ⟨?_, ?_⟩
    · rw [hm a (le_refl _) (by simp only [endAddr, HDR_SIZE] at hle ⊢; omega)]
      exact h.1
    · apply ih _ _ _ h.2
      intro x hx1 hx2
      exact hm x (by omega) (by simpa [endAddr] using hx2)

theorem Seg_change_end (m : Nat → block_header_t) (e e2 prev a : Nat)
    (bs : List (Nat × Bool)) (h1 : endAddr a bs < e) (h2 : endAddr a bs < e2)
    (h : Seg m e prev a bs) : Seg m e2 prev a bs := by
  induction bs generalizing prev a with
  | nil => trivial
  | cons b r ih =>
    have hle := le_endAddr (a + HDR_SIZE + b.1) r
    simp only [endAddr] at h1 h2
    refine ⟨?_, ih _ _ h1 h2 h.2⟩
    rw [h.1]
    have e1 : nxt e (a + HDR_SIZE + b.1) = a + HDR_SIZE + b.1 := by
      unfold nxt; rw [if_neg]; omega
    have e3 : nxt e2 (a + HDR_SIZE + b.1) = a + HDR_SIZE + b.1 := by
      unfold nxt; rw [if_neg]; omega
    rw [e1, e3]

/-- Changing the `prev` field of the first block of a segment. -/
theorem Seg_set_prev (m m2 : Nat → block_header_t) (e prev q a : Nat)
    (bs : List (Nat × Bool))
    (hm : ∀ x, a < x → x < endAddr a bs → m2 x = m x)
    (ha : bs ≠ [] → m2 a = { m a with prev := q })
    (h : Seg m e prev a bs) : Seg m2 e q a bs := by
  cases bs with
  | nil => trivial
  | cons b r =>
    refine ⟨?_, ?_⟩
    · rw [ha (by simp), h.1]
    · apply Seg_congr m m2 _ _ _ _ _ h.2
      intro x hx1 hx2
      exact hm x (by simp only [HDR_SIZE] at hx1; omega) (by simpa [endAddr] using hx2)


theorem setHdr_same (m : Nat → block_header_t) (a : Nat) (v : block_header_t) :
    setHdr m a v a = v := by
  simp [setHdr]

theorem setHdr_ne (m : Nat → block_header_t) (a x : Nat) (v : block_header_t) (h : x ≠ a) :
    setHdr m a v x = m x := by
  simp [setHdr, h]

theorem flag_ne_zero (f : Bool) : flag f ≠ 0 ↔ f = true := by
  cases f <;> simp [flag]

theorem allocPtrs_append (a : Nat) (xs ys : List (Nat × Bool)) :
    allocPtrs a (xs ++ ys) = allocPtrs a xs ++ allocPtrs (endAddr a xs) ys := by
  induction xs generalizing a with
  | nil => rfl
  | cons b r ih =>
    cases hb : b.2 <;> simp [allocPtrs, endAddr, hb, ih]

theorem allocPtrs_bounds (a : Nat) (bs : List (Nat × Bool)) (q : Nat)
    (hq : q ∈ allocPtrs a bs) : a + HDR_SIZE ≤ q ∧ q ≤ endAddr a bs := by
  induction bs generalizing a with
  | nil => cases hq
  | cons b r ih =>
    have hle := le_endAddr (a + HDR_SIZE + b.1) r
    cases hb : b.2
    · simp only [allocPtrs, hb, Bool.false_eq_true, if_false, List.mem_cons] at hq
      rcases hq with rfl | hq
      · simp only [endAddr]; omega
      · have := ih _ hq
        simp only [endAddr]; omega
    · simp only [allocPtrs, hb, if_true] at hq
      have := ih _ hq
      simp only [endAddr]; omega

theorem find_fit_seg (m : Nat → block_header_t) (e size : Nat) :
    ∀ (bs : List (Nat × Bool)) (prev a fuel : Nat), Seg m e prev a bs → endAddr a bs = e →
      0 < a → bs.length < fuel → find_fit m size fuel (nxt e a) = some (fitAddr size a bs) := by
  intro bs
  induction bs with
  | nil =>
    intro prev a fuel _ he _ hf
    obtain ⟨f, rfl⟩ : ∃ f, fuel = f + 1 := ⟨fuel - 1, by simp at hf; omega⟩
    simp only [endAddr] at he
    simp [nxt, he, find_fit, fitAddr]
  | cons b r ih =>
    intro prev a fuel hs he ha hf
    obtain ⟨f, rfl⟩ : ∃ f, fuel = f + 1 := ⟨fuel - 1, by simp at hf; omega⟩
    have hle := le_endAddr (a + HDR_SIZE + b.1) r
    simp only [endAddr] at he
    have hae : a ≠ e := by simp only [HDR_SIZE] at hle he; omega
    have ha0 : a ≠ 0 := by omega
    have hma := hs.1
    simp only [nxt, hae, if_false, find_fit, ha0, hma, flag_ne_zero, fitAddr]
    by_cases hfit : b.2 = true ∧ size ≤ b.1
    · simp [hfit]
    · simp only [hfit, if_false]
      have := ih a (a + HDR_SIZE + b.1) f hs.2 he (by omega) (by simp at hf; omega)
      simpa [nxt] using this

theorem fitAddr_zero (size a : Nat) (bs : List (Nat × Bool)) (ha : 0 < a)
    (h : fitAddr size a bs = 0) : ∀ b ∈ bs, ¬ (b.2 = true ∧ size ≤ b.1) := by
  induction bs generalizing a with
  | nil => intro b hb; cases hb
  | cons b r ih =>
    intro x hx
    by_cases hfit : b.2 = true ∧ size ≤ b.1
    · simp only [fitAddr, hfit, and_self, if_true] at h
      omega
    · simp only [fitAddr, hfit, if_false] at h
      rcases List.mem_cons.mp hx with rfl | hx
      · exact hfit
      · exact ih _ (by omega) h x hx

theorem fitAddr_pos (size a : Nat) (bs : List (Nat × Bool))
    (h : fitAddr size a bs ≠ 0) :
    ∃ pre s post, bs = pre ++ (s, true) :: post ∧ size ≤ s ∧
      fitAddr size a bs = endAddr a pre ∧ ∀ b ∈ pre, ¬ (b.2 = true ∧ size ≤ b.1) := by
  induction bs generalizing a with
  | nil => exact absurd rfl h
  | cons b r ih =>
    by_cases hfit : b.2 = true ∧ size ≤ b.1
    · refine ⟨[], b.1, r, ?_, hfit.2, ?_, ?_⟩
      · rw [← hfit.1]; rfl
      · simp [fitAddr, hfit, endAddr]
      · intro x hx; cases hx
    · simp only [fitAddr, hfit, if_false] at h ⊢
      obtain ⟨pre, s, post, e1, e2, e3, e4⟩ := ih _ h
      refine ⟨b :: pre, s, post, by rw [e1]; rfl, e2, by rw [e3]; rfl, ?_⟩
      intro x hx
      rcases List.mem_cons.mp hx with rfl | hx
      · exact hfit
      · exact e4 x hx

theorem endAddr_eq_nil (a : Nat) (bs : List (Nat × Bool)) (h : endAddr a bs = a) : bs = [] := by
  cases bs with
  | nil => rfl
  | cons b r =>
    have := lt_endAddr a (b :: r) (by simp)
    simp only [HDR_SIZE] at this
    omega

theorem coalesce_next_seg (m : Nat → block_header_t) (e pc c s : Nat)
    (post : List (Nat × Bool)) (hseg : Seg m e pc c ((s, true) :: post))
    (hend : endAddr c ((s, true) :: post) = e) (he : e < 2 ^ 32) (hc : 0 < c) :
    Seg (coalesce_next m c) e pc c (((mergeNext s post).1, true) :: (mergeNext s post).2) ∧
    endAddr c (((mergeNext s post).1, true) :: (mergeNext s post).2) = e ∧
    (∀ x, x < c → coalesce_next m c x = m x) := by
  have hmc := hseg.1
  simp only at hmc
  cases post with
  | nil =>
    simp only [endAddr] at hend
    have hn : (m c).next = 0 := by rw [hmc]; simp [nxt, hend]
    have hcn : coalesce_next m c = m := by
      unfold coalesce_next; simp [hn]
    rw [hcn]
    exact ⟨hseg, by simpa [mergeNext, endAddr] using hend, fun _ _ => rfl⟩
  | cons b post2 =>
    obtain ⟨s2, f2⟩ := b
    have hle := le_endAddr (c + HDR_SIZE + s + HDR_SIZE + s2) post2
    simp only [endAddr] at hend
    have hne : c + HDR_SIZE + s ≠ e := by simp only [HDR_SIZE] at hle hend ⊢; omega
    have hmc2 : m c = ⟨HEAP_MAGIC, s, 1, c + HDR_SIZE + s, pc⟩ := by
      rw [hmc]; simp [nxt, hne, flag]
    have hmn := hseg.2.1
    simp only at hmn
    cases f2 with
    | false =>
      have hcn : coalesce_next m c = m := by
        unfold coalesce_next; simp [hmc2, hmn, flag]
      rw [hcn]
      exact ⟨hseg, by simpa [mergeNext, endAddr] using hend, fun _ _ => rfl⟩
    | true =>
      have hnc : c + HDR_SIZE + s ≠ c := by simp only [HDR_SIZE]; omega
      have hsz : (s + HDR_SIZE + s2) % 4294967296 = s + HDR_SIZE + s2 := by
        apply Nat.mod_eq_of_lt
        simp only [HDR_SIZE] at hle hend ⊢; omega
      have hadd : c + HDR_SIZE + (s + HDR_SIZE + s2) = c + HDR_SIZE + s + HDR_SIZE + s2 := by
        omega
      have hn0 : c + HDR_SIZE + s ≠ 0 := by omega
      simp only [mergeNext, if_true]
      by_cases hlast : c + HDR_SIZE + s + HDR_SIZE + s2 = e
      · have hp2 : post2 = [] := endAddr_eq_nil _ _ (by rw [hend, hlast])
        subst hp2
        have hmn2 : m (c + HDR_SIZE + s) = ⟨HEAP_MAGIC, s2, 1, 0, c⟩ := by
          rw [hmn]; simp [nxt, hlast, flag]
        have hcn : coalesce_next m c =
            setHdr (setHdr m c ⟨HEAP_MAGIC, s + HDR_SIZE + s2, 1, c + HDR_SIZE + s, pc⟩) c
              ⟨HEAP_MAGIC, s + HDR_SIZE + s2, 1, 0, pc⟩ := by
          unfold coalesce_next
          simp [hmc2, hmn2, hn0, setHdr_same, setHdr_ne _ _ _ _ hnc, hsz]
        rw [hcn]
        refine ⟨?_, by simp only [endAddr]; rw [hadd]; exact hend, ?_⟩
        · simp only [Seg, and_true, setHdr_same]
          simp [hadd, hlast, nxt, flag]
        · intro x hx
          rw [setHdr_ne _ _ _ _ (by omega), setHdr_ne _ _ _ _ (by omega)]
      · have hn2 : c + HDR_SIZE + s + HDR_SIZE + s2 ≠ 0 := by simp only [HDR_SIZE]; omega
        have hn2c : c + HDR_SIZE + s + HDR_SIZE + s2 ≠ c := by simp only [HDR_SIZE]; omega
        have hmn2 : m (c + HDR_SIZE + s) =
            ⟨HEAP_MAGIC, s2, 1, c + HDR_SIZE + s + HDR_SIZE + s2, c⟩ := by
          rw [hmn]; simp [nxt, hlast, flag]
        have hcn : coalesce_next m c =
            setHdr (setHdr (setHdr m c ⟨HEAP_MAGIC, s + HDR_SIZE + s2, 1, c + HDR_SIZE + s, pc⟩) c
              ⟨HEAP_MAGIC, s + HDR_SIZE + s2, 1, c + HDR_SIZE + s + HDR_SIZE + s2, pc⟩)
              (c + HDR_SIZE + s + HDR_SIZE + s2)
              { m (c + HDR_SIZE + s + HDR_SIZE + s2) with prev := c } := by
          unfold coalesce_next
          simp [hmc2, hmn2, hn0, hn2, setHdr_same, setHdr_ne _ _ _ _ hnc,
            setHdr_ne _ _ _ _ hn2c, hsz]
        rw [hcn]
        refine ⟨⟨?_, ?_⟩, by simp only [endAddr]; rw [hadd]; exact hend, ?_⟩
        · rw [setHdr_ne _ _ _ _ hn2c.symm, setHdr_same]
          simp [hadd, hlast, nxt, flag]
        · rw [hadd]
          apply Seg_set_prev _ _ _ _ _ _ _ _ _ hseg.2.2
          · intro x hx1 _
            rw [setHdr_ne _ _ _ _ (by omega), setHdr_ne _ _ _ _ (by omega),
              setHdr_ne _ _ _ _ (by omega)]
          · intro _
            rw [setHdr_same]
        · intro x hx
          rw [setHdr_ne _ _ _ _ (by omega), setHdr_ne _ _ _ _ (by omega),
            setHdr_ne _ _ _ _ (by omega)]


theorem coalesce_prev_first (m : Nat → block_header_t) (c : Nat) (h : (m c).prev = 0) :
    coalesce_prev m c = m := by
  unfold coalesce_prev; simp [h]

theorem coalesce_prev_seg (m : Nat → block_header_t) (e pp p0 s0 S : Nat) (f0 : Bool)
    (P : List (Nat × Bool)) (hseg : Seg m e pp p0 ((s0, f0) :: (S, true) :: P))
    (hend : endAddr p0 ((s0, f0) :: (S, true) :: P) = e) (he : e < 2 ^ 32) (hp0 : 0 < p0) :
    Seg (coalesce_prev m (p0 + HDR_SIZE + s0)) e pp p0
        (if f0 = true then (s0 + HDR_SIZE + S, true) :: P else (s0, f0) :: (S, true) :: P) ∧
    endAddr p0
        (if f0 = true then (s0 + HDR_SIZE + S, true) :: P else (s0, f0) :: (S, true) :: P) = e ∧
    (∀ x, x < p0 → coalesce_prev m (p0 + HDR_SIZE + s0) x = m x) := by
  have hle := le_endAddr (p0 + HDR_SIZE + s0 + HDR_SIZE + S) P
  simp only [endAddr] at hend
  have hne : p0 + HDR_SIZE + s0 ≠ e := by simp only [HDR_SIZE] at hle hend ⊢; omega
  have hcp : p0 + HDR_SIZE + s0 ≠ p0 := by simp only [HDR_SIZE]; omega
  have hp00 : p0 ≠ 0 := by omega
  have hmp := hseg.1
  have hmc := hseg.2.1
  simp only at hmp hmc
  cases f0 with
  | false =>
    have hcn : coalesce_prev m (p0 + HDR_SIZE + s0) = m := by
      unfold coalesce_prev; simp [hmc, hmp, flag]
    rw [hcn]
    exact ⟨hseg, by simpa [endAddr] using hend, fun _ _ => rfl⟩
  | true =>
    have hmp2 : m p0 = ⟨HEAP_MAGIC, s0, 1, p0 + HDR_SIZE + s0, pp⟩ := by
      rw [hmp]; simp [nxt, hne, flag]
    have hsz : (s0 + HDR_SIZE + S) % 4294967296 = s0 + HDR_SIZE + S := by
      apply Nat.mod_eq_of_lt
      simp only [HDR_SIZE] at hle hend ⊢; omega
    have hadd : p0 + HDR_SIZE + (s0 + HDR_SIZE + S) = p0 + HDR_SIZE + s0 + HDR_SIZE + S := by
      omega
    simp only [if_true]
    by_cases hlast : p0 + HDR_SIZE + s0 + HDR_SIZE + S = e
    · have hp2 : P = [] := endAddr_eq_nil _ _ (by rw [hend, hlast])
      subst hp2
      have hmc2 : m (p0 + HDR_SIZE + s0) = ⟨HEAP_MAGIC, S, 1, 0, p0⟩ := by
        rw [hmc]; simp [nxt, hlast, flag]
      have hcn : coalesce_prev m (p0 + HDR_SIZE + s0) =
          setHdr (setHdr m p0 ⟨HEAP_MAGIC, s0 + HDR_SIZE + S, 1, p0 + HDR_SIZE + s0, pp⟩) p0
            ⟨HEAP_MAGIC, s0 + HDR_SIZE + S, 1, 0, pp⟩ := by
        unfold coalesce_prev
        simp [hmc2, hmp2, hp00, setHdr_same, setHdr_ne _ _ _ _ hcp, hsz]
      rw [hcn]
      refine ⟨?_, by simp only [endAddr]; rw [hadd]; exact hend, ?_⟩
      · simp only [Seg, and_true, setHdr_same]
        simp [hadd, hlast, nxt, flag]
      · intro x hx
        rw [setHdr_ne _ _ _ _ (by omega), setHdr_ne _ _ _ _ (by omega)]
    · have hn2 : p0 + HDR_SIZE + s0 + HDR_SIZE + S ≠ 0 := by simp only [HDR_SIZE]; omega
      have hn2p : p0 + HDR_SIZE + s0 + HDR_SIZE + S ≠ p0 := by simp only [HDR_SIZE]; omega
      have hmc2 : m (p0 + HDR_SIZE + s0) =
          ⟨HEAP_MAGIC, S, 1, p0 + HDR_SIZE + s0 + HDR_SIZE + S, p0⟩ := by
        rw [hmc]; simp [nxt, hlast, flag]
      have hcn : coalesce_prev m (p0 + HDR_SIZE + s0) =
          setHdr (setHdr (setHdr m p0 ⟨HEAP_MAGIC, s0 + HDR_SIZE + S, 1, p0 + HDR_SIZE + s0, pp⟩)
            p0 ⟨HEAP_MAGIC, s0 + HDR_SIZE + S, 1, p0 + HDR_SIZE + s0 + HDR_SIZE + S, pp⟩)
            (p0 + HDR_SIZE + s0 + HDR_SIZE + S)
            { m (p0 + HDR_SIZE + s0 + HDR_SIZE + S) with prev := p0 } := by
        unfold coalesce_prev
        simp [hmc2, hmp2, hp00, hn2, setHdr_same, setHdr_ne _ _ _ _ hcp,
          setHdr_ne _ _ _ _ hn2p, hsz]
      rw [hcn]
      refine ⟨⟨?_, ?_⟩, by simp only [endAddr]; rw [hadd]; exact hend, ?_⟩
      · rw [setHdr_ne _ _ _ _ hn2p.symm, setHdr_same]
        simp [hadd, hlast, nxt, flag]
      · rw [hadd]
        apply Seg_set_prev _ _ _ _ _ _ _ _ _ hseg.2.2
        · intro x hx1 _
          rw [setHdr_ne _ _ _ _ (by omega), setHdr_ne _ _ _ _ (by omega),
            setHdr_ne _ _ _ _ (by omega)]
        · intro _
          rw [setHdr_same]
      · intro x hx
        rw [setHdr_ne _ _ _ _ (by omega), setHdr_ne _ _ _ _ (by omega),
          setHdr_ne _ _ _ _ (by omega)]

/-! ### Heap: neighbouring free blocks -/

theorem naf_parts (pre post : List (Nat × Bool)) (x : Nat × Bool)
    (h : NoAdjFree (pre ++ x :: post)) :
    NoAdjFree pre ∧ NoAdjFree post ∧
      (x.2 = true → (∀ l ∈ pre.getLast?, l.2 = false) ∧ (∀ y ∈ post.head?, y.2 = false)) := by
  unfold NoAdjFree at *
  rw [List.chain'_append, List.chain'_cons'] at h
  obtain ⟨h1, ⟨h2, h3⟩, h4⟩ := h
  refine ⟨h1, h3, fun hx => ⟨?_, ?_⟩⟩
  · intro l hl
    have := h4 l hl x (by simp)
    cases hb : l.2
    · rfl
    · exact absurd ⟨hb, hx⟩ this
  · intro y hy
    have := h2 y hy
    cases hb : y.2
    · rfl
    · exact absurd ⟨hx, hb⟩ this

theorem naf_build (pre post : List (Nat × Bool)) (x : Nat × Bool)
    (h1 : NoAdjFree pre) (h2 : NoAdjFree post)
    (h3 : x.2 = true → (∀ l ∈ pre.getLast?, l.2 = false) ∧ (∀ y ∈ post.head?, y.2 = false)) :
    NoAdjFree (pre ++ x :: post) := by
  unfold NoAdjFree at *
  rw [List.chain'_append, List.chain'_cons']
  refine ⟨h1, ⟨?_, h2⟩, ?_⟩
  · intro y hy ⟨hx, hyf⟩
    rw [(h3 hx).2 y hy] at hyf
    cases hyf
  · intro l hl y hy ⟨hlf, hyf⟩
    simp only [List.head?_cons, Option.mem_def, Option.some.injEq] at hy
    subst hy
    rw [(h3 hyf).1 l hl] at hlf
    cases hlf

theorem naf_tail (x : Nat × Bool) (r : List (Nat × Bool)) (h : NoAdjFree (x :: r)) :
    NoAdjFree r := by
  unfold NoAdjFree at *
  exact (List.chain'_cons'.mp h).2

theorem naf_init (pre : List (Nat × Bool)) (x : Nat × Bool) (h : NoAdjFree (pre ++ [x])) :
    NoAdjFree pre := (naf_parts pre [] x h).1


theorem mergeNext_alloc (c s : Nat) (post : List (Nat × Bool)) :
    allocPtrs c (((mergeNext s post).1, true) :: (mergeNext s post).2) =
      allocPtrs (c + HDR_SIZE + s) post := by
  cases post with
  | nil => simp [mergeNext, allocPtrs]
  | cons b r =>
    cases hb : b.2
    · simp [mergeNext, allocPtrs, hb]
    · have : c + HDR_SIZE + (s + HDR_SIZE + b.1) = c + HDR_SIZE + s + HDR_SIZE + b.1 := by omega
      simp [mergeNext, allocPtrs, hb, this]

theorem mergeNext_naf (s : Nat) (post : List (Nat × Bool)) (h : NoAdjFree post) :
    NoAdjFree (mergeNext s post).2 ∧ ∀ y ∈ (mergeNext s post).2.head?, y.2 = false := by
  cases post with
  | nil => exact ⟨h, by intro y hy; cases hy⟩
  | cons b r =>
    cases hb : b.2
    · simp only [mergeNext, hb, Bool.false_eq_true, if_false]
      refine ⟨h, ?_⟩
      intro y hy
      simp only [List.head?_cons, Option.mem_def, Option.some.injEq] at hy
      rw [← hy]; exact hb
    · simp only [mergeNext, hb, if_true]
      exact ⟨naf_tail _ _ h, ((naf_parts [] r b h).2.2 hb).2⟩

theorem heap_start_pos : 0 < HEAP_START := by decide

theorem kfree_wf (h : Heap) (pre post : List (Nat × Bool)) (s : Nat)
    (hwf : HeapWF h (pre ++ (s, false) :: post)) :
    ∃ bs, HeapWF (kfree h (endAddr HEAP_START pre + HDR_SIZE)) bs ∧
      (kfree h (endAddr HEAP_START pre + HDR_SIZE)).heap_brk = h.heap_brk ∧
      allocPtrs HEAP_START bs =
        allocPtrs HEAP_START pre ++ allocPtrs (endAddr HEAP_START pre + HDR_SIZE + s) post := by
  obtain ⟨hhead, hseg, hfin, _, hbrk, hnaf⟩ := hwf
  have hsp := heap_start_pos
  have hcge := le_endAddr HEAP_START pre
  rw [endAddr_append] at hfin
  rw [Seg_append] at hseg
  obtain ⟨hsegpre, hsegc⟩ := hseg
  obtain ⟨hnpre, hnpost, _⟩ := naf_parts _ _ _ hnaf
  have hpreS : ∀ m2 : Nat → block_header_t, (∀ x, x < endAddr HEAP_START pre → m2 x = h.hdr x) →
      Seg m2 h.heap_brk 0 HEAP_START pre :=
    fun m2 hm => Seg_congr _ _ _ _ _ _ (fun x _ hx => hm x hx) hsegpre
  have hcases : pre = [] ∧ lastAddr 0 HEAP_START pre = 0 ∨
      ∃ pre2 s0 f0, pre = pre2 ++ [(s0, f0)] ∧
        lastAddr 0 HEAP_START pre = endAddr HEAP_START pre2 ∧
        endAddr HEAP_START pre = endAddr HEAP_START pre2 + HDR_SIZE + s0 := by
    rcases List.eq_nil_or_concat pre with hnil | ⟨pre2, b0, hcat⟩
    · left; exact ⟨hnil, by rw [hnil]; rfl⟩
    · right
      rw [List.concat_eq_append] at hcat
      refine ⟨pre2, b0.1, b0.2, hcat, ?_, ?_⟩
      · rw [hcat, lastAddr_append]; rfl
      · rw [hcat, endAddr_append]; rfl
  have hallocpre : ∀ X : List (Nat × Bool), allocPtrs HEAP_START (pre ++ X) =
      allocPtrs HEAP_START pre ++ allocPtrs (endAddr HEAP_START pre) X :=
    fun X => allocPtrs_append _ _ _
  generalize hcE : endAddr HEAP_START pre = c at *
  generalize hpcE : lastAddr 0 HEAP_START pre = pc at *
  have hle := le_endAddr (c + HDR_SIZE + s) post
  have hfin0 := hfin
  simp only [endAddr] at hfin
  have hmc := hsegc.1
  simp only at hmc
  have hhd : (c + HDR_SIZE + 2 ^ 32 - HDR_SIZE) % 2 ^ 32 = c := by
    have : c + HDR_SIZE + 2 ^ 32 - HDR_SIZE = c + 2 ^ 32 := by omega
    rw [this, Nat.add_mod_right]
    apply Nat.mod_eq_of_lt
    simp only [HDR_SIZE] at hle hfin; omega
  have hptr0 : c + HDR_SIZE ≠ 0 := by simp only [HDR_SIZE]; omega
  have hkh : (kfree h (c + HDR_SIZE)).hdr =
      coalesce_prev (coalesce_next (setHdr h.hdr c { h.hdr c with free := 1 }) c) c := by
    unfold kfree
    simp only [hptr0, if_false, hhd, hmc, ne_eq, not_true_eq_false, coalesce]
  have hkb : (kfree h (c + HDR_SIZE)).heap_brk = h.heap_brk := by
    unfold kfree
    simp only [hptr0, if_false, hhd, hmc, ne_eq, not_true_eq_false]
  have hkd : (kfree h (c + HDR_SIZE)).heap_head = h.heap_head := by
    unfold kfree
    simp only [hptr0, if_false, hhd, hmc, ne_eq, not_true_eq_false]
  generalize hm1 : setHdr h.hdr c { h.hdr c with free := 1 } = m1 at hkh
  have hm1c : m1 c = { h.hdr c with free := 1 } := by rw [← hm1, setHdr_same]
  have hm1o : ∀ x, x ≠ c → m1 x = h.hdr x := fun x hx => by rw [← hm1, setHdr_ne _ _ _ _ hx]
  have hseg1 : Seg m1 h.heap_brk pc c ((s, true) :: post) := by
    refine ⟨?_, ?_⟩
    · rw [hm1c, hmc]; simp [flag]
    · apply Seg_congr _ _ _ _ _ _ _ hsegc.2
      intro x hx _
      exact hm1o x (by simp only [HDR_SIZE] at hx; omega)
  obtain ⟨hs2, he2, hun2⟩ := coalesce_next_seg _ _ _ _ _ _ hseg1 hfin0 hbrk (by omega)
  generalize coalesce_next m1 c = m2 at *
  have hm2o : ∀ x, x < c → m2 x = h.hdr x := fun x hx => by
    rw [hun2 x hx, hm1o x (by omega)]
  have hpre2 := hpreS m2 hm2o
  obtain ⟨hnP, hheadP⟩ := mergeNext_naf s post hnpost
  have hal := mergeNext_alloc c s post
  rcases hcases with ⟨hnil, hpc0⟩ | ⟨pre2, s0, f0, hcat, hpcdef, hcdef⟩
  · have hprev := congrArg block_header_t.prev hs2.1
    simp only [hpc0] at hprev
    refine ⟨pre ++ ((mergeNext s post).1, true) :: (mergeNext s post).2,
      ⟨hkd.trans hhead, ?_, ?_, by simp, by rw [hkb]; exact hbrk, ?_⟩,
      hkb, by rw [hallocpre, hal]⟩
    · rw [hkh, hkb, coalesce_prev_first _ _ hprev, Seg_append, hcE, hpcE]
      exact ⟨hpre2, hs2⟩
    · rw [hkb, endAddr_append, hcE]; exact he2
    · exact naf_build pre _ (_, true) hnpre hnP (fun _ => ⟨by rw [hnil]; simp, hheadP⟩)
  · subst hcdef hpcdef
    have hp0 := le_endAddr HEAP_START pre2
    have hb0 : m2 (endAddr HEAP_START pre2) =
        { magic := HEAP_MAGIC, size := s0, free := flag f0,
          next := nxt h.heap_brk (endAddr HEAP_START pre2 + HDR_SIZE + s0),
          prev := lastAddr 0 HEAP_START pre2 } := by
      have := hpre2
      rw [hcat, Seg_append] at this
      exact this.2.1
    have hpre3 : Seg m2 h.heap_brk 0 HEAP_START pre2 := by
      have := hpre2
      rw [hcat, Seg_append] at this
      exact this.1
    have hcomp : Seg m2 h.heap_brk (lastAddr 0 HEAP_START pre2) (endAddr HEAP_START pre2)
        ((s0, f0) :: ((mergeNext s post).1, true) :: (mergeNext s post).2) :=
      ⟨hb0, hs2⟩
    have hend3 : endAddr (endAddr HEAP_START pre2)
        ((s0, f0) :: ((mergeNext s post).1, true) :: (mergeNext s post).2) = h.heap_brk := by
      simpa [endAddr] using he2
    obtain ⟨hs4, he4, hun4⟩ := coalesce_prev_seg _ _ _ _ _ _ _ _ hcomp hend3 hbrk (by omega)
    have hpre4 := Seg_congr _ _ _ _ _ _ (fun x _ hx => hun4 x hx) hpre3
    have hnpre2 : NoAdjFree (pre2 ++ [(s0, f0)]) := by rw [← hcat]; exact hnpre
    refine ⟨pre2 ++ (if f0 = true then
        (s0 + HDR_SIZE + (mergeNext s post).1, true) :: (mergeNext s post).2
        else (s0, f0) :: ((mergeNext s post).1, true) :: (mergeNext s post).2),
      ⟨hkd.trans hhead, ?_, ?_, ?_, by rw [hkb]; exact hbrk, ?_⟩, hkb, ?_⟩
    · rw [hkh, hkb, Seg_append]
      exact ⟨hpre4, hs4⟩
    · rw [endAddr_append, hkb]; exact he4
    · cases f0 <;> simp
    · cases f0 with
      | false =>
        simp only [Bool.false_eq_true, if_false]
        exact naf_build pre2 _ (s0, false) (naf_init _ _ hnpre2)
          (naf_build [] _ (_, true) List.chain'_nil hnP (fun _ => ⟨by simp, hheadP⟩))
          (fun hh => by cases hh)
      | true =>
        simp only [if_true]
        exact naf_build pre2 _ (_, true) (naf_init _ _ hnpre2) hnP
          (fun _ => ⟨((naf_parts pre2 [] (s0, true) hnpre2).2.2 rfl).1, hheadP⟩)
    · rw [allocPtrs_append, hcat, allocPtrs_append]
      cases f0 with
      | false =>
        simp only [Bool.false_eq_true, if_false]
        have e1 : allocPtrs (endAddr HEAP_START pre2)
            ((s0, false) :: ((mergeNext s post).1, true) :: (mergeNext s post).2) =
            (endAddr HEAP_START pre2 + HDR_SIZE) ::
              allocPtrs (endAddr HEAP_START pre2 + HDR_SIZE + s0)
                (((mergeNext s post).1, true) :: (mergeNext s post).2) := by
          simp [allocPtrs]
        rw [e1, hal]
        simp [allocPtrs]
      | true =>
        simp only [if_true]
        have e1 : allocPtrs (endAddr HEAP_START pre2)
            ((s0 + HDR_SIZE + (mergeNext s post).1, true) :: (mergeNext s post).2) =
            allocPtrs (endAddr HEAP_START pre2 + HDR_SIZE + s0)
                (((mergeNext s post).1, true) :: (mergeNext s post).2) := by
          have : endAddr HEAP_START pre2 + HDR_SIZE + (s0 + HDR_SIZE + (mergeNext s post).1) =
              endAddr HEAP_START pre2 + HDR_SIZE + s0 + HDR_SIZE + (mergeNext s post).1 := by
            omega
          simp [allocPtrs, this]
        rw [e1, hal]
        simp [allocPtrs]


theorem alloc_block_wf (h : Heap) (pre post : List (Nat × Bool)) (s size : Nat)
    (hwf : HeapWF h (pre ++ (s, true) :: post)) (hsz : size ≤ s) :
    ∃ bs, HeapWF (alloc_block h (endAddr HEAP_START pre) size).1 bs ∧
      (alloc_block h (endAddr HEAP_START pre) size).2 = endAddr HEAP_START pre + HDR_SIZE ∧
      (alloc_block h (endAddr HEAP_START pre) size).1.heap_brk = h.heap_brk ∧
      allocPtrs HEAP_START bs =
        allocPtrs HEAP_START pre ++ (endAddr HEAP_START pre + HDR_SIZE) ::
          allocPtrs (endAddr HEAP_START pre + HDR_SIZE + s) post := by
  obtain ⟨hhead, hseg, hfin, _, hbrk, hnaf⟩ := hwf
  have hsp := heap_start_pos
  have hH : HDR_SIZE = 20 := rfl
  have hS : HEAP_START = 16777216 := rfl
  have hcge := le_endAddr HEAP_START pre
  rw [endAddr_append] at hfin
  rw [Seg_append] at hseg
  obtain ⟨hsegpre, hsegc⟩ := hseg
  obtain ⟨hnpre, hnpost, hnx⟩ := naf_parts _ _ _ hnaf
  obtain ⟨hlastpre, hheadpost⟩ := hnx rfl
  have hpreS : ∀ m2 : Nat → block_header_t, (∀ x, x < endAddr HEAP_START pre → m2 x = h.hdr x) →
      Seg m2 h.heap_brk 0 HEAP_START pre :=
    fun m2 hm => Seg_congr _ _ _ _ _ _ (fun x _ hx => hm x hx) hsegpre
  have hle := le_endAddr (endAddr HEAP_START pre + HDR_SIZE + s) post
  simp only [endAddr] at hfin
  have hmc := hsegc.1
  simp only at hmc
  have hptr : (endAddr HEAP_START pre + HDR_SIZE) % 4294967296 =
      endAddr HEAP_START pre + HDR_SIZE := by
    simp only [HDR_SIZE] at hle hfin ⊢; omega
  by_cases hsplit : size + HDR_SIZE + 8 ≤ s
  · -- the block is split
    have hs1 : (size + HDR_SIZE + 8) % 4294967296 = size + HDR_SIZE + 8 := by
      simp only [HDR_SIZE] at hle hfin hsplit ⊢; omega
    have hs2 : (endAddr HEAP_START pre + HDR_SIZE + size) % 4294967296 =
        endAddr HEAP_START pre + HDR_SIZE + size := by
      simp only [HDR_SIZE] at hle hfin hsplit ⊢; omega
    have hs3 : (s + 8589934592 - size - HDR_SIZE) % 4294967296 = s - size - HDR_SIZE := by
      simp only [HDR_SIZE] at hle hfin hsplit ⊢; omega
    have hadd : endAddr HEAP_START pre + HDR_SIZE + size + HDR_SIZE + (s - size - HDR_SIZE) =
        endAddr HEAP_START pre + HDR_SIZE + s := by
      simp only [HDR_SIZE] at hsplit ⊢; omega
    generalize hcE : endAddr HEAP_START pre = c at *
    generalize hpcE : lastAddr 0 HEAP_START pre = pc at *
    have hspc : c + HDR_SIZE + size ≠ c := by simp only [HDR_SIZE]; omega
    have hnc : c + HDR_SIZE + s ≠ c := by simp only [HDR_SIZE]; omega
    have hnsp : c + HDR_SIZE + s ≠ c + HDR_SIZE + size := by simp only [HDR_SIZE] at hsplit ⊢; omega
    have hspe : c + HDR_SIZE + size ≠ h.heap_brk := by simp only [HDR_SIZE] at hle hfin hsplit ⊢; omega
    have hres : ∃ m5, (alloc_block h c size).1.hdr = m5 ∧
        m5 c = ⟨HEAP_MAGIC, size, 0, c + HDR_SIZE + size, pc⟩ ∧
        m5 (c + HDR_SIZE + size) =
          ⟨HEAP_MAGIC, s - size - HDR_SIZE, 1, nxt h.heap_brk (c + HDR_SIZE + s), c⟩ ∧
        (c + HDR_SIZE + s ≠ h.heap_brk → m5 (c + HDR_SIZE + s) =
          { h.hdr (c + HDR_SIZE + s) with prev := c + HDR_SIZE + size }) ∧
        (∀ x, x ≠ c → x ≠ c + HDR_SIZE + size → x ≠ c + HDR_SIZE + s → m5 x = h.hdr x) := by
      have hn0 : c + HDR_SIZE + s ≠ 0 := by omega
      by_cases hl : c + HDR_SIZE + s = h.heap_brk
      · refine ⟨_, rfl, ?_, ?_, ?_, ?_⟩
        · simp [alloc_block, setHdr, hs1, hsplit, hs2, hs3, hmc, hspc, hspc.symm, nxt, hl]
        · simp [alloc_block, setHdr, hs1, hsplit, hs2, hs3, hmc, hspc, hspc.symm, nxt, hl]
        · intro hl2; exact absurd hl hl2
        · intro x hx1 hx2 hx3
          simp [alloc_block, setHdr, hs1, hsplit, hs2, hs3, hmc, hspc, hspc.symm, nxt, hl,
            hx1, hx2]
      · refine ⟨_, rfl, ?_, ?_, ?_, ?_⟩
        · simp [alloc_block, setHdr, hs1, hsplit, hs2, hs3, hmc, hspc, hspc.symm, nxt, hl, hn0,
            hnc, hnc.symm, hnsp, hnsp.symm]
        · simp [alloc_block, setHdr, hs1, hsplit, hs2, hs3, hmc, hspc, hspc.symm, nxt, hl, hn0,
            hnc, hnc.symm, hnsp, hnsp.symm]
        · intro _
          simp [alloc_block, setHdr, hs1, hsplit, hs2, hs3, hmc, hspc, hspc.symm, nxt, hl, hn0,
            hnc, hnc.symm, hnsp, hnsp.symm]
        · intro x hx1 hx2 hx3
          simp [alloc_block, setHdr, hs1, hsplit, hs2, hs3, hmc, hspc, hspc.symm, nxt, hl, hn0,
            hnc, hnc.symm, hnsp, hnsp.symm, hx1, hx2, hx3]
    obtain ⟨m5, hm5, h5c, h5s, h5n, h5o⟩ := hres
    have hbrk2 : (alloc_block h c size).1.heap_brk = h.heap_brk := rfl
    have hhead2 : (alloc_block h c size).1.heap_head = h.heap_head := rfl
    refine ⟨pre ++ (size, false) :: (s - size - HDR_SIZE, true) :: post,
      ⟨hhead2.trans hhead, ?_, ?_, by simp, by rw [hbrk2]; exact hbrk, ?_⟩, ?_, hbrk2, ?_⟩
    · rw [hm5, hbrk2, Seg_append, hcE, hpcE]
      refine ⟨hpreS m5 (fun x hx => h5o x (by omega) (by omega) (by omega)), ?_, ?_, ?_⟩
      · rw [h5c]; simp [flag, nxt, hspe]
      · rw [h5s]; simp [flag, hadd]
      · show Seg m5 h.heap_brk (c + HDR_SIZE + size)
          (c + HDR_SIZE + size + HDR_SIZE + (s - size - HDR_SIZE)) post
        rw [hadd]
        apply Seg_set_prev _ _ _ _ _ _ _ _ _ hsegc.2
        · intro x hx _
          exact h5o x (by omega) (by omega) (by omega)
        · intro hpne
          apply h5n
          have := lt_endAddr (c + HDR_SIZE + s) post hpne
          simp only [HDR_SIZE] at this hfin ⊢; omega
    · rw [hbrk2, endAddr_append, hcE]
      simp only [endAddr]
      rw [hadd]; exact hfin
    · exact naf_build pre _ (_, false) hnpre
        (naf_build [] _ (_, true) List.chain'_nil hnpost (fun _ => ⟨by simp, hheadpost⟩))
        (fun hh => by cases hh)
    · simp [alloc_block, hptr]
    · rw [allocPtrs_append, hcE]
      simp [allocPtrs, hadd]
  · -- the block is handed out whole
    have hs1 : ¬ ((size + HDR_SIZE + 8) % 4294967296 ≤ s) := by
      omega
    generalize hcE : endAddr HEAP_START pre = c at *
    generalize hpcE : lastAddr 0 HEAP_START pre = pc at *
    have hres : (alloc_block h c size).1.hdr = setHdr h.hdr c { h.hdr c with free := 0 } := by
      simp [alloc_block, hmc, hs1]
    have hbrk2 : (alloc_block h c size).1.heap_brk = h.heap_brk := rfl
    have hhead2 : (alloc_block h c size).1.heap_head = h.heap_head := rfl
    refine ⟨pre ++ (s, false) :: post,
      ⟨hhead2.trans hhead, ?_, ?_, by simp, by rw [hbrk2]; exact hbrk, ?_⟩, ?_, hbrk2, ?_⟩
    · rw [hres, hbrk2, Seg_append, hcE, hpcE]
      refine ⟨hpreS _ (fun x hx => setHdr_ne _ _ _ _ (by omega)), ?_, ?_⟩
      · rw [setHdr_same, hmc]; simp [flag]
      · apply Seg_congr _ _ _ _ _ _ _ hsegc.2
        intro x hx _
        exact setHdr_ne _ _ _ _ (by simp only [HDR_SIZE] at hx; omega)
    · rw [hbrk2, endAddr_append, hcE]
      simp only [endAddr]
      exact hfin
    · exact naf_build pre _ (_, false) hnpre hnpost (fun hh => by cases hh)
    · simp [alloc_block, hptr]
    · rw [allocPtrs_append, hcE]
      simp [allocPtrs]


/-! ### Heap: rounding, and growing the arena -/

theorem and_high_mask (x k : Nat) (hx : x < 2 ^ 32) :
    x &&& (0xFFFFFFFF ^^^ (2 ^ k - 1)) = x - x % 2 ^ k := by
  apply Nat.eq_of_testBit_eq
  intro i
  have h1 : (0xFFFFFFFF : Nat) = 2 ^ 32 - 1 := by norm_num
  have h2 : x - x % 2 ^ k = 2 ^ k * (x / 2 ^ k) := by
    have := Nat.div_add_mod x (2 ^ k)
    omega
  rw [h2, Nat.testBit_and, Nat.testBit_xor, h1, Nat.testBit_two_pow_sub_one,
    Nat.testBit_two_pow_sub_one, Nat.testBit_mul_pow_two, ← Nat.shiftRight_eq_div_pow,
    Nat.testBit_shiftRight]
  by_cases h32 : i < 32
  · by_cases hik : i < k
    · have : ¬ (k ≤ i) := by omega
      simp [hik, this, h32]
    · have hki : k ≤ i := by omega
      have e : k + (i - k) = i := by omega
      simp [hik, hki, h32, e]
  · have : x.testBit i = false := by
      apply Nat.testBit_lt_two_pow
      calc x < 2 ^ 32 := hx
        _ ≤ 2 ^ i := Nat.pow_le_pow_right (by norm_num) (by omega)
    by_cases hki : k ≤ i
    · have e : k + (i - k) = i := by omega
      simp [hki, e, this]
    · simp [hki, this]

theorem align8_eq (x : Nat) (hx : x + 7 < 2 ^ 32) : align8 x = (x + 7) - (x + 7) % 8 := by
  unfold align8
  rw [Nat.mod_eq_of_lt hx]
  exact and_high_mask (x + 7) 3 hx

theorem page_round_eq (x : Nat) (hx : x + 4095 < 2 ^ 32) :
    ((x + PAGE_SIZE - 1) % 2 ^ 32) &&& (0xFFFFFFFF ^^^ (PAGE_SIZE - 1)) =
      (x + 4095) - (x + 4095) % 4096 := by
  have e1 : x + PAGE_SIZE - 1 = x + 4095 := by simp [PAGE_SIZE]
  rw [e1, Nat.mod_eq_of_lt hx]
  exact and_high_mask (x + 4095) 12 hx

theorem length_le_endAddr (a : Nat) (bs : List (Nat × Bool)) :
    a + HDR_SIZE * bs.length ≤ endAddr a bs := by
  induction bs generalizing a with
  | nil => simp [endAddr]
  | cons b r ih =>
    have := ih (a + HDR_SIZE + b.1)
    simp only [endAddr, List.length_cons, HDR_SIZE] at this ⊢
    omega

theorem find_last_seg (m : Nat → block_header_t) (e : Nat) :
    ∀ (bs : List (Nat × Bool)) (prev a fuel : Nat), Seg m e prev a bs → endAddr a bs = e →
      bs ≠ [] → 0 < a → bs.length ≤ fuel → find_last m fuel a = some (lastAddr prev a bs) := by
  have hH : HDR_SIZE = 20 := rfl
  intro bs
  induction bs with
  | nil => intro _ _ _ _ _ h; exact absurd rfl h
  | cons b r ih =>
    intro prev a fuel hs he _ ha hf
    obtain ⟨f, rfl⟩ : ∃ f, fuel = f + 1 := ⟨fuel - 1, by simp at hf; omega⟩
    have hma := hs.1
    simp only [endAddr] at he
    cases r with
    | nil =>
      simp only [endAddr] at he
      simp [find_last, hma, nxt, he, lastAddr]
    | cons b2 r2 =>
      have hlt := lt_endAddr (a + HDR_SIZE + b.1) (b2 :: r2) (by simp)
      have hne : a + HDR_SIZE + b.1 ≠ e := by omega
      have hn0 : a + HDR_SIZE + b.1 ≠ 0 := by omega
      have := ih a (a + HDR_SIZE + b.1) f hs.2 he (by simp) (by omega)
        (by simp at hf ⊢; omega)
      simp only [find_last, hma, nxt, hne, if_false, ne_eq, hn0, not_false_eq_true, if_true]
      rw [this]
      rfl

theorem Seg_relink_last (m m2 : Nat → block_header_t) (e e2 : Nat) :
    ∀ (bs : List (Nat × Bool)) (prev a : Nat), Seg m e prev a bs → endAddr a bs = e →
      bs ≠ [] → e < e2 →
      (∀ x, a ≤ x → x < e → x ≠ lastAddr prev a bs → m2 x = m x) →
      m2 (lastAddr prev a bs) = { m (lastAddr prev a bs) with next := e } →
      Seg m2 e2 prev a bs := by
  have hH : HDR_SIZE = 20 := rfl
  intro bs
  induction bs with
  | nil => intro _ _ _ _ h; exact absurd rfl h
  | cons b r ih =>
    intro prev a hs he _ hee hm hL
    have hma := hs.1
    simp only [endAddr] at he
    cases r with
    | nil =>
      simp only [endAddr] at he
      simp only [lastAddr] at hL
      refine ⟨?_, trivial⟩
      rw [hL, hma]
      have : e ≠ e2 := by omega
      simp [nxt, he, this]
    | cons b2 r2 =>
      have hlt := lt_endAddr (a + HDR_SIZE + b.1) (b2 :: r2) (by simp)
      have hLge := (lastAddr_ge a (a + HDR_SIZE + b.1) (b2 :: r2) (by simp)).1
      have hLeq : lastAddr prev a (b :: b2 :: r2) =
          lastAddr a (a + HDR_SIZE + b.1) (b2 :: r2) := rfl
      refine ⟨?_, ?_⟩
      · rw [hm a (le_refl _) (by omega)
          (by rw [hLeq]; omega), hma]
        have h1 : a + HDR_SIZE + b.1 ≠ e := by omega
        have h2 : a + HDR_SIZE + b.1 ≠ e2 := by omega
        simp [nxt, h1, h2]
      · apply ih a (a + HDR_SIZE + b.1) hs.2 he (by simp) hee
        · intro x hx1 hx2 hx3
          exact hm x (by omega) hx2 (by rw [hLeq]; exact hx3)
        · rw [← hLeq]; exact hL

theorem coalesce_next_last (m : Nat → block_header_t) (c : Nat) (h : (m c).next = 0) :
    coalesce_next m c = m := by
  unfold coalesce_next; simp [h]

theorem fitAddr_ne_zero (size a : Nat) (bs : List (Nat × Bool)) (ha : 0 < a)
    (h : ∃ b ∈ bs, b.2 = true ∧ size ≤ b.1) : fitAddr size a bs ≠ 0 := by
  intro h0
  obtain ⟨b, hb, hfit⟩ := h
  exact fitAddr_zero size a bs ha h0 b hb hfit


theorem kmalloc_grow_eq (h : Heap) (size fuel : Nat) (hb : h.heap_brk + size + 8211 < 2 ^ 32) :
    ∃ needed, size + 4116 ≤ needed ∧ needed ≤ size + 8211 ∧
      kmalloc_grow fuel h size =
        match find_last (setHdr h.hdr h.heap_brk ⟨HEAP_MAGIC, needed - HDR_SIZE, 1, 0, 0⟩)
            fuel h.heap_head with
        | none => none
        | some last =>
          some { h with
            heap_brk := h.heap_brk + needed,
            hdr := coalesce
              (setHdr
                (setHdr (setHdr h.hdr h.heap_brk ⟨HEAP_MAGIC, needed - HDR_SIZE, 1, 0, 0⟩) last
                  { setHdr h.hdr h.heap_brk ⟨HEAP_MAGIC, needed - HDR_SIZE, 1, 0, 0⟩ last with
                    next := h.heap_brk })
                h.heap_brk
                { setHdr (setHdr h.hdr h.heap_brk ⟨HEAP_MAGIC, needed - HDR_SIZE, 1, 0, 0⟩) last
                    { setHdr h.hdr h.heap_brk ⟨HEAP_MAGIC, needed - HDR_SIZE, 1, 0, 0⟩ last with
                      next := h.heap_brk } h.heap_brk with prev := last })
              h.heap_brk } := by
  refine ⟨(size + 4116 + 4095) - (size + 4116 + 4095) % 4096, by omega, by omega, ?_⟩
  have e1 : (size + HDR_SIZE + PAGE_SIZE) % 2 ^ 32 = size + 4116 := by
    simp only [HDR_SIZE, PAGE_SIZE]; omega
  have e2 := page_round_eq (size + 4116) (by omega)
  generalize (size + 4116 + 4095) - (size + 4116 + 4095) % 4096 = needed at *
  have hn1 : size + 4116 ≤ needed ∧ needed ≤ size + 8211 := by
    have := page_round_eq (size + 4116) (by omega)
    rw [e2] at this
    omega
  have e3 : (h.heap_brk + needed) % 2 ^ 32 = h.heap_brk + needed := by
    apply Nat.mod_eq_of_lt; omega
  have e4 : (h.heap_brk + needed + 2 * 2 ^ 32 - h.heap_brk - HDR_SIZE) % 2 ^ 32 =
      needed - HDR_SIZE := by
    simp only [HDR_SIZE]; omega
  unfold kmalloc_grow heap_expand
  simp only [e1, e2, e3, e4]


theorem kmalloc_grow_wf (h : Heap) (bs : List (Nat × Bool)) (hwf : HeapWF h bs)
    (size fuel : Nat) (hfuel : bs.length ≤ fuel) (hb : h.heap_brk + size + 8211 < 2 ^ 32) :
    ∃ h2 bs2, kmalloc_grow fuel h size = some h2 ∧ HeapWF h2 bs2 ∧
      allocPtrs HEAP_START bs2 = allocPtrs HEAP_START bs ∧
      bs2.length ≤ bs.length + 1 ∧
      (∃ b ∈ bs2, b.2 = true ∧ size ≤ b.1) ∧
      h2.heap_brk ≤ h.heap_brk + size + 8211 := by
  have hH : HDR_SIZE = 20 := rfl
  have hS : HEAP_START = 16777216 := rfl
  obtain ⟨hhead, hseg, hfin, hne, hbrk, hnaf⟩ := hwf
  obtain ⟨needed, hn1, hn2, hgrow⟩ := kmalloc_grow_eq h size fuel hb
  obtain ⟨pre2, b0, hcat⟩ : ∃ pre2 b0, bs = pre2 ++ [b0] := by
    rcases List.eq_nil_or_concat bs with hnil | ⟨pre2, b0, hcat⟩
    · exact absurd hnil hne
    · exact ⟨pre2, b0, by rw [hcat, List.concat_eq_append]⟩
  obtain ⟨sL, fL⟩ := b0
  have hLdef : lastAddr 0 HEAP_START bs = endAddr HEAP_START pre2 := by
    rw [hcat, lastAddr_append]; rfl
  have hedef : endAddr HEAP_START pre2 + HDR_SIZE + sL = h.heap_brk := by
    rw [← hfin, hcat, endAddr_append]; rfl
  have hLge := le_endAddr HEAP_START pre2
  generalize hLE : endAddr HEAP_START pre2 = L at *
  generalize hmE : setHdr h.hdr h.heap_brk ⟨HEAP_MAGIC, needed - HDR_SIZE, 1, 0, 0⟩ = m1 at hgrow
  have hm1e : m1 h.heap_brk = ⟨HEAP_MAGIC, needed - HDR_SIZE, 1, 0, 0⟩ := by
    rw [← hmE, setHdr_same]
  have hm1o : ∀ x, x ≠ h.heap_brk → m1 x = h.hdr x := fun x hx => by
    rw [← hmE, setHdr_ne _ _ _ _ hx]
  have hseg1 : Seg m1 h.heap_brk 0 HEAP_START bs := by
    apply Seg_congr _ _ _ _ _ _ _ hseg
    intro x _ hx
    exact hm1o x (by rw [hfin] at hx; omega)
  have hfl : find_last m1 fuel h.heap_head = some L := by
    rw [hhead, find_last_seg m1 h.heap_brk bs 0 HEAP_START fuel hseg1 hfin hne (by omega) hfuel,
      hLdef]
  rw [hfl] at hgrow
  simp only at hgrow
  have hLe : L ≠ h.heap_brk := by omega
  generalize hm3E : setHdr (setHdr m1 L { m1 L with next := h.heap_brk }) h.heap_brk
      { setHdr m1 L { m1 L with next := h.heap_brk } h.heap_brk with prev := L } = m3 at hgrow
  have hm3e : m3 h.heap_brk = ⟨HEAP_MAGIC, needed - HDR_SIZE, 1, 0, L⟩ := by
    rw [← hm3E, setHdr_same, setHdr_ne _ _ _ _ hLe.symm, hm1e]
  have hm3L : m3 L = { h.hdr L with next := h.heap_brk } := by
    rw [← hm3E, setHdr_ne _ _ _ _ hLe, setHdr_same, hm1o L hLe]
  have hm3o : ∀ x, x ≠ h.heap_brk → x ≠ L → m3 x = h.hdr x := fun x hx1 hx2 => by
    rw [← hm3E, setHdr_ne _ _ _ _ hx1, setHdr_ne _ _ _ _ hx2, hm1o x hx1]
  have hseg3 : Seg m3 (h.heap_brk + needed) 0 HEAP_START bs := by
    apply Seg_relink_last h.hdr m3 h.heap_brk (h.heap_brk + needed) bs 0 HEAP_START hseg hfin hne
      (by omega)
    · intro x _ hx1 hx2
      rw [hLdef] at hx2
      exact hm3o x (by omega) hx2
    · rw [hLdef]; exact hm3L
  have hcn : coalesce m3 h.heap_brk = coalesce_prev m3 h.heap_brk := by
    unfold coalesce
    rw [coalesce_next_last m3 h.heap_brk (by rw [hm3e])]
  rw [hcn] at hgrow
  rw [hcat, Seg_append, hLE] at hseg3
  obtain ⟨hpre3, hb3⟩ := hseg3
  have hpcL : lastAddr 0 HEAP_START pre2 = lastAddr 0 HEAP_START pre2 := rfl
  have hcomp : Seg m3 (h.heap_brk + needed) (lastAddr 0 HEAP_START pre2) L
      ((sL, fL) :: [(needed - HDR_SIZE, true)]) := by
    refine ⟨hb3.1, ?_, trivial⟩
    show m3 (L + HDR_SIZE + sL) = _
    rw [hedef, hm3e]
    have : h.heap_brk + HDR_SIZE + (needed - HDR_SIZE) = h.heap_brk + needed := by omega
    simp [flag, nxt, this]
  have hend3 : endAddr L ((sL, fL) :: [(needed - HDR_SIZE, true)]) = h.heap_brk + needed := by
    simp only [endAddr]
    omega
  obtain ⟨hs4, he4, hun4⟩ := coalesce_prev_seg _ _ _ _ _ _ _ _ hcomp hend3 (by omega) (by omega)
  rw [hedef] at hs4 hun4
  have hpre4 := Seg_congr _ _ _ _ _ _ (fun x _ hx => hun4 x (by rw [hLE] at hx; exact hx)) hpre3
  have hnaf2 : NoAdjFree (pre2 ++ [(sL, fL)]) := by rw [← hcat]; exact hnaf
  refine ⟨_, pre2 ++ (if fL = true then [(sL + HDR_SIZE + (needed - HDR_SIZE), true)]
      else (sL, fL) :: [(needed - HDR_SIZE, true)]), hgrow,
    ⟨hhead, ?_, ?_, ?_, ?_, ?_⟩, ?_, ?_, ?_, ?_⟩
  · show Seg (coalesce_prev m3 h.heap_brk) (h.heap_brk + needed) 0 HEAP_START _
    rw [Seg_append, hLE]
    exact ⟨hpre4, hs4⟩
  · show endAddr HEAP_START _ = h.heap_brk + needed
    rw [endAddr_append, hLE]; exact he4
  · cases fL <;> simp
  · show h.heap_brk + needed < 2 ^ 32
    omega
  · cases fL with
    | false =>
      simp only [Bool.false_eq_true, if_false]
      exact naf_build pre2 _ (sL, false) (naf_init _ _ hnaf2)
        (List.chain'_singleton _) (fun hh => by cases hh)
    | true =>
      simp only [if_true]
      exact naf_build pre2 [] (_, true) (naf_init _ _ hnaf2) List.chain'_nil
        (fun _ => ⟨((naf_parts pre2 [] (sL, true) hnaf2).2.2 rfl).1, by simp⟩)
  · rw [hcat, allocPtrs_append, allocPtrs_append]
    cases fL <;> simp [allocPtrs]
  · rw [hcat]
    cases fL <;> simp
  · cases fL with
    | false =>
      exact ⟨(needed - HDR_SIZE, true), by simp, rfl, by simp only; omega⟩
    | true =>
      exact ⟨(sL + HDR_SIZE + (needed - HDR_SIZE), true), by simp, rfl, by simp only; omega⟩
  · show h.heap_brk + needed ≤ _
    omega


theorem align8_bounds (x : Nat) (hx : x + 7 < 2 ^ 32) :
    x ≤ align8 x ∧ align8 x ≤ x + 7 ∧ align8 x % 8 = 0 := by
  rw [align8_eq x hx]
  omega

theorem align8_idem (x : Nat) (hx : x + 14 < 2 ^ 32) : align8 (align8 x) = align8 x := by
  have h1 := align8_bounds x (by omega)
  rw [align8_eq (align8 x) (by omega)]
  omega

theorem heap_start_lt_brk (h : Heap) (bs : List (Nat × Bool)) (hwf : HeapWF h bs) :
    HEAP_START + HDR_SIZE ≤ h.heap_brk := by
  rw [← hwf.fin]
  exact lt_endAddr _ _ hwf.ne

theorem kmalloc_fit_wf (h : Heap) (bs : List (Nat × Bool)) (hwf : HeapWF h bs)
    (size0 f : Nat) (hs0 : size0 ≠ 0) (hfuel : bs.length < f + 1)
    (hfit : fitAddr (align8 size0) HEAP_START bs ≠ 0) :
    ∃ h2 p bs2, kmalloc_fuel (f + 1) h size0 = some (h2, p) ∧ HeapWF h2 bs2 ∧ p ≠ 0 ∧
      p ∉ allocPtrs HEAP_START bs ∧
      (∀ q, q ∈ allocPtrs HEAP_START bs2 ↔ q = p ∨ q ∈ allocPtrs HEAP_START bs) ∧
      h2.heap_brk = h.heap_brk := by
  have hH : HDR_SIZE = 20 := rfl
  have hS : HEAP_START = 16777216 := rfl
  have hlt := heap_start_lt_brk h bs hwf
  have hnx : nxt h.heap_brk HEAP_START = HEAP_START := by
    unfold nxt; rw [if_neg]; omega
  have hff : find_fit h.hdr (align8 size0) (f + 1) h.heap_head =
      some (fitAddr (align8 size0) HEAP_START bs) := by
    have := find_fit_seg h.hdr h.heap_brk (align8 size0) bs 0 HEAP_START (f + 1) hwf.seg hwf.fin
      (by omega) hfuel
    rw [hnx] at this
    rw [hwf.head]; exact this
  obtain ⟨pre, s, post, hbs, hsz, hfa, _⟩ := fitAddr_pos _ _ _ hfit
  have hk : kmalloc_fuel (f + 1) h size0 =
      some (alloc_block h (endAddr HEAP_START pre) (align8 size0)) := by
    simp only [kmalloc_fuel, hs0, if_false, hff]
    rw [hfa] at hfit ⊢
    simp [hfit]
  subst hbs
  obtain ⟨bs2, hwf2, hp, hbrk2, hal⟩ := alloc_block_wf h pre post s (align8 size0) hwf hsz
  have hcge := le_endAddr HEAP_START pre
  have hk2 : kmalloc_fuel (f + 1) h size0 =
      some ((alloc_block h (endAddr HEAP_START pre) (align8 size0)).1,
        endAddr HEAP_START pre + HDR_SIZE) := by
    rw [hk, ← hp]
  refine ⟨_, endAddr HEAP_START pre + HDR_SIZE, bs2, hk2, hwf2, ?_, ?_, ?_, hbrk2⟩
  · omega
  · rw [allocPtrs_append]
    intro hmem
    rcases List.mem_append.mp hmem with h1 | h1
    · have := (allocPtrs_bounds _ _ _ h1).2
      omega
    · have : allocPtrs (endAddr HEAP_START pre) ((s, true) :: post) =
          allocPtrs (endAddr HEAP_START pre + HDR_SIZE + s) post := by simp [allocPtrs]
      rw [this] at h1
      have := (allocPtrs_bounds _ _ _ h1).1
      omega
  · intro q
    rw [hal, allocPtrs_append]
    have : allocPtrs (endAddr HEAP_START pre) ((s, true) :: post) =
        allocPtrs (endAddr HEAP_START pre + HDR_SIZE + s) post := by simp [allocPtrs]
    rw [this]
    simp only [List.mem_append, List.mem_cons]
    tauto

theorem kmalloc_fuel_wf (h : Heap) (bs : List (Nat × Bool)) (hwf : HeapWF h bs)
    (size0 fuel : Nat) (hs0 : size0 ≠ 0) (hfuel : bs.length + 3 ≤ fuel)
    (hb : h.heap_brk + size0 + 2 * PAGE_SIZE + HDR_SIZE + 8 ≤ 2 ^ 32) :
    ∃ h2 p bs2, kmalloc_fuel fuel h size0 = some (h2, p) ∧ HeapWF h2 bs2 ∧ p ≠ 0 ∧
      p ∉ allocPtrs HEAP_START bs ∧
      (∀ q, q ∈ allocPtrs HEAP_START bs2 ↔ q = p ∨ q ∈ allocPtrs HEAP_START bs) ∧
      h2.heap_brk ≤ h.heap_brk + size0 + 2 * PAGE_SIZE + HDR_SIZE + 8 := by
  have hH : HDR_SIZE = 20 := rfl
  have hP : PAGE_SIZE = 4096 := rfl
  have hS : HEAP_START = 16777216 := rfl
  have hlt := heap_start_lt_brk h bs hwf
  obtain ⟨f, rfl⟩ : ∃ f, fuel = f + 1 := ⟨fuel - 1, by omega⟩
  have ha := align8_bounds size0 (by omega)
  by_cases hfit : fitAddr (align8 size0) HEAP_START bs = 0
  · -- no block fits: the arena grows and the call is repeated
    have hnx : nxt h.heap_brk HEAP_START = HEAP_START := by
      unfold nxt; rw [if_neg]; omega
    have hff : find_fit h.hdr (align8 size0) (f + 1) h.heap_head = some 0 := by
      have := find_fit_seg h.hdr h.heap_brk (align8 size0) bs 0 HEAP_START (f + 1) hwf.seg
        hwf.fin (by omega) (by omega)
      rw [hnx, hfit] at this
      rw [hwf.head]; exact this
    obtain ⟨h2, bs2, hg, hwf2, hal2, hlen2, hfit2, hbrk2⟩ :=
      kmalloc_grow_wf h bs hwf (align8 size0) (f + 1) (by omega) (by omega)
    obtain ⟨f2, rfl⟩ : ∃ f2, f = f2 + 1 := ⟨f - 1, by omega⟩
    have hk : kmalloc_fuel (f2 + 1 + 1) h size0 = kmalloc_fuel (f2 + 1) h2 (align8 size0) := by
      rw [kmalloc_fuel]
      simp only [hs0, if_false, hff, hg, ne_eq, not_true_eq_false]
    have hs1 : align8 size0 ≠ 0 := by omega
    have hid := align8_idem size0 (by omega)
    obtain ⟨h3, p, bs3, hk3, hwf3, hp0, hpn, hiff, hbrk3⟩ :=
      kmalloc_fit_wf h2 bs2 hwf2 (align8 size0) f2 hs1 (by omega)
        (by rw [hid]; exact fitAddr_ne_zero _ _ _ (by omega) hfit2)
    refine ⟨h3, p, bs3, by rw [hk, hk3], hwf3, hp0, by rw [← hal2]; exact hpn, ?_, ?_⟩
    · intro q; rw [hiff q, hal2]
    · rw [hbrk3]; omega
  · obtain ⟨h3, p, bs3, hk3, hwf3, hp0, hpn, hiff, hbrk3⟩ :=
      kmalloc_fit_wf h bs hwf size0 f hs0 (by omega) hfit
    exact ⟨h3, p, bs3, hk3, hwf3, hp0, hpn, hiff, by rw [hbrk3]; omega⟩


/-! ### Heap: the round trip -/

theorem heap_init_wf (hdr0 : Nat → block_header_t) (mem0 : Nat → Nat) :
    HeapWF (heap_init hdr0 mem0) [(PAGE_SIZE - HDR_SIZE, true)] := by
  have hb : (heap_init hdr0 mem0).heap_brk = HEAP_START + PAGE_SIZE := by
    show (HEAP_START + (((PAGE_SIZE + PAGE_SIZE - 1) % 2 ^ 32) &&&
      (0xFFFFFFFF ^^^ (PAGE_SIZE - 1)))) % 2 ^ 32 = _
    decide
  refine ⟨rfl, ?_, ?_, by simp, ?_, List.chain'_singleton _⟩
  · refine ⟨?_, trivial⟩
    rw [hb]
    have : (heap_init hdr0 mem0).hdr HEAP_START =
        { magic := HEAP_MAGIC, size := PAGE_SIZE - HDR_SIZE, free := 1, next := 0, prev := 0 } := by
      simp [heap_init, setHdr, heap_expand]
    rw [this]
    simp [flag, nxt, HEAP_START, PAGE_SIZE, HDR_SIZE]
  · rw [hb]; simp [endAddr, HEAP_START, PAGE_SIZE, HDR_SIZE]
  · rw [hb]; decide

theorem allocPtrs_mem_split (a q : Nat) (bs : List (Nat × Bool)) (h : q ∈ allocPtrs a bs) :
    ∃ pre s post, bs = pre ++ (s, false) :: post ∧ q = endAddr a pre + HDR_SIZE := by
  induction bs generalizing a with
  | nil => cases h
  | cons b r ih =>
    obtain ⟨s0, f0⟩ := b
    cases f0 with
    | false =>
      simp only [allocPtrs, Bool.false_eq_true, if_false, List.mem_cons] at h
      rcases h with rfl | h
      · exact ⟨[], s0, r, rfl, rfl⟩
      · obtain ⟨pre, s, post, e1, e2⟩ := ih _ h
        exact ⟨(s0, false) :: pre, s, post, by rw [e1]; rfl, by rw [e2]; rfl⟩
    | true =>
      simp only [allocPtrs, if_true] at h
      obtain ⟨pre, s, post, e1, e2⟩ := ih _ h
      exact ⟨(s0, true) :: pre, s, post, by rw [e1]; rfl, by rw [e2]; rfl⟩

theorem allocPtrs_nil (a : Nat) (bs : List (Nat × Bool)) (h : allocPtrs a bs = []) :
    ∀ b ∈ bs, b.2 = true := by
  induction bs generalizing a with
  | nil => intro b hb; cases hb
  | cons b r ih =>
    cases hb : b.2
    · simp [allocPtrs, hb] at h
    · simp only [allocPtrs, hb, if_true] at h
      intro x hx
      rcases List.mem_cons.mp hx with rfl | hx
      · exact hb
      · exact ih _ h x hx

theorem naf_all_free (bs : List (Nat × Bool)) (hn : NoAdjFree bs)
    (hf : ∀ b ∈ bs, b.2 = true) (hne : bs ≠ []) : ∃ s, bs = [(s, true)] := by
  cases bs with
  | nil => exact absurd rfl hne
  | cons b r =>
    cases r with
    | nil =>
      refine ⟨b.1, ?_⟩
      have := hf b (by simp)
      rw [← this]
    | cons b2 r2 =>
      exfalso
      unfold NoAdjFree at hn
      rw [List.chain'_cons] at hn
      exact hn.1 ⟨hf b (by simp), hf b2 (by simp)⟩

theorem heap_fuel_succ : HEAP_FUEL = (2 ^ 32 - 1) + 1 := by decide

theorem heapInv_step (s : HeapTrace) (hinv : HeapInv s) (op : HeapOp)
    (hok : heapLifetimes s [op] = true) :
    ∃ s2, s.step op = some s2 ∧ HeapInv s2 := by
  have hH : HDR_SIZE = 20 := rfl
  have hS : HEAP_START = 16777216 := rfl
  obtain ⟨bs, hwf, hnd, hiff⟩ := hinv
  cases op with
  | alloc size =>
    have hb : s.heap.heap_brk + size + 2 * PAGE_SIZE + HDR_SIZE + 8 ≤ 2 ^ 32 := by
      simp only [heapLifetimes, Bool.and_eq_true, decide_eq_true_eq] at hok
      exact hok.1
    by_cases hs0 : size = 0
    · subst hs0
      refine ⟨s, ?_, bs, hwf, hnd, hiff⟩
      simp [HeapTrace.step, kmalloc, heap_fuel_succ, kmalloc_fuel]
    · have hlen := length_le_endAddr HEAP_START bs
      rw [hwf.fin, hH] at hlen
      have hbrk := hwf.brk_lt
      obtain ⟨h2, p, bs2, hk, hwf2, hp0, hpn, hiff2, _⟩ :=
        kmalloc_fuel_wf s.heap bs hwf size HEAP_FUEL hs0
          (by simp only [HEAP_FUEL]; omega) hb
      refine ⟨{ heap := h2, outstanding := p :: s.outstanding }, ?_, bs2, hwf2, ?_, ?_⟩
      · simp [HeapTrace.step, kmalloc, hk, hp0]
      · exact List.nodup_cons.mpr ⟨fun hm => hpn ((hiff p).mp hm), hnd⟩
      · intro q
        simp only [List.mem_cons, hiff2 q, hiff q]
  | free p =>
    have hp : p ∈ s.outstanding := by
      simp only [heapLifetimes, Bool.and_eq_true, decide_eq_true_eq] at hok
      exact hok.1
    obtain ⟨pre, sz, post, hbs, hpe⟩ := allocPtrs_mem_split _ _ _ ((hiff p).mp hp)
    subst hbs hpe
    obtain ⟨bs2, hwf2, _, hal⟩ := kfree_wf s.heap pre post sz hwf
    refine ⟨_, rfl, bs2, hwf2, hnd.erase _, ?_⟩
    intro q
    show q ∈ s.outstanding.erase _ ↔ _
    rw [hnd.mem_erase_iff, hiff q, hal, allocPtrs_append]
    have e1 : allocPtrs (endAddr HEAP_START pre) ((sz, false) :: post) =
        (endAddr HEAP_START pre + HDR_SIZE) ::
          allocPtrs (endAddr HEAP_START pre + HDR_SIZE + sz) post := by simp [allocPtrs]
    rw [e1]
    simp only [List.mem_append, List.mem_cons]
    constructor
    · rintro ⟨hne, h1 | h1 | h1⟩
      · exact Or.inl h1
      · exact absurd h1 hne
      · exact Or.inr h1
    · rintro (h1 | h1)
      · have := (allocPtrs_bounds _ _ _ h1).2
        exact ⟨by omega, Or.inl h1⟩
      · have := (allocPtrs_bounds _ _ _ h1).1
        exact ⟨by omega, Or.inr (Or.inr h1)⟩

theorem heapInv_run (ops : List HeapOp) :
    ∀ s : HeapTrace, HeapInv s → heapLifetimes s ops = true →
      ∃ s2, heapRunFrom s ops = some s2 ∧ HeapInv s2 := by
  induction ops with
  | nil => intro s h _; exact ⟨s, rfl, h⟩
  | cons op ops ih =>
    intro s hinv hl
    have hok : heapLifetimes s [op] = true := by
      cases op <;>
        simp only [heapLifetimes, Bool.and_eq_true, decide_eq_true_eq] at hl ⊢ <;>
        refine ⟨hl.1, ?_⟩ <;> split <;> rfl
    obtain ⟨s1, hs1, hinv1⟩ := heapInv_step s hinv op hok
    have hl1 : heapLifetimes s1 ops = true := by
      cases op <;>
        simp only [heapLifetimes, Bool.and_eq_true, decide_eq_true_eq, hs1] at hl <;>
        exact hl.2
    obtain ⟨s2, hs2, hinv2⟩ := ih s1 hinv1 hl1
    exact ⟨s2, by simp [heapRunFrom, hs1, hs2], hinv2⟩

/-- C4: starting from `heap_init`, every sequence of `kmalloc` and `kfree`
calls that respects lifetimes (each `kfree` on a pointer returned by an
earlier `kmalloc` and not freed since, each `kmalloc` with room left below
the top of the 32-bit address space) runs to completion, and whenever no
pointer is outstanding at its end the block list is a single free block:
`heap_head` is `HEAP_START`, its header carries the magic word, is free,
has no successor and no predecessor, and its size is
`(heap_brk - HEAP_START) - sizeof(block_header_t)`. -/
theorem C4_heap_round_trip (hdr0 : Nat → block_header_t) (mem0 : Nat → Nat)
    (ops : List HeapOp)
    (hl : heapLifetimes { heap := heap_init hdr0 mem0, outstanding := [] } ops = true) :
    ∃ s, heapRun hdr0 mem0 ops = some s ∧
      (s.outstanding = [] →
        s.heap.heap_head = HEAP_START ∧
        s.heap.hdr s.heap.heap_head =
          { magic := HEAP_MAGIC, size := s.heap.heap_brk - HEAP_START - HDR_SIZE,
            free := 1, next := 0, prev := 0 }) := by
  have hinit : HeapInv { heap := heap_init hdr0 mem0, outstanding := [] } :=
    ⟨_, heap_init_wf hdr0 mem0, List.nodup_nil, fun q => by simp [allocPtrs]⟩
  obtain ⟨s, hs, bs, hwf, _, hiff⟩ := heapInv_run ops _ hinit hl
  refine ⟨s, hs, fun hout => ?_⟩
  have hnil : allocPtrs HEAP_START bs = [] := by
    apply List.eq_nil_iff_forall_not_mem.mpr
    intro q hq
    have := (hiff q).mpr hq
    rw [hout] at this
    cases this
  obtain ⟨sz, hbs⟩ := naf_all_free bs hwf.naf (allocPtrs_nil _ _ hnil) hwf.ne
  subst hbs
  have hfin := hwf.fin
  simp only [endAddr] at hfin
  have hseg := hwf.seg.1
  refine ⟨hwf.head, ?_⟩
  rw [hwf.head, hseg]
  have e1 : s.heap.heap_brk - HEAP_START - HDR_SIZE = sz := by omega
  simp [flag, nxt, hfin, e1]

/-- C4, on a run: three allocations of 100 bytes, one of 5000 bytes (which
grows the arena), and the four pointers freed in another order. -/
theorem C4_heap_round_trip_witness :
    heapLifetimes { heap := heap_init (fun _ => ⟨0, 0, 0, 0, 0⟩) (fun _ => 0), outstanding := [] }
        [HeapOp.alloc 100, HeapOp.alloc 100, HeapOp.alloc 100, HeapOp.alloc 5000,
         HeapOp.free 16777360, HeapOp.free 16777236, HeapOp.free 16777608,
         HeapOp.free 16777484] = true ∧
    ∃ s, heapRun (fun _ => ⟨0, 0, 0, 0, 0⟩) (fun _ => 0)
        [HeapOp.alloc 100, HeapOp.alloc 100, HeapOp.alloc 100, HeapOp.alloc 5000,
         HeapOp.free 16777360, HeapOp.free 16777236, HeapOp.free 16777608,
         HeapOp.free 16777484] = some s ∧
      (s.outstanding = [] →
        s.heap.heap_head = HEAP_START ∧
        s.heap.hdr s.heap.heap_head =
          { magic := HEAP_MAGIC, size := s.heap.heap_brk - HEAP_START - HDR_SIZE,
            free := 1, next := 0, prev := 0 }) :=
  ⟨by decide, C4_heap_round_trip (fun _ => ⟨0, 0, 0, 0, 0⟩) (fun _ => 0) _ (by decide)⟩


/-! ### Path lookup -/

theorem take_part_length (p : List Char) : (take_part p).2.length ≤ p.length := by
  induction p with
  | nil => simp [take_part]
  | cons c cs ih =>
    by_cases h : c = '/'
    · simp [take_part, h]
    · simp only [take_part, h, if_false, List.length_cons]
      omega

theorem take_part_length_lt (p : List Char) (h : p ≠ []) :
    (take_part p).2.length < p.length := by
  cases p with
  | nil => exact absurd rfl h
  | cons c cs =>
    by_cases hc : c = '/'
    · simp [take_part, hc]
    · have := take_part_length cs
      simp only [take_part, hc, if_false, List.length_cons]
      omega

theorem take_part_no_slash (p : List Char) (h : '/' ∉ p) : (take_part p).2 = [] := by
  induction p with
  | nil => rfl
  | cons c cs ih =>
    have hc : c ≠ '/' := fun e => h (by simp [e])
    have hcs : '/' ∉ cs := fun e => h (List.mem_cons_of_mem _ e)
    simp [take_part, hc, ih hcs]

theorem splitSlash_ne_nil (p : List Char) : splitSlash p ≠ [] := by
  cases p with
  | nil => simp [splitSlash]
  | cons c cs =>
    by_cases hc : c = '/'
    · simp [splitSlash, hc]
    · simp only [splitSlash, hc, if_false]
      split <;> simp

theorem splitSlash_step (p : List Char) :
    splitSlash p =
      (take_part p).1 :: (if '/' ∈ p then splitSlash (take_part p).2 else []) := by
  induction p with
  | nil => simp [splitSlash, take_part]
  | cons c cs ih =>
    by_cases hc : c = '/'
    · simp [splitSlash, take_part, hc]
    · have hc2 : ¬ ('/' = c) := fun e => hc e.symm
      simp only [splitSlash, take_part, hc, if_false, List.mem_cons, hc2, false_or]
      rw [ih]

theorem comps_nil : comps [] = [] := by
  simp [comps, splitSlash, realComp]

theorem comps_step (p : List Char) :
    comps p = (if realComp (take_part p).1 = true then [(take_part p).1] else []) ++
      comps (take_part p).2 := by
  unfold comps
  rw [splitSlash_step p]
  by_cases hs : '/' ∈ p
  · simp only [hs, if_true, List.filter_cons]
    split <;> simp
  · have hr := take_part_no_slash p hs
    simp only [hs, if_false, hr, List.filter_cons, List.filter_nil]
    have hn : List.filter realComp (splitSlash []) = [] := comps_nil
    rw [hn, List.append_nil]

theorem lookup_loop_eq (fs : Fs) :
    ∀ (fuel node : Nat) (path : List Char), path.length < fuel →
      lookup_loop fs fuel node path = walkComps fs node (comps path) := by
  intro fuel
  induction fuel with
  | zero => intro _ _ h; omega
  | succ f ih =>
    intro node path hlen
    by_cases hp : path = []
    · subst hp
      simp [lookup_loop, comps_nil, walkComps]
    · have hlt := take_part_length_lt path hp
      have hrec : ∀ n, lookup_loop fs f n (take_part path).2 =
          walkComps fs n (comps (take_part path).2) := fun n => ih n _ (by omega)
      rw [comps_step path]
      simp only [lookup_loop, hp, if_false]
      by_cases h1 : (take_part path).1 = []
      · simp [h1, realComp, hrec]
      · by_cases h2 : (take_part path).1 = ['.']
        · simp [h2, realComp, hrec]
        · by_cases h3 : (take_part path).1 = ['.', '.']
          · simp [h3, realComp, hrec]
          · have hreal : realComp (take_part path).1 = true := by
              simp [realComp, h1, h2, h3]
            simp only [h1, h2, h3, if_false, hreal, if_true, List.singleton_append, walkComps,
              hrec]

theorem comps_slash (p : List Char) : comps ('/' :: p) = comps p := by
  simp [comps, splitSlash, realComp]

theorem vfs_lookup_eq (fs : Fs) (p : List Char) :
    vfs_lookup fs p = if fs.vfs_root = 0 then 0 else walkComps fs fs.vfs_root (comps p) := by
  unfold vfs_lookup
  by_cases hr : fs.vfs_root = 0
  · simp [hr]
  · simp only [hr, if_false]
    split
    · rename_i r
      rw [lookup_loop_eq fs _ _ _ (by omega), comps_slash]
    · rw [lookup_loop_eq fs _ _ _ (by omega)]

theorem splitSlash_no_slash (p : List Char) : ∀ c ∈ splitSlash p, '/' ∉ c := by
  induction p with
  | nil => simp [splitSlash]
  | cons a cs ih =>
    by_cases ha : a = '/'
    · intro c hc
      simp only [splitSlash, ha, if_true, List.mem_cons] at hc
      rcases hc with rfl | hc
      · simp
      · exact ih c hc
    · intro c hc
      simp only [splitSlash, ha, if_false] at hc
      cases hsp : splitSlash cs with
      | nil => exact absurd hsp (splitSlash_ne_nil cs)
      | cons h t =>
        rw [hsp] at hc ih
        simp only [List.mem_cons] at hc
        rcases hc with rfl | hc
        · intro hm
          rcases List.mem_cons.mp hm with e | hm
          · exact ha e.symm
          · exact ih h (by simp) hm
        · exact ih c (by simp [hc])

theorem splitSlash_single (c : List Char) (h : '/' ∉ c) : splitSlash c = [c] := by
  rw [splitSlash_step, if_neg h]
  induction c with
  | nil => rfl
  | cons a cs ih =>
    have ha : a ≠ '/' := fun e => h (by simp [e])
    have hcs : '/' ∉ cs := fun e => h (List.mem_cons_of_mem _ e)
    have := ih hcs
    simp only [List.cons.injEq, and_true] at this
    simp [take_part, ha, this]

theorem splitSlash_append (c x : List Char) (h : '/' ∉ c) :
    splitSlash (c ++ '/' :: x) = c :: splitSlash x := by
  induction c with
  | nil => simp [splitSlash]
  | cons a cs ih =>
    have ha : a ≠ '/' := fun e => h (by simp [e])
    have hcs : '/' ∉ cs := fun e => h (List.mem_cons_of_mem _ e)
    simp [splitSlash, ha, ih hcs]

theorem comps_joinSlash (cs : List (List Char))
    (h : ∀ c ∈ cs, '/' ∉ c ∧ realComp c = true) : comps (joinSlash cs) = cs := by
  induction cs with
  | nil => simp [joinSlash, comps_nil]
  | cons c r ih =>
    have hc := h c (by simp)
    cases r with
    | nil =>
      simp [joinSlash, comps, splitSlash_single c hc.1, hc.2]
    | cons d r2 =>
      have := ih (fun x hx => h x (List.mem_cons_of_mem _ hx))
      unfold comps at this ⊢
      simp only [joinSlash, splitSlash_append c _ hc.1, List.filter_cons, hc.2, if_true, this]

theorem comps_spec (p : List Char) : ∀ c ∈ comps p, '/' ∉ c ∧ realComp c = true := by
  intro c hc
  unfold comps at hc
  rw [List.mem_filter] at hc
  exact ⟨splitSlash_no_slash p c hc.1, hc.2⟩

theorem comps_canonicalize (p : List Char) : comps (canonicalize p) = comps p := by
  unfold canonicalize
  split
  · rw [comps_slash, comps_joinSlash _ (comps_spec _)]
  · rw [comps_joinSlash _ (comps_spec _)]

/-- C9: for every path `p` whose components are shorter than `VFS_NAME_LEN`,
`vfs_lookup` gives the same vnode for `p` and for `p` with its empty, `.`
and `..` components removed; more generally two such paths with the same
sequence of remaining components resolve to the same vnode. -/
theorem C9_lookup_canonical (fs : Fs) (p : List Char)
    (hp : ∀ c ∈ splitSlash p, c.length < VFS_NAME_LEN) :
    vfs_lookup fs (canonicalize p) = vfs_lookup fs p ∧
    (∀ c ∈ splitSlash (canonicalize p), c.length < VFS_NAME_LEN) ∧
    ∀ q : List Char, (∀ c ∈ splitSlash q, c.length < VFS_NAME_LEN) → comps q = comps p →
      vfs_lookup fs q = vfs_lookup fs p := by
  refine ⟨by rw [vfs_lookup_eq, vfs_lookup_eq, comps_canonicalize], ?_, ?_⟩
  · intro c hc
    by_cases hreal : realComp c = true
    · have hmem : c ∈ comps (canonicalize p) := List.mem_filter.mpr ⟨hc, hreal⟩
      rw [comps_canonicalize] at hmem
      exact hp c (List.mem_filter.mp hmem).1
    · have hcases : c = [] ∨ c = ['.'] ∨ c = ['.', '.'] := by
        simp only [realComp, decide_eq_true_eq] at hreal
        by_cases h1 : c = []
        · exact Or.inl h1
        · by_cases h2 : c = ['.']
          · exact Or.inr (Or.inl h2)
          · by_cases h3 : c = ['.', '.']
            · exact Or.inr (Or.inr h3)
            · exact absurd ⟨h1, h2, h3⟩ hreal
      rcases hcases with rfl | rfl | rfl <;> decide
  · intro q _ hq
    rw [vfs_lookup_eq, vfs_lookup_eq, hq]


/-! ### Files: writing and reading back -/

theorem write_bytes_succ (mem : Nat → Nat) (p n : Nat) (buf : Nat → Nat) :
    write_bytes mem p (n + 1) buf =
      fun a => if a = (p + n) % 2 ^ 32 then buf n else write_bytes mem p n buf a := by
  unfold write_bytes
  rw [List.range_succ, List.foldl_append]
  rfl

theorem write_bytes_get (mem : Nat → Nat) (p : Nat) (buf : Nat → Nat) :
    ∀ n i, i < n → n ≤ 2 ^ 32 → write_bytes mem p n buf ((p + i) % 2 ^ 32) = buf i := by
  intro n
  induction n with
  | zero => intro i h; omega
  | succ n ih =>
    intro i hi hn
    rw [write_bytes_succ]
    by_cases hin : i = n
    · subst hin; simp
    · have hne : (p + i) % 2 ^ 32 ≠ (p + n) % 2 ^ 32 := by omega
      simp only [hne, if_false]
      exact ih i (by omega) (by omega)

theorem read_write_bytes (mem : Nat → Nat) (p n : Nat) (buf : Nat → Nat) (hn : n ≤ 2 ^ 32) :
    read_bytes (write_bytes mem p n buf) p n = (List.range n).map buf := by
  unfold read_bytes
  apply List.map_congr_left
  intro i hi
  exact write_bytes_get mem p buf n i (List.mem_range.mp hi) hn

theorem map_bufOf (d : List Nat) : (List.range d.length).map (bufOf d) = d := by
  apply List.ext_getElem
  · simp
  · intro i h1 h2
    simp [bufOf, List.getD_eq_getElem?_getD, List.getElem?_eq_getElem h2]

theorem krealloc_returns (h : Heap) (bs : List (Nat × Bool)) (hwf : HeapWF h bs)
    (ptr new_size : Nat) (hs0 : new_size ≠ 0)
    (hb : h.heap_brk + new_size + 2 * PAGE_SIZE + HDR_SIZE + 8 ≤ 2 ^ 32) :
    ∃ h2 d, krealloc h ptr new_size = some (h2, d) := by
  have hH : HDR_SIZE = 20 := rfl
  have hlen := length_le_endAddr HEAP_START bs
  rw [hwf.fin, hH] at hlen
  have hbrk := hwf.brk_lt
  obtain ⟨h2, p, bs2, hk, _, hp0, _⟩ :=
    kmalloc_fuel_wf h bs hwf new_size HEAP_FUEL hs0 (by simp only [HEAP_FUEL]; omega) hb
  unfold krealloc
  by_cases hp : ptr = 0
  · simp only [hp, if_true, kmalloc]
    exact ⟨h2, p, hk⟩
  · simp only [hp, if_false]
    split
    · exact ⟨_, _, rfl⟩
    · simp only [kmalloc, hk, hp0, if_false]
      exact ⟨_, _, rfl⟩

theorem toUInt32_of_nonneg (o : Int) (h0 : 0 ≤ o) (h1 : o < 2 ^ 31) :
    toUInt32 o = o.toNat := by
  unfold toUInt32
  rw [Int.emod_eq_of_lt h0 (by omega)]

theorem toInt32_of_lt (n : Nat) (h : n < 2 ^ 31) : toInt32 n = (n : Int) := by
  unfold toInt32
  have : n % 2 ^ 32 = n := Nat.mod_eq_of_lt (by omega)
  rw [this, if_pos h]


theorem ramfs_write_spec (fs : Fs) (v : Nat) (off : Int) (sz : Nat) (buf : Nat → Nat)
    (bs : List (Nat × Bool))
    (htype : (fs.nodes (fs.vnodes v).data).type = VFS_FILE)
    (hwf : HeapWF fs.heap bs) (hsz : sz ≤ 2 ^ 32)
    (hroom : fs.heap.heap_brk + toUInt32 off + sz + 3 * PAGE_SIZE + HDR_SIZE + 8 ≤ 2 ^ 32) :
    ∃ fs2, ramfs_write fs v off sz buf = some (fs2, toInt32 sz) ∧
      fs2.files = fs.files ∧
      (fs2.vnodes v).ops = (fs.vnodes v).ops ∧
      (fs2.vnodes v).data = (fs.vnodes v).data ∧
      (∀ w, (fs2.vnodes w).ops = (fs.vnodes w).ops) ∧
      (fs2.nodes (fs.vnodes v).data).type = VFS_FILE ∧
      toUInt32 off + sz ≤ (fs2.nodes (fs.vnodes v).data).size ∧
      read_bytes fs2.heap.mem
        (((fs2.nodes (fs.vnodes v).data).data + toUInt32 off) % 2 ^ 32) sz =
          (List.range sz).map buf := by
  have hP : PAGE_SIZE = 4096 := rfl
  have hB : RAMFS_BLOCK_SIZE = 4096 := rfl
  have hH : HDR_SIZE = 20 := rfl
  have hneed : (toUInt32 off + sz) % 2 ^ 32 = toUInt32 off + sz := by
    apply Nat.mod_eq_of_lt; omega
  have hcap : (toUInt32 off + sz + RAMFS_BLOCK_SIZE) % 2 ^ 32 =
      toUInt32 off + sz + RAMFS_BLOCK_SIZE := by
    apply Nat.mod_eq_of_lt; omega
  by_cases hc : (fs.nodes (fs.vnodes v).data).capacity < toUInt32 off + sz
  · obtain ⟨h2, d, hk⟩ := krealloc_returns fs.heap bs hwf (fs.nodes (fs.vnodes v).data).data
      (toUInt32 off + sz + RAMFS_BLOCK_SIZE) (by omega) (by omega)
    unfold ramfs_write
    simp only [htype, ne_eq, not_true_eq_false, if_false, hneed, hcap, hc, if_true, hk]
    refine ⟨_, rfl, rfl, ?_, ?_, ?_, ?_, ?_, ?_⟩
    · simp [setVnode]
    · simp [setVnode]
    · intro w
      by_cases hw : w = v
      · subst hw; simp [setVnode]
      · simp [setVnode, hw]
    · simp only [setNode, if_true]
      split <;> rfl
    · simp only [setNode, if_true]
      split
      · exact le_refl _
      · rename_i hh
        dsimp only at hh ⊢
        omega
    · simp only [setNode, if_true]
      split <;> exact read_write_bytes _ _ _ _ hsz
  · unfold ramfs_write
    simp only [htype, ne_eq, not_true_eq_false, if_false, hneed, hcap, hc]
    refine ⟨_, rfl, rfl, ?_, ?_, ?_, ?_, ?_, ?_⟩
    · simp [setVnode]
    · simp [setVnode]
    · intro w
      by_cases hw : w = v
      · subst hw; simp [setVnode]
      · simp [setVnode, hw]
    · simp only [setNode, if_true]
      split
      · rfl
      · exact htype
    · simp only [setNode, if_true]
      split
      · exact le_refl _
      · omega
    · simp only [setNode, if_true]
      split <;> exact read_write_bytes _ _ _ _ hsz

theorem ramfs_read_spec (fs : Fs) (v : Nat) (off : Int) (sz : Nat)
    (htype : (fs.nodes (fs.vnodes v).data).type = VFS_FILE) (hpos : 0 < sz)
    (hsize : toUInt32 off + sz ≤ (fs.nodes (fs.vnodes v).data).size) :
    ramfs_read fs v off sz =
      (toInt32 sz, read_bytes fs.heap.mem
        (((fs.nodes (fs.vnodes v).data).data + toUInt32 off) % 2 ^ 32) sz) := by
  unfold ramfs_read
  have h1 : ¬ ((fs.nodes (fs.vnodes v).data).size ≤ toUInt32 off) := by omega
  have h2 : (if sz < (fs.nodes (fs.vnodes v).data).size - toUInt32 off then sz
      else (fs.nodes (fs.vnodes v).data).size - toUInt32 off) = sz := by
    split <;> omega
  simp only [htype, ne_eq, not_true_eq_false, if_false, h1, h2]


theorem file_seek_set (fs : Fs) (f : Nat) (o : Int) (hf : f ≠ 0) :
    (file_seek fs f o SEEK_SET).1.vnodes = fs.vnodes ∧
    (file_seek fs f o SEEK_SET).1.nodes = fs.nodes ∧
    (file_seek fs f o SEEK_SET).1.heap = fs.heap ∧
    ((file_seek fs f o SEEK_SET).1.files f).vnode = (fs.files f).vnode ∧
    ((file_seek fs f o SEEK_SET).1.files f).offset = o := by
  simp [file_seek, hf, SEEK_SET, setFile]

/-- C10 (as the code has it): for a regular ramfs file open at `f`, every
offset `o` with `0 <= o`, and every byte string `d` of length `n > 0` (`n`
below `2^31`, and room left in the address space for the heap to grow by
`o + n` bytes and three pages): after `file_seek(f, o, SEEK_SET)`,
`file_write(f, d, n)` returns `n`; and after `file_seek(f, o, SEEK_SET)`
again, `file_read(f, buf, n)` returns `n` and fills `buf` with exactly
`d`. -/
theorem C10_write_seek_read (fs : Fs) (f : Nat) (o : Int) (d : List Nat)
    (bs : List (Nat × Bool))
    (hf : f ≠ 0) (hv : (fs.files f).vnode ≠ 0)
    (hops : (fs.vnodes (fs.files f).vnode).ops = some vnode_ops_t.ramfs_ops)
    (htype : (fs.nodes (fs.vnodes (fs.files f).vnode).data).type = VFS_FILE)
    (hwf : HeapWF fs.heap bs)
    (ho0 : 0 ≤ o) (ho1 : o < 2 ^ 31) (hd0 : 0 < d.length) (hd1 : d.length < 2 ^ 31)
    (hroom : fs.heap.heap_brk + o.toNat + d.length + 3 * PAGE_SIZE + HDR_SIZE + 8 ≤ 2 ^ 32) :
    ∃ fs2 fs3,
      file_write (file_seek fs f o SEEK_SET).1 f d.length (bufOf d) =
        some (fs2, (d.length : Int)) ∧
      file_read (file_seek fs2 f o SEEK_SET).1 f d.length =
        some (fs3, (d.length : Int), d) := by
  have huo := toUInt32_of_nonneg o ho0 ho1
  have hti := toInt32_of_lt d.length hd1
  have hpos : (0 : Int) < (d.length : Int) := by exact_mod_cast hd0
  obtain ⟨h1v, h1n, h1h, hvn, hoff⟩ := file_seek_set fs f o hf
  generalize (file_seek fs f o SEEK_SET).1 = fs1 at *
  generalize hvE : (fs.files f).vnode = v at *
  obtain ⟨fsw, hw, hwfiles, hwops, hwdata, _, hwtype, hwsize, hwread⟩ :=
    ramfs_write_spec fs1 v o d.length (bufOf d) bs
      (by rw [h1v, h1n]; exact htype) (by rw [h1h]; exact hwf) (by omega)
      (by rw [h1h, huo]; exact hroom)
  rw [h1v] at hwops hwdata hwtype hwsize hwread
  have hwrite : ∃ fs2, file_write fs1 f d.length (bufOf d) = some (fs2, (d.length : Int)) ∧
      fs2.vnodes = fsw.vnodes ∧ fs2.nodes = fsw.nodes ∧ fs2.heap = fsw.heap ∧
      (fs2.files f).vnode = v := by
    unfold file_write
    simp only [hf, hvn, hv, or_self, if_false, h1v, hops, hoff, hw, hti, hpos, if_true]
    refine ⟨_, rfl, rfl, rfl, rfl, ?_⟩
    simp only [setFile, if_true, hwfiles, hvn]
  obtain ⟨fs2, hwr, h2v, h2n, h2h, h2vn⟩ := hwrite
  have hread : ∃ fs4, file_read (file_seek fs2 f o SEEK_SET).1 f d.length =
      some (fs4, (d.length : Int), d) := by
    obtain ⟨h3v, h3n, h3h, h3vn, h3off⟩ := file_seek_set fs2 f o hf
    generalize (file_seek fs2 f o SEEK_SET).1 = fs3 at *
    rw [h2vn] at h3vn
    rw [h2v] at h3v
    rw [h2n] at h3n
    rw [h2h] at h3h
    have hrd := ramfs_read_spec fs3 v o d.length
      (by rw [h3v, h3n, hwdata]; exact hwtype) hd0
      (by rw [h3v, h3n, hwdata]; exact hwsize)
    rw [h3v, h3n, h3h, hwdata, hwread, map_bufOf, hti] at hrd
    unfold file_read
    simp only [hf, h3vn, hv, or_self, if_false, h3v, hwops, hops, h3off, hrd, hpos, if_true]
    exact ⟨_, rfl⟩
  obtain ⟨fs4, hr⟩ := hread
  exact ⟨fs2, fs4, hwr, hr⟩


theorem tmpOpenFs_heap_wf :
    HeapWF tmpOpenFs.heap [(576, false), (576, false), (576, false), (16, false), (2252, true)] :=
  ⟨by decide, by decide, by decide, by simp, by decide, by simp [NoAdjFree]⟩

/-- C10, on the scenario of the specification: `"/tmp/a"` opened with
`O_CREAT | O_RDWR`, `"hello"` written at offset 0, `lseek` to 0, 5 bytes
read. -/
theorem C10_write_seek_read_witness :
    (tmpOpenFile ≠ 0 ∧ (tmpOpenFs.files tmpOpenFile).vnode ≠ 0 ∧
      (tmpOpenFs.vnodes (tmpOpenFs.files tmpOpenFile).vnode).ops =
        some vnode_ops_t.ramfs_ops ∧
      (tmpOpenFs.nodes (tmpOpenFs.vnodes (tmpOpenFs.files tmpOpenFile).vnode).data).type =
        VFS_FILE) ∧
    ∃ fs2 fs3,
      file_write (file_seek tmpOpenFs tmpOpenFile 0 SEEK_SET).1 tmpOpenFile helloBytes.length
        (bufOf helloBytes) = some (fs2, (helloBytes.length : Int)) ∧
      file_read (file_seek fs2 tmpOpenFile 0 SEEK_SET).1 tmpOpenFile helloBytes.length =
        some (fs3, (helloBytes.length : Int), helloBytes) :=
  ⟨⟨by decide, by decide, by decide, by decide⟩,
   C10_write_seek_read tmpOpenFs tmpOpenFile 0 helloBytes _ (by decide) (by decide) (by decide)
     (by decide) tmpOpenFs_heap_wf (by decide) (by decide) (by decide) (by decide) (by decide)⟩

/-- C10 as stated fails for a negative offset: on `"/tmp/a"` holding
`"hello"`, after `file_seek(f, -5, SEEK_SET)` the call `file_write(f,
"world", 5)` returns 5, and after `file_seek(f, -5, SEEK_SET)` again
`file_read(f, buf, 5)` returns 0 and copies nothing. -/
theorem C10_negative_offset_counterexample :
    negativeOffsetRun = some (5, 0, []) := by
  decide


/-- C9 on `"//tmp/./a/"` in the file system holding `/tmp/a`: the path, its
canonical form `"/tmp/a"` and the file's vnode. -/
theorem C9_lookup_canonical_witness :
    (∀ c ∈ splitSlash messyPath, c.length < VFS_NAME_LEN) ∧
    canonicalize messyPath = ['/', 't', 'm', 'p', '/', 'a'] ∧
    vfs_lookup tmpOpenFs messyPath = (tmpOpenFs.files tmpOpenFile).vnode ∧
    (tmpOpenFs.files tmpOpenFile).vnode ≠ 0 ∧
    vfs_lookup tmpOpenFs (canonicalize messyPath) = vfs_lookup tmpOpenFs messyPath :=
  ⟨by decide, by decide, by decide, by decide,
   (C9_lookup_canonical tmpOpenFs messyPath (by decide)).1⟩


/-! ### Descriptor reference counts -/

/-- C7 fails on runs that start with `sys_open("/tmp/a", O_CREAT | O_RDWR)`
in the idle process, which returns descriptor 0 for a file `f` held by one
slot, with `f->ref = 1` and `f->vnode->ref_count = 1`.  (1) After
`proc_fork` two slots hold `f` (the parent's and the child's slot 0) while
`f->ref` is still 1.  (2) When the parent then calls `sys_close(0)`, the
child's slot 0 still holds `f`, but `f->ref` is 0, the vnode's `ref_count`
is 0 and the heap block of `f` is free.  (3) After `sys_dup2(0, 0)` instead,
which returns 0, slot 0 still holds `f` with `f->ref = 1`, but the vnode's
`ref_count` is 0 and the heap block of `f` is free.  Each report lists the
number of slots holding `f`, `f->ref`, `f->vnode->ref_count` and the `free`
field of the block of `f`. -/
theorem C7_fork_and_dup2_break_refcount :
    openScenario.map (fun r => (r.2, decide (fd_get r.1 0 ≠ 0), fdReport r.1 (fd_get r.1 0))) =
      some (0, true, (1, 1, 1, 0)) ∧
    openScenario.map (fun r => fdReport (r.1.fork 0x200000) (fd_get r.1 0)) =
      some (2, 1, 1, 0) ∧
    openScenario.map (fun r =>
        ((sys_close (r.1.fork 0x200000) 0).2,
         decide (((sys_close (r.1.fork 0x200000) 0).1.kernel.proc_table 1).fds.getD 0 0 =
           fd_get r.1 0),
         fdReport (sys_close (r.1.fork 0x200000) 0).1 (fd_get r.1 0))) =
      some (0, true, (1, 0, 0, 1)) ∧
    openScenario.map (fun r =>
        ((sys_dup2 r.1 0 0).2, decide (fd_get (sys_dup2 r.1 0 0).1 0 = fd_get r.1 0),
         fdReport (sys_dup2 r.1 0 0).1 (fd_get r.1 0))) =
      some (0, true, (1, 1, 0, 1)) := by
  refine ⟨?_, ?_, ?_, ?_⟩ <;> decide


/-! ### Copy-on-write cloning -/

theorem and_bit_eq_zero (x n : Nat) : x &&& 2 ^ n = 0 ↔ x.testBit n = false := by
  rw [Nat.and_two_pow]
  cases h : x.testBit n <;> simp

theorem present_iff (x : Nat) : x &&& PAGE_PRESENT = 0 ↔ x.testBit 0 = false :=
  and_bit_eq_zero x 0

theorem cow_testBit (e k : Nat) (h : e.testBit 0 = true) :
    (cow e).testBit k =
      ((e.testBit k && (decide (k < 32) ^^ decide (1 = k))) || decide (9 = k)) := by
  have hp : ¬ (e &&& PAGE_PRESENT = 0) := by
    rw [present_iff, h]; simp
  have h1 : (0xFFFFFFFF : Nat) = 2 ^ 32 - 1 := by norm_num
  have h2 : PAGE_WRITE = 2 ^ 1 := rfl
  have h3 : PAGE_COW = 2 ^ 9 := rfl
  unfold cow
  rw [if_neg hp, Nat.testBit_lor, Nat.testBit_and, Nat.testBit_xor, h1, h2, h3,
    Nat.testBit_two_pow_sub_one, Nat.testBit_two_pow, Nat.testBit_two_pow]

theorem cow_absent (e : Nat) (h : e.testBit 0 = false) : cow e = e := by
  unfold cow
  rw [if_pos ((present_iff e).mpr h)]

theorem cow_present (e : Nat) : (cow e).testBit 0 = e.testBit 0 := by
  cases h : e.testBit 0
  · rw [cow_absent e h, h]
  · rw [cow_testBit e 0 h, h]; rfl

theorem cow_write (e : Nat) (h : e.testBit 0 = true) : cow e &&& PAGE_WRITE = 0 := by
  rw [show PAGE_WRITE = 2 ^ 1 from rfl, and_bit_eq_zero, cow_testBit e 1 h]
  simp

theorem cow_cow_bit (e : Nat) (h : e.testBit 0 = true) : cow e &&& PAGE_COW ≠ 0 := by
  rw [show PAGE_COW = 2 ^ 9 from rfl, Ne, and_bit_eq_zero, cow_testBit e 9 h]
  simp

theorem addr_mask_testBit (k : Nat) :
    ADDR_MASK.testBit k = (decide (k < 32) && decide (12 ≤ k)) := by
  have h : ADDR_MASK = (2 ^ 32 - 1) ^^^ (2 ^ 12 - 1) := by decide
  rw [h, Nat.testBit_xor, Nat.testBit_two_pow_sub_one, Nat.testBit_two_pow_sub_one]
  by_cases h1 : k < 32 <;> by_cases h2 : k < 12 <;> simp [h1, h2] <;> omega

theorem cow_addr (e : Nat) : cow e &&& ADDR_MASK = e &&& ADDR_MASK := by
  cases h : e.testBit 0
  · rw [cow_absent e h]
  · apply Nat.eq_of_testBit_eq
    intro k
    rw [Nat.testBit_and, Nat.testBit_and, cow_testBit e k h, addr_mask_testBit]
    by_cases h1 : k < 32 <;> by_cases h2 : 12 ≤ k <;> simp [h1, h2]
    have h3 : ¬ (1 = k) := by omega
    have h4 : ¬ (9 = k) := by omega
    simp [h3, h4]

theorem cow_idem (e : Nat) : cow (cow e) = cow e := by
  cases h : e.testBit 0
  · rw [cow_absent e h, cow_absent e h]
  · have hc : (cow e).testBit 0 = true := by rw [cow_present, h]
    apply Nat.eq_of_testBit_eq
    intro k
    rw [cow_testBit _ k hc, cow_testBit e k h]
    cases e.testBit k <;> cases decide (k < 32) <;> cases decide (1 = k) <;>
      cases decide (9 = k) <;> rfl

theorem frame_entry_addr (k x : Nat) (hk : k < 2 ^ 20) :
    (k * PAGE_SIZE ||| (x &&& 0xFFF)) &&& ADDR_MASK = k * PAGE_SIZE := by
  have h1 : k * PAGE_SIZE = 2 ^ 12 * k := by simp [PAGE_SIZE]; ring
  have h2 : (0xFFF : Nat) = 2 ^ 12 - 1 := by norm_num
  apply Nat.eq_of_testBit_eq
  intro i
  rw [Nat.testBit_and, Nat.testBit_lor, Nat.testBit_and, addr_mask_testBit, h1, h2,
    Nat.testBit_two_pow_sub_one, Nat.testBit_mul_pow_two]
  by_cases h3 : i < 32
  · by_cases h4 : 12 ≤ i
    · have h5 : ¬ (i < 12) := by omega
      simp [h3, h4, h5]
    · simp [h3, h4]
  · have h6 : k.testBit (i - 12) = false := by
      apply Nat.testBit_lt_two_pow
      calc k < 2 ^ 20 := hk
        _ ≤ 2 ^ (i - 12) := Nat.pow_le_pow_right (by norm_num) (by omega)
    simp [h3, h6]

theorem frame_entry_present (q x : Nat) (hx : x.testBit 0 = true) :
    (q ||| (x &&& 0xFFF)).testBit 0 = true := by
  have h2 : (0xFFF : Nat) = 2 ^ 12 - 1 := by norm_num
  rw [Nat.testBit_lor, Nat.testBit_and, h2, Nat.testBit_two_pow_sub_one, hx]
  simp

theorem freeFrames_set_bit (b : Nat → Nat) (n u k : Nat) (hk : k < n)
    (hfree : test_bit b k = false) :
    freeFrames { bitmap := set_bit b k, total_pages := n, used_pages := u } + 1 =
      ((List.range n).filter (fun i => !test_bit b i)).length := by
  unfold freeFrames
  simp only
  have hnd : ((List.range n).filter (fun i => !test_bit b i)).Nodup :=
    (List.nodup_range n).filter _
  have hmem : k ∈ (List.range n).filter (fun i => !test_bit b i) := by
    simp [List.mem_filter, hk, hfree]
  have heq : (List.range n).filter (fun i => !test_bit (set_bit b k) i) =
      ((List.range n).filter (fun i => !test_bit b i)).erase k := by
    rw [hnd.erase_eq_filter, List.filter_filter]
    apply List.filter_congr
    intro x _
    rw [test_bit_set_bit]
    by_cases hx : x = k
    · simp [hx]
    · simp [hx]
  rw [heq, List.length_erase_of_mem hmem]
  have : 0 < ((List.range n).filter (fun i => !test_bit b i)).length :=
    List.length_pos_of_mem hmem
  omega

theorem pmm_alloc_free (s : Pmm) (htot : s.total_pages ≤ 2 ^ 20) (hfree : 0 < freeFrames s) :
    ∃ k, k < s.total_pages ∧ test_bit s.bitmap k = false ∧
      (pmm_alloc s).2 = some (k * PAGE_SIZE) ∧
      (pmm_alloc s).1.bitmap = set_bit s.bitmap k ∧
      (pmm_alloc s).1.total_pages = s.total_pages ∧
      freeFrames (pmm_alloc s).1 + 1 = freeFrames s := by
  unfold pmm_alloc
  cases hf : (List.range s.total_pages).find? (fun i => !test_bit s.bitmap i) with
  | none =>
    exfalso
    have h0 : freeFrames s = 0 := by
      unfold freeFrames
      rw [List.length_eq_zero, List.filter_eq_nil_iff]
      intro x hx
      have := List.find?_eq_none.mp hf x hx
      simpa using this
    omega
  | some k =>
    have hk : k < s.total_pages := List.mem_range.mp (List.mem_of_find?_eq_some hf)
    have hclear : test_bit s.bitmap k = false := by
      have := List.find?_some hf
      simpa using this
    have hmod : (k * PAGE_SIZE) % 2 ^ 32 = k * PAGE_SIZE := by
      apply Nat.mod_eq_of_lt
      simp only [PAGE_SIZE]; omega
    refine ⟨k, hk, hclear, ?_, rfl, rfl, ?_⟩
    · simp only [hmod]
    · exact freeFrames_set_bit s.bitmap s.total_pages _ k hk hclear

/-- One step of the inner loop of `vmm_clone`, entry by entry. -/
theorem clone_step_eq (t : Tables) (sp q j p i : Nat) :
    (if t sp j &&& PAGE_PRESENT = 0 then t
      else
        let t1 := setEntry t sp j (t sp j &&& (0xFFFFFFFF ^^^ PAGE_WRITE))
        let t2 := setEntry t1 sp j (t1 sp j ||| PAGE_COW)
        setEntry t2 q j (t2 sp j)) p i =
    if (p = q ∨ p = sp) ∧ i = j ∧ t sp j &&& PAGE_PRESENT ≠ 0 then cow (t sp j) else t p i := by
  by_cases hp : t sp j &&& PAGE_PRESENT = 0
  · simp [hp]
  · simp only [hp, if_false, setEntry, and_self, if_true, ne_eq, not_false_eq_true, and_true, cow]
    by_cases h1 : p = q ∧ i = j
    · simp [h1]
    · by_cases h2 : p = sp ∧ i = j
      · simp [h2]
      · have h3 : ¬ ((p = q ∨ p = sp) ∧ i = j) := by
          rintro ⟨h4 | h4, h5⟩
          · exact h1 ⟨h4, h5⟩
          · exact h2 ⟨h4, h5⟩
        simp [h1, h2, h3]

theorem clone_table_prefix (t : Tables) (sp q : Nat) (m : Nat) :
    ∀ p i, ((List.range m).foldl
      (fun t j =>
        if t sp j &&& PAGE_PRESENT = 0 then t
        else
          let t1 := setEntry t sp j (t sp j &&& (0xFFFFFFFF ^^^ PAGE_WRITE))
          let t2 := setEntry t1 sp j (t1 sp j ||| PAGE_COW)
          setEntry t2 q j (t2 sp j)) t) p i =
      if (p = q ∨ p = sp) ∧ i < m ∧ t sp i &&& PAGE_PRESENT ≠ 0 then cow (t sp i) else t p i := by
  induction m with
  | zero => intro p i; simp
  | succ m ih =>
    intro p i
    rw [List.range_succ, List.foldl_append, List.foldl_cons, List.foldl_nil, clone_step_eq]
    have hsm : ((List.range m).foldl
      (fun t j =>
        if t sp j &&& PAGE_PRESENT = 0 then t
        else
          let t1 := setEntry t sp j (t sp j &&& (0xFFFFFFFF ^^^ PAGE_WRITE))
          let t2 := setEntry t1 sp j (t1 sp j ||| PAGE_COW)
          setEntry t2 q j (t2 sp j)) t) sp m = t sp m := by
      rw [ih]
      simp
    rw [hsm, ih]
    by_cases h1 : i = m
    · subst h1
      by_cases h2 : (p = q ∨ p = sp) ∧ t sp i &&& PAGE_PRESENT ≠ 0
      · simp [h2.1, h2.2]
      · have h3 : ¬ ((p = q ∨ p = sp) ∧ i = i ∧ t sp i &&& PAGE_PRESENT ≠ 0) := by
          rintro ⟨h4, _, h5⟩; exact h2 ⟨h4, h5⟩
        have h4 : ¬ ((p = q ∨ p = sp) ∧ i < i + 1 ∧ t sp i &&& PAGE_PRESENT ≠ 0) := by
          rintro ⟨h4, _, h5⟩; exact h2 ⟨h4, h5⟩
        have h5 : ¬ ((p = q ∨ p = sp) ∧ i < i ∧ t sp i &&& PAGE_PRESENT ≠ 0) := by
          rintro ⟨_, h4, _⟩; exact absurd h4 (lt_irrefl _)
        rw [if_neg h3, if_neg h4, if_neg h5]
    · have h2 : ¬ ((p = q ∨ p = sp) ∧ i = m ∧ t sp m &&& PAGE_PRESENT ≠ 0) := by
        rintro ⟨_, h4, _⟩; exact h1 h4
      rw [if_neg h2]
      have h3 : i < m + 1 ↔ i < m :=
        ⟨fun h => lt_of_le_of_ne (Nat.lt_succ_iff.mp h) h1, fun h => Nat.lt_succ_of_lt h⟩
      simp only [h3]

theorem clone_table_eq (t : Tables) (sp q : Nat) (p i : Nat) :
    clone_table t sp q p i =
      if (p = q ∨ p = sp) ∧ i < 1024 ∧ t sp i &&& PAGE_PRESENT ≠ 0 then cow (t sp i)
      else t p i := by
  rw [clone_table]
  exact clone_table_prefix t sp q 1024 p i

theorem create_fold (pd kd : Nat) (l : List Nat) :
    ∀ (t : Tables) (p j : Nat), (p ≠ pd ∨ j < 768) →
      (l.foldl (fun t i => setEntry t pd (768 + i) (t kd (768 + i))) t) p j = t p j := by
  induction l with
  | nil => intro t p j _; rfl
  | cons a l ih =>
    intro t p j h
    rw [List.foldl_cons, ih _ p j h]
    have : ¬ (p = pd ∧ j = 768 + a) := by
      rintro ⟨h1, h2⟩
      rcases h with h | h
      · exact h h1
      · omega
    simp only [setEntry, this, if_false]

theorem cow_present_iff (e : Nat) : cow e &&& PAGE_PRESENT = 0 ↔ e &&& PAGE_PRESENT = 0 := by
  rw [present_iff, present_iff, cow_present]

theorem old_cases {x e : Nat} (h : x = e ∨ x = cow e) :
    (x &&& PAGE_PRESENT = 0 ↔ e &&& PAGE_PRESENT = 0) ∧
    x &&& ADDR_MASK = e &&& ADDR_MASK ∧ cow x = cow e := by
  rcases h with h | h
  · subst h; exact ⟨Iff.rfl, rfl, rfl⟩
  · subst h; exact ⟨cow_present_iff e, cow_addr e, cow_idem e⟩

theorem ne_of_bits {b : Nat → Nat} {p q : Nat} (hp : test_bit b (p / PAGE_SIZE) = true)
    (hq : test_bit b (q / PAGE_SIZE) = false) : p ≠ q := by
  intro h
  rw [h, hq] at hp
  cases hp

/-- The tables after one iteration of the outer loop of `vmm_clone` on a
present directory entry, entry by entry. -/
theorem clone_dir_entry_tables (src dst : Nat) (w : Vmm) (n q : Nat)
    (hp : w.tables src n &&& PAGE_PRESENT ≠ 0)
    (hq : (pmm_alloc w.pmm).2 = some q) :
    (clone_dir_entry src dst w n).pmm = (pmm_alloc w.pmm).1 ∧
    (clone_dir_entry src dst w n).tables =
      setEntry (clone_table (memset32_zero w.tables q) (w.tables src n &&& ADDR_MASK) q) dst n
        (q ||| (clone_table (memset32_zero w.tables q) (w.tables src n &&& ADDR_MASK) q src n
          &&& 0xFFF)) := by
  have h1 : allocPtr (pmm_alloc w.pmm).2 = q := by rw [hq]; rfl
  constructor
  · unfold clone_dir_entry
    rw [if_neg hp]
  · rw [clone_dir_entry, if_neg hp]
    dsimp only
    rw [h1]

theorem clone_dir_entry_present (src dst : Nat) (w : Vmm) (n q sp : Nat)
    (hn : n < 1024)
    (hp : w.tables src n &&& PAGE_PRESENT ≠ 0)
    (hsp : w.tables src n &&& ADDR_MASK = sp)
    (hq : (pmm_alloc w.pmm).2 = some q)
    (hsp_q : sp ≠ q) (hdst_q : dst ≠ q) (hsrc_q : src ≠ q) (hsp_dst : sp ≠ dst) :
    (clone_dir_entry src dst w n).pmm = (pmm_alloc w.pmm).1 ∧
    (∀ p j, p ≠ q → p ≠ dst → (clone_dir_entry src dst w n).tables p j =
      if p = sp ∧ j < 1024 then cow (w.tables sp j) else w.tables p j) ∧
    (∀ j, j < 1024 → (clone_dir_entry src dst w n).tables q j =
      if w.tables sp j &&& PAGE_PRESENT = 0 then 0 else cow (w.tables sp j)) ∧
    (∀ j, j ≠ n → (clone_dir_entry src dst w n).tables dst j = w.tables dst j) ∧
    ∃ x, (x = w.tables src n ∨ x = cow (w.tables src n)) ∧
      (clone_dir_entry src dst w n).tables dst n = q ||| (x &&& 0xFFF) := by
  obtain ⟨hpmm, htab⟩ := clone_dir_entry_tables src dst w n q hp hq
  rw [hsp] at htab
  have hms : ∀ j, memset32_zero w.tables q sp j = w.tables sp j := by
    intro j
    simp [memset32_zero, hsp_q]
  have hct : ∀ p j, p ≠ q → clone_table (memset32_zero w.tables q) sp q p j =
      if p = sp ∧ j < 1024 then cow (w.tables sp j) else w.tables p j := by
    intro p j hpq
    rw [clone_table_eq, hms]
    by_cases h1 : p = sp ∧ j < 1024
    · rw [if_pos h1]
      by_cases h2 : w.tables sp j &&& PAGE_PRESENT = 0
      · have h3 : ¬ ((p = q ∨ p = sp) ∧ j < 1024 ∧ w.tables sp j &&& PAGE_PRESENT ≠ 0) := by
          rintro ⟨_, _, h4⟩; exact h4 h2
        rw [if_neg h3, h1.1, cow_absent _ ((present_iff _).mp h2)]
        simp [memset32_zero, hsp_q]
      · rw [if_pos ⟨Or.inr h1.1, h1.2, h2⟩]
    · have h3 : ¬ ((p = q ∨ p = sp) ∧ j < 1024 ∧ w.tables sp j &&& PAGE_PRESENT ≠ 0) := by
        rintro ⟨h4 | h4, h5, _⟩
        · exact hpq h4
        · exact h1 ⟨h4, h5⟩
      rw [if_neg h3, if_neg h1]
      simp [memset32_zero, hpq]
  refine ⟨hpmm, ?_, ?_, ?_, ?_⟩
  · intro p j hpq hpd
    rw [htab]
    simp only [setEntry, hpd, false_and, if_false]
    exact hct p j hpq
  · intro j hj
    rw [htab]
    have h1 : ¬ (q = dst ∧ j = n) := fun h => hdst_q h.1.symm
    simp only [setEntry, h1, if_false]
    rw [clone_table_eq, hms]
    by_cases h2 : w.tables sp j &&& PAGE_PRESENT = 0
    · simp [h2, memset32_zero, hj]
    · simp [h2, hj]
  · intro j hj
    rw [htab]
    have h1 : ¬ (dst = dst ∧ j = n) := fun h => hj h.2
    have h2 : ¬ (dst = sp ∧ j < 1024) := fun h => hsp_dst h.1.symm
    simp only [setEntry, hj, and_false, if_false]
    rw [hct dst j hdst_q, if_neg h2]
  · refine ⟨clone_table (memset32_zero w.tables q) sp q src n, ?_, ?_⟩
    · rw [hct src n hsrc_q]
      by_cases h1 : src = sp
      · right
        rw [if_pos ⟨h1, hn⟩, h1]
      · left
        have h2 : ¬ (src = sp ∧ n < 1024) := fun h => h1 h.1
        rw [if_neg h2]
    · rw [htab]
      simp [setEntry]

theorem cloneInv_step {v0 : Vmm} {src dst n : Nat} {w : Vmm}
    (h : CloneInv v0 src dst n w) (hn : n < 768)
    (htot : v0.pmm.total_pages ≤ 2 ^ 20)
    (hsrc : test_bit v0.pmm.bitmap (src / PAGE_SIZE) = true)
    (hpt : ∀ i, i < 768 → v0.tables src i &&& PAGE_PRESENT ≠ 0 →
      test_bit v0.pmm.bitmap ((v0.tables src i &&& ADDR_MASK) / PAGE_SIZE) = true) :
    CloneInv v0 src dst (n + 1) (clone_dir_entry src dst w n) := by
  have hsn := old_cases (h.old src n hsrc)
  by_cases hp : w.tables src n &&& PAGE_PRESENT = 0
  · have hp0 : v0.tables src n &&& PAGE_PRESENT = 0 := hsn.1.mp hp
    have hc : clone_dir_entry src dst w n = w := by simp [clone_dir_entry, hp]
    rw [hc]
    refine ⟨h.total, h.mono, h.dst_new, h.dst_used, ?_, h.old, ?_, ?_, h.dstk, ?_⟩
    · have := h.free
      omega
    · intro i hi hpi
      have hin : i < n := by
        rcases Nat.lt_succ_iff_lt_or_eq.mp hi with h1 | h1
        · exact h1
        · subst h1; exact absurd hp0 hpi
      exact h.done i hin hpi
    · intro i hi hc
      apply h.rest i hi
      rcases hc with h1 | h1
      · left; omega
      · right; exact h1
    · have := h.spent
      omega
  · have hp0 : v0.tables src n &&& PAGE_PRESENT ≠ 0 := fun h0 => hp (hsn.1.mpr h0)
    have hfree := h.free
    obtain ⟨k, hk, hkfree, hret, hbm, htp, hff⟩ :=
      pmm_alloc_free w.pmm (by rw [h.total]; exact htot) (by omega)
    have hk20 : k < 2 ^ 20 := by
      rw [h.total] at hk
      omega
    have hqdiv : k * PAGE_SIZE / PAGE_SIZE = k := by simp [PAGE_SIZE]
    have hspold := hpt n hn hp0
    have hspw := h.mono _ hspold
    have hspeq := hsn.2.1
    generalize hspdef : v0.tables src n &&& ADDR_MASK = sp at hspold hspw hspeq
    have hqw : test_bit w.pmm.bitmap (k * PAGE_SIZE / PAGE_SIZE) = false := by
      rw [hqdiv]; exact hkfree
    have hq0 : test_bit v0.pmm.bitmap (k * PAGE_SIZE / PAGE_SIZE) = false := by
      cases hb : test_bit v0.pmm.bitmap (k * PAGE_SIZE / PAGE_SIZE)
      · rfl
      · have := h.mono _ hb
        rw [hqw] at this
        cases this
    have hnew : ∀ x, test_bit w.pmm.bitmap x = true →
        test_bit (pmm_alloc w.pmm).1.bitmap x = true := by
      intro x hx
      rw [hbm, test_bit_set_bit]
      split
      · rfl
      · exact hx
    have hnewq : test_bit (pmm_alloc w.pmm).1.bitmap (k * PAGE_SIZE / PAGE_SIZE) = true := by
      rw [hbm, test_bit_set_bit, hqdiv]
      simp
    have hsp_q : sp ≠ k * PAGE_SIZE := ne_of_bits hspw hqw
    have hdst_q : dst ≠ k * PAGE_SIZE := ne_of_bits h.dst_used hqw
    have hsrc_q : src ≠ k * PAGE_SIZE := ne_of_bits (h.mono _ hsrc) hqw
    have hsp_dst : sp ≠ dst := ne_of_bits hspold h.dst_new
    obtain ⟨hpmm, F1, F2, F3, x, hx, F4⟩ :=
      clone_dir_entry_present src dst w n (k * PAGE_SIZE) sp (by omega) hp hspeq hret
        hsp_q hdst_q hsrc_q hsp_dst
    generalize clone_dir_entry src dst w n = w1 at hpmm F1 F2 F3 F4 ⊢
    generalize hqdef : k * PAGE_SIZE = q at *
    have hspent := h.spent
    refine ⟨?_, ?_, h.dst_new, ?_, ?_, ?_, ?_, ?_, ?_, ?_⟩
    · rw [hpmm, htp, h.total]
    · intro y hy
      rw [hpmm]
      exact hnew y (h.mono y hy)
    · rw [hpmm]
      exact hnew _ h.dst_used
    · rw [hpmm]
      omega
    · intro p j hold
      have hpq : p ≠ q := ne_of_bits (h.mono _ hold) hqw
      have hpd : p ≠ dst := ne_of_bits hold h.dst_new
      rw [F1 p j hpq hpd]
      by_cases h1 : p = sp ∧ j < 1024
      · rw [if_pos h1]
        right
        rw [h1.1]
        exact (old_cases (h.old sp j hspold)).2.2
      · rw [if_neg h1]
        exact h.old p j hold
    · intro i hi hpi
      rcases Nat.lt_succ_iff_lt_or_eq.mp hi with hin | hin
      · obtain ⟨d1, d2, d3, d4, d5⟩ := h.done i hin hpi
        have hne : i ≠ n := by omega
        rw [F3 i hne]
        have hspi := hpt i (by omega) hpi
        generalize w.tables dst i &&& ADDR_MASK = qi at d2 d3 d4 d5 ⊢
        generalize v0.tables src i &&& ADDR_MASK = spi at d5 hspi ⊢
        have hqi_q : qi ≠ q := ne_of_bits d3 hqw
        have hqi_sp : qi ≠ sp := (ne_of_bits hspold d2).symm
        have hspi_q : spi ≠ q := ne_of_bits (h.mono _ hspi) hqw
        have hspi_dst : spi ≠ dst := ne_of_bits hspi h.dst_new
        refine ⟨d1, d2, ?_, d4, ?_⟩
        · rw [hpmm]
          exact hnew _ d3
        · intro j hj
          have h1 : ¬ (qi = sp ∧ j < 1024) := fun h2 => hqi_sp h2.1
          rw [F1 qi j hqi_q d4, if_neg h1, F1 spi j hspi_q hspi_dst]
          refine ⟨(d5 j hj).1, ?_⟩
          by_cases h2 : spi = sp ∧ j < 1024
          · rw [if_pos h2, ← h2.1, (d5 j hj).2, cow_idem]
          · rw [if_neg h2]
            exact (d5 j hj).2
      · subst hin
        have hxp : x.testBit 0 = true := by
          have h1 : x &&& PAGE_PRESENT ≠ 0 := by
            rcases hx with h2 | h2
            · rw [h2]; exact hp
            · rw [h2]; exact fun h3 => hp ((cow_present_iff _).mp h3)
          cases hb : x.testBit 0
          · exact absurd ((present_iff x).mpr hb) h1
          · rfl
        have haddr : w1.tables dst i &&& ADDR_MASK = q := by
          rw [F4, ← hqdef]
          exact frame_entry_addr k x hk20
        rw [haddr, hspdef]
        refine ⟨?_, hq0, ?_, hdst_q.symm, ?_⟩
        · rw [F4]
          intro h1
          have := (present_iff _).mp h1
          rw [frame_entry_present q x hxp] at this
          cases this
        · rw [hpmm]
          exact hnewq
        · intro j hj
          have hoc := old_cases (h.old sp j hspold)
          rw [F2 j hj, F1 sp j hsp_q hsp_dst, if_pos (show sp = sp ∧ j < 1024 from ⟨rfl, hj⟩)]
          refine ⟨?_, hoc.2.2⟩
          by_cases h1 : v0.tables sp j &&& PAGE_PRESENT = 0
          · rw [if_pos h1, if_pos (hoc.1.mpr h1)]
          · rw [if_neg h1, if_neg (fun h2 => h1 (hoc.1.mp h2)), hoc.2.2]
    · intro i hi hc
      have hin : i ≠ n := by
        rintro rfl
        rcases hc with h1 | h1
        · omega
        · exact hp0 h1
      rw [F3 i hin]
      apply h.rest i hi
      rcases hc with h1 | h1
      · left; omega
      · right; exact h1
    · intro j hj
      rw [F3 j (by omega)]
      exact h.dstk j hj
    · rw [hpmm]
      omega

theorem cloneInv_init (v : Vmm) (src : Nat) (htot : v.pmm.total_pages ≤ 2 ^ 20)
    (hfree : 769 ≤ freeFrames v.pmm) :
    CloneInv v src (vmm_create_directory v).2 0 (vmm_create_directory v).1 := by
  obtain ⟨k, hk, hkfree, hret, hbm, htp, hff⟩ := pmm_alloc_free v.pmm htot (by omega)
  have hqdiv : k * PAGE_SIZE / PAGE_SIZE = k := by simp [PAGE_SIZE]
  have hdst : (vmm_create_directory v).2 = k * PAGE_SIZE := by
    simp [vmm_create_directory, hret, allocPtr]
  have hpmm : (vmm_create_directory v).1.pmm = (pmm_alloc v.pmm).1 := rfl
  have htab : ∀ p j, (p ≠ k * PAGE_SIZE ∨ j < 768) →
      (vmm_create_directory v).1.tables p j = memset32_zero v.tables (k * PAGE_SIZE) p j := by
    intro p j hpj
    simp only [vmm_create_directory, hret, allocPtr]
    exact create_fold _ _ _ _ p j hpj
  have hk0 : ∀ j, 768 ≤ j → (vmm_create_directory v).1.tables (vmm_create_directory v).2 j =
      (vmm_create_directory v).1.tables (vmm_create_directory v).2 j := fun _ _ => rfl
  have hsp : freeFrames v.pmm ≤ freeFrames (vmm_create_directory v).1.pmm + 0 + 1 := by
    rw [hpmm]
    omega
  refine ⟨?_, ?_, ?_, ?_, ?_, ?_, ?_, ?_, hk0, hsp⟩
  all_goals clear hk0 hsp
  all_goals try rw [hdst]
  all_goals generalize vmm_create_directory v = r at hpmm htab
  · rw [hpmm, htp]
  · intro x hx
    rw [hpmm, hbm, test_bit_set_bit]
    split
    · rfl
    · exact hx
  · rw [hqdiv]; exact hkfree
  · rw [hpmm, hbm, test_bit_set_bit, hqdiv]
    simp
  · rw [hpmm]
    omega
  · intro p j hold
    have hne : p ≠ k * PAGE_SIZE := by
      apply ne_of_bits hold
      rw [hqdiv]; exact hkfree
    left
    rw [htab p j (Or.inl hne)]
    simp [memset32_zero, hne]
  · intro i hi
    omega
  · intro i hi _
    rw [htab _ i (Or.inr hi)]
    have : i < 1024 := by omega
    simp [memset32_zero, this]

theorem cloneInv_run {v0 : Vmm} {src dst : Nat} {w0 : Vmm}
    (h : CloneInv v0 src dst 0 w0)
    (htot : v0.pmm.total_pages ≤ 2 ^ 20)
    (hsrc : test_bit v0.pmm.bitmap (src / PAGE_SIZE) = true)
    (hpt : ∀ i, i < 768 → v0.tables src i &&& PAGE_PRESENT ≠ 0 →
      test_bit v0.pmm.bitmap ((v0.tables src i &&& ADDR_MASK) / PAGE_SIZE) = true)
    (n : Nat) (hn : n ≤ 768) :
    CloneInv v0 src dst n ((List.range n).foldl (clone_dir_entry src dst) w0) := by
  induction n with
  | zero => exact h
  | succ n ih =>
    rw [List.range_succ, List.foldl_append, List.foldl_cons, List.foldl_nil]
    exact cloneInv_step (ih (by omega)) (by omega) htot hsrc hpt

theorem leaf_present_iff (t : Tables) (pd i j : Nat) :
    leafPresent t pd i j ↔
      t pd i &&& PAGE_PRESENT ≠ 0 ∧ t (t pd i &&& ADDR_MASK) j &&& PAGE_PRESENT ≠ 0 := by
  unfold leafPresent leaf
  by_cases h : t pd i &&& PAGE_PRESENT = 0
  · simp [h]
  · simp [h]

/-- C2: after `dst = vmm_clone(src)`, at every user position
(`i < 768`, `j < 1024`): a leaf that was present in `src` before the call
is now the same entry in `src` and in `dst`, present, with `PAGE_WRITE`
clear and `PAGE_COW` set, and with the frame address it had before; a leaf
that was not present in `src` is not present in `dst`.  The call is made
with at least 769 free frames (one directory and up to 768 tables are
allocated), and the frames of `src` and of its page tables are marked used
in the allocator's bitmap. -/
theorem C2_vmm_clone_shares_cow (v : Vmm) (src : Nat)
    (htot : v.pmm.total_pages ≤ 2 ^ 20)
    (hfree : 769 ≤ freeFrames v.pmm)
    (hsrc : test_bit v.pmm.bitmap (src / PAGE_SIZE) = true)
    (hpt : ∀ i, i < 768 → v.tables src i &&& PAGE_PRESENT ≠ 0 →
      test_bit v.pmm.bitmap ((v.tables src i &&& ADDR_MASK) / PAGE_SIZE) = true)
    (i j : Nat) (hi : i < 768) (hj : j < 1024) :
    (∀ e0, leaf v.tables src i j = some e0 → e0 &&& PAGE_PRESENT ≠ 0 →
      ∃ e, leaf (vmm_clone v src).1.tables src i j = some e ∧
        leaf (vmm_clone v src).1.tables (vmm_clone v src).2 i j = some e ∧
        e &&& PAGE_PRESENT ≠ 0 ∧ e &&& PAGE_WRITE = 0 ∧ e &&& PAGE_COW ≠ 0 ∧
        e &&& ADDR_MASK = e0 &&& ADDR_MASK) ∧
    (¬ leafPresent v.tables src i j →
      ¬ leafPresent (vmm_clone v src).1.tables (vmm_clone v src).2 i j) := by
  have h1 : (vmm_clone v src).1 = (List.range 768).foldl
      (clone_dir_entry src (vmm_create_directory v).2) (vmm_create_directory v).1 := by
    rw [vmm_clone]
  have h2 : (vmm_clone v src).2 = (vmm_create_directory v).2 := by
    rw [vmm_clone]
  have hinv : CloneInv v src (vmm_clone v src).2 768 (vmm_clone v src).1 := by
    rw [h1, h2]
    exact cloneInv_run (cloneInv_init v src htot hfree) htot hsrc hpt 768 (le_refl _)
  clear h1 h2
  generalize (vmm_clone v src).1 = w at hinv ⊢
  generalize (vmm_clone v src).2 = dst at hinv ⊢
  have hsi := old_cases (hinv.old src i hsrc)
  constructor
  · intro e0 he0 hpe
    have hp0 : v.tables src i &&& PAGE_PRESENT ≠ 0 := by
      intro h0
      simp [leaf, h0] at he0
    have hl0 : v.tables (v.tables src i &&& ADDR_MASK) j = e0 := by
      simpa [leaf, hp0] using he0
    obtain ⟨d1, _, _, _, d5⟩ := hinv.done i hi hp0
    have hpw : w.tables src i &&& PAGE_PRESENT ≠ 0 := fun h0 => hp0 (hsi.1.mp h0)
    have hbit : e0.testBit 0 = true := by
      cases hb : e0.testBit 0
      · exact absurd ((present_iff e0).mpr hb) hpe
      · rfl
    refine ⟨cow e0, ?_, ?_, ?_, cow_write e0 hbit, cow_cow_bit e0 hbit, cow_addr e0⟩
    · simp only [leaf, hpw, if_false, hsi.2.1, (d5 j hj).2, hl0]
    · simp only [leaf, d1, if_false, (d5 j hj).1, hl0, hpe]
    · exact fun h0 => hpe ((cow_present_iff e0).mp h0)
  · intro hnp
    rw [leaf_present_iff] at hnp ⊢
    rintro ⟨hd, hl⟩
    by_cases hp0 : v.tables src i &&& PAGE_PRESENT = 0
    · rw [hinv.rest i hi (Or.inr hp0)] at hd
      exact hd (Nat.zero_and _)
    · obtain ⟨_, _, _, _, d5⟩ := hinv.done i hi hp0
      have hl0 : v.tables (v.tables src i &&& ADDR_MASK) j &&& PAGE_PRESENT = 0 := by
        by_contra h1
        exact hnp ⟨hp0, h1⟩
      rw [(d5 j hj).1, if_pos hl0] at hl
      exact hl (Nat.zero_and _)

set_option maxRecDepth 100000 in
/-- C2 on an address space with one mapped user page, directory entry 0,
table entry 5, frame `0x5000`, writable before the call. -/
theorem C2_vmm_clone_shares_cow_witness :
    (cloneDemo.pmm.total_pages ≤ 2 ^ 20 ∧ 769 ≤ freeFrames cloneDemo.pmm ∧
      test_bit cloneDemo.pmm.bitmap (0x1000 / PAGE_SIZE) = true ∧
      leaf cloneDemo.tables 0x1000 0 5 = some 0x5007) ∧
    ((∀ e0, leaf cloneDemo.tables 0x1000 0 5 = some e0 → e0 &&& PAGE_PRESENT ≠ 0 →
      ∃ e, leaf (vmm_clone cloneDemo 0x1000).1.tables 0x1000 0 5 = some e ∧
        leaf (vmm_clone cloneDemo 0x1000).1.tables (vmm_clone cloneDemo 0x1000).2 0 5 = some e ∧
        e &&& PAGE_PRESENT ≠ 0 ∧ e &&& PAGE_WRITE = 0 ∧ e &&& PAGE_COW ≠ 0 ∧
        e &&& ADDR_MASK = e0 &&& ADDR_MASK) ∧
    (¬ leafPresent cloneDemo.tables 0x1000 0 5 →
      ¬ leafPresent (vmm_clone cloneDemo 0x1000).1.tables (vmm_clone cloneDemo 0x1000).2 0 5)) :=
  ⟨⟨by decide, by decide, by decide, by decide⟩,
   C2_vmm_clone_shares_cow cloneDemo 0x1000 (by decide) (by decide) (by decide) (by decide)
     0 5 (by decide) (by decide)⟩


/-! ### Duplicated descriptors -/

theorem add32_small (a b : Int) (h0 : 0 ≤ a + b) (h1 : a + b < 2 ^ 31) : add32 a b = a + b := by
  unfold add32
  rw [toUInt32_of_nonneg _ h0 h1, toInt32_of_lt _ (by omega)]
  omega

theorem set_fd_cur (s : Sys) (i f : Nat) :
    (set_fd s i f).cur = { s.cur with fds := s.cur.fds.set i f } := by
  simp [set_fd, Sys.cur, setProc]

/-- C12 fails on the code: after `A`, `B`, `C = kmalloc(100)`, `kfree(B)`,
`kfree(A)` the first block is free with size 228 and is followed by the
block of `C`, which is in use.  A second `kfree(B)` is not rejected: the
stale header of `B` still carries the magic word, `coalesce` merges it into
its `prev`, and the first block grows to size 352, which reaches past the
header of `C` at `HEAP_START + 248`; a following `kmalloc(300)` then returns
`A = HEAP_START + 20` again, a block that overlaps `C` while `C` is still
outstanding. -/
theorem C12_double_free_changes_headers :
    headAndC freeBthenA =
      some ({ magic := HEAP_MAGIC, size := 228, free := 1, next := 16777464, prev := 0 },
            { magic := HEAP_MAGIC, size := 104, free := 0, next := 16777588, prev := 16777216 },
            [16777484]) ∧
    headAndC (freeBthenA ++ [HeapOp.free 16777360]) =
      some ({ magic := HEAP_MAGIC, size := 352, free := 1, next := 16777464, prev := 0 },
            { magic := HEAP_MAGIC, size := 104, free := 0, next := 16777588, prev := 16777216 },
            [16777484]) ∧
    (headAndC (freeBthenA ++ [HeapOp.free 16777360, HeapOp.alloc 300])).map (fun r => r.2.2) =
      some [16777236, 16777484] ∧
    16777464 < 16777236 + 300 := by
  decide


/-! ### Coalescing after `kfree(B); kfree(A)` -/

/-- C15 as the code has it: on a fresh heap, after `A = kmalloc(100)`,
`B = kmalloc(100)`, `C = kmalloc(100)`, `kfree(B)`, `kfree(A)`, the block at
`heap_head` is free and its size is `104 + sizeof(block_header_t) + 104 =
228`, where 104 is the request of 100 bytes rounded up to a multiple of 8;
its `next` is the header of `C` (at `C - sizeof(block_header_t)`), whose
`prev` is `heap_head` and which is in use; `C` is the only pointer
outstanding. -/
theorem C15_head_is_two_rounded_blocks :
    align8 100 = 104 ∧
    headAndC freeBthenA =
      some ({ magic := HEAP_MAGIC, size := align8 100 + HDR_SIZE + align8 100, free := 1,
              next := 16777484 - HDR_SIZE, prev := 0 },
            { magic := HEAP_MAGIC, size := align8 100, free := 0,
              next := 16777484 + align8 100, prev := HEAP_START },
            [16777484]) := by
  decide

/-- C15 as stated fails: the size of the block at `heap_head` after the five
calls is 228, not `200 + sizeof(block_header_t) = 220`. -/
theorem C15_head_size_counterexample :
    (headAndC freeBthenA).map (fun r => r.1.size) = some 228 ∧
    (headAndC freeBthenA).map (fun r => r.1.size) ≠ some (200 + HDR_SIZE) := by
  decide


/-! ### Zombies -/

theorem find_next_ready (t : Nat → process_t) (cur n : Nat) (h : find_next t cur = some n) :
    (t n).state = PROC_READY := by
  unfold find_next at h
  have := List.find?_some h
  simpa using this

theorem scheduler_tick_keeps (k : Kernel) (z : Nat)
    (h1 : (k.proc_table z).state ≠ PROC_SLEEPING) (h2 : (k.proc_table z).state ≠ PROC_READY)
    (h3 : (k.proc_table z).state ≠ PROC_RUNNING) :
    (scheduler_tick k).proc_table z = k.proc_table z := by
  have hw : wake_sleepers ((k.ticks + 1) % 2 ^ 32) k.proc_table z = k.proc_table z := by
    simp [wake_sleepers, h1]
  unfold scheduler_tick
  simp only
  cases hf : find_next (wake_sleepers ((k.ticks + 1) % 2 ^ 32) k.proc_table) k.current_proc with
  | none => exact hw
  | some n =>
    have hr := find_next_ready _ _ _ hf
    have hnz : z ≠ n := by
      rintro rfl
      rw [hw] at hr
      exact h2 hr
    simp only
    split
    · exact hw
    · simp only
      rw [setState_other _ _ _ _ hnz]
      split
      · rename_i hrun
        have hcz : z ≠ k.current_proc := by
          rintro rfl
          rw [hw] at hrun
          exact h3 hrun
        rw [setState_other _ _ _ _ hcz, hw]
      · exact hw

theorem proc_yield_keeps (k : Kernel) (z : Nat)
    (h1 : (k.proc_table z).state ≠ PROC_SLEEPING) (h2 : (k.proc_table z).state ≠ PROC_READY)
    (h3 : (k.proc_table z).state ≠ PROC_RUNNING) :
    (proc_yield k).proc_table z = k.proc_table z := by
  unfold proc_yield
  split
  · rename_i hrun
    have hcz : z ≠ k.current_proc := by
      rintro rfl
      exact h3 hrun
    have e : (setState k.proc_table k.current_proc PROC_READY) z = k.proc_table z :=
      setState_other _ _ _ _ hcz
    rw [scheduler_tick_keeps _ z (by simp only [e]; exact h1) (by simp only [e]; exact h2)
      (by simp only [e]; exact h3)]
    exact e
  · exact scheduler_tick_keeps k z h1 h2 h3

/-- C16: for every allocator state (with at most `2 ^ 20` frames, so that
`index * 4096` fits in 32 bits, and `used_pages` below `UINT32_MAX`):
when frame `k` is the lowest-indexed frame below `total_pages` whose bit is
clear, `pmm_alloc` returns `k * 4096`, sets bit `k`, adds one to
`used_pages` and leaves `total_pages` and every other bit as they were;
when every frame below `total_pages` has its bit set, it returns `NULL` and
the state is unchanged. -/
theorem C16_pmm_alloc_lowest_clear (s : Pmm) (htot : s.total_pages ≤ 2 ^ 20)
    (hused : s.used_pages + 1 < 2 ^ 32) :
    (∀ k, k < s.total_pages → test_bit s.bitmap k = false →
      (∀ j, j < k → test_bit s.bitmap j = true) →
        (pmm_alloc s).2 = some (k * PAGE_SIZE) ∧
        (pmm_alloc s).1.total_pages = s.total_pages ∧
        (pmm_alloc s).1.used_pages = s.used_pages + 1 ∧
        test_bit (pmm_alloc s).1.bitmap k = true ∧
        ∀ j, j ≠ k → test_bit (pmm_alloc s).1.bitmap j = test_bit s.bitmap j) ∧
    ((∀ j, j < s.total_pages → test_bit s.bitmap j = true) → pmm_alloc s = (s, none)) := by
  constructor
  · intro k hk hclear hfirst
    have hfind : (List.range s.total_pages).find? (fun i => !test_bit s.bitmap i) = some k :=
      find_range_first _ _ k hk (by simp [hclear]) (fun j hj => by simp [hfirst j hj])
    have hmod : (k * PAGE_SIZE) % 2 ^ 32 = k * PAGE_SIZE := by
      apply Nat.mod_eq_of_lt
      simp only [PAGE_SIZE]; omega
    have hu : (s.used_pages + 1) % 2 ^ 32 = s.used_pages + 1 := Nat.mod_eq_of_lt hused
    unfold pmm_alloc
    rw [hfind]
    simp only [hmod, hu]
    refine ⟨trivial, trivial, trivial, ?_, ?_⟩
    · rw [test_bit_set_bit]; simp
    · intro j hj
      rw [test_bit_set_bit, if_neg hj]
  · intro hall
    have hfind : (List.range s.total_pages).find? (fun i => !test_bit s.bitmap i) = none := by
      rw [List.find?_eq_none]
      intro x hx
      simp [hall x (List.mem_range.mp hx)]
    unfold pmm_alloc
    rw [hfind]

/-- C16 on the allocator of `cloneDemo`: frames 0 to 7 are in use, so the
call returns `8 * 4096`. -/
theorem C16_pmm_alloc_witness :
    (cloneDemo.pmm.total_pages ≤ 2 ^ 20 ∧ cloneDemo.pmm.used_pages + 1 < 2 ^ 32 ∧
      8 < cloneDemo.pmm.total_pages ∧ test_bit cloneDemo.pmm.bitmap 8 = false ∧
      ∀ j, j < 8 → test_bit cloneDemo.pmm.bitmap j = true) ∧
    (pmm_alloc cloneDemo.pmm).2 = some (8 * PAGE_SIZE) ∧
    (pmm_alloc cloneDemo.pmm).1.used_pages = cloneDemo.pmm.used_pages + 1 :=
  ⟨⟨by decide, by decide, by decide, by decide, by decide⟩,
   ((C16_pmm_alloc_lowest_clear cloneDemo.pmm (by decide) (by decide)).1 8 (by decide)
      (by decide) (by decide)).1,
   ((C16_pmm_alloc_lowest_clear cloneDemo.pmm (by decide) (by decide)).1 8 (by decide)
      (by decide) (by decide)).2.2.1⟩

theorem test_bit_clear_range (b : Nat → Nat) (sp n i : Nat) :
    test_bit ((List.range n).foldl (fun b j => clear_bit b (sp + j)) b) i =
      if sp ≤ i ∧ i < sp + n then false else test_bit b i := by
  induction n with
  | zero =>
    have : ¬ (sp ≤ i ∧ i < sp + 0) := by omega
    rw [if_neg this, List.range_zero, List.foldl_nil]
  | succ n ih =>
    rw [List.range_succ, List.foldl_append, List.foldl_cons, List.foldl_nil, test_bit_clear_bit, ih]
    by_cases h1 : i = sp + n
    · have : sp ≤ i ∧ i < sp + (n + 1) := by omega
      simp [h1]
    · by_cases h2 : sp ≤ i ∧ i < sp + n
      · have : sp ≤ i ∧ i < sp + (n + 1) := by omega
        simp [h1, h2, this]
      · have : ¬ (sp ≤ i ∧ i < sp + (n + 1)) := by omega
        simp [h1, h2, this]

theorem start_page_eq (kernel_end : Nat) (hk : kernel_end + PAGE_SIZE - 1 < 2 ^ 32) :
    start_page kernel_end = (kernel_end + PAGE_SIZE - 1) / PAGE_SIZE := by
  unfold start_page
  rw [Nat.mod_eq_of_lt hk]
  have h := and_high_mask (kernel_end + PAGE_SIZE - 1) 12 hk
  have hP : PAGE_SIZE = 2 ^ 12 := rfl
  rw [hP] at h ⊢
  rw [h]
  have := Nat.div_add_mod (kernel_end + 2 ^ 12 - 1) (2 ^ 12)
  omega

theorem test_bit_all_ones (old : Nat → Nat) (i : Nat) (hi : i < 65536) :
    test_bit (fun w => if w < BITMAP_LEN then 0xFFFFFFFF else old w) i = true := by
  rw [test_bit_eq_testBit]
  have hw : i / 32 < BITMAP_LEN := by
    have : BITMAP_LEN = 2048 := by decide
    omega
  have h1 : (0xFFFFFFFF : Nat) = 2 ^ 32 - 1 := by norm_num
  simp only [hw, if_true, h1, Nat.testBit_two_pow_sub_one]
  have : i % 32 < 32 := Nat.mod_lt _ (by norm_num)
  simp [this]

/-- C17: after `pmm_init(mem_size, kernel_end)`, with `kernel_end + 4095`
representable in 32 bits, for every frame index `i` the bitmap covers
(`i < 65536`), bit `i` is clear exactly when
`ceil(kernel_end / 4096) <= i < mem_size / 4096`, and set otherwise. -/
theorem C17_pmm_init_bits (old : Nat → Nat) (mem_size kernel_end i : Nat)
    (hk : kernel_end + PAGE_SIZE - 1 < 2 ^ 32) (hi : i < 65536) :
    (test_bit (pmm_init old mem_size kernel_end).bitmap i = false ↔
      (kernel_end + PAGE_SIZE - 1) / PAGE_SIZE ≤ i ∧ i < mem_size / PAGE_SIZE) ∧
    (test_bit (pmm_init old mem_size kernel_end).bitmap i = true ↔
      ¬ ((kernel_end + PAGE_SIZE - 1) / PAGE_SIZE ≤ i ∧ i < mem_size / PAGE_SIZE)) := by
  have hb : test_bit (pmm_init old mem_size kernel_end).bitmap i =
      if start_page kernel_end ≤ i ∧
          i < start_page kernel_end + (mem_size / PAGE_SIZE - start_page kernel_end)
      then false else true := by
    unfold pmm_init
    simp only
    rw [test_bit_clear_range, test_bit_all_ones old i hi]
  rw [hb, start_page_eq kernel_end hk]
  generalize (kernel_end + PAGE_SIZE - 1) / PAGE_SIZE = sp
  generalize mem_size / PAGE_SIZE = total
  by_cases h : sp ≤ i ∧ i < total
  · have h2 : sp ≤ i ∧ i < sp + (total - sp) := by omega
    simp [h, h2]
  · have h2 : ¬ (sp ≤ i ∧ i < sp + (total - sp)) := by omega
    simp [h, h2]

/-- C17 at `pmm_init(65536, 0x2001)`: 16 frames, the kernel ends in frame 2,
so frame 3 is the first free one. -/
theorem C17_pmm_init_bits_witness :
    (8193 + PAGE_SIZE - 1 < 2 ^ 32 ∧ 3 < 65536) ∧
    (test_bit (pmm_init (fun _ => 0) 65536 8193).bitmap 3 = false ↔
      (8193 + PAGE_SIZE - 1) / PAGE_SIZE ≤ 3 ∧ 3 < 65536 / PAGE_SIZE) :=
  ⟨⟨by decide, by decide⟩,
   (C17_pmm_init_bits (fun _ => 0) 65536 8193 3 (by decide) (by decide)).1⟩

/-! ### Address translation -/

/-- C18 fails on the code: `vmm_get_physical` tests `PAGE_PRESENT` on the
directory entry only.  In the address space of `cloneDemo` (directory
`0x1000`, page `0x5000` mapped at virtual `0x5000`): the mapped address
`0x5123` resolves to `0x5123` and an address whose table is absent
resolves to 0, but after `vmm_unmap(pd, 0x5123)`, which leaves the leaf 0,
`vmm_get_physical(pd, 0x5123)` is `0x123`, not 0; so is the result for
`0x6123`, whose leaf was never present.  After `vmm_map(pd, 0x7123,
0x9000, PRESENT|WRITE|USER)` the address `0x7123` resolves to `0x9123`. -/
theorem C18_get_physical_ignores_leaf_present :
    vmm_get_physical cloneDemo 0x1000 0x5123 = 0x5123 ∧
    vmm_get_physical cloneDemo 0x1000 0x400123 = 0 ∧
    leaf (vmm_unmap cloneDemo 0x1000 0x5123).tables 0x1000 0 5 = some 0 ∧
    vmm_get_physical (vmm_unmap cloneDemo 0x1000 0x5123) 0x1000 0x5123 = 0x123 ∧
    leaf cloneDemo.tables 0x1000 0 6 = some 0 ∧
    vmm_get_physical cloneDemo 0x1000 0x6123 = 0x123 ∧
    vmm_get_physical
      (vmm_map cloneDemo 0x1000 0x7123 0x9000 (PAGE_PRESENT ||| PAGE_WRITE ||| PAGE_USER))
      0x1000 0x7123 = 0x9123 := by
  decide


/-! ### Waiting without children -/

/-- C20 fails for the idle process: right after `proc_init` every other
record is `PROC_UNUSED`, so the idle process has no children, yet
`proc_wait(pid, status)` does not return -1.  The idle record has
`ppid = pid = 0`, so the `has_child` scan counts the caller itself; the
caller is set `PROC_BLOCKED` and yields, and nothing is returned. -/
theorem C20_idle_wait_blocks (kernel_dir : Nat) (pid : Int) :
    (∀ i, i ≠ 0 → ((proc_init kernel_dir).proc_table i).state = PROC_UNUSED) ∧
    has_child (proc_init kernel_dir).proc_table (proc_init kernel_dir).current_proc = true ∧
    (proc_wait (proc_init kernel_dir) pid).ret = none ∧
    ((proc_wait (proc_init kernel_dir) pid).kernel.proc_table 0).state = PROC_BLOCKED := by
  have hz : find_zombie (proc_init kernel_dir).proc_table (proc_init kernel_dir).current_proc pid
      = none := by
    unfold find_zombie
    rw [List.find?_eq_none]
    intro x _
    by_cases hx : x = 0 <;> simp [proc_init, setProc, zero_proc, hx]
  have hc : has_child (proc_init kernel_dir).proc_table (proc_init kernel_dir).current_proc
      = true := by
    unfold has_child
    rw [List.any_eq_true]
    exact ⟨0, by simp [MAX_PROCS], by simp [proc_init, setProc, zero_proc]⟩
  refine ⟨?_, hc, ?_, ?_⟩
  · intro i hi
    simp [proc_init, setProc, zero_proc, hi]
  · unfold proc_wait
    simp only [hz, hc, if_true]
  · unfold proc_wait
    simp only [hz, hc, if_true]
    have hb : (setState (proc_init kernel_dir).proc_table (proc_init kernel_dir).current_proc
        PROC_BLOCKED 0).state = PROC_BLOCKED := setState_same _ _ _
    rw [proc_yield_keeps _ 0 (by simp only [hb]; decide) (by simp only [hb]; decide)
      (by simp only [hb]; decide)]
    exact hb


/-! ### Waiting without children: the other case -/

/-- The case C20 describes, when the scan finds no record at all with the
caller as parent (the caller's own record included): `proc_wait` returns -1
and leaves the kernel state as it was. -/
theorem proc_wait_no_child (k : Kernel) (pid : Int)
    (h : ∀ i, i < MAX_PROCS →
      ¬ ((k.proc_table i).ppid = (k.proc_table k.current_proc).pid ∧
         (k.proc_table i).state ≠ PROC_UNUSED)) :
    (proc_wait k pid).ret = some (-1) ∧ (proc_wait k pid).kernel = k := by
  have hz : find_zombie k.proc_table k.current_proc pid = none := by
    unfold find_zombie
    rw [List.find?_eq_none]
    intro x hx
    have := h x (List.mem_range.mp hx)
    simp only [decide_eq_true_eq, not_and]
    intro hs hp
    exact absurd ⟨hp, by rw [hs]; decide⟩ this
  have hc : has_child k.proc_table k.current_proc = false := by
    unfold has_child
    rw [List.any_eq_false]
    intro x hx
    have := h x (List.mem_range.mp hx)
    simpa using this
  unfold proc_wait
  simp [hz, hc]

/-! ### Pids -/

theorem wake_sleepers_none (ticks : Nat) (t : Nat → process_t)
    (h : ∀ i, (t i).state ≠ PROC_SLEEPING) : wake_sleepers ticks t = t := by
  funext i
  simp [wake_sleepers, h i]

theorem twoSlots_state {k : Kernel} {c : Nat} {s0 s1 : proc_state_t} {n : Int}
    (h : TwoSlots k c s0 s1 n) (i : Nat) :
    (k.proc_table i).state = s0 ∨ (k.proc_table i).state = s1 ∨
      (k.proc_table i).state = PROC_UNUSED := by
  rcases Nat.lt_or_ge i 2 with hi | hi
  · rcases (by omega : i = 0 ∨ i = 1) with rfl | rfl
    · exact Or.inl h.st0
    · exact Or.inr (Or.inl h.st1)
  · exact Or.inr (Or.inr (h.rest i hi))

theorem find_next_first (t : Nat → process_t) (cur i : Nat) (hi : i < MAX_PROCS)
    (hp : (t ((cur + (i + 1)) % MAX_PROCS)).state = PROC_READY)
    (hfirst : ∀ j, j < i → (t ((cur + (j + 1)) % MAX_PROCS)).state ≠ PROC_READY) :
    find_next t cur = some ((cur + (i + 1)) % MAX_PROCS) := by
  unfold find_next
  rw [List.find?_map]
  rw [find_range_first _ _ i hi (by simp [hp]) (fun j hj => by simp [hfirst j hj])]
  rfl

theorem twoSlots_create {k : Kernel} {n : Int} (name : List Char)
    (h : TwoSlots k 0 PROC_RUNNING PROC_UNUSED n) :
    TwoSlots (proc_create_kernel k name).1 0 PROC_RUNNING PROC_READY (n + 1) ∧
    ((proc_create_kernel k name).1.proc_table 1).pid = n := by
  have ha : alloc_proc k.proc_table = some 1 := by
    unfold alloc_proc
    apply find_range_first _ _ 1 (by decide) (by simp [h.st1])
    intro j hj
    have : j = 0 := by omega
    subst this
    simp [h.st0]
  unfold proc_create_kernel
  rw [ha]
  simp only
  refine ⟨⟨h.cur, ?_, ?_, ?_, ?_, ?_, ?_, ?_, h.npf⟩, ?_⟩
  · simp [setProc, h.st0]
  · simp [setProc, h.pid0]
  · simp [setProc]
  · intro _; simp [setProc, h.cur, h.pid0]
  · intro _; simp [setProc]
  · intro i hi
    have : i ≠ 1 := by omega
    simp [setProc, this, h.rest i hi]
  · simp [h.npk]
  · simp [setProc, h.npk]

theorem twoSlots_tick {k : Kernel} {n : Int}
    (h : TwoSlots k 0 PROC_RUNNING PROC_READY n) :
    TwoSlots (scheduler_tick k) 1 PROC_READY PROC_RUNNING n := by
  have hw : wake_sleepers ((k.ticks + 1) % 2 ^ 32) k.proc_table = k.proc_table := by
    apply wake_sleepers_none
    intro i
    rcases twoSlots_state h i with e | e | e <;> rw [e] <;> decide
  have hf : find_next k.proc_table 0 = some 1 :=
    find_next_first k.proc_table 0 0 (by decide) (by simpa using h.st1)
      (fun j hj => by omega)
  have hcur := h.cur
  unfold scheduler_tick
  simp only [hw, hf, hcur]
  have h10 : ¬ ((1 : Nat) = 0) := by decide
  rw [if_neg h10, if_pos h.st0]
  refine ⟨rfl, ?_, ?_, ?_, ?_, ?_, ?_, h.npk, h.npf⟩
  · simp [setState, setProc]
  · simp [setState, setProc, h.pid0]
  · simp [setState, setProc]
  · intro _; simpa [setState, setProc] using h.ppid1 (by decide)
  · intro _; simpa [setState, setProc] using h.dir1 (by decide)
  · intro i hi
    have h1 : i ≠ 1 := by omega
    have h0 : i ≠ 0 := by omega
    simp [setState, setProc, h1, h0, h.rest i hi]

theorem twoSlots_exit {k : Kernel} {n : Int} (code : Int)
    (h : TwoSlots k 1 PROC_READY PROC_RUNNING n) :
    TwoSlots (proc_exit k code) 0 PROC_RUNNING PROC_ZOMBIE n := by
  have hcur := h.cur
  have hpp : (k.proc_table 1).ppid = 0 := h.ppid1 (by decide)
  have hdir : (k.proc_table 1).page_dir = k.kernel_dir := h.dir1 (by decide)
  -- the table after the caller has been marked
  obtain ⟨t, ht⟩ : ∃ t, t = setProc k.proc_table 1
      { k.proc_table 1 with state := PROC_ZOMBIE, exit_code := code } := ⟨_, rfl⟩
  have t0 : t 0 = k.proc_table 0 := by rw [ht]; simp [setProc]
  have t1s : (t 1).state = PROC_ZOMBIE := by rw [ht]; simp [setProc]
  have t1p : (t 1).ppid = 0 := by rw [ht]; simp [setProc, hpp]
  have t1d : (t 1).page_dir = k.kernel_dir := by rw [ht]; simp [setProc, hdir]
  have tr : ∀ i, 2 ≤ i → (t i).state = PROC_UNUSED := by
    intro i hi
    have : i ≠ 1 := by omega
    rw [ht]; simp [setProc, this, h.rest i hi]
  have hg : proc_get t 0 = some 0 := by
    unfold proc_get
    apply find_range_first _ _ 0 (by decide) (by simp [t0, h.pid0, h.st0])
    intro j hj
    omega
  have hexit : proc_exit k code = scheduler_tick { k with proc_table := t } := by
    unfold proc_exit
    simp only [hcur]
    rw [← ht]
    simp only [t1p, hg]
    have e2 : ¬ ((t 0).state = PROC_BLOCKED) := by rw [t0, h.st0]; decide
    have e3 : ¬ ((t 1).page_dir ≠ k.kernel_dir) := by simp [t1d]
    rw [if_neg e2, if_neg e3]
    unfold proc_yield
    have e4 : ¬ ((t 1).state = PROC_RUNNING) := by rw [t1s]; decide
    simp only [hcur]
    rw [if_neg e4]
  rw [hexit]
  have hw : wake_sleepers ((k.ticks + 1) % 2 ^ 32) t = t := by
    apply wake_sleepers_none
    intro i
    rcases Nat.lt_or_ge i 2 with hi | hi
    · rcases (by omega : i = 0 ∨ i = 1) with rfl | rfl
      · rw [t0, h.st0]; decide
      · rw [t1s]; decide
    · rw [tr i hi]; decide
  have hf : find_next t 1 = some 0 :=
    find_next_first t 1 62 (by decide)
      (by show (t 0).state = PROC_READY; rw [t0]; exact h.st0)
      (fun j hj => by
        have e : (1 + (j + 1)) % MAX_PROCS = j + 2 := by
          simp only [MAX_PROCS]; omega
        rw [e, tr _ (by omega)]; decide)
  unfold scheduler_tick
  simp only [hw, hcur, hf]
  have h01 : ¬ ((0 : Nat) = 1) := by decide
  have e5 : ¬ ((t 1).state = PROC_RUNNING) := by rw [t1s]; decide
  rw [if_neg h01, if_neg e5]
  refine ⟨rfl, ?_, ?_, ?_, ?_, ?_, ?_, h.npk, h.npf⟩
  · simp [setState, setProc]
  · simp [setState, setProc, t0, h.pid0]
  · simp [setState, setProc, t1s]
  · intro _; simp [setState, setProc, t1p]
  · intro _; simp [setState, setProc, t1d]
  · intro i hi
    have h0 : i ≠ 0 := by omega
    simp [setState, setProc, h0, tr i hi]

theorem twoSlots_wait {k : Kernel} {n : Int}
    (h : TwoSlots k 0 PROC_RUNNING PROC_ZOMBIE n) :
    TwoSlots (proc_wait k (-1)).kernel 0 PROC_RUNNING PROC_UNUSED n := by
  have hz : find_zombie k.proc_table k.current_proc (-1) = some 1 := by
    unfold find_zombie
    rw [h.cur]
    apply find_range_first _ _ 1 (by decide)
      (by simp [h.st1, h.ppid1 (by decide), h.pid0])
    intro j hj
    have : j = 0 := by omega
    subst this
    simp [h.st0]
  unfold proc_wait
  simp only [hz]
  refine ⟨h.cur, ?_, ?_, ?_, ?_, ?_, ?_, h.npk, h.npf⟩
  · simp [setState, setProc, h.st0]
  · simp [setState, setProc, h.pid0]
  · simp [setState, setProc]
  · intro hne; exact absurd rfl hne
  · intro hne; exact absurd rfl hne
  · intro i hi
    have h1 : i ≠ 1 := by omega
    simp [setState, setProc, h1, h.rest i hi]

theorem twoSlots_init (kernel_dir : Nat) :
    TwoSlots (proc_init kernel_dir) 0 PROC_RUNNING PROC_UNUSED 1 := by
  refine ⟨rfl, ?_, ?_, ?_, ?_, ?_, ?_, rfl, rfl⟩
  · simp [proc_init, setProc]
  · simp [proc_init, setProc]
  · simp [proc_init, setProc, zero_proc]
  · intro hne; exact absurd rfl hne
  · intro hne; exact absurd rfl hne
  · intro i hi
    have : i ≠ 0 := by omega
    simp [proc_init, setProc, zero_proc, this]

theorem twoSlots_round {k : Kernel} {n : Int}
    (h : TwoSlots k 0 PROC_RUNNING PROC_UNUSED n) :
    TwoSlots (recycleOps.foldl ProcOp.apply k) 0 PROC_RUNNING PROC_UNUSED (n + 1) :=
  twoSlots_wait (twoSlots_exit 0 (twoSlots_tick (twoSlots_create _ h).1))

theorem twoSlots_rounds (m : Nat) :
    ∀ (k : Kernel) (n : Int), TwoSlots k 0 PROC_RUNNING PROC_UNUSED n →
      TwoSlots ((List.replicate m recycleOps).flatten.foldl ProcOp.apply k) 0
        PROC_RUNNING PROC_UNUSED (n + m) := by
  induction m with
  | zero =>
    intro k n h
    simpa using h
  | succ m ih =>
    intro k n h
    rw [List.replicate_succ, List.flatten_cons, List.foldl_append]
    have := ih _ _ (twoSlots_round h)
    have e : n + 1 + (m : Int) = n + ((m + 1 : Nat) : Int) := by push_cast; ring
    rw [e] at this
    exact this

theorem fork_stack_offset_created (top : Nat) (h1 : 20 ≤ top) (h2 : top < 2 ^ 32) :
    fork_stack_offset top (created_esp top) = 20 := by
  unfold fork_stack_offset created_esp
  omega

theorem twoSlots_tick_pid {k : Kernel} {n : Int}
    (h : TwoSlots k 0 PROC_RUNNING PROC_READY n) :
    ((scheduler_tick k).proc_table 1).pid = (k.proc_table 1).pid := by
  have hw : wake_sleepers ((k.ticks + 1) % 2 ^ 32) k.proc_table = k.proc_table := by
    apply wake_sleepers_none
    intro i
    rcases twoSlots_state h i with e | e | e <;> rw [e] <;> decide
  have hf : find_next k.proc_table 0 = some 1 :=
    find_next_first k.proc_table 0 0 (by decide) (by simpa using h.st1)
      (fun j hj => by omega)
  have hcur := h.cur
  unfold scheduler_tick
  simp only [hw, hf, hcur]
  have h10 : ¬ ((1 : Nat) = 0) := by decide
  rw [if_neg h10, if_pos h.st0]
  simp [setState, setProc]

theorem fork_by_thread {k : Kernel} {n : Int} (d : Nat)
    (h : TwoSlots k 1 PROC_READY PROC_RUNNING n) :
    (proc_fork k d).2 = some 2 ∧
    (proc_fork k d).1.proc_table 0 = k.proc_table 0 ∧
    (proc_fork k d).1.proc_table 1 = k.proc_table 1 ∧
    ((proc_fork k d).1.proc_table 2).state = PROC_READY ∧
    ((proc_fork k d).1.proc_table 2).pid = 100 ∧
    ((proc_fork k d).1.proc_table 2).ppid = (k.proc_table 1).pid ∧
    (proc_fork k d).1.current_proc = 1 := by
  have ha : alloc_proc k.proc_table = some 2 := by
    unfold alloc_proc
    apply find_range_first _ _ 2 (by decide) (by simp [h.rest 2 (le_refl _)])
    intro j hj
    rcases (by omega : j = 0 ∨ j = 1) with rfl | rfl
    · simp [h.st0]
    · simp [h.st1]
  unfold proc_fork
  rw [ha]
  simp [setProc, h.npf, h.cur]

theorem runProc_create_tick_fork (kernel_dir : Nat) (l : List ProcOp) (name : List Char)
    (d : Nat) :
    runProc kernel_dir (l ++ [ProcOp.create name, ProcOp.tick, ProcOp.fork d]) =
      (proc_fork (scheduler_tick
        (proc_create_kernel (l.foldl ProcOp.apply (proc_init kernel_dir)) name).1) d).1 := by
  simp [runProc, List.foldl_append, ProcOp.apply]

theorem pidClashOps_eq : pidClashOps =
    (List.replicate 99 recycleOps).flatten ++
      [ProcOp.create "worker".toList, ProcOp.tick, ProcOp.fork 0] := by
  rw [pidClashOps]

/-- C19 fails on the code: `proc_create_kernel` and `proc_fork` each count
pids with a `static` counter of their own, starting at 1 and at 100.  After
99 kernel threads have been created, run, exited and been reaped (each
reuses slot 1), the next thread gets pid 100.  The timer switches to it and
it calls `proc_fork`: the child, in slot 2, gets pid 100 as well, so the
running thread and its `PROC_READY` child are two live records with the same
pid (the child's `ppid` is its own pid).  The forking thread has not been
switched out, so the stack copy that ends `proc_fork` has length
`kernel_stack_top - esp = 20`, whatever the address of the stack. -/
theorem C19_pids_collide (kernel_dir : Nat) :
    (runProc kernel_dir pidClashOps).current_proc = 1 ∧
    ((runProc kernel_dir pidClashOps).proc_table 0).state = PROC_READY ∧
    ((runProc kernel_dir pidClashOps).proc_table 1).state = PROC_RUNNING ∧
    ((runProc kernel_dir pidClashOps).proc_table 2).state = PROC_READY ∧
    ((runProc kernel_dir pidClashOps).proc_table 0).pid = 0 ∧
    ((runProc kernel_dir pidClashOps).proc_table 1).pid = 100 ∧
    ((runProc kernel_dir pidClashOps).proc_table 2).pid = 100 ∧
    ((runProc kernel_dir pidClashOps).proc_table 2).ppid = 100 ∧
    (∀ top, 20 ≤ top → top < 2 ^ 32 → fork_stack_offset top (created_esp top) = 20) := by
  have h99 := twoSlots_rounds 99 _ _ (twoSlots_init kernel_dir)
  obtain ⟨hc, hpid⟩ := twoSlots_create "worker".toList h99
  have ht := twoSlots_tick hc
  have htp := twoSlots_tick_pid hc
  obtain ⟨_, f0, f1, f2, f3, f4, f5⟩ := fork_by_thread 0 ht
  have hrun : runProc kernel_dir pidClashOps =
      (proc_fork (scheduler_tick (proc_create_kernel
        ((List.replicate 99 recycleOps).flatten.foldl ProcOp.apply (proc_init kernel_dir))
        "worker".toList).1) 0).1 := by
    rw [pidClashOps_eq, runProc_create_tick_fork]
  have hp : ((scheduler_tick (proc_create_kernel
        ((List.replicate 99 recycleOps).flatten.foldl ProcOp.apply (proc_init kernel_dir))
        "worker".toList).1).proc_table 1).pid = 100 := by
    rw [htp, hpid]
    norm_num
  rw [hrun, f0, f1, f4, hp]
  exact ⟨f5, ht.st0, ht.st1, f2, ht.pid0, rfl, f3, rfl, fork_stack_offset_created⟩


theorem dir_entry_bits (k flags : Nat) (hk : k < 2 ^ 20) :
    (k * PAGE_SIZE ||| PAGE_PRESENT ||| PAGE_WRITE ||| (flags &&& PAGE_USER)) &&& ADDR_MASK =
      k * PAGE_SIZE ∧
    (k * PAGE_SIZE ||| PAGE_PRESENT ||| PAGE_WRITE ||| (flags &&& PAGE_USER)) &&& PAGE_PRESENT
      ≠ 0 := by
  constructor
  · have hy : PAGE_PRESENT ||| PAGE_WRITE ||| (flags &&& PAGE_USER) < 2 ^ 12 := by
      apply Nat.or_lt_two_pow
      · decide
      · calc flags &&& PAGE_USER ≤ PAGE_USER := Nat.and_le_right
          _ < 2 ^ 12 := by decide
    have h1 : (PAGE_PRESENT ||| PAGE_WRITE ||| (flags &&& PAGE_USER)) &&& 0xFFF =
        PAGE_PRESENT ||| PAGE_WRITE ||| (flags &&& PAGE_USER) := by
      have h2 : (0xFFF : Nat) = 2 ^ 12 - 1 := by norm_num
      rw [h2, Nat.and_pow_two_sub_one_eq_mod, Nat.mod_eq_of_lt hy]
    have h3 := frame_entry_addr k (PAGE_PRESENT ||| PAGE_WRITE ||| (flags &&& PAGE_USER)) hk
    rw [h1] at h3
    rw [Nat.lor_assoc, Nat.lor_assoc, ← Nat.lor_assoc PAGE_PRESENT]
    exact h3
  · intro h
    have := (present_iff _).mp h
    simp [Nat.testBit_lor, PAGE_PRESENT] at this

theorem vmm_map_absent (v : Vmm) (dirs : List Nat) (pd virt phys flags : Nat)
    (htot : v.pmm.total_pages ≤ 2 ^ 20)
    (hused : ∀ d, d ∈ dirs → test_bit v.pmm.bitmap (d / PAGE_SIZE) = true)
    (habs : v.tables pd (virt >>> 22) &&& PAGE_PRESENT = 0)
    (hfree : 0 < freeFrames v.pmm) :
    ∃ q e, test_bit v.pmm.bitmap (q / PAGE_SIZE) = false ∧
      test_bit (vmm_map v pd virt phys flags).pmm.bitmap (q / PAGE_SIZE) = true ∧
      (∀ x, test_bit v.pmm.bitmap x = true →
        test_bit (vmm_map v pd virt phys flags).pmm.bitmap x = true) ∧
      (vmm_map v pd virt phys flags).pmm.total_pages = v.pmm.total_pages ∧
      freeFrames (vmm_map v pd virt phys flags).pmm + 1 = freeFrames v.pmm ∧
      e &&& ADDR_MASK = q ∧ e &&& PAGE_PRESENT ≠ 0 ∧
      ∀ d, d ∈ dirs → ∀ i, (vmm_map v pd virt phys flags).tables d i =
        if d = pd ∧ i = virt >>> 22 then e else v.tables d i := by
  obtain ⟨k, hk, hkfree, hret, hbm, htp, hff⟩ := pmm_alloc_free v.pmm htot hfree
  have hk20 : k < 2 ^ 20 := by omega
  have hqdiv : k * PAGE_SIZE / PAGE_SIZE = k := by simp [PAGE_SIZE]
  have h1 : allocPtr (pmm_alloc v.pmm).2 = k * PAGE_SIZE := by rw [hret]; rfl
  have hpmm : (vmm_map v pd virt phys flags).pmm = (pmm_alloc v.pmm).1 := by
    rw [vmm_map]
    dsimp only
    rw [if_pos habs]
  have htab : (vmm_map v pd virt phys flags).tables =
      setEntry (setEntry (memset32_zero v.tables (k * PAGE_SIZE)) pd (virt >>> 22)
        (k * PAGE_SIZE ||| PAGE_PRESENT ||| PAGE_WRITE ||| (flags &&& PAGE_USER)))
        (k * PAGE_SIZE) ((virt >>> 12) &&& 0x3FF)
        ((phys &&& ADDR_MASK) ||| PAGE_PRESENT ||| flags) := by
    rw [vmm_map]
    dsimp only
    rw [if_pos habs, h1]
  obtain ⟨e1, e2⟩ := dir_entry_bits k flags hk20
  refine ⟨k * PAGE_SIZE, _, ?_, ?_, ?_, ?_, ?_, e1, e2, ?_⟩
  · rw [hqdiv]; exact hkfree
  · rw [hpmm, hbm, test_bit_set_bit, hqdiv]
    simp
  · intro x hx
    rw [hpmm, hbm, test_bit_set_bit]
    split
    · rfl
    · exact hx
  · rw [hpmm, htp]
  · rw [hpmm]
    exact hff
  · intro d hd i
    have hne : d ≠ k * PAGE_SIZE := by
      apply ne_of_bits (hused d hd)
      rw [hqdiv]; exact hkfree
    rw [htab]
    simp only [setEntry, memset32_zero, hne, false_and, if_false]

theorem vmm_map_kernel_dir (v : Vmm) (pd virt phys flags : Nat) :
    (vmm_map v pd virt phys flags).kernel_dir = v.kernel_dir := by
  rw [vmm_map]
  dsimp only
  split <;> rfl

theorem vmm_map_present (v : Vmm) (dirs : List Nat) (pd virt phys flags : Nat)
    (h : VmmInv v dirs) (hpd : pd ∈ dirs) (hvirt : virt >>> 22 < 768)
    (hp : v.tables pd (virt >>> 22) &&& PAGE_PRESENT ≠ 0) :
    (vmm_map v pd virt phys flags).pmm = v.pmm ∧
    ∀ d, d ∈ dirs → ∀ i, (vmm_map v pd virt phys flags).tables d i = v.tables d i := by
  constructor
  · rw [vmm_map]
    dsimp only
    rw [if_neg hp]
  · intro d hd i
    have hne : d ≠ v.tables pd (virt >>> 22) &&& ADDR_MASK := by
      intro heq
      exact (h.tabs pd hpd _ hvirt hp).2 (heq ▸ hd)
    rw [vmm_map]
    dsimp only
    rw [if_neg hp]
    simp only [setEntry, hne, false_and, if_false]

/-- A call of `vmm_map` with a user address on a directory keeps the
invariant; it takes a frame only when the directory entry is absent. -/
theorem vmm_map_inv (v : Vmm) (dirs : List Nat) (pd virt phys flags : Nat)
    (h : VmmInv v dirs) (hpd : pd ∈ dirs) (hvirt : virt >>> 22 < 768)
    (hfree : v.tables pd (virt >>> 22) &&& PAGE_PRESENT ≠ 0 ∨ 0 < freeFrames v.pmm) :
    VmmInv (vmm_map v pd virt phys flags) dirs ∧
    (vmm_map v pd virt phys flags).tables pd (virt >>> 22) &&& PAGE_PRESENT ≠ 0 ∧
    ((v.tables pd (virt >>> 22) &&& PAGE_PRESENT ≠ 0 ∧
        freeFrames (vmm_map v pd virt phys flags).pmm = freeFrames v.pmm) ∨
      (v.tables pd (virt >>> 22) &&& PAGE_PRESENT = 0 ∧
        freeFrames (vmm_map v pd virt phys flags).pmm + 1 = freeFrames v.pmm)) := by
  by_cases hp : v.tables pd (virt >>> 22) &&& PAGE_PRESENT = 0
  · have hf : 0 < freeFrames v.pmm := by
      rcases hfree with h1 | h1
      · exact absurd hp h1
      · exact h1
    obtain ⟨q, e, hq0, hq1, hmono, htp, hff, he1, he2, htab⟩ :=
      vmm_map_absent v dirs pd virt phys flags h.total h.used hp hf
    have hkd := vmm_map_kernel_dir v pd virt phys flags
    generalize vmm_map v pd virt phys flags = w at *
    have hqd : q ∉ dirs := fun hm => by
      have := h.used q hm
      rw [hq0] at this
      cases this
    refine ⟨⟨?_, ?_, h.nodup, ?_, ?_, ?_⟩, ?_, Or.inr ⟨hp, hff⟩⟩
    · rw [htp]; exact h.total
    · rw [hkd]; exact h.kd
    · intro d hd
      exact hmono _ (h.used d hd)
    · intro d hd i hi
      rw [htab d hd i]
      by_cases hc : d = pd ∧ i = virt >>> 22
      · rw [if_pos hc, he1]
        intro _
        exact ⟨hq1, hqd⟩
      · rw [if_neg hc]
        intro hpi
        exact ⟨hmono _ (h.tabs d hd i hi hpi).1, (h.tabs d hd i hi hpi).2⟩
    · intro d hd i hi1 hi2
      have hc : ¬ (d = pd ∧ i = virt >>> 22) := by
        rintro ⟨_, h2⟩
        omega
      rw [htab d hd i, if_neg hc]
      exact h.kern d hd i hi1 hi2
    · rw [htab pd hpd, if_pos ⟨rfl, rfl⟩]
      exact he2
  · obtain ⟨hpmm, htab⟩ := vmm_map_present v dirs pd virt phys flags h hpd hvirt hp
    have hkd := vmm_map_kernel_dir v pd virt phys flags
    generalize vmm_map v pd virt phys flags = w at *
    refine ⟨⟨?_, ?_, h.nodup, ?_, ?_, ?_⟩, ?_, Or.inl ⟨hp, by rw [hpmm]⟩⟩
    · rw [hpmm]; exact h.total
    · rw [hkd]; exact h.kd
    · intro d hd
      rw [hpmm]
      exact h.used d hd
    · intro d hd i hi
      rw [htab d hd i, hpmm]
      exact h.tabs d hd i hi
    · intro d hd i hi1 hi2
      rw [htab d hd i]
      exact h.kern d hd i hi1 hi2
    · rw [htab pd hpd]
      exact hp

theorem create_fold_same (pd kd : Nat) (hne : kd ≠ pd) (l : List Nat) :
    ∀ (t : Tables), (∀ a, a ∈ l → t kd (768 + a) = t pd (768 + a)) →
      ∀ p j, (l.foldl (fun t i => setEntry t pd (768 + i) (t kd (768 + i))) t) p j = t p j := by
  induction l with
  | nil => intro t _ p j; rfl
  | cons a l ih =>
    intro t ht p j
    rw [List.foldl_cons, ih]
    · by_cases hc : p = pd ∧ j = 768 + a
      · simp only [setEntry, hc, and_self, if_true]
        exact ht a (List.mem_cons_self _ _)
      · simp only [setEntry, hc, if_false]
    · intro b hb
      have h1 : ¬ (kd = pd ∧ 768 + b = 768 + a) := fun h => hne h.1
      simp only [setEntry, h1, if_false, true_and]
      by_cases h2 : 768 + b = 768 + a
      · rw [if_pos h2, h2]
      · rw [if_neg h2]
        exact ht b (List.mem_cons_of_mem _ hb)

/-- A call of `vmm_create_directory` keeps the invariant, with the new
directory added; it takes one frame. -/
theorem vmm_create_inv (v : Vmm) (dirs : List Nat) (h : VmmInv v dirs)
    (hfree : 0 < freeFrames v.pmm) :
    VmmInv (vmm_create_directory v).1 (dirs ++ [(vmm_create_directory v).2]) ∧
    freeFrames (vmm_create_directory v).1.pmm + 1 = freeFrames v.pmm := by
  obtain ⟨k, hk, hkfree, hret, hbm, htp, hff⟩ := pmm_alloc_free v.pmm h.total hfree
  have hqdiv : k * PAGE_SIZE / PAGE_SIZE = k := by simp [PAGE_SIZE]
  have hq0 : test_bit v.pmm.bitmap (k * PAGE_SIZE / PAGE_SIZE) = false := by
    rw [hqdiv]; exact hkfree
  have hdst : (vmm_create_directory v).2 = k * PAGE_SIZE := by
    simp [vmm_create_directory, hret, allocPtr]
  have hpmm : (vmm_create_directory v).1.pmm = (pmm_alloc v.pmm).1 := rfl
  have hkd : (vmm_create_directory v).1.kernel_dir = v.kernel_dir := rfl
  have hkq : v.kernel_dir ≠ k * PAGE_SIZE := ne_of_bits (h.used _ h.kd) hq0
  have htab : ∀ p j, (vmm_create_directory v).1.tables p j =
      memset32_zero v.tables (k * PAGE_SIZE) p j := by
    intro p j
    simp only [vmm_create_directory, hret, allocPtr]
    apply create_fold_same _ _ hkq
    intro a ha
    have ha2 : a < 256 := List.mem_range.mp ha
    have h1 : 768 + a < 1024 := by omega
    simp only [memset32_zero, hkq, false_and, if_false, h1, and_self, if_true]
    exact h.kern _ h.kd _ (by omega) h1
  rw [hdst]
  generalize vmm_create_directory v = r at hpmm htab hkd
  generalize hqdef : k * PAGE_SIZE = q at *
  have hmono : ∀ x, test_bit v.pmm.bitmap x = true → test_bit r.1.pmm.bitmap x = true := by
    intro x hx
    rw [hpmm, hbm, test_bit_set_bit]
    split
    · rfl
    · exact hx
  have hqd : q ∉ dirs := fun hm => by
    have := h.used q hm
    rw [hq0] at this
    cases this
  have hold : ∀ d, d ∈ dirs → ∀ i, r.1.tables d i = v.tables d i := by
    intro d hd i
    have hne : d ≠ q := fun heq => hqd (heq ▸ hd)
    rw [htab]
    simp only [memset32_zero, hne, false_and, if_false]
  have hnew : ∀ i, i < 1024 → r.1.tables q i = 0 := by
    intro i hi
    rw [htab]
    simp only [memset32_zero, hi, and_self, if_true]
  refine ⟨⟨?_, ?_, ?_, ?_, ?_, ?_⟩, ?_⟩
  · rw [hpmm, htp]; exact h.total
  · rw [hkd]
    exact List.mem_append_left _ h.kd
  · rw [List.nodup_append]
    refine ⟨h.nodup, List.nodup_singleton _, ?_⟩
    intro a ha hb
    rw [List.mem_singleton] at hb
    exact hqd (hb ▸ ha)
  · intro d hd
    rcases List.mem_append.mp hd with h1 | h1
    · exact hmono _ (h.used d h1)
    · rw [List.mem_singleton] at h1
      rw [h1, hpmm, hbm, test_bit_set_bit, hqdiv]
      simp
  · intro d hd i hi hpi
    rcases List.mem_append.mp hd with h1 | h1
    · rw [hold d h1 i] at hpi ⊢
      obtain ⟨t1, t2⟩ := h.tabs d h1 i hi hpi
      refine ⟨hmono _ t1, ?_⟩
      intro hm
      rcases List.mem_append.mp hm with h2 | h2
      · exact t2 h2
      · rw [List.mem_singleton] at h2
        rw [h2, hq0] at t1
        cases t1
    · rw [List.mem_singleton] at h1
      rw [h1, hnew i (by omega)] at hpi
      exact absurd (Nat.zero_and _) hpi
  · intro d hd i hi1 hi2
    rcases List.mem_append.mp hd with h1 | h1
    · rw [hold d h1 i]
      exact h.kern d h1 i hi1 hi2
    · rw [List.mem_singleton] at h1
      rw [h1]
      exact hnew i hi2
  · rw [hpmm]
    exact hff

theorem clone_fold_kernel_dir (src dst : Nat) (l : List Nat) :
    ∀ w : Vmm, (l.foldl (clone_dir_entry src dst) w).kernel_dir = w.kernel_dir := by
  induction l with
  | nil => intro w; rfl
  | cons a l ih =>
    intro w
    rw [List.foldl_cons, ih]
    rw [clone_dir_entry]
    split <;> rfl

theorem identity_map_index (n : Nat) (hn : n < 1024) : (n * PAGE_SIZE) >>> 22 = 0 := by
  rw [Nat.shiftRight_eq_div_pow]
  simp only [PAGE_SIZE]
  omega

/-- The loop of `vmm_init`: the invariant holds after every iteration, and
only the first one takes a frame. -/
theorem vmm_init_loop (v1 : Vmm) (kd : Nat) (h : VmmInv v1 [kd]) (hfree : 0 < freeFrames v1.pmm)
    (n : Nat) (hn : n ≤ 1024) :
    VmmInv ((List.range n).foldl
      (fun w i => vmm_map w kd (i * PAGE_SIZE) (i * PAGE_SIZE) (PAGE_PRESENT ||| PAGE_WRITE)) v1)
      [kd] ∧
    ((List.range n).foldl
      (fun w i => vmm_map w kd (i * PAGE_SIZE) (i * PAGE_SIZE) (PAGE_PRESENT ||| PAGE_WRITE))
      v1).kernel_dir = v1.kernel_dir ∧
    (freeFrames ((List.range n).foldl
      (fun w i => vmm_map w kd (i * PAGE_SIZE) (i * PAGE_SIZE) (PAGE_PRESENT ||| PAGE_WRITE))
      v1).pmm = freeFrames v1.pmm ∨
     (((List.range n).foldl
      (fun w i => vmm_map w kd (i * PAGE_SIZE) (i * PAGE_SIZE) (PAGE_PRESENT ||| PAGE_WRITE))
      v1).tables kd 0 &&& PAGE_PRESENT ≠ 0 ∧
      freeFrames ((List.range n).foldl
      (fun w i => vmm_map w kd (i * PAGE_SIZE) (i * PAGE_SIZE) (PAGE_PRESENT ||| PAGE_WRITE))
      v1).pmm + 1 = freeFrames v1.pmm)) := by
  induction n with
  | zero => exact ⟨h, rfl, Or.inl rfl⟩
  | succ n ih =>
    obtain ⟨i1, i2, i3⟩ := ih (by omega)
    rw [List.range_succ, List.foldl_append, List.foldl_cons, List.foldl_nil]
    generalize (List.range n).foldl
      (fun w i => vmm_map w kd (i * PAGE_SIZE) (i * PAGE_SIZE) (PAGE_PRESENT ||| PAGE_WRITE))
      v1 = w at i1 i2 i3 ⊢
    have hidx := identity_map_index n (by omega)
    have hf : w.tables kd ((n * PAGE_SIZE) >>> 22) &&& PAGE_PRESENT ≠ 0 ∨
        0 < freeFrames w.pmm := by
      rcases i3 with h3 | h3
      · right; omega
      · left; rw [hidx]; exact h3.1
    obtain ⟨m1, m2, m3⟩ := vmm_map_inv w [kd] kd (n * PAGE_SIZE) (n * PAGE_SIZE)
      (PAGE_PRESENT ||| PAGE_WRITE) i1 (List.mem_singleton_self _) (by rw [hidx]; omega) hf
    have hk := vmm_map_kernel_dir w kd (n * PAGE_SIZE) (n * PAGE_SIZE)
      (PAGE_PRESENT ||| PAGE_WRITE)
    rw [hidx] at m2 m3
    generalize vmm_map w kd (n * PAGE_SIZE) (n * PAGE_SIZE) (PAGE_PRESENT ||| PAGE_WRITE) = w1
      at m1 m2 m3 hk ⊢
    refine ⟨m1, by rw [hk, i2], ?_⟩
    rcases m3 with ⟨a1, a2⟩ | ⟨a1, a2⟩
    · rcases i3 with h3 | h3
      · left; omega
      · right; exact ⟨m2, by omega⟩
    · rcases i3 with h3 | h3
      · right; exact ⟨m2, by omega⟩
      · exact absurd a1 h3.1

theorem vmm_switch_kernel_dir (v : Vmm) (pd : Nat) :
    (vmm_switch v pd).kernel_dir = v.kernel_dir := rfl

theorem vmm_switch_pmm (v : Vmm) (pd : Nat) : (vmm_switch v pd).pmm = v.pmm := rfl

theorem vmmInv_switch (v : Vmm) (pd : Nat) (dirs : List Nat) (h : VmmInv v dirs) :
    VmmInv (vmm_switch v pd) dirs :=
  ⟨h.total, h.kd, h.nodup, h.used, h.tabs, h.kern⟩

/-- After `vmm_init` the kernel directory satisfies the invariant; at most two
frames have been taken. -/
theorem vmm_init_inv (v : Vmm) (htot : v.pmm.total_pages ≤ 2 ^ 20)
    (hfree : 2 ≤ freeFrames v.pmm) :
    VmmInv (vmm_init v) [(vmm_init v).kernel_dir] ∧
    freeFrames v.pmm ≤ freeFrames (vmm_init v).pmm + 2 := by
  obtain ⟨k, hk, hkfree, hret, hbm, htp, hff⟩ := pmm_alloc_free v.pmm htot (by omega)
  have hqdiv : k * PAGE_SIZE / PAGE_SIZE = k := by simp [PAGE_SIZE]
  have h1 : allocPtr (pmm_alloc v.pmm).2 = k * PAGE_SIZE := by rw [hret]; rfl
  obtain ⟨v1, hv1⟩ : ∃ v1 : Vmm, v1 = Vmm.mk (pmm_alloc v.pmm).1
      (memset32_zero v.tables (k * PAGE_SIZE)) (k * PAGE_SIZE) v.current_dir := ⟨_, rfl⟩
  have hinit : vmm_init v = vmm_switch ((List.range 1024).foldl
      (fun w i => vmm_map w (k * PAGE_SIZE) (i * PAGE_SIZE) (i * PAGE_SIZE)
        (PAGE_PRESENT ||| PAGE_WRITE)) v1) (k * PAGE_SIZE) := by
    rw [vmm_init, h1, hv1]
  have hp1 : v1.pmm = (pmm_alloc v.pmm).1 := by rw [hv1]
  have hk1 : v1.kernel_dir = k * PAGE_SIZE := by rw [hv1]
  have ht1 : ∀ j, j < 1024 → v1.tables (k * PAGE_SIZE) j = 0 := by
    intro j hj
    rw [hv1]
    simp only [memset32_zero, hj, and_self, if_true]
  have hI : VmmInv v1 [k * PAGE_SIZE] := by
    refine ⟨?_, ?_, List.nodup_singleton _, ?_, ?_, ?_⟩
    · rw [hp1, htp]; exact htot
    · rw [hk1]; exact List.mem_singleton_self _
    · intro d hd
      rw [List.mem_singleton] at hd
      rw [hd, hp1, hbm, test_bit_set_bit, hqdiv]
      simp
    · intro d hd i hi hpi
      rw [List.mem_singleton] at hd
      rw [hd, ht1 i (by omega)] at hpi
      exact absurd (Nat.zero_and _) hpi
    · intro d hd i _ hi2
      rw [List.mem_singleton] at hd
      rw [hd]
      exact ht1 i hi2
  have hf1 : 0 < freeFrames v1.pmm := by
    rw [hp1]
    omega
  obtain ⟨l1, l2, l3⟩ := vmm_init_loop v1 (k * PAGE_SIZE) hI hf1 1024 (le_refl _)
  rw [hinit]
  generalize (List.range 1024).foldl
      (fun w i => vmm_map w (k * PAGE_SIZE) (i * PAGE_SIZE) (i * PAGE_SIZE)
        (PAGE_PRESENT ||| PAGE_WRITE)) v1 = w at l1 l2 l3 ⊢
  rw [vmm_switch_kernel_dir, l2, hk1, vmm_switch_pmm]
  refine ⟨vmmInv_switch w _ _ l1, ?_⟩
  rw [hp1] at l3
  rcases l3 with h3 | h3
  · omega
  · omega

theorem user_virt_index (virt : Nat) (h : virt < KERNEL_VIRT_BASE) : virt >>> 22 < 768 := by
  rw [Nat.shiftRight_eq_div_pow]
  simp only [KERNEL_VIRT_BASE] at h
  omega

theorem getD_mem (l : List Nat) (i : Nat) (h : i < l.length) : l.getD i 0 ∈ l := by
  rw [List.getD_eq_getElem l 0 h]
  exact List.getElem_mem h

theorem step_create (s : AddrSpaces) :
    s.step .create = AddrSpaces.mk (vmm_create_directory s.vmm).1
      (s.dirs ++ [(vmm_create_directory s.vmm).2]) := rfl

theorem step_clone (s : AddrSpaces) (src : Nat) :
    s.step (.clone src) = AddrSpaces.mk (vmm_clone s.vmm (s.dirs.getD src 0)).1
      (s.dirs ++ [(vmm_clone s.vmm (s.dirs.getD src 0)).2]) := rfl

theorem step_map (s : AddrSpaces) (pd virt phys flags : Nat) :
    s.step (.map pd virt phys flags) =
      AddrSpaces.mk (vmm_map s.vmm (s.dirs.getD pd 0) virt phys flags) s.dirs := rfl

theorem create_kernel_dir (v : Vmm) : (vmm_create_directory v).1.kernel_dir = v.kernel_dir :=
  rfl

theorem mk_vmm (v : Vmm) (ds : List Nat) : (AddrSpaces.mk v ds).vmm = v := rfl

theorem mk_dirs (v : Vmm) (ds : List Nat) : (AddrSpaces.mk v ds).dirs = ds := rfl

/-- A `vmm_map` of the first kernel address in the kernel directory `kd`
makes entry 768 of `kd` present and leaves entry 768 of the other directory
zero. -/
theorem kernel_map_one_dir (v : Vmm) (kd d phys flags : Nat) (h : VmmInv v [kd, d])
    (hk : v.kernel_dir = kd) (hf : 0 < freeFrames v.pmm) :
    (vmm_map v kd KERNEL_VIRT_BASE phys flags).tables d 768 = 0 ∧
    (vmm_map v kd KERNEL_VIRT_BASE phys flags).tables
      (vmm_map v kd KERNEL_VIRT_BASE phys flags).kernel_dir 768 &&& PAGE_PRESENT ≠ 0 := by
  have hidx : KERNEL_VIRT_BASE >>> 22 = 768 := by decide
  have hkmem : kd ∈ [kd, d] := List.mem_cons_self _ _
  have hdmem : d ∈ [kd, d] := List.mem_cons_of_mem _ (List.mem_singleton_self _)
  have hne : d ≠ kd := by
    intro heq
    have := h.nodup
    rw [heq] at this
    simp at this
  have habs : v.tables kd (KERNEL_VIRT_BASE >>> 22) &&& PAGE_PRESENT = 0 := by
    rw [hidx, h.kern _ hkmem 768 (le_refl _) (by omega)]
    exact Nat.zero_and _
  obtain ⟨q, e, _, _, _, _, _, _, he2, htab⟩ :=
    vmm_map_absent v [kd, d] kd KERNEL_VIRT_BASE phys flags h.total h.used habs hf
  have hk2 := vmm_map_kernel_dir v kd KERNEL_VIRT_BASE phys flags
  rw [hidx] at htab
  generalize vmm_map v kd KERNEL_VIRT_BASE phys flags = w at htab hk2 ⊢
  constructor
  · have hc : ¬ (d = kd ∧ 768 = 768) := fun h => hne h.1
    rw [htab _ hdmem, if_neg hc]
    exact h.kern _ hdmem 768 (le_refl _) (by omega)
  · rw [hk2, hk, htab _ hkmem, if_pos ⟨rfl, rfl⟩]
    exact he2

theorem kernel_map_after_create (b : Vmm) (phys flags : Nat) (h : VmmInv b [b.kernel_dir])
    (hf : 2 ≤ freeFrames b.pmm) :
    (vmm_map (vmm_create_directory b).1 b.kernel_dir KERNEL_VIRT_BASE phys flags).tables
      (vmm_create_directory b).2 768 = 0 ∧
    (vmm_map (vmm_create_directory b).1 b.kernel_dir KERNEL_VIRT_BASE phys flags).tables
      (vmm_map (vmm_create_directory b).1 b.kernel_dir KERNEL_VIRT_BASE phys flags).kernel_dir
      768 &&& PAGE_PRESENT ≠ 0 := by
  obtain ⟨c1, c2⟩ := vmm_create_inv b [b.kernel_dir] h (by omega)
  rw [List.singleton_append] at c1
  exact kernel_map_one_dir (vmm_create_directory b).1 b.kernel_dir (vmm_create_directory b).2
    phys flags c1 (create_kernel_dir b) (by omega)

/-- After `vmm_init` and one `vmm_create_directory`, a `vmm_map` of the first
kernel address in the kernel directory fills entry 768 of the kernel
directory only: the directory created before keeps a zero entry. -/
theorem kernel_map_not_copied (v0 : Vmm) (phys flags : Nat)
    (htot : v0.pmm.total_pages ≤ 2 ^ 20) (hfree : 4 ≤ freeFrames v0.pmm) :
    ∃ d, d ∈ (vmmRun v0 [.create, .map 0 KERNEL_VIRT_BASE phys flags]).dirs ∧
      (vmmRun v0 [.create, .map 0 KERNEL_VIRT_BASE phys flags]).vmm.tables d 768 = 0 ∧
      (vmmRun v0 [.create, .map 0 KERNEL_VIRT_BASE phys flags]).vmm.tables
        (vmmRun v0 [.create, .map 0 KERNEL_VIRT_BASE phys flags]).vmm.kernel_dir 768
          &&& PAGE_PRESENT ≠ 0 := by
  obtain ⟨i1, i2⟩ := vmm_init_inv v0 htot (by omega)
  have hrun : vmmRun v0 [.create, .map 0 KERNEL_VIRT_BASE phys flags] =
      AddrSpaces.mk (vmm_map (vmm_create_directory (vmm_init v0)).1 (vmm_init v0).kernel_dir
          KERNEL_VIRT_BASE phys flags)
        [(vmm_init v0).kernel_dir, (vmm_create_directory (vmm_init v0)).2] := by
    rw [vmmRun, List.foldl_cons, List.foldl_cons, List.foldl_nil, vmmBoot, step_create,
      step_map, List.singleton_append, List.getD_cons_zero]
  rw [hrun, mk_vmm, mk_dirs]
  exact ⟨_, List.mem_cons_of_mem _ (List.mem_singleton_self _),
    kernel_map_after_create (vmm_init v0) phys flags i1 (by omega)⟩

theorem sharedInv_of_vmmInv (v : Vmm) (dirs : List Nat) (h : VmmInv v dirs) :
    SharedInv v dirs := by
  refine ⟨h.total, h.kd, h.nodup, h.used, ?_, ?_⟩
  · intro d hd i hi hp
    by_cases h7 : i < 768
    · exact h.tabs d hd i h7 hp
    · rw [h.kern d hd i (by omega) hi] at hp
      exact absurd (Nat.zero_and _) hp
  · intro d hd i hi1 hi2
    rw [h.kern d hd i hi1 hi2, h.kern _ h.kd i hi1 hi2]

theorem shared_map_present (v : Vmm) (dirs : List Nat) (pd virt phys flags : Nat)
    (h : SharedInv v dirs) (hpd : pd ∈ dirs) (hvirt : virt >>> 22 < 1024)
    (hp : v.tables pd (virt >>> 22) &&& PAGE_PRESENT ≠ 0) :
    (vmm_map v pd virt phys flags).pmm = v.pmm ∧
    ∀ d, d ∈ dirs → ∀ i, (vmm_map v pd virt phys flags).tables d i = v.tables d i := by
  constructor
  · rw [vmm_map]
    dsimp only
    rw [if_neg hp]
  · intro d hd i
    have hne : d ≠ v.tables pd (virt >>> 22) &&& ADDR_MASK := by
      intro heq
      exact (h.tabs pd hpd _ hvirt hp).2 (heq ▸ hd)
    rw [vmm_map]
    dsimp only
    rw [if_neg hp]
    simp only [setEntry, hne, false_and, if_false]

/-- A call of `vmm_map` on a directory keeps the invariant when it installs
no page table in a kernel entry, or when the kernel directory is the only
directory.  Present directory entries stay present, the entry of the address
is present afterwards, and at most one frame is taken. -/
theorem shared_map_inv (v : Vmm) (dirs : List Nat) (pd virt phys flags : Nat)
    (h : SharedInv v dirs) (hpd : pd ∈ dirs) (hvirt : virt >>> 22 < 1024)
    (hok : virt >>> 22 < 768 ∨ v.tables pd (virt >>> 22) &&& PAGE_PRESENT ≠ 0 ∨
      dirs = [v.kernel_dir])
    (hfree : v.tables pd (virt >>> 22) &&& PAGE_PRESENT ≠ 0 ∨ 0 < freeFrames v.pmm) :
    SharedInv (vmm_map v pd virt phys flags) dirs ∧
    (vmm_map v pd virt phys flags).kernel_dir = v.kernel_dir ∧
    (∀ d, d ∈ dirs → ∀ i, v.tables d i &&& PAGE_PRESENT ≠ 0 →
      (vmm_map v pd virt phys flags).tables d i &&& PAGE_PRESENT ≠ 0) ∧
    (vmm_map v pd virt phys flags).tables pd (virt >>> 22) &&& PAGE_PRESENT ≠ 0 ∧
    freeFrames v.pmm ≤ freeFrames (vmm_map v pd virt phys flags).pmm + 1 := by
  have hkd := vmm_map_kernel_dir v pd virt phys flags
  by_cases hp : v.tables pd (virt >>> 22) &&& PAGE_PRESENT = 0
  · have hf : 0 < freeFrames v.pmm := by
      rcases hfree with h1 | h1
      · exact absurd hp h1
      · exact h1
    obtain ⟨q, e, hq0, hq1, hmono, htp, hff, he1, he2, htab⟩ :=
      vmm_map_absent v dirs pd virt phys flags h.total h.used hp hf
    generalize vmm_map v pd virt phys flags = w at *
    have hqd : q ∉ dirs := fun hm => by
      have := h.used q hm
      rw [hq0] at this
      cases this
    refine ⟨⟨?_, ?_, h.nodup, ?_, ?_, ?_⟩, hkd, ?_, ?_, by omega⟩
    · rw [htp]; exact h.total
    · rw [hkd]; exact h.kd
    · intro d hd
      exact hmono _ (h.used d hd)
    · intro d hd i hi
      rw [htab d hd i]
      by_cases hc : d = pd ∧ i = virt >>> 22
      · rw [if_pos hc, he1]
        intro _
        exact ⟨hq1, hqd⟩
      · rw [if_neg hc]
        intro hpi
        exact ⟨hmono _ (h.tabs d hd i hi hpi).1, (h.tabs d hd i hi hpi).2⟩
    · intro d hd i hi1 hi2
      rw [hkd]
      rcases hok with h1 | h1 | h1
      · have hc : ¬ (d = pd ∧ i = virt >>> 22) := by
          rintro ⟨_, h2⟩
          omega
        have hc2 : ¬ (v.kernel_dir = pd ∧ i = virt >>> 22) := by
          rintro ⟨_, h2⟩
          omega
        rw [htab d hd i, if_neg hc, htab _ h.kd i, if_neg hc2]
        exact h.kern d hd i hi1 hi2
      · exact absurd hp h1
      · rw [h1, List.mem_singleton] at hd
        rw [hd]
    · intro d hd i hpi
      rw [htab d hd i]
      by_cases hc : d = pd ∧ i = virt >>> 22
      · rw [if_pos hc]
        exact he2
      · rw [if_neg hc]
        exact hpi
    · rw [htab pd hpd, if_pos ⟨rfl, rfl⟩]
      exact he2
  · obtain ⟨hpmm, htab⟩ := shared_map_present v dirs pd virt phys flags h hpd hvirt hp
    generalize vmm_map v pd virt phys flags = w at *
    refine ⟨⟨?_, ?_, h.nodup, ?_, ?_, ?_⟩, hkd, ?_, ?_, by rw [hpmm]; omega⟩
    · rw [hpmm]; exact h.total
    · rw [hkd]; exact h.kd
    · intro d hd
      rw [hpmm]
      exact h.used d hd
    · intro d hd i hi
      rw [htab d hd i, hpmm]
      exact h.tabs d hd i hi
    · intro d hd i hi1 hi2
      rw [hkd, htab d hd i, htab _ h.kd i]
      exact h.kern d hd i hi1 hi2
    · intro d hd i hpi
      rw [htab d hd i]
      exact hpi
    · rw [htab pd hpd]
      exact hp

/-- The copy loop of `vmm_create_directory`, entry by entry: after `n`
iterations entries `768 .. 768 + n` of `pd` hold those of `kd`. -/
theorem create_fold_copy (pd kd : Nat) (hne : kd ≠ pd) (t : Tables) (n : Nat) :
    ∀ p j, ((List.range n).foldl (fun t i => setEntry t pd (768 + i) (t kd (768 + i))) t) p j =
      if p = pd ∧ 768 ≤ j ∧ j < 768 + n then t kd j else t p j := by
  induction n with
  | zero =>
    intro p j
    have : ¬ (p = pd ∧ 768 ≤ j ∧ j < 768 + 0) := by
      rintro ⟨_, h1, h2⟩
      omega
    rw [if_neg this]
    rfl
  | succ n ih =>
    intro p j
    rw [List.range_succ, List.foldl_append, List.foldl_cons, List.foldl_nil]
    generalize (List.range n).foldl (fun t i => setEntry t pd (768 + i) (t kd (768 + i))) t = T
      at ih ⊢
    have hk : T kd (768 + n) = t kd (768 + n) := by
      rw [ih]
      have : ¬ (kd = pd ∧ 768 ≤ 768 + n ∧ 768 + n < 768 + n) := fun h => hne h.1
      rw [if_neg this]
    show (if p = pd ∧ j = 768 + n then T kd (768 + n) else T p j) = _
    by_cases h1 : p = pd ∧ j = 768 + n
    · rw [if_pos h1, hk, if_pos ⟨h1.1, by omega, by omega⟩, h1.2]
    · rw [if_neg h1, ih]
      by_cases h2 : p = pd ∧ 768 ≤ j ∧ j < 768 + n
      · rw [if_pos h2, if_pos ⟨h2.1, h2.2.1, by omega⟩]
      · have h3 : ¬ (p = pd ∧ 768 ≤ j ∧ j < 768 + (n + 1)) := by
          rintro ⟨a, b, c⟩
          by_cases h4 : j = 768 + n
          · exact h1 ⟨a, h4⟩
          · exact h2 ⟨a, b, by omega⟩
        rw [if_neg h2, if_neg h3]

/-- The tables after `vmm_create_directory`: the new directory holds zeroes
in its user entries and the kernel directory's entries 768..1023; every
other table is as before. -/
theorem create_tables (v : Vmm) (k : Nat) (hret : (pmm_alloc v.pmm).2 = some (k * PAGE_SIZE))
    (hkq : v.kernel_dir ≠ k * PAGE_SIZE) :
    (vmm_create_directory v).2 = k * PAGE_SIZE ∧
    (∀ p j, p ≠ k * PAGE_SIZE → (vmm_create_directory v).1.tables p j = v.tables p j) ∧
    (∀ j, j < 768 → (vmm_create_directory v).1.tables (k * PAGE_SIZE) j = 0) ∧
    (∀ j, 768 ≤ j → j < 1024 →
      (vmm_create_directory v).1.tables (k * PAGE_SIZE) j = v.tables v.kernel_dir j) := by
  have hdst : (vmm_create_directory v).2 = k * PAGE_SIZE := by
    simp [vmm_create_directory, hret, allocPtr]
  have htab : ∀ p j, (vmm_create_directory v).1.tables p j =
      if p = k * PAGE_SIZE ∧ 768 ≤ j ∧ j < 768 + 256
      then memset32_zero v.tables (k * PAGE_SIZE) v.kernel_dir j
      else memset32_zero v.tables (k * PAGE_SIZE) p j := by
    intro p j
    simp only [vmm_create_directory, hret, allocPtr]
    exact create_fold_copy _ _ hkq _ 256 p j
  refine ⟨hdst, ?_, ?_, ?_⟩
  · intro p j hp
    rw [htab]
    simp only [hp, false_and, if_false, memset32_zero]
  · intro j hj
    rw [htab]
    have h1 : ¬ (k * PAGE_SIZE = k * PAGE_SIZE ∧ 768 ≤ j ∧ j < 768 + 256) := by
      rintro ⟨_, h2, _⟩
      omega
    have h2 : j < 1024 := by omega
    rw [if_neg h1]
    simp only [memset32_zero, h2, and_self, if_true]
  · intro j hj1 hj2
    rw [htab, if_pos ⟨rfl, hj1, by omega⟩]
    simp only [memset32_zero, hkq, false_and, if_false]

/-- A call of `vmm_create_directory` keeps the invariant, with the new
directory added: its kernel entries are the copy of the kernel directory's.
The directories that existed are unchanged, and one frame is taken. -/
theorem shared_create_inv (v : Vmm) (dirs : List Nat) (h : SharedInv v dirs)
    (hfree : 0 < freeFrames v.pmm) :
    SharedInv (vmm_create_directory v).1 (dirs ++ [(vmm_create_directory v).2]) ∧
    (∀ d, d ∈ dirs → ∀ i, (vmm_create_directory v).1.tables d i = v.tables d i) ∧
    freeFrames (vmm_create_directory v).1.pmm + 1 = freeFrames v.pmm := by
  obtain ⟨k, hk, hkfree, hret, hbm, htp, hff⟩ := pmm_alloc_free v.pmm h.total hfree
  have hqdiv : k * PAGE_SIZE / PAGE_SIZE = k := by simp [PAGE_SIZE]
  have hq0 : test_bit v.pmm.bitmap (k * PAGE_SIZE / PAGE_SIZE) = false := by
    rw [hqdiv]; exact hkfree
  have hkq : v.kernel_dir ≠ k * PAGE_SIZE := ne_of_bits (h.used _ h.kd) hq0
  obtain ⟨hdst, hother, huser, hkern⟩ := create_tables v k hret hkq
  have hpmm : (vmm_create_directory v).1.pmm = (pmm_alloc v.pmm).1 := rfl
  have hkd : (vmm_create_directory v).1.kernel_dir = v.kernel_dir := rfl
  rw [hdst]
  generalize vmm_create_directory v = r at hpmm hother huser hkern hkd
  generalize hqdef : k * PAGE_SIZE = q at *
  have hmono : ∀ x, test_bit v.pmm.bitmap x = true → test_bit r.1.pmm.bitmap x = true := by
    intro x hx
    rw [hpmm, hbm, test_bit_set_bit]
    split
    · rfl
    · exact hx
  have hqd : q ∉ dirs := fun hm => by
    have := h.used q hm
    rw [hq0] at this
    cases this
  have hold : ∀ d, d ∈ dirs → ∀ i, r.1.tables d i = v.tables d i := by
    intro d hd i
    exact hother d i (fun heq => hqd (heq ▸ hd))
  have hnotq : ∀ x, test_bit v.pmm.bitmap (x / PAGE_SIZE) = true →
      x ∉ dirs → x ∉ dirs ++ [q] := by
    intro x hx hxd hm
    rcases List.mem_append.mp hm with h2 | h2
    · exact hxd h2
    · rw [List.mem_singleton] at h2
      rw [h2, hq0] at hx
      cases hx
  refine ⟨⟨?_, ?_, ?_, ?_, ?_, ?_⟩, hold, ?_⟩
  · rw [hpmm, htp]; exact h.total
  · rw [hkd]
    exact List.mem_append_left _ h.kd
  · rw [List.nodup_append]
    refine ⟨h.nodup, List.nodup_singleton _, ?_⟩
    intro a ha hb
    rw [List.mem_singleton] at hb
    exact hqd (hb ▸ ha)
  · intro d hd
    rcases List.mem_append.mp hd with h1 | h1
    · exact hmono _ (h.used d h1)
    · rw [List.mem_singleton] at h1
      rw [h1, hpmm, hbm, test_bit_set_bit, hqdiv]
      simp
  · intro d hd i hi hpi
    rcases List.mem_append.mp hd with h1 | h1
    · rw [hold d h1 i] at hpi ⊢
      obtain ⟨t1, t2⟩ := h.tabs d h1 i hi hpi
      exact ⟨hmono _ t1, hnotq _ t1 t2⟩
    · rw [List.mem_singleton] at h1
      rw [h1] at hpi ⊢
      by_cases h7 : i < 768
      · rw [huser i h7] at hpi
        exact absurd (Nat.zero_and _) hpi
      · rw [hkern i (by omega) hi] at hpi ⊢
        obtain ⟨t1, t2⟩ := h.tabs _ h.kd i hi hpi
        exact ⟨hmono _ t1, hnotq _ t1 t2⟩
  · intro d hd i hi1 hi2
    rw [hkd, hold _ h.kd i]
    rcases List.mem_append.mp hd with h1 | h1
    · rw [hold d h1 i]
      exact h.kern d h1 i hi1 hi2
    · rw [List.mem_singleton] at h1
      rw [h1]
      exact hkern i hi1 hi2
  · rw [hpmm]
    exact hff

/-- The outer loop of `vmm_clone(src)` leaves every directory that existed
before the call as it was: it writes to the new directory, to the tables it
allocates and to the page tables of `src`, none of which is a directory. -/
theorem clone_keeps_dirs (v0 : Vmm) (dirs : List Nat) (src dst : Nat) (w0 : Vmm)
    (h : SharedInv v0 dirs) (hsrc : src ∈ dirs)
    (hc : CloneInv v0 src dst 0 w0)
    (h0 : ∀ d, d ∈ dirs → ∀ j, w0.tables d j = v0.tables d j)
    (n : Nat) (hn : n ≤ 768) :
    ∀ d, d ∈ dirs → ∀ j,
      ((List.range n).foldl (clone_dir_entry src dst) w0).tables d j = v0.tables d j := by
  have hpt : ∀ i, i < 768 → v0.tables src i &&& PAGE_PRESENT ≠ 0 →
      test_bit v0.pmm.bitmap ((v0.tables src i &&& ADDR_MASK) / PAGE_SIZE) = true :=
    fun i hi hp => (h.tabs src hsrc i (by omega) hp).1
  induction n with
  | zero => exact h0
  | succ n ih =>
    have ih2 := ih (by omega)
    have hinv := cloneInv_run hc h.total (h.used src hsrc) hpt n (by omega)
    rw [List.range_succ, List.foldl_append, List.foldl_cons, List.foldl_nil]
    generalize (List.range n).foldl (clone_dir_entry src dst) w0 = w at ih2 hinv ⊢
    intro d hd j
    by_cases hp : w.tables src n &&& PAGE_PRESENT = 0
    · have hce : clone_dir_entry src dst w n = w := by simp [clone_dir_entry, hp]
      rw [hce]
      exact ih2 d hd j
    · have hsn : w.tables src n = v0.tables src n := ih2 src hsrc n
      have hp0 : v0.tables src n &&& PAGE_PRESENT ≠ 0 := by rw [← hsn]; exact hp
      obtain ⟨t1, t2⟩ := h.tabs src hsrc n (by omega) hp0
      have hfr : 0 < freeFrames w.pmm := by
        have := hinv.free
        omega
      obtain ⟨k, hk, hkfree, hret, _, _, _⟩ :=
        pmm_alloc_free w.pmm (by rw [hinv.total]; exact h.total) hfr
      have hqdiv : k * PAGE_SIZE / PAGE_SIZE = k := by simp [PAGE_SIZE]
      have hq0 : test_bit w.pmm.bitmap (k * PAGE_SIZE / PAGE_SIZE) = false := by
        rw [hqdiv]; exact hkfree
      have hsp_q : w.tables src n &&& ADDR_MASK ≠ k * PAGE_SIZE := by
        rw [hsn]
        exact ne_of_bits (hinv.mono _ t1) hq0
      have hdst_q : dst ≠ k * PAGE_SIZE := ne_of_bits hinv.dst_used hq0
      have hsrc_q : src ≠ k * PAGE_SIZE := ne_of_bits (hinv.mono _ (h.used src hsrc)) hq0
      have hsp_dst : w.tables src n &&& ADDR_MASK ≠ dst := by
        rw [hsn]
        exact ne_of_bits t1 hinv.dst_new
      obtain ⟨_, hrest, _⟩ := clone_dir_entry_present src dst w n (k * PAGE_SIZE)
        (w.tables src n &&& ADDR_MASK) (by omega) hp rfl hret hsp_q hdst_q hsrc_q hsp_dst
      have hd_q : d ≠ k * PAGE_SIZE := ne_of_bits (hinv.mono _ (h.used d hd)) hq0
      have hd_dst : d ≠ dst := ne_of_bits (h.used d hd) hinv.dst_new
      have hd_sp : ¬ (d = w.tables src n &&& ADDR_MASK ∧ j < 1024) := by
        rintro ⟨heq, _⟩
        rw [hsn] at heq
        exact t2 (heq ▸ hd)
      rw [hrest d j hd_q hd_dst, if_neg hd_sp]
      exact ih2 d hd j

/-- A call of `vmm_clone` on a directory keeps the invariant, with the new
directory added; the directories that existed are unchanged, and at most
769 frames are taken. -/
theorem shared_clone_inv (v : Vmm) (dirs : List Nat) (src : Nat) (h : SharedInv v dirs)
    (hsrc : src ∈ dirs) (hfree : 769 ≤ freeFrames v.pmm) :
    SharedInv (vmm_clone v src).1 (dirs ++ [(vmm_clone v src).2]) ∧
    (∀ d, d ∈ dirs → ∀ i, (vmm_clone v src).1.tables d i = v.tables d i) ∧
    freeFrames v.pmm ≤ freeFrames (vmm_clone v src).1.pmm + 769 := by
  have h1 : (vmm_clone v src).1 = (List.range 768).foldl
      (clone_dir_entry src (vmm_create_directory v).2) (vmm_create_directory v).1 := by
    rw [vmm_clone]
  have h2 : (vmm_clone v src).2 = (vmm_create_directory v).2 := by
    rw [vmm_clone]
  have hpt : ∀ i, i < 768 → v.tables src i &&& PAGE_PRESENT ≠ 0 →
      test_bit v.pmm.bitmap ((v.tables src i &&& ADDR_MASK) / PAGE_SIZE) = true :=
    fun i hi hp => (h.tabs src hsrc i (by omega) hp).1
  have hci := cloneInv_init v src h.total hfree
  obtain ⟨c1, c2, _⟩ := shared_create_inv v dirs h (by omega)
  have hinv : CloneInv v src (vmm_clone v src).2 768 (vmm_clone v src).1 := by
    rw [h1, h2]
    exact cloneInv_run hci h.total (h.used src hsrc) hpt 768 (le_refl _)
  have hkeep : ∀ d, d ∈ dirs → ∀ j, (vmm_clone v src).1.tables d j = v.tables d j := by
    rw [h1]
    exact clone_keeps_dirs v dirs src _ _ h hsrc hci c2 768 (le_refl _)
  have hkd : (vmm_clone v src).1.kernel_dir = v.kernel_dir := by
    rw [h1, clone_fold_kernel_dir]
    rfl
  have hck : ∀ j, 768 ≤ j → j < 1024 →
      (vmm_create_directory v).1.tables (vmm_clone v src).2 j = v.tables v.kernel_dir j := by
    intro j hj1 hj2
    rw [h2, c1.kern _ (List.mem_append_right _ (List.mem_singleton_self _)) j hj1 hj2,
      create_kernel_dir]
    exact c2 _ h.kd j
  have hdk := hinv.dstk
  clear h1 h2 hci c1 c2
  generalize (vmm_create_directory v).1 = c at hck hdk
  generalize (vmm_clone v src).1 = w at hinv hkd hdk hkeep ⊢
  generalize (vmm_clone v src).2 = dst at hinv hck hdk ⊢
  have hdd : dst ∉ dirs := fun hm => by
    have := h.used dst hm
    rw [hinv.dst_new] at this
    cases this
  have hnotd : ∀ x, test_bit v.pmm.bitmap (x / PAGE_SIZE) = true →
      x ∉ dirs → x ∉ dirs ++ [dst] := by
    intro x hx hxd hm
    rcases List.mem_append.mp hm with h3 | h3
    · exact hxd h3
    · rw [List.mem_singleton] at h3
      rw [h3, hinv.dst_new] at hx
      cases hx
  refine ⟨⟨?_, ?_, ?_, ?_, ?_, ?_⟩, hkeep, ?_⟩
  · rw [hinv.total]; exact h.total
  · rw [hkd]
    exact List.mem_append_left _ h.kd
  · rw [List.nodup_append]
    refine ⟨h.nodup, List.nodup_singleton _, ?_⟩
    intro a ha hb
    rw [List.mem_singleton] at hb
    exact hdd (hb ▸ ha)
  · intro d hd
    rcases List.mem_append.mp hd with hm | hm
    · exact hinv.mono _ (h.used d hm)
    · rw [List.mem_singleton] at hm
      rw [hm]
      exact hinv.dst_used
  · intro d hd i hi hpi
    rcases List.mem_append.mp hd with hm | hm
    · rw [hkeep d hm i] at hpi ⊢
      obtain ⟨t1, t2⟩ := h.tabs d hm i hi hpi
      exact ⟨hinv.mono _ t1, hnotd _ t1 t2⟩
    · rw [List.mem_singleton] at hm
      rw [hm] at hpi ⊢
      by_cases h7 : i < 768
      · by_cases hp0 : v.tables src i &&& PAGE_PRESENT = 0
        · rw [hinv.rest i h7 (Or.inr hp0)] at hpi
          exact absurd (Nat.zero_and _) hpi
        · obtain ⟨_, d2, d3, d4, _⟩ := hinv.done i h7 hp0
          refine ⟨d3, ?_⟩
          intro hmem
          rcases List.mem_append.mp hmem with h3 | h3
          · have := h.used _ h3
            rw [d2] at this
            cases this
          · rw [List.mem_singleton] at h3
            exact d4 h3
      · rw [hdk i (by omega), hck i (by omega) hi] at hpi ⊢
        obtain ⟨t1, t2⟩ := h.tabs _ h.kd i hi hpi
        exact ⟨hinv.mono _ t1, hnotd _ t1 t2⟩
  · intro d hd i hi1 hi2
    rw [hkd, hkeep _ h.kd i]
    rcases List.mem_append.mp hd with hm | hm
    · rw [hkeep d hm i]
      exact h.kern d hm i hi1 hi2
    · rw [List.mem_singleton] at hm
      rw [hm, hdk i hi1]
      exact hck i hi1 hi2
  · have := hinv.spent
    omega

theorem virt_index_lt (virt : Nat) (h : virt < 2 ^ 32) : virt >>> 22 < 1024 := by
  rw [Nat.shiftRight_eq_div_pow]
  omega

theorem kernel_virt_index (virt : Nat) (h : ¬ virt < KERNEL_VIRT_BASE) : 768 ≤ virt >>> 22 := by
  rw [Nat.shiftRight_eq_div_pow]
  simp only [KERNEL_VIRT_BASE] at h
  omega

theorem dirs_singleton (dirs : List Nat) (kd : Nat) (hk : kd ∈ dirs) (hl : dirs.length = 1) :
    dirs = [kd] := by
  match dirs, hl with
  | [a], _ =>
    rw [List.mem_singleton] at hk
    rw [hk]

/-- The invariant is kept by every sequence of calls that names existing
directories, installs no page table in a kernel entry once a second
directory exists, and finds the frames it needs; the kernel entries mapped
while the kernel directory was alone are present in the kernel directory at
the end. -/
theorem sharedRun_inv (ops : List VmmOp) :
    ∀ (s : AddrSpaces) (mapped : List Nat), SharedInv s.vmm s.dirs →
      (∀ x, x ∈ mapped → 768 ≤ x ∧ x < 1024 ∧
        s.vmm.tables s.vmm.kernel_dir x &&& PAGE_PRESENT ≠ 0) →
      (ops.map vmmCost).sum ≤ freeFrames s.vmm.pmm →
      sharedOps s.dirs.length mapped ops = true →
      SharedInv (ops.foldl AddrSpaces.step s).vmm (ops.foldl AddrSpaces.step s).dirs ∧
      ∀ x, x ∈ kernelMapped s.dirs.length mapped ops → 768 ≤ x ∧ x < 1024 ∧
        (ops.foldl AddrSpaces.step s).vmm.tables
          (ops.foldl AddrSpaces.step s).vmm.kernel_dir x &&& PAGE_PRESENT ≠ 0 := by
  induction ops with
  | nil => intro s mapped h hm _ _; exact ⟨h, hm⟩
  | cons op ops ih =>
    intro s mapped h hm hc hu
    rw [List.foldl_cons]
    rw [List.map_cons, List.sum_cons] at hc
    cases op with
    | create =>
      simp only [vmmCost] at hc
      simp only [sharedOps] at hu
      simp only [kernelMapped]
      obtain ⟨c1, c2, c3⟩ := shared_create_inv s.vmm s.dirs h (by omega)
      have hs : s.step .create = AddrSpaces.mk (vmm_create_directory s.vmm).1
          (s.dirs ++ [(vmm_create_directory s.vmm).2]) := rfl
      have hkd : (vmm_create_directory s.vmm).1.kernel_dir = s.vmm.kernel_dir := rfl
      rw [hs]
      generalize vmm_create_directory s.vmm = r at c1 c2 c3 hkd ⊢
      have hlen : (AddrSpaces.mk r.1 (s.dirs ++ [r.2])).dirs.length = s.dirs.length + 1 := by
        show (s.dirs ++ [r.2]).length = _
        rw [List.length_append, List.length_singleton]
      have := ih (AddrSpaces.mk r.1 (s.dirs ++ [r.2])) mapped c1
        (by
          intro x hx
          obtain ⟨a, b, c⟩ := hm x hx
          refine ⟨a, b, ?_⟩
          show r.1.tables r.1.kernel_dir x &&& PAGE_PRESENT ≠ 0
          rw [hkd, c2 _ h.kd x]
          exact c)
        (by show _ ≤ freeFrames r.1.pmm; omega)
        (by rw [hlen]; exact hu)
      rw [hlen] at this
      exact this
    | clone src =>
      simp only [vmmCost] at hc
      simp only [sharedOps, Bool.and_eq_true, decide_eq_true_eq] at hu
      simp only [kernelMapped]
      obtain ⟨c1, c2, c3⟩ := shared_clone_inv s.vmm s.dirs (s.dirs.getD src 0) h
        (getD_mem _ _ hu.1) (by omega)
      have hs : s.step (.clone src) = AddrSpaces.mk (vmm_clone s.vmm (s.dirs.getD src 0)).1
          (s.dirs ++ [(vmm_clone s.vmm (s.dirs.getD src 0)).2]) := rfl
      have hkd : (vmm_clone s.vmm (s.dirs.getD src 0)).1.kernel_dir = s.vmm.kernel_dir := by
        rw [vmm_clone, clone_fold_kernel_dir]
        rfl
      rw [hs]
      generalize vmm_clone s.vmm (s.dirs.getD src 0) = r at c1 c2 c3 hkd ⊢
      have hlen : (AddrSpaces.mk r.1 (s.dirs ++ [r.2])).dirs.length = s.dirs.length + 1 := by
        show (s.dirs ++ [r.2]).length = _
        rw [List.length_append, List.length_singleton]
      have := ih (AddrSpaces.mk r.1 (s.dirs ++ [r.2])) mapped c1
        (by
          intro x hx
          obtain ⟨a, b, c⟩ := hm x hx
          refine ⟨a, b, ?_⟩
          show r.1.tables r.1.kernel_dir x &&& PAGE_PRESENT ≠ 0
          rw [hkd, c2 _ h.kd x]
          exact c)
        (by show _ ≤ freeFrames r.1.pmm; omega)
        (by rw [hlen]; exact hu.2)
      rw [hlen] at this
      exact this
    | map pd virt phys flags =>
      simp only [vmmCost] at hc
      simp only [sharedOps, Bool.and_eq_true, decide_eq_true_eq] at hu
      simp only [kernelMapped]
      obtain ⟨⟨hpd, hv32⟩, hrest⟩ := hu
      have hpdm := getD_mem _ _ hpd
      have hidx := virt_index_lt virt hv32
      have hs : s.step (.map pd virt phys flags) =
          AddrSpaces.mk (vmm_map s.vmm (s.dirs.getD pd 0) virt phys flags) s.dirs := rfl
      rw [hs]
      by_cases hlow : virt < KERNEL_VIRT_BASE
      · rw [if_pos hlow] at hrest ⊢
        obtain ⟨c1, c2, c3, _, c5⟩ := shared_map_inv s.vmm s.dirs (s.dirs.getD pd 0) virt phys
          flags h hpdm hidx (Or.inl (user_virt_index virt hlow)) (Or.inr (by omega))
        generalize vmm_map s.vmm (s.dirs.getD pd 0) virt phys flags = w at c1 c2 c3 c5 ⊢
        exact ih (AddrSpaces.mk w s.dirs) mapped c1
          (by
            intro x hx
            obtain ⟨a, b, c⟩ := hm x hx
            refine ⟨a, b, ?_⟩
            show w.tables w.kernel_dir x &&& PAGE_PRESENT ≠ 0
            rw [c2]
            exact c3 _ h.kd x c)
          (by show _ ≤ freeFrames w.pmm; omega) hrest
      · rw [if_neg hlow] at hrest ⊢
        by_cases hone : s.dirs.length = 1
        · rw [if_pos hone] at hrest ⊢
          have hds := dirs_singleton s.dirs _ h.kd hone
          have hpk : s.dirs.getD pd 0 = s.vmm.kernel_dir := by
            have := hpdm
            rw [hds, List.mem_singleton] at this
            rw [hds]
            exact this
          obtain ⟨c1, c2, c3, c4, c5⟩ := shared_map_inv s.vmm s.dirs (s.dirs.getD pd 0) virt
            phys flags h hpdm hidx (Or.inr (Or.inr hds)) (Or.inr (by omega))
          rw [hpk] at c1 c2 c3 c4 c5 ⊢
          generalize vmm_map s.vmm s.vmm.kernel_dir virt phys flags = w at c1 c2 c3 c4 c5 ⊢
          exact ih (AddrSpaces.mk w s.dirs) ((virt >>> 22) :: mapped) c1
            (by
              intro x hx
              show _ ∧ _ ∧ w.tables w.kernel_dir x &&& PAGE_PRESENT ≠ 0
              rw [c2]
              rcases List.mem_cons.mp hx with h1 | h1
              · rw [h1]
                exact ⟨kernel_virt_index virt hlow, hidx, c4⟩
              · obtain ⟨a, b, c⟩ := hm x h1
                exact ⟨a, b, c3 _ h.kd x c⟩)
            (by show _ ≤ freeFrames w.pmm; omega) hrest
        · rw [if_neg hone] at hrest ⊢
          simp only [Bool.and_eq_true, decide_eq_true_eq] at hrest
          obtain ⟨a, b, c⟩ := hm _ hrest.1
          have hpres : s.vmm.tables (s.dirs.getD pd 0) (virt >>> 22) &&& PAGE_PRESENT ≠ 0 := by
            rw [h.kern _ hpdm _ a b]
            exact c
          obtain ⟨c1, c2, c3, _, c5⟩ := shared_map_inv s.vmm s.dirs (s.dirs.getD pd 0) virt
            phys flags h hpdm hidx (Or.inr (Or.inl hpres)) (Or.inl hpres)
          generalize vmm_map s.vmm (s.dirs.getD pd 0) virt phys flags = w at c1 c2 c3 c5 ⊢
          exact ih (AddrSpaces.mk w s.dirs) mapped c1
            (by
              intro x hx
              obtain ⟨a, b, c⟩ := hm x hx
              refine ⟨a, b, ?_⟩
              show w.tables w.kernel_dir x &&& PAGE_PRESENT ≠ 0
              rw [c2]
              exact c3 _ h.kd x c)
            (by show _ ≤ freeFrames w.pmm; omega) hrest.2

theorem other_dir (dirs : List Nat) (kd : Nat) (hk : kd ∈ dirs) (hn : dirs.Nodup)
    (hne : dirs ≠ [kd]) : ∃ d, d ∈ dirs ∧ d ≠ kd := by
  match dirs, hk, hn, hne with
  | [a], hk, _, hne =>
    rw [List.mem_singleton] at hk
    rw [hk] at hne
    exact absurd rfl hne
  | a :: b :: rest, _, hn, _ =>
    by_cases ha : a = kd
    · refine ⟨b, List.mem_cons_of_mem _ (List.mem_cons_self _ _), ?_⟩
      intro hb
      rw [List.nodup_cons] at hn
      exact hn.1 (by rw [ha, ← hb]; exact List.mem_cons_self _ _)
    · exact ⟨a, List.mem_cons_self _ _, ha⟩

/-- The calls the invariant does not allow break it: a `vmm_map` of a kernel
address whose directory entry is absent, made when a second directory
exists, leaves some directory with a kernel entry that differs from the
kernel directory's. -/
theorem kernel_map_breaks_sharing (v : Vmm) (dirs : List Nat) (pd virt phys flags : Nat)
    (h : SharedInv v dirs) (hpd : pd ∈ dirs) (hv32 : virt < 2 ^ 32)
    (hk : ¬ virt < KERNEL_VIRT_BASE)
    (habs : v.tables pd (virt >>> 22) &&& PAGE_PRESENT = 0)
    (hfree : 0 < freeFrames v.pmm) (hmore : dirs ≠ [v.kernel_dir]) :
    ∃ d, d ∈ dirs ∧
      (vmm_map v pd virt phys flags).tables d (virt >>> 22) ≠
        (vmm_map v pd virt phys flags).tables (vmm_map v pd virt phys flags).kernel_dir
          (virt >>> 22) := by
  have hi1 := kernel_virt_index virt hk
  have hi2 := virt_index_lt virt hv32
  obtain ⟨q, e, _, _, _, _, _, _, he2, htab⟩ :=
    vmm_map_absent v dirs pd virt phys flags h.total h.used habs hfree
  have hkd := vmm_map_kernel_dir v pd virt phys flags
  rw [hkd]
  generalize vmm_map v pd virt phys flags = w at htab
  have hkabs : v.tables v.kernel_dir (virt >>> 22) &&& PAGE_PRESENT = 0 := by
    rw [← h.kern pd hpd _ hi1 hi2]
    exact habs
  by_cases hpk : pd = v.kernel_dir
  · obtain ⟨d, hd, hdk⟩ := other_dir dirs _ h.kd h.nodup hmore
    refine ⟨d, hd, ?_⟩
    have hc : ¬ (d = pd ∧ virt >>> 22 = virt >>> 22) := fun hx => hdk (hx.1.trans hpk)
    rw [htab d hd, if_neg hc, htab _ h.kd, if_pos ⟨hpk.symm, rfl⟩,
      h.kern d hd _ hi1 hi2]
    intro heq
    rw [heq] at hkabs
    exact he2 hkabs
  · refine ⟨pd, hpd, ?_⟩
    have hc : ¬ (v.kernel_dir = pd ∧ virt >>> 22 = virt >>> 22) := fun hx => hpk hx.1.symm
    rw [htab pd hpd, if_pos ⟨rfl, rfl⟩, htab _ h.kd, if_neg hc]
    intro heq
    rw [← heq] at hkabs
    exact he2 hkabs

/-- C13, amended: after `vmm_init`, through every sequence of calls of
`vmm_create_directory`, `vmm_clone` (of a directory created before) and
`vmm_map` (on a directory created before, at any 32-bit virtual address) in
which every `vmm_map` of an address at or above `0xC0000000` is made either
before the first `vmm_create_directory` or `vmm_clone`, or at a directory
index that such an earlier call has mapped, and for which the frame
allocator has the frames (two for `vmm_init`, one for a directory or a page
table, 769 for a clone): entries 768..1023 of every directory created are
equal, entry for entry, to entries 768..1023 of the kernel directory, and
every kernel entry mapped before the first directory was created is present
in every directory. -/
theorem C13_kernel_entries_shared (v0 : Vmm) (ops : List VmmOp)
    (htot : v0.pmm.total_pages ≤ 2 ^ 20)
    (hfree : 2 + (ops.map vmmCost).sum ≤ freeFrames v0.pmm)
    (hops : sharedOps 1 [] ops = true) :
    (∀ d, d ∈ (vmmRun v0 ops).dirs → ∀ i, 768 ≤ i → i < 1024 →
      (vmmRun v0 ops).vmm.tables d i =
        (vmmRun v0 ops).vmm.tables (vmmRun v0 ops).vmm.kernel_dir i) ∧
    (∀ d, d ∈ (vmmRun v0 ops).dirs → ∀ x, x ∈ kernelMapped 1 [] ops →
      (vmmRun v0 ops).vmm.tables d x &&& PAGE_PRESENT ≠ 0) := by
  obtain ⟨i1, i2⟩ := vmm_init_inv v0 htot (by omega)
  have hrun := sharedRun_inv ops (vmmBoot v0) [] (sharedInv_of_vmmInv _ _ i1)
    (by intro x hx; cases hx)
    (by show _ ≤ freeFrames (vmm_init v0).pmm; omega) hops
  have hl : (vmmBoot v0).dirs.length = 1 := rfl
  rw [hl] at hrun
  rw [vmmRun]
  generalize List.foldl AddrSpaces.step (vmmBoot v0) ops = s at hrun ⊢
  obtain ⟨hinv, hmap⟩ := hrun
  refine ⟨hinv.kern, ?_⟩
  intro d hd x hx
  obtain ⟨a, b, c⟩ := hmap x hx
  rw [hinv.kern d hd x a b]
  exact c

set_option maxRecDepth 100000 in
/-- Witness for C13 on a machine with 1016 free frames: the first kernel page
is mapped in the kernel directory, a directory is created, a user page
mapped in it, the directory cloned, a second kernel page of the same 4 MiB
region mapped through the clone, and a user page mapped in the kernel
directory.  Entry 768 is present in all three directories. -/
theorem C13_kernel_entries_shared_witness :
    (bootVmm.pmm.total_pages ≤ 2 ^ 20 ∧
      2 + ([VmmOp.map 0 0xC0000000 0x400000 3, .create, .map 1 0x400000 0x5000 7, .clone 1,
        .map 2 0xC0001000 0x401000 3, .map 0 0x800000 0x6000 7].map vmmCost).sum
        ≤ freeFrames bootVmm.pmm ∧
      sharedOps 1 [] [VmmOp.map 0 0xC0000000 0x400000 3, .create, .map 1 0x400000 0x5000 7,
        .clone 1, .map 2 0xC0001000 0x401000 3, .map 0 0x800000 0x6000 7] = true ∧
      768 ∈ kernelMapped 1 [] [VmmOp.map 0 0xC0000000 0x400000 3, .create,
        .map 1 0x400000 0x5000 7, .clone 1, .map 2 0xC0001000 0x401000 3,
        .map 0 0x800000 0x6000 7]) ∧
    (∀ d, d ∈ (vmmRun bootVmm [.map 0 0xC0000000 0x400000 3, .create, .map 1 0x400000 0x5000 7,
        .clone 1, .map 2 0xC0001000 0x401000 3, .map 0 0x800000 0x6000 7]).dirs →
      ∀ i, 768 ≤ i → i < 1024 →
      (vmmRun bootVmm [.map 0 0xC0000000 0x400000 3, .create, .map 1 0x400000 0x5000 7,
        .clone 1, .map 2 0xC0001000 0x401000 3, .map 0 0x800000 0x6000 7]).vmm.tables d i =
      (vmmRun bootVmm [.map 0 0xC0000000 0x400000 3, .create, .map 1 0x400000 0x5000 7,
        .clone 1, .map 2 0xC0001000 0x401000 3, .map 0 0x800000 0x6000 7]).vmm.tables
        (vmmRun bootVmm [.map 0 0xC0000000 0x400000 3, .create, .map 1 0x400000 0x5000 7,
          .clone 1, .map 2 0xC0001000 0x401000 3, .map 0 0x800000 0x6000 7]).vmm.kernel_dir
        i) ∧
    (∀ d, d ∈ (vmmRun bootVmm [.map 0 0xC0000000 0x400000 3, .create, .map 1 0x400000 0x5000 7,
        .clone 1, .map 2 0xC0001000 0x401000 3, .map 0 0x800000 0x6000 7]).dirs →
      (vmmRun bootVmm [.map 0 0xC0000000 0x400000 3, .create, .map 1 0x400000 0x5000 7,
        .clone 1, .map 2 0xC0001000 0x401000 3, .map 0 0x800000 0x6000 7]).vmm.tables d 768
        &&& PAGE_PRESENT ≠ 0) :=
  have h := C13_kernel_entries_shared bootVmm
     [.map 0 0xC0000000 0x400000 3, .create, .map 1 0x400000 0x5000 7, .clone 1,
      .map 2 0xC0001000 0x401000 3, .map 0 0x800000 0x6000 7]
     (by decide) (by decide) (by decide)
  ⟨⟨by decide, by decide, by decide, by decide⟩, h.1, fun d hd => h.2 d hd 768 (by decide)⟩

set_option maxRecDepth 100000 in
/-- C13 fails as stated: on a machine with 1016 free frames, after
`vmm_init`, `d = vmm_create_directory()` and
`vmm_map(kernel_dir, 0xC0000000, 0x400000, PAGE_PRESENT | PAGE_WRITE)`,
entry 768 of the kernel directory is present while entry 768 of `d` is
still zero. -/
theorem C13_kernel_map_not_shared :
    ∃ d, d ∈ (vmmRun bootVmm [.create, .map 0 KERNEL_VIRT_BASE 0x400000 3]).dirs ∧
      (vmmRun bootVmm [.create, .map 0 KERNEL_VIRT_BASE 0x400000 3]).vmm.tables d 768 = 0 ∧
      (vmmRun bootVmm [.create, .map 0 KERNEL_VIRT_BASE 0x400000 3]).vmm.tables
        (vmmRun bootVmm [.create, .map 0 KERNEL_VIRT_BASE 0x400000 3]).vmm.kernel_dir 768
          &&& PAGE_PRESENT ≠ 0 :=
  kernel_map_not_copied bootVmm 0x400000 3 (by decide) (by decide)


/-! ### Sleeping -/

theorem wake_sleepers_sleep_until (ticks : Nat) (t : Nat → process_t) (i : Nat) :
    (wake_sleepers ticks t i).sleep_until = (t i).sleep_until := by
  unfold wake_sleepers
  split <;> rfl

theorem setState_sleep_until (t : Nat → process_t) (i j : Nat) (s : proc_state_t) :
    (setState t i s j).sleep_until = (t j).sleep_until := by
  by_cases h : j = i
  · subst h; simp [setState, setProc]
  · rw [setState_other t i j s h]

theorem scheduler_tick_ticks (k : Kernel) : (scheduler_tick k).ticks = (k.ticks + 1) % 2 ^ 32 := by
  unfold scheduler_tick
  simp only
  split
  · rfl
  · split <;> rfl

theorem scheduler_tick_sleep_until (k : Kernel) (i : Nat) :
    ((scheduler_tick k).proc_table i).sleep_until = (k.proc_table i).sleep_until := by
  unfold scheduler_tick
  simp only
  split
  · exact wake_sleepers_sleep_until _ _ _
  · split
    · exact wake_sleepers_sleep_until _ _ _
    · simp only
      rw [setState_sleep_until]
      split
      · rw [setState_sleep_until]
        exact wake_sleepers_sleep_until _ _ _
      · exact wake_sleepers_sleep_until _ _ _

/-- A `PROC_SLEEPING` record whose `sleep_until` is above the incremented
tick counter is left `PROC_SLEEPING` by `scheduler_tick`. -/
theorem sleeper_stays (k : Kernel) (i : Nat)
    (hs : (k.proc_table i).state = PROC_SLEEPING)
    (hlt : (k.ticks + 1) % 2 ^ 32 < (k.proc_table i).sleep_until) :
    ((scheduler_tick k).proc_table i).state = PROC_SLEEPING := by
  have hw : wake_sleepers ((k.ticks + 1) % 2 ^ 32) k.proc_table i = k.proc_table i := by
    have h0 : ¬ (i < MAX_PROCS ∧ (k.proc_table i).state = PROC_SLEEPING ∧
        (k.proc_table i).sleep_until ≤ (k.ticks + 1) % 2 ^ 32) := by
      rintro ⟨_, _, h3⟩
      omega
    unfold wake_sleepers
    rw [if_neg h0]
  unfold scheduler_tick
  simp only
  cases hf : find_next (wake_sleepers ((k.ticks + 1) % 2 ^ 32) k.proc_table) k.current_proc with
  | none => simp only [hw, hs]
  | some n =>
    have hr := find_next_ready _ _ _ hf
    have hni : i ≠ n := by
      rintro rfl
      rw [hw, hs] at hr
      cases hr
    simp only
    split
    · simp only [hw, hs]
    · simp only
      rw [setState_other _ _ _ _ hni]
      split
      · rename_i hrun
        by_cases hic : i = k.current_proc
        · rw [← hic, hw, hs] at hrun
          cases hrun
        · rw [setState_other _ _ _ _ hic, hw, hs]
      · rw [hw, hs]

theorem proc_yield_not_running (k : Kernel)
    (h : (k.proc_table k.current_proc).state ≠ PROC_RUNNING) : proc_yield k = scheduler_tick k := by
  unfold proc_yield
  rw [if_neg h]

theorem asleep_caller (k : Kernel) (ms : Nat) :
    ((asleep k ms).proc_table (asleep k ms).current_proc).state = PROC_SLEEPING ∧
    ((asleep k ms).proc_table k.current_proc).state = PROC_SLEEPING ∧
    ((asleep k ms).proc_table k.current_proc).sleep_until =
      (k.ticks + (ms / 10 + 1)) % 2 ^ 32 ∧
    (asleep k ms).ticks = k.ticks := by
  simp [asleep, setProc]

theorem proc_sleep_eq (k : Kernel) (ms : Nat) :
    proc_sleep k ms = scheduler_tick (asleep k ms) := by
  have h : proc_sleep k ms = proc_yield (asleep k ms) := rfl
  rw [h]
  apply proc_yield_not_running
  rw [(asleep_caller k ms).1]
  decide

theorem scheduler_tick_quiet (k : Kernel)
    (h : ∀ i, (k.proc_table i).state ≠ PROC_SLEEPING ∧ (k.proc_table i).state ≠ PROC_READY) :
    scheduler_tick k = setTicks k ((k.ticks + 1) % 2 ^ 32) := by
  have hw : wake_sleepers ((k.ticks + 1) % 2 ^ 32) k.proc_table = k.proc_table :=
    wake_sleepers_none _ _ (fun i => (h i).1)
  have hf : find_next k.proc_table k.current_proc = none := by
    unfold find_next
    rw [List.find?_eq_none]
    intro x _
    simp [(h x).2]
  unfold scheduler_tick
  simp only [hw, hf]
  rfl

theorem proc_init_quiet (kernel_dir : Nat) (i : Nat) :
    ((proc_init kernel_dir).proc_table i).state ≠ PROC_SLEEPING ∧
    ((proc_init kernel_dir).proc_table i).state ≠ PROC_READY := by
  by_cases h : i = 0
  · subst h
    simp [proc_init, setProc]
  · simp [proc_init, setProc, h, zero_proc]

/-- While the idle process is alone, timer ticks only advance the counter. -/
theorem ticksFrom_idle (kernel_dir n : Nat) :
    ticksFrom (proc_init kernel_dir) n = setTicks (proc_init kernel_dir) (n % 2 ^ 32) := by
  induction n with
  | zero => rfl
  | succ n ih =>
    have hq : ∀ i, ((setTicks (proc_init kernel_dir) (n % 2 ^ 32)).proc_table i).state ≠
        PROC_SLEEPING ∧
        ((setTicks (proc_init kernel_dir) (n % 2 ^ 32)).proc_table i).state ≠ PROC_READY :=
      proc_init_quiet kernel_dir
    rw [ticksFrom, ih, scheduler_tick_quiet _ hq]
    have e : ((setTicks (proc_init kernel_dir) (n % 2 ^ 32)).ticks + 1) % 2 ^ 32 =
        (n + 1) % 2 ^ 32 := by
      show (n % 2 ^ 32 + 1) % 2 ^ 32 = (n + 1) % 2 ^ 32
      omega
    rw [e]
    rfl

/-- C21 fails when the tick counter wraps: the idle process alone, after
`0xFFFFFFF0` timer ticks, calls `proc_sleep(1000)`.  `sleep_until` is
`(0xFFFFFFF0 + 101) mod 2^32 = 85`, and the `scheduler_tick` that
`proc_yield` runs finds `ticks = 0xFFFFFFF1 >= 85` and promotes the caller
to `PROC_READY` at once, 1 tick after the call instead of 100: the tick
counter is below `0xFFFFFFF0 + ceil(1000 / 10)`. -/
theorem C21_sleep_ends_early_at_wraparound :
    (ticksFrom (proc_init 0) 0xFFFFFFF0).ticks = 0xFFFFFFF0 ∧
    (ticksFrom (proc_init 0) 0xFFFFFFF0).current_proc = 0 ∧
    ((ticksFrom (proc_init 0) 0xFFFFFFF0).proc_table 0).state = PROC_RUNNING ∧
    ((proc_sleep (ticksFrom (proc_init 0) 0xFFFFFFF0) 1000).proc_table 0).sleep_until = 85 ∧
    (proc_sleep (ticksFrom (proc_init 0) 0xFFFFFFF0) 1000).ticks = 0xFFFFFFF1 ∧
    (proc_sleep (ticksFrom (proc_init 0) 0xFFFFFFF0) 1000).ticks < 0xFFFFFFF0 + ceilTicks 1000 ∧
    ((proc_sleep (ticksFrom (proc_init 0) 0xFFFFFFF0) 1000).proc_table 0).state = PROC_READY := by
  rw [ticksFrom_idle]
  decide

/-- Without wrap-around the sleep is not cut short: when `ticks + ms / 10 + 1`
fits in 32 bits, the caller of `proc_sleep(ms)` is `PROC_SLEEPING` after the
call and after every later `scheduler_tick` that leaves the tick counter
below `sleep_until`. -/
theorem sleep_not_early (k : Kernel) (ms : Nat)
    (hfit : k.ticks + (ms / 10 + 1) < 2 ^ 32) (hms : 10 ≤ ms) :
    ((proc_sleep k ms).proc_table k.current_proc).state = PROC_SLEEPING ∧
    ((proc_sleep k ms).proc_table k.current_proc).sleep_until = k.ticks + (ms / 10 + 1) ∧
    k.ticks + ceilTicks ms ≤ ((proc_sleep k ms).proc_table k.current_proc).sleep_until := by
  obtain ⟨_, a2, a3, a4⟩ := asleep_caller k ms
  rw [proc_sleep_eq]
  refine ⟨?_, ?_, ?_⟩
  · apply sleeper_stays _ _ a2
    rw [a3, a4, Nat.mod_eq_of_lt hfit, Nat.mod_eq_of_lt (by omega)]
    omega
  · rw [scheduler_tick_sleep_until, a3]
    exact Nat.mod_eq_of_lt hfit
  · rw [scheduler_tick_sleep_until, a3, Nat.mod_eq_of_lt hfit]
    unfold ceilTicks
    omega

/-- C22, amended: `proc_sleep(ms)` sets the caller's `sleep_until` to
`(ticks + ms / 10 + 1) mod 2^32`, the quotient rounded down and one added,
which is `ticks + ceil(ms / 10)` when `ms` is not a multiple of 10 and one
tick more when it is; it sets the caller `PROC_SLEEPING` (the state
`asleep`) and yields, which for a caller that is not `PROC_RUNNING` is one
`scheduler_tick`: the tick counter advances by one, and the caller is still
`PROC_SLEEPING` after the call unless that tick has already reached
`sleep_until`. -/
theorem C22_sleep_until_is_floor_plus_one (k : Kernel) (ms : Nat) :
    ((proc_sleep k ms).proc_table k.current_proc).sleep_until =
      (k.ticks + (ms / 10 + 1)) % 2 ^ 32 ∧
    ms / 10 + 1 = ceilTicks ms + (if ms % 10 = 0 then 1 else 0) ∧
    proc_sleep k ms = scheduler_tick (asleep k ms) ∧
    ((asleep k ms).proc_table k.current_proc).state = PROC_SLEEPING ∧
    (proc_sleep k ms).ticks = (k.ticks + 1) % 2 ^ 32 ∧
    ((k.ticks + 1) % 2 ^ 32 < (k.ticks + (ms / 10 + 1)) % 2 ^ 32 →
      ((proc_sleep k ms).proc_table k.current_proc).state = PROC_SLEEPING) := by
  obtain ⟨_, a2, a3, a4⟩ := asleep_caller k ms
  refine ⟨?_, ?_, proc_sleep_eq k ms, a2, ?_, ?_⟩
  · rw [proc_sleep_eq, scheduler_tick_sleep_until, a3]
  · unfold ceilTicks
    split <;> omega
  · rw [proc_sleep_eq, scheduler_tick_ticks, a4]
  · intro h
    rw [proc_sleep_eq]
    apply sleeper_stays _ _ a2
    rw [a3, a4]
    exact h

/-- C22 fails for a multiple of 10: `proc_sleep(10)` at tick 0 sets
`sleep_until` to 2, while `ticks + ceil(10 / 10)` is 1. -/
theorem C22_sleep_until_counterexample :
    ((proc_sleep (proc_init 0) 10).proc_table 0).sleep_until = 2 ∧
    (proc_init 0).ticks + ceilTicks 10 = 1 := by
  decide

/-! ### The state table -/

/-- C23 fails for a caller that is not `PROC_RUNNING`: after `proc_init` and
`proc_yield`, the idle process is the current process and `PROC_READY`;
its `proc_sleep(100)` takes its record from `PROC_READY` to
`PROC_SLEEPING`, its `proc_wait` (it is its own child) to `PROC_BLOCKED`,
its `proc_exit` to `PROC_ZOMBIE`: none is a transition of the table. -/
theorem C23_transition_outside_table :
    (runProc 0 [.yield]).current_proc = 0 ∧
    ((runProc 0 [.yield]).proc_table 0).state = PROC_READY ∧
    ((runProc 0 [.yield, .sleep 100]).proc_table 0).state = PROC_SLEEPING ∧
    allowedTransition PROC_READY PROC_SLEEPING = false ∧
    ((runProc 0 [.yield, .wait (-1)]).proc_table 0).state = PROC_BLOCKED ∧
    allowedTransition PROC_READY PROC_BLOCKED = false ∧
    ((runProc 0 [.yield, .exit 0]).proc_table 0).state = PROC_ZOMBIE ∧
    allowedTransition PROC_READY PROC_ZOMBIE = false := by
  decide

/-! ### Relative paths -/

/-- C24 fails: with `cwd = "/tmp"` and the directory `/tmp/sub` present,
`vfs_lookup("sub")` returns `NULL` (the walk starts at the root, where there
is no `sub`) although `vfs_lookup("/tmp/sub")` resolves to a directory, and
`sys_chdir("sub")` returns `-ENOENT`. -/
theorem C24_relative_path_resolved_from_root :
    chdirRun = some (0, "/tmp".toList, true, 0, -ENOENT) := by
  decide

/-! ### Creating a file on open -/

/-- C25 fails for a path without `'/'`: `file_open("ab", O_CREAT | O_RDWR)`
creates in the root directory a file named `"b"` (the path without its first
character), so that `vfs_lookup("ab")` afterwards does not return the vnode
of the open file; `vfs_lookup("/b")` does. -/
theorem C25_create_drops_first_character :
    createRelativeRun = some (true, "b".toList, ["tmp".toList, "b".toList], false, true) := by
  decide

/-- The second half of C25: when the path does not resolve and `O_CREAT` is
not set, `file_open` returns `NULL` and leaves the file system as it was. -/
theorem file_open_missing_without_creat (fs : Fs) (path : List Char) (flags : Nat)
    (hmiss : vfs_lookup fs path = 0) (hflag : flags &&& O_CREAT = 0) :
    file_open fs path flags = some (fs, 0) := by
  unfold file_open
  simp [hmiss, hflag]

/-! ### The console device -/

set_option maxRecDepth 100000 in
/-- C30 fails: after `build_initfs`, `"/dev/tty0"` resolves to a ramfs
directory (type `VFS_DIR`, operations `ramfs_ops`), not to the vnode
`tty_get_vnode()` returns; a `file_write` of five bytes on the file that
`file_open("/dev/tty0", O_WRONLY)` returns gives `-EISDIR` and sends nothing
to the console. -/
theorem C30_dev_tty0_is_a_directory :
    ttyRun = some (false, VFS_DIR, true, -EISDIR, []) := by
  decide

/-! ### Unknown system calls -/

theorem syscall_case_none_iff (eax : Nat) : syscall_case eax = none ↔ eax ∉ dispatched := by
  constructor
  · intro h hm
    simp only [dispatched, List.mem_cons, List.mem_singleton, List.not_mem_nil, or_false] at hm
    rcases hm with rfl | rfl | rfl | rfl | rfl | rfl | rfl | rfl | rfl | rfl | rfl | rfl | rfl |
      rfl | rfl | rfl | rfl | rfl | rfl <;> exact absurd h (by decide)
  · intro h
    simp only [dispatched, List.mem_cons, List.mem_singleton, List.not_mem_nil, or_false,
      not_or] at h
    obtain ⟨h1, h2, h3, h4, h5, h6, h7, h10, h11, h12, h19, h20, h37, h39, h63, h64, h89, h162,
      h183⟩ := h
    unfold syscall_case
    simp only [h1, h2, h3, h4, h5, h6, h7, h10, h11, h12, h19, h20, h37, h39, h63, h64, h89,
      h162, h183, if_false]

/-- C29: for every register frame whose `eax` is not one of the dispatched
call numbers, whatever the handlers are, `syscall_dispatch` stores
`-ENOSYS` (`0xFFFFFFDA` as a 32-bit value) in the `eax` slot of the frame
and changes nothing else: the other fields of the frame, the process table
and the file system are as before.  The dispatched numbers are exactly those
the specification lists. -/
theorem C29_unknown_syscall_enosys (call : Syscall → Sys → regs_t → Sys × Int) (s : Sys)
    (r : regs_t) (h : r.eax ∉ dispatched) :
    syscall_dispatch call s r = (s, { r with eax := 0xFFFFFFDA }) ∧
    toInt32 (syscall_dispatch call s r).2.eax = -ENOSYS ∧
    (∀ n, n ∈ dispatched ↔ (syscall_case n).isSome = true) := by
  have hn := (syscall_case_none_iff r.eax).mpr h
  have he : toUInt32 (-ENOSYS) = 0xFFFFFFDA := by decide
  refine ⟨?_, ?_, ?_⟩
  · unfold syscall_dispatch
    rw [hn]
    simp only [he]
  · unfold syscall_dispatch
    rw [hn]
    simp only [he]
    decide
  · intro n
    rw [← not_iff_not, ← syscall_case_none_iff]
    cases syscall_case n <;> simp

/-- Witness for C29: `eax = 106`, the number `syscall.c` defines as `SYS_STAT`
without giving it a case. -/
theorem C29_unknown_syscall_witness :
    statFrame.eax ∉ dispatched ∧
    (∀ (call : Syscall → Sys → regs_t → Sys × Int) (s : Sys),
      syscall_dispatch call s statFrame = (s, { statFrame with eax := 0xFFFFFFDA }) ∧
      toInt32 (syscall_dispatch call s statFrame).2.eax = -ENOSYS ∧
      (∀ n, n ∈ dispatched ↔ (syscall_case n).isSome = true)) :=
  ⟨by decide, fun call s => C29_unknown_syscall_enosys call s statFrame (by decide)⟩

/-! ### Creating a child in a directory -/

/-- On a well-formed heap with room to grow, `kmalloc` of a non-zero size
returns a block that was not allocated before and is not `NULL`. -/
theorem kmalloc_fresh (h : Heap) (bs : List (Nat × Bool)) (hwf : HeapWF h bs) (size : Nat)
    (hs0 : size ≠ 0) (hb : h.heap_brk + size + 2 * PAGE_SIZE + HDR_SIZE + 8 ≤ 2 ^ 32) :
    ∃ h2 p bs2, kmalloc h size = some (h2, p) ∧ HeapWF h2 bs2 ∧ p ≠ 0 ∧
      p ∉ allocPtrs HEAP_START bs ∧
      (∀ q, q ∈ allocPtrs HEAP_START bs2 ↔ q = p ∨ q ∈ allocPtrs HEAP_START bs) ∧
      h2.heap_brk ≤ h.heap_brk + size + 2 * PAGE_SIZE + HDR_SIZE + 8 := by
  have hH : HDR_SIZE = 20 := rfl
  have hlen := length_le_endAddr HEAP_START bs
  rw [hwf.fin, hH] at hlen
  have hbrk := hwf.brk_lt
  exact kmalloc_fuel_wf h bs hwf size HEAP_FUEL hs0 (by simp only [HEAP_FUEL]; omega) hb

theorem new_ramfs_node_spec (fs : Fs) (name : List Char) (type : Nat)
    (bs : List (Nat × Bool)) (hwf : HeapWF fs.heap bs)
    (hroom : fs.heap.heap_brk + RAMFS_NODE_SIZE + 2 * PAGE_SIZE + HDR_SIZE + 8 ≤ 2 ^ 32)
    (hname : name.length < VFS_NAME_LEN) :
    ∃ fs1 n bs1, new_ramfs_node fs name type = some (fs1, n) ∧ HeapWF fs1.heap bs1 ∧ n ≠ 0 ∧
      n ∉ allocPtrs HEAP_START bs ∧
      (∀ q, q ∈ allocPtrs HEAP_START bs1 ↔ q = n ∨ q ∈ allocPtrs HEAP_START bs) ∧
      fs1.nodes = setNode fs.nodes n
        { name := name, type := type, data := 0, size := 0, capacity := 0,
          inode := fs.next_inode, children := [] } ∧
      (∀ w, w ≠ n + VNODE_OFFSET → fs1.vnodes w = fs.vnodes w) ∧
      (fs1.vnodes (n + VNODE_OFFSET)).name = name ∧
      (fs1.vnodes (n + VNODE_OFFSET)).type = type ∧
      (fs1.vnodes (n + VNODE_OFFSET)).data = n ∧
      (fs1.vnodes (n + VNODE_OFFSET)).ops = some vnode_ops_t.ramfs_ops ∧
      (fs1.vnodes (n + VNODE_OFFSET)).ref_count = 0 ∧
      (fs1.vnodes (n + VNODE_OFFSET)).size = 0 ∧
      (fs1.vnodes (n + VNODE_OFFSET)).mount_point = 0 ∧
      fs1.files = fs.files ∧ fs1.vfs_root = fs.vfs_root ∧ fs1.console = fs.console := by
  obtain ⟨h2, p, bs2, hk, hwf2, hp0, hfresh, hiff, _⟩ :=
    kmalloc_fresh fs.heap bs hwf RAMFS_NODE_SIZE (by decide) hroom
  unfold new_ramfs_node
  rw [if_neg (Nat.not_le.mpr hname), hk]
  refine ⟨_, p, bs2, rfl, hwf2, hp0, hfresh, hiff, rfl, ?_, ?_, ?_, ?_, ?_, ?_, ?_, ?_,
    rfl, rfl, rfl⟩
  · intro w hw
    simp only [setVnode, hw, if_false]
  all_goals simp only [setVnode, if_true]

/-- C28: `ramfs_create` on a node that is not a directory returns `-ENOTDIR`
and changes nothing; on a directory that already has `RAMFS_MAX_CHILDREN`
children it returns `-ENOSPC` and changes nothing; on a directory with fewer
children and a name that fits the `name` buffers of the new record (fewer
than `VFS_NAME_LEN` characters before the NUL) it returns 0, the new node (of
the given name and type, a block the heap had not allocated before) is
appended as the last child, no other field of the directory changes, and the
number of children grows by exactly one and stays at most
`RAMFS_MAX_CHILDREN`.  The heap is well formed with room for the new node,
and the directory is one of its allocated blocks. -/
theorem C28_ramfs_create_child_limit (fs : Fs) (v : Nat) (name : List Char) (type : Nat)
    (bs : List (Nat × Bool)) (hwf : HeapWF fs.heap bs)
    (hlive : (fs.vnodes v).data ∈ allocPtrs HEAP_START bs)
    (hroom : fs.heap.heap_brk + RAMFS_NODE_SIZE + 2 * PAGE_SIZE + HDR_SIZE + 8 ≤ 2 ^ 32) :
    ((fs.nodes (fs.vnodes v).data).type ≠ VFS_DIR →
      ramfs_create fs v name type = some (fs, -ENOTDIR)) ∧
    ((fs.nodes (fs.vnodes v).data).type = VFS_DIR →
      RAMFS_MAX_CHILDREN ≤ (fs.nodes (fs.vnodes v).data).children.length →
      ramfs_create fs v name type = some (fs, -ENOSPC)) ∧
    ((fs.nodes (fs.vnodes v).data).type = VFS_DIR →
      (fs.nodes (fs.vnodes v).data).children.length < RAMFS_MAX_CHILDREN →
      name.length < VFS_NAME_LEN →
      ∃ fs2 child, ramfs_create fs v name type = some (fs2, 0) ∧
        child ∉ allocPtrs HEAP_START bs ∧
        (fs2.nodes child).name = name ∧ (fs2.nodes child).type = type ∧
        (fs2.nodes child).children = [] ∧
        fs2.nodes (fs.vnodes v).data =
          { fs.nodes (fs.vnodes v).data with
            children := (fs.nodes (fs.vnodes v).data).children ++ [child] } ∧
        (fs2.nodes (fs.vnodes v).data).children.length =
          (fs.nodes (fs.vnodes v).data).children.length + 1 ∧
        (fs2.nodes (fs.vnodes v).data).children.length ≤ RAMFS_MAX_CHILDREN) := by
  refine ⟨?_, ?_, ?_⟩
  · intro ht
    unfold ramfs_create
    simp only [ht, ne_eq, not_false_eq_true, if_true]
  · intro ht hfull
    unfold ramfs_create
    simp only [ht, ne_eq, not_true_eq_false, if_false, hfull, if_true]
  · intro ht hlt hname
    obtain ⟨fs1, n, bs1, hnew, _, _, hfresh, _, hnodes, _⟩ :=
      new_ramfs_node_spec fs name type bs hwf hroom hname
    have hne : (fs.vnodes v).data ≠ n := fun h => hfresh (h ▸ hlive)
    have hnf : ¬ (RAMFS_MAX_CHILDREN ≤ (fs.nodes (fs.vnodes v).data).children.length) := by
      omega
    have hpar : fs1.nodes (fs.vnodes v).data = fs.nodes (fs.vnodes v).data := by
      rw [hnodes]
      simp only [setNode, hne, if_false]
    have hchild : fs1.nodes n = ramfs_node_t.mk name type 0 0 0 fs.next_inode [] := by
      rw [hnodes]
      simp only [setNode, if_true]
    obtain ⟨par1, hpar1⟩ : ∃ p : ramfs_node_t, p = { fs1.nodes (fs.vnodes v).data with
        children := (fs1.nodes (fs.vnodes v).data).children ++ [n] } := ⟨_, rfl⟩
    obtain ⟨fs2, hc, hn2⟩ : ∃ fs2, ramfs_create fs v name type = some (fs2, 0) ∧
        fs2.nodes = setNode fs1.nodes (fs.vnodes v).data par1 := by
      unfold ramfs_create
      simp only [ht, ne_eq, not_true_eq_false, if_false, hnf, hnew]
      exact ⟨_, rfl, by rw [hpar1]⟩
    refine ⟨fs2, n, hc, hfresh, ?_, ?_, ?_, ?_, ?_, ?_⟩
    all_goals rw [hn2, hpar1]
    all_goals simp only [setNode, hne.symm, if_false, if_true, hchild, hpar,
      List.length_append, List.length_singleton]
    omega

theorem tmpDirFs_heap_wf :
    HeapWF tmpDirFs.heap [(576, false), (576, false), (2884, true)] :=
  ⟨by decide, by decide, by decide, by simp, by decide, by simp [NoAdjFree]⟩

/-- Witness for C28: `ramfs_create(root, "x", VFS_FILE)` on the root of
`tmpFs`, a directory whose only child is `tmp`. -/
theorem C28_ramfs_create_witness :
    ((tmpDirFs.vnodes tmpDirFs.vfs_root).data ∈
        allocPtrs HEAP_START [(576, false), (576, false), (2884, true)] ∧
      tmpDirFs.heap.heap_brk + RAMFS_NODE_SIZE + 2 * PAGE_SIZE + HDR_SIZE + 8 ≤ 2 ^ 32 ∧
      (tmpDirFs.nodes (tmpDirFs.vnodes tmpDirFs.vfs_root).data).type = VFS_DIR ∧
      (tmpDirFs.nodes (tmpDirFs.vnodes tmpDirFs.vfs_root).data).children.length = 1 ∧
      "x".toList.length < VFS_NAME_LEN) ∧
    ∃ fs2 child, ramfs_create tmpDirFs tmpDirFs.vfs_root "x".toList VFS_FILE = some (fs2, 0) ∧
      child ∉ allocPtrs HEAP_START [(576, false), (576, false), (2884, true)] ∧
      (fs2.nodes child).name = "x".toList ∧ (fs2.nodes child).type = VFS_FILE ∧
      (fs2.nodes child).children = [] ∧
      fs2.nodes (tmpDirFs.vnodes tmpDirFs.vfs_root).data =
        { tmpDirFs.nodes (tmpDirFs.vnodes tmpDirFs.vfs_root).data with
          children :=
            (tmpDirFs.nodes (tmpDirFs.vnodes tmpDirFs.vfs_root).data).children ++ [child] } ∧
      (fs2.nodes (tmpDirFs.vnodes tmpDirFs.vfs_root).data).children.length =
        (tmpDirFs.nodes (tmpDirFs.vnodes tmpDirFs.vfs_root).data).children.length + 1 ∧
      (fs2.nodes (tmpDirFs.vnodes tmpDirFs.vfs_root).data).children.length ≤
        RAMFS_MAX_CHILDREN :=
  ⟨⟨by decide, by decide, by decide, by decide, by decide⟩,
   (C28_ramfs_create_child_limit tmpDirFs tmpDirFs.vfs_root "x".toList VFS_FILE _
     tmpDirFs_heap_wf (by decide) (by decide)).2.2 (by decide) (by decide) (by decide)⟩

/-! ### The record of an open file -/

theorem ramfs_truncate_files (fs : Fs) (v size : Nat) :
    (ramfs_truncate fs v size).1.files = fs.files := rfl

theorem ramfs_read_file (fs : Fs) (v : Nat) (o s sz : Nat)
    (htype : (fs.nodes (fs.vnodes v).data).type = VFS_FILE)
    (hsize : (fs.nodes (fs.vnodes v).data).size = s) (hs : s < 2 ^ 31) (ho : o < 2 ^ 31) :
    ramfs_read fs v (o : Int) sz =
      (((if o < s then min sz (s - o) else 0 : Nat) : Int),
        read_bytes fs.heap.mem (((fs.nodes (fs.vnodes v).data).data + o) % 2 ^ 32)
          (if o < s then min sz (s - o) else 0)) := by
  have huo : toUInt32 (o : Int) = o := toUInt32_of_nonneg _ (Int.ofNat_nonneg o) (by omega)
  unfold ramfs_read
  simp only [htype, ne_eq, not_true_eq_false, if_false, hsize, huo]
  by_cases h : o < s
  · have h1 : ¬ (s ≤ o) := by omega
    have h2 : (if sz < s - o then sz else s - o) = min sz (s - o) := by
      rw [Nat.min_def]
      split <;> split <;> omega
    rw [if_neg h1, if_pos h, h2, toInt32_of_lt _ (by omega)]
  · have h1 : s ≤ o := by omega
    rw [if_pos h1, if_neg h]
    rfl

theorem toUInt32_of_neg (o : Int) (h0 : o < 0) (h1 : -2 ^ 31 ≤ o) :
    2 ^ 31 ≤ toUInt32 o := by
  unfold toUInt32
  omega

theorem file_read_negative_offset (fs : Fs) (f : Nat) (off : Int) (s : Nat)
    (hf : f ≠ 0) (hv : (fs.files f).vnode ≠ 0)
    (hops : (fs.vnodes (fs.files f).vnode).ops = some vnode_ops_t.ramfs_ops)
    (hoff : (fs.files f).offset = off) (hneg : off < 0) (hlo : -2 ^ 31 ≤ off)
    (hsize : (fs.nodes (fs.vnodes (fs.files f).vnode).data).size = s) (hs : s < 2 ^ 31)
    (htype : (fs.nodes (fs.vnodes (fs.files f).vnode).data).type = VFS_FILE) (n : Nat) :
    file_read fs f n = some (fs, 0, []) := by
  have hbad : ¬ (f = 0 ∨ (fs.files f).vnode = 0) := by
    rintro (h | h)
    · exact hf h
    · exact hv h
  have hu := toUInt32_of_neg off hneg hlo
  have hr : ramfs_read fs (fs.files f).vnode off n = (0, []) := by
    unfold ramfs_read
    simp only [htype, ne_eq, not_true_eq_false, if_false, hsize]
    rw [if_pos (by omega)]
  unfold file_read
  rw [if_neg hbad]
  simp only [hops, hoff, hr]
  simp

theorem file_read_at_offset (fs : Fs) (f : Nat) (o s : Nat)
    (hf : f ≠ 0) (hv : (fs.files f).vnode ≠ 0)
    (hops : (fs.vnodes (fs.files f).vnode).ops = some vnode_ops_t.ramfs_ops)
    (hoff : (fs.files f).offset = (o : Int)) (ho : o < 2 ^ 31)
    (hsize : (fs.nodes (fs.vnodes (fs.files f).vnode).data).size = s) (hs : s < 2 ^ 31)
    (htype : (fs.nodes (fs.vnodes (fs.files f).vnode).data).type = VFS_FILE) (n : Nat) :
    ∃ fs2, file_read fs f n =
        some (fs2, ((if o < s then min n (s - o) else 0 : Nat) : Int),
          read_bytes fs.heap.mem
            (((fs.nodes (fs.vnodes (fs.files f).vnode).data).data + o) % 2 ^ 32)
            (if o < s then min n (s - o) else 0)) ∧
      (fs2.files f).offset = (o : Int) + ((if o < s then min n (s - o) else 0 : Nat) : Int) ∧
      (fs2.files f).vnode = (fs.files f).vnode ∧ (fs2.files f).flags = (fs.files f).flags ∧
      (fs2.files f).ref = (fs.files f).ref ∧
      (∀ g, g ≠ f → fs2.files g = fs.files g) ∧
      fs2.heap = fs.heap ∧ fs2.nodes = fs.nodes ∧ fs2.vnodes = fs.vnodes := by
  have hbad : ¬ (f = 0 ∨ (fs.files f).vnode = 0) := by
    rintro (h | h)
    · exact hf h
    · exact hv h
  have hr := ramfs_read_file fs (fs.files f).vnode o s n htype hsize hs ho
  generalize hrr : (if o < s then min n (s - o) else 0 : Nat) = r at hr ⊢
  have hrs : o + r ≤ o ⊔ s := by
    rw [← hrr]
    split
    · have := Nat.min_le_right n (s - o)
      have : o ≤ o ⊔ s := le_sup_left
      have : s ≤ o ⊔ s := le_sup_right
      omega
    · exact le_sup_left
  have hmax : o ⊔ s < 2 ^ 31 := sup_lt_iff.mpr ⟨ho, hs⟩
  unfold file_read
  rw [if_neg hbad]
  simp only [hops, hoff, hr]
  by_cases hpos : 0 < r
  · have hpos2 : (0 : Int) < (r : Int) := by exact_mod_cast hpos
    rw [if_pos hpos2]
    refine ⟨_, rfl, ?_, ?_, ?_, ?_, ?_, rfl, rfl, rfl⟩
    · simp only [setFile, if_true, hoff]
      have := add32_small (o : Int) (r : Int) (by omega) (by omega)
      exact this
    · simp only [setFile, if_true]
    · simp only [setFile, if_true]
    · simp only [setFile, if_true]
    · intro g hg
      simp only [setFile, hg, if_false]
  · have hr0 : r = 0 := by omega
    subst hr0
    rw [if_neg (by simp)]
    refine ⟨fs, rfl, ?_, rfl, rfl, rfl, fun _ _ => rfl, rfl, rfl, rfl⟩
    rw [hoff]
    simp

theorem file_write_at_offset (fs : Fs) (f : Nat) (o : Nat) (bs : List (Nat × Bool))
    (hf : f ≠ 0) (hv : (fs.files f).vnode ≠ 0)
    (hops : (fs.vnodes (fs.files f).vnode).ops = some vnode_ops_t.ramfs_ops)
    (hoff : (fs.files f).offset = (o : Int)) (ho : o < 2 ^ 31)
    (htype : (fs.nodes (fs.vnodes (fs.files f).vnode).data).type = VFS_FILE)
    (hwf : HeapWF fs.heap bs) (buf : Nat → Nat) (m : Nat) (hm : m < 2 ^ 31)
    (hom : o + m < 2 ^ 31)
    (hroom : fs.heap.heap_brk + o + m + 3 * PAGE_SIZE + HDR_SIZE + 8 ≤ 2 ^ 32) :
    ∃ fs2, file_write fs f m buf = some (fs2, (m : Int)) ∧
      (fs2.files f).offset = (o : Int) + (m : Int) ∧
      (∀ g, g ≠ f → fs2.files g = fs.files g) := by
  have hbad : ¬ (f = 0 ∨ (fs.files f).vnode = 0) := by
    rintro (h | h)
    · exact hf h
    · exact hv h
  have huo : toUInt32 (o : Int) = o := toUInt32_of_nonneg _ (Int.ofNat_nonneg o) (by omega)
  obtain ⟨fs2, hw, hfiles, _⟩ :=
    ramfs_write_spec fs (fs.files f).vnode (o : Int) m buf bs htype hwf (by omega)
      (by rw [huo]; omega)
  have hti : toInt32 m = (m : Int) := toInt32_of_lt m hm
  rw [hti] at hw
  unfold file_write
  rw [if_neg hbad]
  simp only [hops, hoff, hw]
  by_cases hpos : 0 < m
  · have hpos2 : (0 : Int) < (m : Int) := by exact_mod_cast hpos
    rw [if_pos hpos2]
    refine ⟨_, rfl, ?_, ?_⟩
    · simp only [setFile, if_true, hfiles, hoff]
      exact add32_small (o : Int) (m : Int) (by omega) (by omega)
    · intro g hg
      simp only [setFile, hg, if_false, hfiles]
  · have hm0 : m = 0 := by omega
    subst hm0
    rw [if_neg (by simp)]
    refine ⟨fs2, rfl, ?_, ?_⟩
    · rw [hfiles, hoff]
      simp
    · intro g _
      rw [hfiles]

theorem file_read_write_eisdir (fs : Fs) (f : Nat)
    (hf : f ≠ 0) (hv : (fs.files f).vnode ≠ 0)
    (hops : (fs.vnodes (fs.files f).vnode).ops = some vnode_ops_t.ramfs_ops)
    (htype : (fs.nodes (fs.vnodes (fs.files f).vnode).data).type ≠ VFS_FILE) :
    (∀ n, file_read fs f n = some (fs, -EISDIR, [])) ∧
    (∀ (buf : Nat → Nat) (m : Nat), file_write fs f m buf = some (fs, -EISDIR)) := by
  have hbad : ¬ (f = 0 ∨ (fs.files f).vnode = 0) := by
    rintro (h | h)
    · exact hf h
    · exact hv h
  constructor
  · intro n
    unfold file_read
    rw [if_neg hbad]
    simp only [hops]
    have hr : ramfs_read fs (fs.files f).vnode (fs.files f).offset n = (-EISDIR, []) := by
      unfold ramfs_read
      simp only [htype, ne_eq, not_false_eq_true, if_true]
    rw [hr]
    have : ¬ ((0 : Int) < -EISDIR) := by decide
    simp only [this, if_false]
  · intro buf m
    unfold file_write
    rw [if_neg hbad]
    simp only [hops]
    have hr : ramfs_write fs (fs.files f).vnode (fs.files f).offset m buf =
        some (fs, -EISDIR) := by
      unfold ramfs_write
      simp only [htype, ne_eq, not_false_eq_true, if_true]
    rw [hr]
    have : ¬ ((0 : Int) < -EISDIR) := by decide
    simp only [this, if_false]

/-- C27, amended: for an open file `f` on a ramfs node holding `s < 2^31`
bytes, at an offset `off` (an `off_t`, so `-2^31 <= off < 2^31`).  If the
node is a regular file and `0 <= off`: `file_read(f, buf, n)` returns
`min(n, s - off)` when `off < s` and 0 when `off >= s`, copies exactly that
many bytes of the file's data starting at `off`, advances the offset by
exactly the value returned and changes nothing else; `file_write(f, buf, m)`
with `m < 2^31` and `off + m < 2^31`, on a well-formed heap with
`heap_brk + off + m + 3 * PAGE_SIZE + HDR_SIZE + 8 <= 2^32` (room for the
data block to grow), returns `m` and advances the offset by exactly `m`,
leaving every other open file as it was.  If the node is a regular file and
`off < 0`: `file_read` returns 0, copies nothing and changes nothing, the
offset included.  If the node is not a regular file, both calls return
`-EISDIR` and change nothing. -/
theorem C27_read_write_advance_offset (fs : Fs) (f : Nat) (off : Int) (s : Nat)
    (hf : f ≠ 0) (hv : (fs.files f).vnode ≠ 0)
    (hops : (fs.vnodes (fs.files f).vnode).ops = some vnode_ops_t.ramfs_ops)
    (hoff : (fs.files f).offset = off) (hlo : -2 ^ 31 ≤ off) (hhi : off < 2 ^ 31)
    (hsize : (fs.nodes (fs.vnodes (fs.files f).vnode).data).size = s) (hs : s < 2 ^ 31) :
    ((fs.nodes (fs.vnodes (fs.files f).vnode).data).type = VFS_FILE →
      (∀ o : Nat, off = (o : Int) →
        (∀ n, ∃ fs2, file_read fs f n =
            some (fs2, ((if o < s then min n (s - o) else 0 : Nat) : Int),
              read_bytes fs.heap.mem
                (((fs.nodes (fs.vnodes (fs.files f).vnode).data).data + o) % 2 ^ 32)
                (if o < s then min n (s - o) else 0)) ∧
          (fs2.files f).offset = off + ((if o < s then min n (s - o) else 0 : Nat) : Int) ∧
          (fs2.files f).vnode = (fs.files f).vnode ∧ (fs2.files f).flags = (fs.files f).flags ∧
          (fs2.files f).ref = (fs.files f).ref ∧
          (∀ g, g ≠ f → fs2.files g = fs.files g) ∧
          fs2.heap = fs.heap ∧ fs2.nodes = fs.nodes ∧ fs2.vnodes = fs.vnodes) ∧
        (∀ (buf : Nat → Nat) (m : Nat) (bs : List (Nat × Bool)), HeapWF fs.heap bs →
          m < 2 ^ 31 → o + m < 2 ^ 31 →
          fs.heap.heap_brk + o + m + 3 * PAGE_SIZE + HDR_SIZE + 8 ≤ 2 ^ 32 →
          ∃ fs2, file_write fs f m buf = some (fs2, (m : Int)) ∧
            (fs2.files f).offset = off + (m : Int) ∧
            (∀ g, g ≠ f → fs2.files g = fs.files g))) ∧
      (off < 0 → ∀ n, file_read fs f n = some (fs, 0, []))) ∧
    ((fs.nodes (fs.vnodes (fs.files f).vnode).data).type ≠ VFS_FILE →
      (∀ n, file_read fs f n = some (fs, -EISDIR, [])) ∧
      (∀ (buf : Nat → Nat) (m : Nat), file_write fs f m buf = some (fs, -EISDIR))) := by
  refine ⟨fun htype => ⟨?_, ?_⟩, file_read_write_eisdir fs f hf hv hops⟩
  · intro o ho
    subst ho
    have ho31 : o < 2 ^ 31 := by exact_mod_cast hhi
    refine ⟨?_, ?_⟩
    · intro n
      exact file_read_at_offset fs f o s hf hv hops hoff ho31 hsize hs htype n
    · intro buf m bs hwf hm hom hroom
      exact file_write_at_offset fs f o bs hf hv hops hoff ho31 htype hwf buf m hm hom hroom
  · intro hneg n
    exact file_read_negative_offset fs f off s hf hv hops hoff hneg hlo hsize hs htype n

theorem helloAt2_heap_wf :
    HeapWF helloAt2.heap
      [(576, false), (576, false), (576, false), (16, false), (4104, false), (10416, true)] :=
  ⟨by decide, by decide, by decide, by simp, by decide, by simp [NoAdjFree]⟩

/-- Witness for C27: the file `/tmp/a` holding `"hello"`, open at offset 2;
`file_read(f, buf, 10)` returns `min(10, 5 - 2) = 3`, and
`file_write(f, buf, 3)` returns 3 and moves the offset to 5. -/
theorem C27_read_write_witness :
    (tmpOpenFile ≠ 0 ∧ (helloAt2.files tmpOpenFile).vnode ≠ 0 ∧
      (helloAt2.vnodes (helloAt2.files tmpOpenFile).vnode).ops = some vnode_ops_t.ramfs_ops ∧
      (helloAt2.files tmpOpenFile).offset = 2 ∧
      (helloAt2.nodes (helloAt2.vnodes (helloAt2.files tmpOpenFile).vnode).data).size = 5 ∧
      (helloAt2.nodes (helloAt2.vnodes (helloAt2.files tmpOpenFile).vnode).data).type =
        VFS_FILE) ∧
    (∃ fs2, file_read helloAt2 tmpOpenFile 10 =
        some (fs2, ((if 2 < 5 then min 10 (5 - 2) else 0 : Nat) : Int),
          read_bytes helloAt2.heap.mem
            (((helloAt2.nodes (helloAt2.vnodes (helloAt2.files tmpOpenFile).vnode).data).data
              + 2) % 2 ^ 32)
            (if 2 < 5 then min 10 (5 - 2) else 0)) ∧
      (fs2.files tmpOpenFile).offset =
        2 + ((if 2 < 5 then min 10 (5 - 2) else 0 : Nat) : Int) ∧
      (fs2.files tmpOpenFile).vnode = (helloAt2.files tmpOpenFile).vnode ∧
      (fs2.files tmpOpenFile).flags = (helloAt2.files tmpOpenFile).flags ∧
      (fs2.files tmpOpenFile).ref = (helloAt2.files tmpOpenFile).ref ∧
      (∀ g, g ≠ tmpOpenFile → fs2.files g = helloAt2.files g) ∧
      fs2.heap = helloAt2.heap ∧ fs2.nodes = helloAt2.nodes ∧ fs2.vnodes = helloAt2.vnodes) ∧
    (∃ fs2, file_write helloAt2 tmpOpenFile 3 (fun _ => 120) = some (fs2, 3) ∧
      (fs2.files tmpOpenFile).offset = 2 + 3 ∧
      (∀ g, g ≠ tmpOpenFile → fs2.files g = helloAt2.files g)) :=
  have h := (C27_read_write_advance_offset helloAt2 tmpOpenFile 2 5 (by decide) (by decide)
     (by decide) (by decide) (by decide) (by decide) (by decide) (by decide)).1
     (by decide)
  ⟨⟨by decide, by decide, by decide, by decide, by decide, by decide⟩,
   (h.1 2 rfl).1 10,
   (h.1 2 rfl).2 (fun _ => 120) 3 _ helloAt2_heap_wf (by decide) (by decide) (by decide)⟩

/-- C27 fails for a negative offset: on the file holding `"hello"` (size 5),
after `file_seek(f, -5, SEEK_SET)` the offset is `-5`, which is below the
size, and `file_read(f, buf, 5)` returns 0 and copies nothing, not
`min(5, 5 - (-5)) = 5`; the offset stays `-5`. -/
theorem C27_negative_offset_read :
    negativeReadRun = some (5, -5, 0, [], -5) := by
  decide


/-! ### The tick counter and `proc_yield` -/

/-- Every `proc_yield` advances the tick counter: it ends in a call of
`scheduler_tick`, which starts with `ticks++`. -/
theorem proc_yield_ticks (k : Kernel) : (proc_yield k).ticks = (k.ticks + 1) % 2 ^ 32 := by
  unfold proc_yield
  split <;> rw [scheduler_tick_ticks]

/-- C40 fails: `proc_yield` calls `scheduler_tick`, whose first statement is
`ticks++`.  After `proc_init` and three calls of `proc_yield`, with no timer
interrupt delivered, `ticks` is 3; a `proc_sleep(1000)` and a `proc_exit`
advance it as well, since both end in `proc_yield`. -/
theorem C40_yield_advances_ticks :
    (proc_init 0).ticks = 0 ∧
    (proc_yield (proc_init 0)).ticks = 1 ∧
    (runProc 0 [.yield, .yield, .yield]).ticks = 3 ∧
    (runProc 0 [.sleep 1000]).ticks = 1 ∧
    (runProc 0 [.create "a".toList, .exit 0]).ticks = 1 := by
  decide

/-! ### What `scheduler_tick` does -/

/-- The switch of `scheduler_tick`: when the scan finds a `PROC_READY` record
other than the current one, the previous process becomes `PROC_READY` if it
was `PROC_RUNNING`, the record found becomes `PROC_RUNNING` and is the
current process, and every other record is as the wake-up loop left it. -/
theorem scheduler_tick_switch (k : Kernel) (n : Nat)
    (hf : find_next (wake_sleepers ((k.ticks + 1) % 2 ^ 32) k.proc_table) k.current_proc = some n)
    (hn : n ≠ k.current_proc) :
    (scheduler_tick k).current_proc = n ∧
    ((scheduler_tick k).proc_table n).state = PROC_RUNNING ∧
    ((scheduler_tick k).proc_table k.current_proc).state =
      (if (wake_sleepers ((k.ticks + 1) % 2 ^ 32) k.proc_table k.current_proc).state = PROC_RUNNING
       then PROC_READY
       else (wake_sleepers ((k.ticks + 1) % 2 ^ 32) k.proc_table k.current_proc).state) ∧
    ∀ i, i ≠ n → i ≠ k.current_proc →
      (scheduler_tick k).proc_table i =
        wake_sleepers ((k.ticks + 1) % 2 ^ 32) k.proc_table i := by
  unfold scheduler_tick
  simp only [hf, if_neg hn]
  refine ⟨trivial, ?_, ?_, ?_⟩
  · rw [setState_same]
  · rw [setState_other _ _ _ _ (Ne.symm hn)]
    split
    · rw [setState_same]
    · rfl
  · intro i hin hic
    rw [setState_other _ _ _ _ hin]
    split
    · rw [setState_other _ _ _ _ hic]
    · rfl

/-- The early return of `scheduler_tick`: when the scan finds nothing, or
finds the current process itself, only the tick counter and the woken
sleepers change. -/
theorem scheduler_tick_stay (k : Kernel)
    (hf : find_next (wake_sleepers ((k.ticks + 1) % 2 ^ 32) k.proc_table) k.current_proc = none ∨
      find_next (wake_sleepers ((k.ticks + 1) % 2 ^ 32) k.proc_table) k.current_proc =
        some k.current_proc) :
    (scheduler_tick k).current_proc = k.current_proc ∧
    (scheduler_tick k).proc_table = wake_sleepers ((k.ticks + 1) % 2 ^ 32) k.proc_table := by
  unfold scheduler_tick
  rcases hf with hf | hf
  · simp only [hf]
    exact ⟨trivial, trivial⟩
  · simp only [hf, if_true]
    exact ⟨trivial, trivial⟩

/-- C32 fails when the first `PROC_READY` record of the scan is the current
process itself.  After `proc_init(); proc_yield()` the idle record (slot 0)
is current and `PROC_READY`; `scheduler_tick` selects slot 0 at
`i = MAX_PROCS` and returns at `&proc_table[next_idx] == current_proc`: the
selected record stays `PROC_READY` and no record is `PROC_RUNNING`.  The
same happens to a lone process that the tick wakes from `proc_sleep(10)`. -/
theorem C32_selected_current_stays_ready :
    (runProc 0 [.yield]).current_proc = 0 ∧
    ((runProc 0 [.yield]).proc_table 0).state = PROC_READY ∧
    find_next (wake_sleepers (((runProc 0 [.yield]).ticks + 1) % 2 ^ 32)
      (runProc 0 [.yield]).proc_table) (runProc 0 [.yield]).current_proc = some 0 ∧
    ((scheduler_tick (runProc 0 [.yield])).proc_table 0).state = PROC_READY ∧
    countRunning (scheduler_tick (runProc 0 [.yield])) = 0 ∧
    ((runProc 0 [.sleep 10]).proc_table 0).state = PROC_SLEEPING ∧
    ((runProc 0 [.sleep 10]).proc_table 0).sleep_until = 2 ∧
    (runProc 0 [.sleep 10]).ticks = 1 ∧
    find_next (wake_sleepers (((runProc 0 [.sleep 10]).ticks + 1) % 2 ^ 32)
      (runProc 0 [.sleep 10]).proc_table) (runProc 0 [.sleep 10]).current_proc = some 0 ∧
    ((scheduler_tick (runProc 0 [.sleep 10])).proc_table 0).state = PROC_READY ∧
    countRunning (scheduler_tick (runProc 0 [.sleep 10])) = 0 := by
  decide

/-! ### Only the current process is `PROC_RUNNING` -/

/-- What `pmm_init` leaves in bit `i`, for every `i`, also past the 65536
bits of the array. -/
theorem pmm_init_bit (old : Nat → Nat) (mem_size kernel_end i : Nat) :
    test_bit (pmm_init old mem_size kernel_end).bitmap i =
      if start_page kernel_end ≤ i ∧
          i < start_page kernel_end + (mem_size / PAGE_SIZE - start_page kernel_end)
      then false
      else test_bit (fun w => if w < BITMAP_LEN then 0xFFFFFFFF else old w) i := by
  unfold pmm_init
  simp only
  rw [test_bit_clear_range]

/-- The function `pmm_free` reads the word `(addr / PAGE_SIZE) / 32` of the
bitmap whatever `addr` is. -/
theorem pmm_free_words_mem (s : Pmm) (addr : Nat) :
    addr / PAGE_SIZE / 32 ∈ pmm_free_words s addr := by
  unfold pmm_free_words
  simp only
  split <;> simp

/-- A set bit is clear after `pmm_free` of its frame, wherever the bit is. -/
theorem pmm_free_clears (s : Pmm) (addr : Nat) :
    test_bit (pmm_free s addr).bitmap (addr / PAGE_SIZE) = false := by
  unfold pmm_free
  simp only
  split
  · simp only [test_bit_clear_bit, if_true]
  · rename_i h
    simpa using h

/-- C38 fails: neither `pmm_init` nor `pmm_free` compares a page number with
the size of the bitmap.  `pmm_init(0x20000000, 0x200000)` (512 MiB of
memory) runs `clear_bit(i)` up to page 131071 and so accesses
`bitmap[BITMAP_LEN]` and beyond: bit 0 of the word after the array, set
before the call, is clear after it.  `pmm_free(0x10000000)` accesses
`bitmap[BITMAP_LEN]` in every state, and after `pmm_init(0x400000,
0x100000)` it clears bit 0 of that word. -/
theorem C38_bitmap_access_out_of_range :
    BITMAP_LEN = 2048 ∧
    BITMAP_LEN ∈ pmm_init_words 0x20000000 0x200000 ∧
    test_bit (fun _ => 0xFFFFFFFF) (32 * BITMAP_LEN) = true ∧
    test_bit (pmm_init (fun _ => 0xFFFFFFFF) 0x20000000 0x200000).bitmap (32 * BITMAP_LEN)
      = false ∧
    (∀ s : Pmm, BITMAP_LEN ∈ pmm_free_words s 0x10000000) ∧
    test_bit (pmm_init (fun _ => 0xFFFFFFFF) 0x400000 0x100000).bitmap (32 * BITMAP_LEN)
      = true ∧
    test_bit (pmm_free (pmm_init (fun _ => 0xFFFFFFFF) 0x400000 0x100000) 0x10000000).bitmap
      (32 * BITMAP_LEN) = false := by
  have hsp : start_page 0x200000 = 512 := by decide
  have hsp2 : start_page 0x100000 = 256 := by decide
  have hB : BITMAP_LEN = 2048 := by decide
  refine ⟨hB, ?_, by decide, ?_, ?_, ?_, ?_⟩
  · unfold pmm_init_words
    rw [hsp]
    refine List.mem_append_right _ (List.mem_map.mpr ⟨65024, List.mem_range.mpr (by decide), ?_⟩)
    decide
  · rw [pmm_init_bit, hsp]
    decide
  · intro s
    exact pmm_free_words_mem s 0x10000000
  · rw [pmm_init_bit, hsp2]
    decide
  · exact pmm_free_clears _ 0x10000000

/-! ### Names of the children of a directory -/

/-- C39 fails: `ramfs_create` appends a child without looking for one of the
same name, and `sys_mkdir` calls it without a lookup.  On a root that holds
the directory `tmp`, `sys_mkdir("/tmp")` returns 0 and the root then has two
children named `tmp`, of which `vfs_lookup("/tmp")` reaches the first only;
`ramfs_create(root, "x", VFS_FILE)` twice leaves two children named `x`; and
`file_open("ab", O_CREAT | O_RDWR)` twice leaves two children named `b`. -/
theorem C39_duplicate_child_names :
    mkdirTwiceRun = some (0, ["tmp".toList, "tmp".toList], true, false) ∧
    ¬ ["tmp".toList, "tmp".toList].Nodup ∧
    createTwiceRun = some (0, 0, ["tmp".toList, "x".toList, "x".toList]) ∧
    ¬ ["tmp".toList, "x".toList, "x".toList].Nodup ∧
    openCreateTwiceRun = some (true, true, ["tmp".toList, "b".toList, "b".toList]) := by
  decide

/-! ### Removing a child -/

theorem getD_take_set (ch : List Nat) (i j : Nat) (x : Nat) (hi : i < ch.length)
    (hj : j < ch.length - 1) :
    ((ch.set i x).take (ch.length - 1)).getD j 0 = if j = i then x else ch.getD j 0 := by
  rw [List.getD_eq_getElem?_getD, List.getElem?_take, if_pos hj, List.getElem?_set]
  by_cases h : i = j
  · subst h
    simp [hi]
  · have h2 : ¬ j = i := fun e => h e.symm
    simp [h, h2, List.getD_eq_getElem?_getD]

theorem rotate_last_perm (t : List Nat) (ht : t ≠ []) :
    List.Perm (t.getD (t.length - 1) 0 :: t.take (t.length - 1)) t := by
  have h1 : t.getD (t.length - 1) 0 = t.getLast ht := by
    rw [List.getD_eq_getElem?_getD, List.getLast_eq_getElem]
    have : t.length - 1 < t.length := by
      have := List.length_pos.mpr ht
      omega
    simp [this]
  rw [h1, ← List.dropLast_eq_take]
  have h2 := List.dropLast_append_getLast ht
  have h3 : List.Perm ([t.getLast ht] ++ t.dropLast) (t.dropLast ++ [t.getLast ht]) :=
    List.perm_append_comm
  rw [h2] at h3
  exact h3

theorem take_set_perm (ch : List Nat) :
    ∀ i, i < ch.length →
      List.Perm ((ch.set i (ch.getD (ch.length - 1) 0)).take (ch.length - 1)) (ch.eraseIdx i) := by
  induction ch with
  | nil => intro i hi; simp at hi
  | cons a t ih =>
    intro i hi
    cases i with
    | zero =>
      simp only [List.set_cons_zero, List.length_cons, Nat.add_sub_cancel, List.eraseIdx_cons_zero]
      cases t with
      | nil => simp
      | cons b u =>
        have h := rotate_last_perm (b :: u) (by simp)
        simp only [List.length_cons, Nat.add_sub_cancel] at h
        simp only [List.length_cons, List.take_succ_cons]
        have e : (a :: b :: u).getD (u.length + 1) 0 = (b :: u).getD u.length 0 := by
          simp [List.getD_eq_getElem?_getD]
        rw [e]
        exact h
    | succ j =>
      have hj : j < t.length := by simpa using hi
      have hpos : 0 < t.length := by omega
      simp only [List.set_cons_succ, List.length_cons, Nat.add_sub_cancel,
        List.eraseIdx_cons_succ]
      obtain ⟨m, hm⟩ : ∃ m, t.length = m + 1 := ⟨t.length - 1, by omega⟩
      have e : (a :: t).getD t.length 0 = t.getD (t.length - 1) 0 := by
        rw [hm]
        simp [List.getD_eq_getElem?_getD]
      rw [e]
      have h := ih j hj
      rw [hm] at h ⊢
      simp only [Nat.add_sub_cancel] at h
      simp only [List.take_succ_cons]
      exact List.Perm.cons a h

/-- C34: `ramfs_unlink(dir, name)`, when the child in slot `i` is the first
one named `name`, returns 0; afterwards the directory has one child fewer,
slot `i` holds the previous last child, every other slot below the new count
holds what it held, the children are the previous ones without the one of
slot `i` (up to order), no other field of the directory and no other node is
changed, and the removed node has been given to `kfree`.  When no child is
named `name` the call returns `-ENOENT` and changes nothing. -/
theorem C34_ramfs_unlink (fs : Fs) (v : Nat) (name : List Char) (ch : List Nat)
    (hch : (fs.nodes (fs.vnodes v).data).children = ch) :
    (∀ i, i < ch.length → (fs.nodes (ch.getD i 0)).name = name →
      (∀ j, j < i → (fs.nodes (ch.getD j 0)).name ≠ name) →
      (ramfs_unlink fs v name).2 = 0 ∧
      ((ramfs_unlink fs v name).1.nodes (fs.vnodes v).data).children.length = ch.length - 1 ∧
      (∀ j, j < ch.length - 1 →
        ((ramfs_unlink fs v name).1.nodes (fs.vnodes v).data).children.getD j 0 =
          if j = i then ch.getD (ch.length - 1) 0 else ch.getD j 0) ∧
      List.Perm ((ramfs_unlink fs v name).1.nodes (fs.vnodes v).data).children
        (ch.eraseIdx i) ∧
      (ramfs_unlink fs v name).1.nodes (fs.vnodes v).data =
        { fs.nodes (fs.vnodes v).data with
          children := ((ramfs_unlink fs v name).1.nodes (fs.vnodes v).data).children } ∧
      (∀ a, a ≠ (fs.vnodes v).data → (ramfs_unlink fs v name).1.nodes a = fs.nodes a) ∧
      (ramfs_unlink fs v name).1.vnodes = fs.vnodes ∧
      (ramfs_unlink fs v name).1.heap = kfree fs.heap (ch.getD i 0)) ∧
    ((∀ c ∈ ch, (fs.nodes c).name ≠ name) → ramfs_unlink fs v name = (fs, -ENOENT)) := by
  subst hch
  constructor
  · intro i hi hname hfirst
    have hfind : (List.range (fs.nodes (fs.vnodes v).data).children.length).find?
        (fun i => decide ((fs.nodes ((fs.nodes (fs.vnodes v).data).children.getD i 0)).name = name))
        = some i :=
      find_range_first _ _ i hi (by simp only [decide_eq_true_eq]; exact hname)
        (fun j hj => by simp only [decide_eq_false_iff_not]; exact hfirst j hj)
    unfold ramfs_unlink
    simp only [hfind, setNode, if_true]
    refine ⟨trivial, ?_, ?_, ?_, trivial, ?_, trivial, trivial⟩
    · rw [List.length_take, List.length_set]
      omega
    · intro j hj
      exact getD_take_set _ i j _ hi hj
    · exact take_set_perm _ i hi
    · intro a ha
      simp only [ha, if_false]
  · intro hnone
    have hfind : (List.range (fs.nodes (fs.vnodes v).data).children.length).find?
        (fun i => decide ((fs.nodes ((fs.nodes (fs.vnodes v).data).children.getD i 0)).name = name))
        = none := by
      rw [List.find?_eq_none]
      intro x hx
      have hx2 := List.mem_range.mp hx
      have hmem : (fs.nodes (fs.vnodes v).data).children.getD x 0 ∈
          (fs.nodes (fs.vnodes v).data).children := by
        rw [List.getD_eq_getElem?_getD, List.getElem?_eq_getElem hx2]
        exact List.getElem_mem hx2
      simp only [decide_eq_true_eq]
      exact hnone _ hmem
    unfold ramfs_unlink
    simp only [hfind]

set_option maxRecDepth 100000 in
/-- C34 on a root directory with the children `tmp`, `a`, `b`:
`ramfs_unlink(root, "tmp")` returns 0 and leaves two children, `b` in slot 0
and `a` in slot 1; `ramfs_unlink(root, "c")` returns `-ENOENT`. -/
theorem C34_ramfs_unlink_witness :
    ((unlinkDemo.nodes (unlinkDemo.vnodes unlinkDemo.vfs_root).data).children.length = 3 ∧
      rootNames unlinkDemo = ["tmp".toList, "a".toList, "b".toList]) ∧
    ((ramfs_unlink unlinkDemo unlinkDemo.vfs_root "tmp".toList).2 = 0 ∧
      ((ramfs_unlink unlinkDemo unlinkDemo.vfs_root "tmp".toList).1.nodes
        (unlinkDemo.vnodes unlinkDemo.vfs_root).data).children.length = 2 ∧
      rootNames (ramfs_unlink unlinkDemo unlinkDemo.vfs_root "tmp".toList).1 =
        ["b".toList, "a".toList]) ∧
    ramfs_unlink unlinkDemo unlinkDemo.vfs_root "c".toList = (unlinkDemo, -ENOENT) :=
  ⟨⟨by decide, by decide⟩,
   ⟨((C34_ramfs_unlink unlinkDemo unlinkDemo.vfs_root "tmp".toList _ rfl).1 0
      (by decide) (by decide) (fun j hj => absurd hj (Nat.not_lt_zero j))).1,
    ((C34_ramfs_unlink unlinkDemo unlinkDemo.vfs_root "tmp".toList _ rfl).1 0
      (by decide) (by decide) (fun j hj => absurd hj (Nat.not_lt_zero j))).2.1,
    by decide⟩,
   (C34_ramfs_unlink unlinkDemo unlinkDemo.vfs_root "c".toList _ rfl).2 (by decide)⟩


/-! ### Destroying a cloned address space -/

theorem pmm_free_keeps_clear (s : Pmm) (addr p : Nat) (h : test_bit s.bitmap p = false) :
    test_bit (pmm_free s addr).bitmap p = false := by
  unfold pmm_free
  simp only
  split
  · rw [test_bit_clear_bit, h]
    simp
  · exact h

theorem pmm_free_other (s : Pmm) (addr p : Nat) (h : p ≠ addr / PAGE_SIZE) :
    test_bit (pmm_free s addr).bitmap p = test_bit s.bitmap p := by
  unfold pmm_free
  simp only
  split
  · rw [test_bit_clear_bit, if_neg h]
  · rfl

theorem pmm_free_total (s : Pmm) (addr : Nat) :
    (pmm_free s addr).total_pages = s.total_pages := by
  unfold pmm_free
  simp only
  split <;> rfl

theorem foldl_preserves {α β : Type} (P : α → Prop) (step : α → β → α) (l : List β)
    (h : ∀ x, x ∈ l → ∀ q, P q → P (step q x)) : ∀ q, P q → P (l.foldl step q) := by
  induction l with
  | nil => exact fun q hq => hq
  | cons a t ih =>
    intro q hq
    exact ih (fun x hx => h x (List.mem_cons_of_mem _ hx)) _ (h a (List.mem_cons_self _ _) q hq)

theorem foldl_establishes {α β : Type} (P : α → Prop) (step : α → β → α) (l : List β) (x : β)
    (hx : x ∈ l) (hpres : ∀ y q, P q → P (step q y)) (hest : ∀ q, P (step q x)) :
    ∀ q, P (l.foldl step q) := by
  induction l with
  | nil => simp at hx
  | cons a t ih =>
    intro q
    rcases List.mem_cons.mp hx with rfl | hx2
    · exact foldl_preserves P step t (fun y _ q hq => hpres y q hq) _ (hest q)
    · exact ih hx2 _

/-- The function `vmm_destroy_directory` releases the frame of every present
leaf of every present user table of `pd`. -/
theorem destroy_frees_leaf (v : Vmm) (pd i j : Nat) (hi : i < 768) (hj : j < 1024)
    (hpi : v.tables pd i &&& PAGE_PRESENT ≠ 0)
    (hpj : v.tables (v.tables pd i &&& ADDR_MASK) j &&& PAGE_PRESENT ≠ 0) :
    test_bit (vmm_destroy_directory v pd).pmm.bitmap
      ((v.tables (v.tables pd i &&& ADDR_MASK) j &&& ADDR_MASK) / PAGE_SIZE) = false := by
  unfold vmm_destroy_directory
  simp only
  apply pmm_free_keeps_clear
  refine foldl_establishes
    (fun q : Pmm => test_bit q.bitmap
      ((v.tables (v.tables pd i &&& ADDR_MASK) j &&& ADDR_MASK) / PAGE_SIZE) = false)
    _ _ i (List.mem_range.mpr hi) ?_ ?_ _
  · intro y q hq
    beta_reduce
    split
    · exact hq
    · apply pmm_free_keeps_clear
      refine foldl_preserves
        (fun q : Pmm => test_bit q.bitmap
          ((v.tables (v.tables pd i &&& ADDR_MASK) j &&& ADDR_MASK) / PAGE_SIZE) = false)
        _ _ ?_ _ hq
      intro x _ q2 hq2
      beta_reduce
      split
      · exact hq2
      · exact pmm_free_keeps_clear _ _ _ hq2
  · intro q
    simp only [if_neg hpi]
    apply pmm_free_keeps_clear
    refine foldl_establishes
      (fun q : Pmm => test_bit q.bitmap
        ((v.tables (v.tables pd i &&& ADDR_MASK) j &&& ADDR_MASK) / PAGE_SIZE) = false)
      _ _ j (List.mem_range.mpr hj) ?_ ?_ _
    · intro y q2 hq2
      beta_reduce
      split
      · exact hq2
      · exact pmm_free_keeps_clear _ _ _ hq2
    · intro q2
      simp only [if_neg hpj]
      exact pmm_free_clears _ _

/-- The function `vmm_destroy_directory` leaves alone the bit of every page
that is neither `pd`, nor one of its present user tables, nor the frame of a
present leaf of one of them; and it leaves `total_pages` alone. -/
theorem destroy_keeps (v : Vmm) (pd p : Nat) (hpd : p ≠ pd / PAGE_SIZE)
    (ht : ∀ i, i < 768 → v.tables pd i &&& PAGE_PRESENT ≠ 0 →
      p ≠ (v.tables pd i &&& ADDR_MASK) / PAGE_SIZE ∧
      ∀ j, j < 1024 → v.tables (v.tables pd i &&& ADDR_MASK) j &&& PAGE_PRESENT ≠ 0 →
        p ≠ (v.tables (v.tables pd i &&& ADDR_MASK) j &&& ADDR_MASK) / PAGE_SIZE) :
    test_bit (vmm_destroy_directory v pd).pmm.bitmap p = test_bit v.pmm.bitmap p ∧
    (vmm_destroy_directory v pd).pmm.total_pages = v.pmm.total_pages := by
  unfold vmm_destroy_directory
  simp only
  rw [pmm_free_other _ _ _ hpd, pmm_free_total]
  refine foldl_preserves
    (fun q : Pmm => test_bit q.bitmap p = test_bit v.pmm.bitmap p ∧
      q.total_pages = v.pmm.total_pages) _ _ ?_ _ ⟨rfl, rfl⟩
  intro i hi q hq
  have hi2 := List.mem_range.mp hi
  split
  · exact hq
  · rename_i hpi
    rw [pmm_free_other _ _ _ (ht i hi2 hpi).1, pmm_free_total]
    refine foldl_preserves
      (fun q : Pmm => test_bit q.bitmap p = test_bit v.pmm.bitmap p ∧
        q.total_pages = v.pmm.total_pages) _ _ ?_ _ hq
    intro j hj q2 hq2
    have hj2 := List.mem_range.mp hj
    split
    · exact hq2
    · rename_i hpj
      rw [pmm_free_other _ _ _ ((ht i hi2 hpi).2 j hj2 hpj), pmm_free_total]
      exact hq2

theorem destroy_tables (v : Vmm) (pd : Nat) : (vmm_destroy_directory v pd).tables = v.tables := by
  unfold vmm_destroy_directory
  rfl

/-- The state after `vmm_clone` satisfies the loop invariant for all 768 user
entries. -/
theorem cloneInv_vmm_clone (v : Vmm) (src : Nat)
    (htot : v.pmm.total_pages ≤ 2 ^ 20)
    (hfree : 769 ≤ freeFrames v.pmm)
    (hsrc : test_bit v.pmm.bitmap (src / PAGE_SIZE) = true)
    (hpt : ∀ i, i < 768 → v.tables src i &&& PAGE_PRESENT ≠ 0 →
      test_bit v.pmm.bitmap ((v.tables src i &&& ADDR_MASK) / PAGE_SIZE) = true) :
    CloneInv v src (vmm_clone v src).2 768 (vmm_clone v src).1 := by
  have h1 : (vmm_clone v src).1 = (List.range 768).foldl
      (clone_dir_entry src (vmm_create_directory v).2) (vmm_create_directory v).1 := by
    rw [vmm_clone]
  have h2 : (vmm_clone v src).2 = (vmm_create_directory v).2 := by
    rw [vmm_clone]
  rw [h1, h2]
  exact cloneInv_run (cloneInv_init v src htot hfree) htot hsrc hpt 768 (le_refl _)

theorem cloneDemo_dir (i : Nat) (h : cloneDemo.tables 0x1000 i &&& PAGE_PRESENT ≠ 0) : i = 0 := by
  by_contra hi
  apply h
  show (if (0x1000 : Nat) = 0x1000 ∧ i = 0 then 0x2007
    else if (0x1000 : Nat) = 0x2000 ∧ i = 5 then 0x5007 else 0) &&& PAGE_PRESENT = 0
  simp [hi]

theorem cloneDemo_table (j : Nat) (h : cloneDemo.tables 0x2000 j &&& PAGE_PRESENT ≠ 0) :
    j = 5 := by
  by_contra hj
  apply h
  show (if (0x2000 : Nat) = 0x1000 ∧ j = 0 then 0x2007
    else if (0x2000 : Nat) = 0x2000 ∧ j = 5 then 0x5007 else 0) &&& PAGE_PRESENT = 0
  simp [hj]

/-- What destroying the clone of `cloneDemo` does, for any state `w` and
directory `dst` that satisfy the invariant of `vmm_clone`. -/
theorem destroy_clone_demo (w : Vmm) (dst : Nat) (h : CloneInv cloneDemo 0x1000 dst 768 w) :
    (∃ e, leaf (vmm_destroy_directory w dst).tables 0x1000 0 5 = some e ∧
      e &&& PAGE_PRESENT ≠ 0 ∧ e &&& ADDR_MASK = 0x5000) ∧
    test_bit (vmm_destroy_directory w dst).pmm.bitmap (0x5000 / PAGE_SIZE) = false ∧
    (pmm_alloc (vmm_destroy_directory w dst).pmm).2 = some 0x5000 ∧
    test_bit (vmm_destroy_directory w dst).pmm.bitmap (0x1000 / PAGE_SIZE) = true ∧
    test_bit (vmm_destroy_directory w dst).pmm.bitmap (0x2000 / PAGE_SIZE) = true := by
  have hp0 : cloneDemo.tables 0x1000 0 &&& PAGE_PRESENT ≠ 0 := by decide
  have hpt : cloneDemo.tables 0x1000 0 &&& ADDR_MASK = 0x2000 := by decide
  have hl5 : cloneDemo.tables 0x2000 5 = 0x5007 := by decide
  have hsrc : test_bit cloneDemo.pmm.bitmap (0x1000 / PAGE_SIZE) = true := by decide
  have hlow : ∀ p, p < 8 → test_bit cloneDemo.pmm.bitmap p = true := by decide
  obtain ⟨d1, d2, d3, d4, d5⟩ := h.done 0 (by decide) hp0
  rw [hpt] at d5
  generalize hptE : w.tables dst 0 &&& ADDR_MASK = pt at d2 d3 d4 d5
  have hcow : cow 0x5007 = 0x5205 := by decide
  have hleaf : w.tables pt 5 = 0x5205 := by
    rw [(d5 5 (by decide)).1, hl5, hcow]
    decide
  -- the bits the destruction leaves alone
  have hkeep : ∀ p, p < 5 → test_bit (vmm_destroy_directory w dst).pmm.bitmap p = true ∧
      (vmm_destroy_directory w dst).pmm.total_pages = 1024 := by
    intro p hp
    have hk := destroy_keeps w dst p
      (by
        intro e
        have := h.dst_new
        rw [← e, hlow p (by omega)] at this
        exact absurd this (by simp))
      (by
        intro i hi hpi
        have hi0 : i = 0 := by
          by_contra hne
          have hz := h.rest i hi (Or.inr (by
            by_contra hpres
            exact hne (cloneDemo_dir i hpres)))
          rw [hz] at hpi
          exact hpi (by decide)
        subst hi0
        rw [hptE]
        refine ⟨?_, ?_⟩
        · intro e
          rw [← e, hlow p (by omega)] at d2
          exact absurd d2 (by simp)
        · intro j hj hpj
          have hj5 : j = 5 := by
            by_contra hne
            have hz := (d5 j hj).1
            have habs : cloneDemo.tables 0x2000 j &&& PAGE_PRESENT = 0 := by
              by_contra hpres
              exact hne (cloneDemo_table j hpres)
            rw [if_pos habs] at hz
            rw [hz] at hpj
            exact hpj (by decide)
          subst hj5
          rw [hleaf]
          have : (0x5205 &&& ADDR_MASK) / PAGE_SIZE = 5 := by decide
          rw [this]
          omega)
    rw [hk.1, hk.2, h.total]
    exact ⟨h.mono p (hlow p (by omega)), by decide⟩
  have hfreed : test_bit (vmm_destroy_directory w dst).pmm.bitmap (0x5000 / PAGE_SIZE) = false := by
    have hf := destroy_frees_leaf w dst 0 5 (by decide) (by decide) d1
      (by rw [hptE, hleaf]; decide)
    rw [hptE, hleaf] at hf
    exact hf
  refine ⟨⟨0x5205, ?_, by decide, by decide⟩, hfreed, ?_, (hkeep 1 (by decide)).1,
    (hkeep 2 (by decide)).1⟩
  · rw [destroy_tables]
    have ho := old_cases (h.old 0x1000 0 hsrc)
    have hpw : ¬ (w.tables 0x1000 0 &&& PAGE_PRESENT = 0) := fun h0 => hp0 (ho.1.mp h0)
    simp only [leaf, hpw, if_false, ho.2.1, hpt, (d5 5 (by decide)).2, hl5, hcow]
  · have hfind : (List.range (vmm_destroy_directory w dst).pmm.total_pages).find?
        (fun i => !test_bit (vmm_destroy_directory w dst).pmm.bitmap i) = some 5 := by
      rw [(hkeep 0 (by decide)).2]
      refine find_range_first _ 1024 5 (by decide) ?_ ?_
      · have h5 : (0x5000 : Nat) / PAGE_SIZE = 5 := by decide
        rw [h5] at hfreed
        simp only [hfreed]
        rfl
      · intro j hj
        simp only [(hkeep j hj).1]
        rfl
    unfold pmm_alloc
    rw [hfind]
    show some (5 * PAGE_SIZE % 2 ^ 32) = some 0x5000
    decide

set_option maxRecDepth 100000 in
/-- C36 fails: `vmm_clone` copies the leaf entries, so the clone's tables
reference the very frames the source maps, and `vmm_destroy_directory` calls
`pmm_free` on the frame of every present leaf.  In `cloneDemo` the directory
at `0x1000` maps frame `0x5000` (table `0x2000`, entry 5).  After
`dst = vmm_clone(0x1000)` and `vmm_destroy_directory(dst)` the source still
maps frame `0x5000` present, but its bit in the allocator's bitmap is clear
and the next `pmm_alloc` hands that frame out.  The frames of the source's
own directory and table stay marked used. -/
theorem C36_destroying_clone_frees_shared_frame :
    leaf cloneDemo.tables 0x1000 0 5 = some 0x5007 ∧
    test_bit cloneDemo.pmm.bitmap (0x5000 / PAGE_SIZE) = true ∧
    (∃ e, leaf (vmm_destroy_directory (vmm_clone cloneDemo 0x1000).1
        (vmm_clone cloneDemo 0x1000).2).tables 0x1000 0 5 = some e ∧
      e &&& PAGE_PRESENT ≠ 0 ∧ e &&& ADDR_MASK = 0x5000) ∧
    test_bit (vmm_destroy_directory (vmm_clone cloneDemo 0x1000).1
      (vmm_clone cloneDemo 0x1000).2).pmm.bitmap (0x5000 / PAGE_SIZE) = false ∧
    (pmm_alloc (vmm_destroy_directory (vmm_clone cloneDemo 0x1000).1
      (vmm_clone cloneDemo 0x1000).2).pmm).2 = some 0x5000 ∧
    test_bit (vmm_destroy_directory (vmm_clone cloneDemo 0x1000).1
      (vmm_clone cloneDemo 0x1000).2).pmm.bitmap (0x1000 / PAGE_SIZE) = true ∧
    test_bit (vmm_destroy_directory (vmm_clone cloneDemo 0x1000).1
      (vmm_clone cloneDemo 0x1000).2).pmm.bitmap (0x2000 / PAGE_SIZE) = true :=
  ⟨by decide, by decide,
   destroy_clone_demo _ _
     (cloneInv_vmm_clone cloneDemo 0x1000 (by decide) (by decide) (by decide) (by decide))⟩


/-! ### Well-formedness of the heap along a run -/

theorem endAddr_eq_blockBytes (a : Nat) (bs : List (Nat × Bool)) :
    endAddr a bs = a + blockBytes bs := by
  induction bs generalizing a with
  | nil => simp [endAddr, blockBytes]
  | cons b r ih =>
    rw [endAddr, ih]
    simp only [blockBytes, List.map_cons, List.sum_cons]
    omega

/-- C35: after `heap_init` and any sequence of `kmalloc` and `kfree` calls
that respects lifetimes (each `kfree` on an outstanding pointer, each
`kmalloc` with room left below the top of the 32-bit address space), every
call has returned and the heap is a well-formed block list `bs`:
`heap_head` is the first block, the headers from `heap_head` on are those of
`bs` laid out one directly after the other, each with `HEAP_MAGIC`, its size
and free flag, `next` pointing to the block that starts where its payload
ends (`NULL` for the last) and `prev` to the block before (`NULL` for the
first); the sizes with their headers add up to `heap_brk - HEAP_START`; no
two neighbours are both free; and the blocks in use are exactly the
outstanding pointers. -/
theorem C35_heap_well_formed (hdr0 : Nat → block_header_t) (mem0 : Nat → Nat)
    (ops : List HeapOp)
    (hl : heapLifetimes { heap := heap_init hdr0 mem0, outstanding := [] } ops = true) :
    ∃ s bs, heapRun hdr0 mem0 ops = some s ∧
      s.heap.heap_head = HEAP_START ∧
      Seg s.heap.hdr s.heap.heap_brk 0 HEAP_START bs ∧
      bs ≠ [] ∧
      blockBytes bs = s.heap.heap_brk - HEAP_START ∧
      HEAP_START < s.heap.heap_brk ∧ s.heap.heap_brk < 2 ^ 32 ∧
      NoAdjFree bs ∧
      HeapWF s.heap bs ∧
      ∀ q, q ∈ s.outstanding ↔ q ∈ allocPtrs HEAP_START bs := by
  have hinit : HeapInv { heap := heap_init hdr0 mem0, outstanding := [] } :=
    ⟨_, heap_init_wf hdr0 mem0, List.nodup_nil, fun q => by simp [allocPtrs]⟩
  obtain ⟨s, hs, bs, hwf, _, hiff⟩ := heapInv_run ops _ hinit hl
  have hfin := hwf.fin
  rw [endAddr_eq_blockBytes] at hfin
  have hlt := heap_start_lt_brk s.heap bs hwf
  have hH : HDR_SIZE = 20 := rfl
  exact ⟨s, bs, hs, hwf.head, hwf.seg, hwf.ne, by omega, by omega, hwf.brk_lt, hwf.naf, hwf, hiff⟩

/-- C35 on a run: allocations of 24 and 5000 bytes (the second grows the
arena), the first block freed, and an allocation of 8 bytes that splits
it. -/
theorem C35_heap_well_formed_witness :
    heapLifetimes { heap := heap_init (fun _ => ⟨0, 0, 0, 0, 0⟩) (fun _ => 0), outstanding := [] }
        [HeapOp.alloc 24, HeapOp.alloc 5000, HeapOp.free 16777236, HeapOp.alloc 8] = true ∧
    ∃ s bs, heapRun (fun _ => ⟨0, 0, 0, 0, 0⟩) (fun _ => 0)
        [HeapOp.alloc 24, HeapOp.alloc 5000, HeapOp.free 16777236, HeapOp.alloc 8] = some s ∧
      s.heap.heap_head = HEAP_START ∧
      Seg s.heap.hdr s.heap.heap_brk 0 HEAP_START bs ∧
      bs ≠ [] ∧
      blockBytes bs = s.heap.heap_brk - HEAP_START ∧
      HEAP_START < s.heap.heap_brk ∧ s.heap.heap_brk < 2 ^ 32 ∧
      NoAdjFree bs ∧
      HeapWF s.heap bs ∧
      ∀ q, q ∈ s.outstanding ↔ q ∈ allocPtrs HEAP_START bs :=
  ⟨by decide, C35_heap_well_formed (fun _ => ⟨0, 0, 0, 0, 0⟩) (fun _ => 0) _ (by decide)⟩

/-! ### The block list after `kmalloc` -/

/-- The block list after `alloc_block` on the free block that follows `pre`:
the blocks before and after it are the same, the block itself is replaced by
`splitBlock`. -/
theorem alloc_block_shape (h : Heap) (pre post : List (Nat × Bool)) (s size : Nat)
    (hwf : HeapWF h (pre ++ (s, true) :: post)) (hsz : size ≤ s) :
    HeapWF (alloc_block h (endAddr HEAP_START pre) size).1 (pre ++ (splitBlock s size ++ post)) ∧
      (alloc_block h (endAddr HEAP_START pre) size).2 = endAddr HEAP_START pre + HDR_SIZE ∧
      (alloc_block h (endAddr HEAP_START pre) size).1.heap_brk = h.heap_brk ∧
      (alloc_block h (endAddr HEAP_START pre) size).1.mem = h.mem := by
  obtain ⟨hhead, hseg, hfin, _, hbrk, hnaf⟩ := hwf
  have hsp := heap_start_pos
  have hH : HDR_SIZE = 20 := rfl
  have hS : HEAP_START = 16777216 := rfl
  have hcge := le_endAddr HEAP_START pre
  rw [endAddr_append] at hfin
  rw [Seg_append] at hseg
  obtain ⟨hsegpre, hsegc⟩ := hseg
  obtain ⟨hnpre, hnpost, hnx⟩ := naf_parts _ _ _ hnaf
  obtain ⟨hlastpre, hheadpost⟩ := hnx rfl
  have hpreS : ∀ m2 : Nat → block_header_t, (∀ x, x < endAddr HEAP_START pre → m2 x = h.hdr x) →
      Seg m2 h.heap_brk 0 HEAP_START pre :=
    fun m2 hm => Seg_congr _ _ _ _ _ _ (fun x _ hx => hm x hx) hsegpre
  have hle := le_endAddr (endAddr HEAP_START pre + HDR_SIZE + s) post
  simp only [endAddr] at hfin
  have hmc := hsegc.1
  simp only at hmc
  have hptr : (endAddr HEAP_START pre + HDR_SIZE) % 4294967296 =
      endAddr HEAP_START pre + HDR_SIZE := by
    simp only [HDR_SIZE] at hle hfin ⊢; omega
  by_cases hsplit : size + HDR_SIZE + 8 ≤ s
  · -- the block is split
    have hs1 : (size + HDR_SIZE + 8) % 4294967296 = size + HDR_SIZE + 8 := by
      simp only [HDR_SIZE] at hle hfin hsplit ⊢; omega
    have hs2 : (endAddr HEAP_START pre + HDR_SIZE + size) % 4294967296 =
        endAddr HEAP_START pre + HDR_SIZE + size := by
      simp only [HDR_SIZE] at hle hfin hsplit ⊢; omega
    have hs3 : (s + 8589934592 - size - HDR_SIZE) % 4294967296 = s - size - HDR_SIZE := by
      simp only [HDR_SIZE] at hle hfin hsplit ⊢; omega
    have hadd : endAddr HEAP_START pre + HDR_SIZE + size + HDR_SIZE + (s - size - HDR_SIZE) =
        endAddr HEAP_START pre + HDR_SIZE + s := by
      simp only [HDR_SIZE] at hsplit ⊢; omega
    generalize hcE : endAddr HEAP_START pre = c at *
    generalize hpcE : lastAddr 0 HEAP_START pre = pc at *
    have hspc : c + HDR_SIZE + size ≠ c := by simp only [HDR_SIZE]; omega
    have hnc : c + HDR_SIZE + s ≠ c := by simp only [HDR_SIZE]; omega
    have hnsp : c + HDR_SIZE + s ≠ c + HDR_SIZE + size := by simp only [HDR_SIZE] at hsplit ⊢; omega
    have hspe : c + HDR_SIZE + size ≠ h.heap_brk := by simp only [HDR_SIZE] at hle hfin hsplit ⊢; omega
    have hres : ∃ m5, (alloc_block h c size).1.hdr = m5 ∧
        m5 c = ⟨HEAP_MAGIC, size, 0, c + HDR_SIZE + size, pc⟩ ∧
        m5 (c + HDR_SIZE + size) =
          ⟨HEAP_MAGIC, s - size - HDR_SIZE, 1, nxt h.heap_brk (c + HDR_SIZE + s), c⟩ ∧
        (c + HDR_SIZE + s ≠ h.heap_brk → m5 (c + HDR_SIZE + s) =
          { h.hdr (c + HDR_SIZE + s) with prev := c + HDR_SIZE + size }) ∧
        (∀ x, x ≠ c → x ≠ c + HDR_SIZE + size → x ≠ c + HDR_SIZE + s → m5 x = h.hdr x) := by
      have hn0 : c + HDR_SIZE + s ≠ 0 := by omega
      by_cases hl : c + HDR_SIZE + s = h.heap_brk
      · refine ⟨_, rfl, ?_, ?_, ?_, ?_⟩
        · simp [alloc_block, setHdr, hs1, hsplit, hs2, hs3, hmc, hspc, hspc.symm, nxt, hl]
        · simp [alloc_block, setHdr, hs1, hsplit, hs2, hs3, hmc, hspc, hspc.symm, nxt, hl]
        · intro hl2; exact absurd hl hl2
        · intro x hx1 hx2 hx3
          simp [alloc_block, setHdr, hs1, hsplit, hs2, hs3, hmc, hspc, hspc.symm, nxt, hl,
            hx1, hx2]
      · refine ⟨_, rfl, ?_, ?_, ?_, ?_⟩
        · simp [alloc_block, setHdr, hs1, hsplit, hs2, hs3, hmc, hspc, hspc.symm, nxt, hl, hn0,
            hnc, hnc.symm, hnsp, hnsp.symm]
        · simp [alloc_block, setHdr, hs1, hsplit, hs2, hs3, hmc, hspc, hspc.symm, nxt, hl, hn0,
            hnc, hnc.symm, hnsp, hnsp.symm]
        · intro _
          simp [alloc_block, setHdr, hs1, hsplit, hs2, hs3, hmc, hspc, hspc.symm, nxt, hl, hn0,
            hnc, hnc.symm, hnsp, hnsp.symm]
        · intro x hx1 hx2 hx3
          simp [alloc_block, setHdr, hs1, hsplit, hs2, hs3, hmc, hspc, hspc.symm, nxt, hl, hn0,
            hnc, hnc.symm, hnsp, hnsp.symm, hx1, hx2, hx3]
    obtain ⟨m5, hm5, h5c, h5s, h5n, h5o⟩ := hres
    have hbrk2 : (alloc_block h c size).1.heap_brk = h.heap_brk := rfl
    have hhead2 : (alloc_block h c size).1.heap_head = h.heap_head := rfl
    have hsb : pre ++ (splitBlock s size ++ post) =
        pre ++ (size, false) :: (s - size - HDR_SIZE, true) :: post := by
      simp only [splitBlock, if_pos hsplit, List.cons_append, List.nil_append]
    rw [hsb]
    refine ⟨⟨hhead2.trans hhead, ?_, ?_, by simp, by rw [hbrk2]; exact hbrk, ?_⟩, ?_, hbrk2, rfl⟩
    · rw [hm5, hbrk2, Seg_append, hcE, hpcE]
      refine ⟨hpreS m5 (fun x hx => h5o x (by omega) (by omega) (by omega)), ?_, ?_, ?_⟩
      · rw [h5c]; simp [flag, nxt, hspe]
      · rw [h5s]; simp [flag, hadd]
      · show Seg m5 h.heap_brk (c + HDR_SIZE + size)
          (c + HDR_SIZE + size + HDR_SIZE + (s - size - HDR_SIZE)) post
        rw [hadd]
        apply Seg_set_prev _ _ _ _ _ _ _ _ _ hsegc.2
        · intro x hx _
          exact h5o x (by omega) (by omega) (by omega)
        · intro hpne
          apply h5n
          have := lt_endAddr (c + HDR_SIZE + s) post hpne
          simp only [HDR_SIZE] at this hfin ⊢; omega
    · rw [hbrk2, endAddr_append, hcE]
      simp only [endAddr]
      rw [hadd]; exact hfin
    · exact naf_build pre _ (_, false) hnpre
        (naf_build [] _ (_, true) List.chain'_nil hnpost (fun _ => ⟨by simp, hheadpost⟩))
        (fun hh => by cases hh)
    · simp [alloc_block, hptr]
  · -- the block is handed out whole
    have hs1 : ¬ ((size + HDR_SIZE + 8) % 4294967296 ≤ s) := by
      omega
    generalize hcE : endAddr HEAP_START pre = c at *
    generalize hpcE : lastAddr 0 HEAP_START pre = pc at *
    have hres : (alloc_block h c size).1.hdr = setHdr h.hdr c { h.hdr c with free := 0 } := by
      simp [alloc_block, hmc, hs1]
    have hbrk2 : (alloc_block h c size).1.heap_brk = h.heap_brk := rfl
    have hhead2 : (alloc_block h c size).1.heap_head = h.heap_head := rfl
    have hsb : pre ++ (splitBlock s size ++ post) = pre ++ (s, false) :: post := by
      simp only [splitBlock, if_neg hsplit, List.cons_append, List.nil_append]
    rw [hsb]
    refine ⟨⟨hhead2.trans hhead, ?_, ?_, by simp, by rw [hbrk2]; exact hbrk, ?_⟩, ?_, hbrk2, rfl⟩
    · rw [hres, hbrk2, Seg_append, hcE, hpcE]
      refine ⟨hpreS _ (fun x hx => setHdr_ne _ _ _ _ (by omega)), ?_, ?_⟩
      · rw [setHdr_same, hmc]; simp [flag]
      · apply Seg_congr _ _ _ _ _ _ _ hsegc.2
        intro x hx _
        exact setHdr_ne _ _ _ _ (by simp only [HDR_SIZE] at hx; omega)
    · rw [hbrk2, endAddr_append, hcE]
      simp only [endAddr]
      exact hfin
    · exact naf_build pre _ (_, false) hnpre hnpost (fun hh => by cases hh)
    · simp [alloc_block, hptr]

/-- The block list after `kmalloc_grow`: the blocks of `bs` are kept, the new
block is appended or merged into a free last block (`grownBlocks`). -/
theorem kmalloc_grow_shape (h : Heap) (bs : List (Nat × Bool)) (hwf : HeapWF h bs)
    (size fuel : Nat) (hfuel : bs.length ≤ fuel) (hb : h.heap_brk + size + 8211 < 2 ^ 32) :
    ∃ h2 needed, kmalloc_grow fuel h size = some h2 ∧
      size + 4116 ≤ needed ∧ needed ≤ size + 8211 ∧
      HeapWF h2 (grownBlocks bs needed) ∧
      h2.heap_brk = h.heap_brk + needed ∧ h2.mem = h.mem := by
  have hH : HDR_SIZE = 20 := rfl
  have hS : HEAP_START = 16777216 := rfl
  obtain ⟨hhead, hseg, hfin, hne, hbrk, hnaf⟩ := hwf
  obtain ⟨needed, hn1, hn2, hgrow⟩ := kmalloc_grow_eq h size fuel hb
  obtain ⟨pre2, b0, hcat⟩ : ∃ pre2 b0, bs = pre2 ++ [b0] := by
    rcases List.eq_nil_or_concat bs with hnil | ⟨pre2, b0, hcat⟩
    · exact absurd hnil hne
    · exact ⟨pre2, b0, by rw [hcat, List.concat_eq_append]⟩
  obtain ⟨sL, fL⟩ := b0
  have hLdef : lastAddr 0 HEAP_START bs = endAddr HEAP_START pre2 := by
    rw [hcat, lastAddr_append]; rfl
  have hedef : endAddr HEAP_START pre2 + HDR_SIZE + sL = h.heap_brk := by
    rw [← hfin, hcat, endAddr_append]; rfl
  have hLge := le_endAddr HEAP_START pre2
  generalize hLE : endAddr HEAP_START pre2 = L at *
  generalize hmE : setHdr h.hdr h.heap_brk ⟨HEAP_MAGIC, needed - HDR_SIZE, 1, 0, 0⟩ = m1 at hgrow
  have hm1e : m1 h.heap_brk = ⟨HEAP_MAGIC, needed - HDR_SIZE, 1, 0, 0⟩ := by
    rw [← hmE, setHdr_same]
  have hm1o : ∀ x, x ≠ h.heap_brk → m1 x = h.hdr x := fun x hx => by
    rw [← hmE, setHdr_ne _ _ _ _ hx]
  have hseg1 : Seg m1 h.heap_brk 0 HEAP_START bs := by
    apply Seg_congr _ _ _ _ _ _ _ hseg
    intro x _ hx
    exact hm1o x (by rw [hfin] at hx; omega)
  have hfl : find_last m1 fuel h.heap_head = some L := by
    rw [hhead, find_last_seg m1 h.heap_brk bs 0 HEAP_START fuel hseg1 hfin hne (by omega) hfuel,
      hLdef]
  rw [hfl] at hgrow
  simp only at hgrow
  have hLe : L ≠ h.heap_brk := by omega
  generalize hm3E : setHdr (setHdr m1 L { m1 L with next := h.heap_brk }) h.heap_brk
      { setHdr m1 L { m1 L with next := h.heap_brk } h.heap_brk with prev := L } = m3 at hgrow
  have hm3e : m3 h.heap_brk = ⟨HEAP_MAGIC, needed - HDR_SIZE, 1, 0, L⟩ := by
    rw [← hm3E, setHdr_same, setHdr_ne _ _ _ _ hLe.symm, hm1e]
  have hm3L : m3 L = { h.hdr L with next := h.heap_brk } := by
    rw [← hm3E, setHdr_ne _ _ _ _ hLe, setHdr_same, hm1o L hLe]
  have hm3o : ∀ x, x ≠ h.heap_brk → x ≠ L → m3 x = h.hdr x := fun x hx1 hx2 => by
    rw [← hm3E, setHdr_ne _ _ _ _ hx1, setHdr_ne _ _ _ _ hx2, hm1o x hx1]
  have hseg3 : Seg m3 (h.heap_brk + needed) 0 HEAP_START bs := by
    apply Seg_relink_last h.hdr m3 h.heap_brk (h.heap_brk + needed) bs 0 HEAP_START hseg hfin hne
      (by omega)
    · intro x _ hx1 hx2
      rw [hLdef] at hx2
      exact hm3o x (by omega) hx2
    · rw [hLdef]; exact hm3L
  have hcn : coalesce m3 h.heap_brk = coalesce_prev m3 h.heap_brk := by
    unfold coalesce
    rw [coalesce_next_last m3 h.heap_brk (by rw [hm3e])]
  rw [hcn] at hgrow
  rw [hcat, Seg_append, hLE] at hseg3
  obtain ⟨hpre3, hb3⟩ := hseg3
  have hpcL : lastAddr 0 HEAP_START pre2 = lastAddr 0 HEAP_START pre2 := rfl
  have hcomp : Seg m3 (h.heap_brk + needed) (lastAddr 0 HEAP_START pre2) L
      ((sL, fL) :: [(needed - HDR_SIZE, true)]) := by
    refine ⟨hb3.1, ?_, trivial⟩
    show m3 (L + HDR_SIZE + sL) = _
    rw [hedef, hm3e]
    have : h.heap_brk + HDR_SIZE + (needed - HDR_SIZE) = h.heap_brk + needed := by omega
    simp [flag, nxt, this]
  have hend3 : endAddr L ((sL, fL) :: [(needed - HDR_SIZE, true)]) = h.heap_brk + needed := by
    simp only [endAddr]
    omega
  obtain ⟨hs4, he4, hun4⟩ := coalesce_prev_seg _ _ _ _ _ _ _ _ hcomp hend3 (by omega) (by omega)
  rw [hedef] at hs4 hun4
  have hpre4 := Seg_congr _ _ _ _ _ _ (fun x _ hx => hun4 x (by rw [hLE] at hx; exact hx)) hpre3
  have hnaf2 : NoAdjFree (pre2 ++ [(sL, fL)]) := by rw [← hcat]; exact hnaf
  have hgb : grownBlocks bs needed =
      pre2 ++ (if fL = true then [(sL + HDR_SIZE + (needed - HDR_SIZE), true)]
        else (sL, fL) :: [(needed - HDR_SIZE, true)]) := by
    rw [hcat]
    cases fL with
    | false => simp [grownBlocks]
    | true =>
      have e : sL + HDR_SIZE + (needed - HDR_SIZE) = sL + needed := by omega
      simp [grownBlocks, e]
  refine ⟨_, needed, hgrow, hn1, hn2, ?_, rfl, rfl⟩
  rw [hgb]
  refine ⟨hhead, ?_, ?_, ?_, ?_, ?_⟩
  · show Seg (coalesce_prev m3 h.heap_brk) (h.heap_brk + needed) 0 HEAP_START _
    rw [Seg_append, hLE]
    exact ⟨hpre4, hs4⟩
  · show endAddr HEAP_START _ = h.heap_brk + needed
    rw [endAddr_append, hLE]; exact he4
  · cases fL <;> simp
  · show h.heap_brk + needed < 2 ^ 32
    omega
  · cases fL with
    | false =>
      simp only [Bool.false_eq_true, if_false]
      exact naf_build pre2 _ (sL, false) (naf_init _ _ hnaf2)
        (List.chain'_singleton _) (fun hh => by cases hh)
    | true =>
      simp only [if_true]
      exact naf_build pre2 [] (_, true) (naf_init _ _ hnaf2) List.chain'_nil
        (fun _ => ⟨((naf_parts pre2 [] (sL, true) hnaf2).2.2 rfl).1, by simp⟩)

theorem fitAddr_first (size : Nat) (pre post : List (Nat × Bool)) (s : Nat) :
    ∀ a, (∀ b ∈ pre, ¬ (b.2 = true ∧ size ≤ b.1)) → size ≤ s →
      fitAddr size a (pre ++ (s, true) :: post) = endAddr a pre := by
  induction pre with
  | nil =>
    intro a _ hs
    simp [fitAddr, endAddr, hs]
  | cons b r ih =>
    intro a hno hs
    have hb : ¬ (b.2 = true ∧ size ≤ b.1) := hno b (List.mem_cons_self _ _)
    simp only [List.cons_append, fitAddr, hb, if_false, endAddr]
    exact ih _ (fun x hx => hno x (List.mem_cons_of_mem _ hx)) hs

theorem seg_first_header (m : Nat → block_header_t) (e prev a : Nat)
    (pre rest : List (Nat × Bool)) (b : Nat × Bool) (h : Seg m e prev a (pre ++ b :: rest)) :
    (m (endAddr a pre)).magic = HEAP_MAGIC ∧ (m (endAddr a pre)).size = b.1 ∧
      (m (endAddr a pre)).free = flag b.2 := by
  rw [Seg_append] at h
  have h1 := h.2.1
  rw [h1]
  exact ⟨rfl, rfl, rfl⟩

theorem splitBlock_head (s size : Nat) (hsz : size ≤ s) :
    ∃ x rest, splitBlock s size = (x, false) :: rest ∧ size ≤ x ∧ x ≤ s := by
  unfold splitBlock
  split
  · exact ⟨size, _, rfl, le_refl _, hsz⟩
  · exact ⟨s, _, rfl, hsz, le_refl _⟩

/-- The first loop of `kmalloc` on a well-formed heap in which the block
after `pre` is the first that is free and large enough for the rounded
request: `kmalloc` returns the payload of that block, the block list becomes
`pre ++ splitBlock s size ++ post`, the block returned is in use and its
recorded size is at least the request; the break and the payload bytes are
unchanged. -/
theorem kmalloc_first_fit (h : Heap) (pre post : List (Nat × Bool)) (s size0 f : Nat)
    (hwf : HeapWF h (pre ++ (s, true) :: post)) (hs0 : size0 ≠ 0)
    (hfuel : (pre ++ (s, true) :: post).length < f + 1)
    (hfit : align8 size0 ≤ s)
    (hfirst : ∀ b ∈ pre, ¬ (b.2 = true ∧ align8 size0 ≤ b.1)) :
    ∃ h2, kmalloc_fuel (f + 1) h size0 = some (h2, endAddr HEAP_START pre + HDR_SIZE) ∧
      HeapWF h2 (pre ++ (splitBlock s (align8 size0) ++ post)) ∧
      (h2.hdr (endAddr HEAP_START pre)).free = 0 ∧
      align8 size0 ≤ (h2.hdr (endAddr HEAP_START pre)).size ∧
      h2.heap_brk = h.heap_brk ∧ h2.mem = h.mem := by
  have hH : HDR_SIZE = 20 := rfl
  have hS : HEAP_START = 16777216 := rfl
  have hlt := heap_start_lt_brk h _ hwf
  have hnx : nxt h.heap_brk HEAP_START = HEAP_START := by
    unfold nxt; rw [if_neg]; omega
  have hfa := fitAddr_first (align8 size0) pre post s HEAP_START hfirst hfit
  have hff : find_fit h.hdr (align8 size0) (f + 1) h.heap_head =
      some (endAddr HEAP_START pre) := by
    have := find_fit_seg h.hdr h.heap_brk (align8 size0) _ 0 HEAP_START (f + 1) hwf.seg hwf.fin
      (by omega) hfuel
    rw [hnx, hfa] at this
    rw [hwf.head]; exact this
  have hcge := le_endAddr HEAP_START pre
  have hc0 : endAddr HEAP_START pre ≠ 0 := by omega
  have hk : kmalloc_fuel (f + 1) h size0 =
      some (alloc_block h (endAddr HEAP_START pre) (align8 size0)) := by
    simp only [kmalloc_fuel, hs0, if_false, hff]
    simp [hc0]
  obtain ⟨hwf2, hp, hbrk2, hmem2⟩ := alloc_block_shape h pre post s (align8 size0) hwf hfit
  obtain ⟨x, rest, hsb, hx1, _⟩ := splitBlock_head s (align8 size0) hfit
  have hhd := seg_first_header _ _ _ _ pre (rest ++ post) (x, false)
    (by
      have := hwf2.seg
      rw [hsb] at this
      exact this)
  refine ⟨(alloc_block h (endAddr HEAP_START pre) (align8 size0)).1, ?_, hwf2, ?_, ?_, hbrk2,
    hmem2⟩
  · rw [hk, ← hp]
  · rw [hhd.2.2]; rfl
  · rw [hhd.2.1]; exact hx1

theorem grownBlocks_fit (bs : List (Nat × Bool)) (size needed : Nat)
    (hn : size + 4116 ≤ needed) :
    ∃ b ∈ grownBlocks bs needed, b.2 = true ∧ size ≤ b.1 := by
  have hH : HDR_SIZE = 20 := rfl
  unfold grownBlocks
  split
  · rename_i sL _
    exact ⟨(sL + needed, true), by simp, rfl, by simp only; omega⟩
  · exact ⟨(needed - HDR_SIZE, true), by simp, rfl, by simp only; omega⟩

theorem grownBlocks_length (bs : List (Nat × Bool)) (needed : Nat) :
    (grownBlocks bs needed).length ≤ bs.length + 1 := by
  unfold grownBlocks
  split
  · simp
  · simp

/-- The function `kmalloc` on a well-formed heap with room to grow, for a
request whose rounding does not wrap.  `bs1` is the block list the final
scan runs on: `bs` itself when one of its blocks fits, and otherwise `bs`
with the new block appended or merged into a free last block.  The block
after `pre` is the first of `bs1` that is free and large enough; `kmalloc`
returns its payload and the block list becomes
`pre ++ splitBlock s size ++ post`. -/
theorem kmalloc_spec (h : Heap) (bs : List (Nat × Bool)) (hwf : HeapWF h bs) (size0 : Nat)
    (hs0 : size0 ≠ 0) (hb : h.heap_brk + size0 + 2 * PAGE_SIZE + HDR_SIZE + 8 ≤ 2 ^ 32) :
    ∃ bs1 pre s post h2,
      ((∃ b ∈ bs, b.2 = true ∧ align8 size0 ≤ b.1) → bs1 = bs) ∧
      ((∀ b ∈ bs, ¬ (b.2 = true ∧ align8 size0 ≤ b.1)) →
        ∃ needed, align8 size0 + 4116 ≤ needed ∧ needed ≤ align8 size0 + 8211 ∧
          bs1 = grownBlocks bs needed) ∧
      bs1 = pre ++ (s, true) :: post ∧ align8 size0 ≤ s ∧
      (∀ b ∈ pre, ¬ (b.2 = true ∧ align8 size0 ≤ b.1)) ∧
      kmalloc h size0 = some (h2, endAddr HEAP_START pre + HDR_SIZE) ∧
      HeapWF h2 (pre ++ (splitBlock s (align8 size0) ++ post)) ∧
      (h2.hdr (endAddr HEAP_START pre)).free = 0 ∧
      size0 ≤ (h2.hdr (endAddr HEAP_START pre)).size ∧
      size0 ≤ align8 size0 ∧ align8 size0 ≤ size0 + 7 ∧ align8 size0 % 8 = 0 ∧
      h2.mem = h.mem := by
  have hH : HDR_SIZE = 20 := rfl
  have hP : PAGE_SIZE = 4096 := rfl
  have hS : HEAP_START = 16777216 := rfl
  have hlt := heap_start_lt_brk h bs hwf
  have hlen := length_le_endAddr HEAP_START bs
  rw [hwf.fin, hH] at hlen
  have hbrk := hwf.brk_lt
  have ha := align8_bounds size0 (by omega)
  have hF : HEAP_FUEL = (2 ^ 32 - 2) + 1 + 1 := by decide
  by_cases hfit : fitAddr (align8 size0) HEAP_START bs = 0
  · -- no block fits: the arena grows and the call is repeated
    have hnone := fitAddr_zero _ _ _ heap_start_pos hfit
    have hnx : nxt h.heap_brk HEAP_START = HEAP_START := by
      unfold nxt; rw [if_neg]; omega
    have hff : find_fit h.hdr (align8 size0) ((2 ^ 32 - 2) + 1 + 1) h.heap_head = some 0 := by
      have := find_fit_seg h.hdr h.heap_brk (align8 size0) bs 0 HEAP_START ((2 ^ 32 - 2) + 1 + 1)
        hwf.seg hwf.fin (by omega) (by omega)
      rw [hnx, hfit] at this
      rw [hwf.head]; exact this
    obtain ⟨hg, needed, hgrow, hn1, hn2, hwfg, hbrkg, hmemg⟩ :=
      kmalloc_grow_shape h bs hwf (align8 size0) ((2 ^ 32 - 2) + 1 + 1) (by omega) (by omega)
    have hk : kmalloc h size0 = kmalloc_fuel ((2 ^ 32 - 2) + 1) hg (align8 size0) := by
      rw [kmalloc, hF, kmalloc_fuel]
      simp only [hs0, if_false, hff, hgrow, ne_eq, not_true_eq_false]
    have hs1 : align8 size0 ≠ 0 := by omega
    have hid := align8_idem size0 (by omega)
    have hfit2 := fitAddr_ne_zero (align8 size0) HEAP_START _ heap_start_pos
      (grownBlocks_fit bs (align8 size0) needed hn1)
    obtain ⟨pre, s, post, hbs1, hsz, _, hfirst⟩ := fitAddr_pos _ _ _ hfit2
    have hlen2 := grownBlocks_length bs needed
    rw [hbs1] at hwfg hlen2
    obtain ⟨h2, hk2, hwf2, hfree, hsize, _, hmem2⟩ :=
      kmalloc_first_fit hg pre post s (align8 size0) (2 ^ 32 - 2) hwfg hs1 (by omega)
        (by rw [hid]; exact hsz) (by rw [hid]; exact hfirst)
    rw [hid] at hwf2 hsize
    refine ⟨_, pre, s, post, h2, fun hex => ?_, fun _ => ⟨needed, hn1, hn2, rfl⟩, hbs1, hsz,
      hfirst, by rw [hk, hk2], hwf2, hfree, by omega, ha.1, ha.2.1, ha.2.2,
      by rw [hmem2, hmemg]⟩
    obtain ⟨b, hb1, hb2⟩ := hex
    exact absurd hb2 (hnone b hb1)
  · obtain ⟨pre, s, post, hbs1, hsz, _, hfirst⟩ := fitAddr_pos _ _ _ hfit
    have hwf1 := hwf
    rw [hbs1] at hwf1 hlen
    obtain ⟨h2, hk2, hwf2, hfree, hsize, _, hmem2⟩ :=
      kmalloc_first_fit h pre post s size0 (2 ^ 32 - 1) hwf1 hs0 (by omega) hsz hfirst
    refine ⟨bs, pre, s, post, h2, fun _ => rfl, fun hno => ?_, hbs1, hsz, hfirst,
      by rw [kmalloc, heap_fuel_succ, hk2], hwf2, hfree, by omega, ha.1, ha.2.1, ha.2.2, hmem2⟩
    exact absurd ⟨rfl, hsz⟩ (hno (s, true) (by rw [hbs1]; simp))

/-! ### `krealloc` -/

/-- The first branch of `krealloc`: a null pointer makes it `kmalloc`. -/
theorem krealloc_null (h : Heap) (new_size : Nat) : krealloc h 0 new_size = kmalloc h new_size := by
  unfold krealloc
  rw [if_pos rfl]

/-- The second branch of `krealloc`: when the size recorded in the header
before `ptr` is at least `new_size`, the pointer is returned and the heap is
unchanged. -/
theorem krealloc_keeps (h : Heap) (ptr new_size : Nat) (hp : ptr ≠ 0)
    (hs : new_size ≤ (h.hdr ((ptr + 2 ^ 32 - HDR_SIZE) % 2 ^ 32)).size) :
    krealloc h ptr new_size = some (h, ptr) := by
  unfold krealloc
  rw [if_neg hp]
  simp only
  rw [if_pos hs]

/-! ### `kmalloc` and requests near the top of the 32-bit range -/

/-- C31 fails for a request above `0xFFFFFFF8`: the rounding
`(size + 7) & ~7` is done in 32 bits and gives 0.  On a freshly initialised
heap `kmalloc(0xFFFFFFFF)` finds that the first block (free, 4076 bytes) is
large enough for 0 bytes, splits it and returns `HEAP_START + 20`, a block
in use whose recorded size is 0, followed by a free block of 4056 bytes that
starts at the returned pointer itself. -/
theorem C31_rounding_wraps_to_zero :
    align8 0xFFFFFFFF = 0 ∧ align8 0xFFFFFFF9 = 0 ∧
    allocOnFresh 0xFFFFFFFF =
      some (16777236,
        { magic := HEAP_MAGIC, size := 0, free := 0, next := 16777236, prev := 0 },
        { magic := HEAP_MAGIC, size := 4056, free := 1, next := 0, prev := 16777216 }) ∧
    ¬ (0xFFFFFFFF ≤ 0) := by
  decide

/-- C33 fails for a new size above `0xFFFFFFF8`, through the same rounding in
`kmalloc`.  With `p = kmalloc(100)` on a freshly initialised heap (block size
104), `krealloc(p, 0xFFFFFFFA)` does not return `p`, since 104 is less than
the new size; `kmalloc(0xFFFFFFFA)` rounds the request to 0 and returns a
block of recorded size 0 at `HEAP_START + 144`, to which `krealloc` then
copies 104 bytes. -/
theorem C33_realloc_returns_empty_block :
    reallocOnFresh 0xFFFFFFFA = some (16777236, 104, 16777360, 0) ∧
    ¬ (0xFFFFFFFA ≤ 0) ∧ 0 < 104 := by
  decide


/-! ### `krealloc`: allocate, copy, free -/

theorem allocBlocks_append (a : Nat) (xs ys : List (Nat × Bool)) :
    allocBlocks a (xs ++ ys) = allocBlocks a xs ++ allocBlocks (endAddr a xs) ys := by
  induction xs generalizing a with
  | nil => rfl
  | cons b r ih =>
    cases hb : b.2 <;> simp [allocBlocks, endAddr, hb, ih]

theorem allocPtrs_eq_map (a : Nat) (bs : List (Nat × Bool)) :
    allocPtrs a bs = (allocBlocks a bs).map Prod.fst := by
  induction bs generalizing a with
  | nil => rfl
  | cons b r ih =>
    cases hb : b.2 <;> simp [allocPtrs, allocBlocks, hb, ih]

theorem allocBlocks_bounds (a : Nat) (bs : List (Nat × Bool)) (q sq : Nat)
    (hq : (q, sq) ∈ allocBlocks a bs) : a + HDR_SIZE ≤ q ∧ q + sq ≤ endAddr a bs := by
  induction bs generalizing a with
  | nil => cases hq
  | cons b r ih =>
    have hle := le_endAddr (a + HDR_SIZE + b.1) r
    cases hb : b.2
    · simp only [allocBlocks, hb, Bool.false_eq_true, if_false, List.mem_cons,
        Prod.mk.injEq] at hq
      rcases hq with ⟨h1, h2⟩ | hq
      · subst h1 h2
        simp only [endAddr]
        omega
      · have := ih _ hq
        simp only [endAddr]
        omega
    · simp only [allocBlocks, hb, if_true] at hq
      have := ih _ hq
      simp only [endAddr]
      omega

theorem allocBlocks_header (m : Nat → block_header_t) (e : Nat) (bs : List (Nat × Bool)) :
    ∀ prev a q sq, Seg m e prev a bs → (q, sq) ∈ allocBlocks a bs →
      (m (q - HDR_SIZE)).size = sq ∧ (m (q - HDR_SIZE)).free = 0 ∧
        (m (q - HDR_SIZE)).magic = HEAP_MAGIC := by
  induction bs with
  | nil => intro prev a q sq _ hq; cases hq
  | cons b r ih =>
    intro prev a q sq hs hq
    cases hb : b.2
    · simp only [allocBlocks, hb, Bool.false_eq_true, if_false, List.mem_cons,
        Prod.mk.injEq] at hq
      rcases hq with ⟨h1, h2⟩ | hq
      · subst h1 h2
        have h0 := hs.1
        rw [Nat.add_sub_cancel, h0]
        simp [flag, hb]
      · exact ih _ _ _ _ hs.2 hq
    · simp only [allocBlocks, hb, if_true] at hq
      exact ih _ _ _ _ hs.2 hq

theorem allocBlocks_grown (a : Nat) (bs : List (Nat × Bool)) (needed : Nat) :
    allocBlocks a (grownBlocks bs needed) = allocBlocks a bs := by
  unfold grownBlocks
  split
  · rename_i sL hl
    have hne : bs ≠ [] := by
      intro h0
      rw [h0] at hl
      simp at hl
    have hcat : bs = bs.dropLast ++ [(sL, true)] := by
      have h1 := List.dropLast_append_getLast hne
      have h2 : bs.getLast hne = (sL, true) := by
        rw [List.getLast?_eq_getLast _ hne] at hl
        exact Option.some.inj hl
      rw [h2] at h1
      exact h1.symm
    conv_rhs => rw [hcat]
    rw [allocBlocks_append, allocBlocks_append]
    simp [allocBlocks]
  · rw [allocBlocks_append]
    simp [allocBlocks]

theorem kmemcpy_succ (mem : Nat → Nat) (dst src n : Nat) :
    kmemcpy mem dst src (n + 1) =
      fun a => if a = (dst + n) % 2 ^ 32 then kmemcpy mem dst src n ((src + n) % 2 ^ 32)
        else kmemcpy mem dst src n a := by
  unfold kmemcpy
  rw [List.range_succ, List.foldl_append]
  rfl

/-- Bytes outside the destination are not changed by the copy loop. -/
theorem kmemcpy_outside (mem : Nat → Nat) (dst src : Nat) :
    ∀ n a, dst + n ≤ 2 ^ 32 → (a < dst ∨ dst + n ≤ a) → kmemcpy mem dst src n a = mem a := by
  intro n
  induction n with
  | zero => intro a _ _; rfl
  | succ n ih =>
    intro a hn ha
    rw [kmemcpy_succ]
    have hne : a ≠ (dst + n) % 2 ^ 32 := by omega
    show (if a = (dst + n) % 2 ^ 32 then kmemcpy mem dst src n ((src + n) % 2 ^ 32)
      else kmemcpy mem dst src n a) = mem a
    rw [if_neg hne]
    exact ih a (by omega) (by omega)

/-- The copy loop between two ranges that do not overlap: byte `i` of the
destination is byte `i` of the source as it was before. -/
theorem kmemcpy_disjoint (mem : Nat → Nat) (dst src : Nat) :
    ∀ n i, i < n → dst + n ≤ 2 ^ 32 → src + n ≤ 2 ^ 32 → (dst + n ≤ src ∨ src + n ≤ dst) →
      kmemcpy mem dst src n (dst + i) = mem (src + i) := by
  intro n
  induction n with
  | zero => intro i hi; omega
  | succ n ih =>
    intro i hi hd hs hdis
    rw [kmemcpy_succ]
    by_cases hin : i = n
    · subst hin
      have e1 : (dst + i) % 2 ^ 32 = dst + i := Nat.mod_eq_of_lt (by omega)
      have e2 : (src + i) % 2 ^ 32 = src + i := Nat.mod_eq_of_lt (by omega)
      rw [e1, e2]
      show (if dst + i = dst + i then kmemcpy mem dst src i (src + i)
        else kmemcpy mem dst src i (dst + i)) = mem (src + i)
      rw [if_pos rfl]
      exact kmemcpy_outside mem dst src i (src + i) (by omega) (by omega)
    · have hne : dst + i ≠ (dst + n) % 2 ^ 32 := by omega
      show (if dst + i = (dst + n) % 2 ^ 32 then kmemcpy mem dst src n ((src + n) % 2 ^ 32)
        else kmemcpy mem dst src n (dst + i)) = mem (src + i)
      rw [if_neg hne]
      exact ih i (by omega) (by omega) (by omega) (by omega)

theorem setHdr_link_size (m : Nat → block_header_t) (a y : Nat) (v : block_header_t)
    (hv : v.size = (m a).size ∧ v.free = (m a).free) :
    (setHdr m a v y).size = (m y).size ∧ (setHdr m a v y).free = (m y).free := by
  unfold setHdr
  by_cases hy : y = a
  · subst hy
    rw [if_pos rfl]
    exact hv
  · rw [if_neg hy]
    exact ⟨rfl, rfl⟩

theorem merge_steps_inuse (m m2 m3 : Nat → block_header_t) (a y nn pv : Nat)
    (v2 v3 : block_header_t) (c : Prop) [Decidable c]
    (h2 : m2 = setHdr m a v2) (h3 : m3 = setHdr m2 a v3) (hy : y ≠ a) :
    ((if c then setHdr m3 nn { m3 nn with prev := pv } else m3) y).size = (m y).size ∧
    ((if c then setHdr m3 nn { m3 nn with prev := pv } else m3) y).free = (m y).free := by
  have e3 : m3 y = m y := by
    rw [h3, setHdr_ne _ _ _ _ hy, h2, setHdr_ne _ _ _ _ hy]
  split
  · have := setHdr_link_size m3 nn y { m3 nn with prev := pv } ⟨rfl, rfl⟩
    rw [this.1, this.2, e3]
    exact ⟨rfl, rfl⟩
  · rw [e3]
    exact ⟨rfl, rfl⟩

theorem coalesce_next_inuse (m : Nat → block_header_t) (b y : Nat) (hy : y ≠ b) :
    (coalesce_next m b y).size = (m y).size ∧ (coalesce_next m b y).free = (m y).free := by
  unfold coalesce_next
  split
  · exact merge_steps_inuse m _ _ b y _ _ _ _ _ rfl rfl hy
  · exact ⟨rfl, rfl⟩

theorem coalesce_prev_inuse (m : Nat → block_header_t) (b y : Nat)
    (hf : (m y).free = 0) :
    (coalesce_prev m b y).size = (m y).size ∧ (coalesce_prev m b y).free = (m y).free := by
  unfold coalesce_prev
  split
  · rename_i hc
    have hyp : y ≠ (m b).prev := by
      intro e
      rw [← e] at hc
      exact hc.2 hf
    by_cases hbp : b = (m b).prev
    · -- a block that is its own predecessor: the updates are all made to `b`
      have e2 : (setHdr m (m b).prev
          { m (m b).prev with size := ((m (m b).prev).size + HDR_SIZE + (m b).size) % 2 ^ 32 } b).prev
          = (m b).prev := by
        unfold setHdr
        rw [if_pos hbp]
        show (m (m b).prev).prev = (m b).prev
        rw [← hbp]
        exact hbp.symm
      simp only [e2]
      exact merge_steps_inuse m _ _ (m b).prev y _ _ _ _ _ rfl rfl hyp
    · have e2 : (setHdr m (m b).prev
          { m (m b).prev with size := ((m (m b).prev).size + HDR_SIZE + (m b).size) % 2 ^ 32 } b).prev
          = (m b).prev := by
        unfold setHdr
        rw [if_neg hbp]
      simp only [e2]
      exact merge_steps_inuse m _ _ (m b).prev y _ _ _ _ _ rfl rfl hyp
  · exact ⟨rfl, rfl⟩

/-- The function `kfree` changes neither the size nor the free flag recorded
in the header of a block in use other than the one freed. -/
theorem kfree_inuse (h : Heap) (p y : Nat) (hp : HDR_SIZE ≤ p) (hp2 : p < 2 ^ 32)
    (hy : y ≠ p - HDR_SIZE) (hf : (h.hdr y).free = 0) :
    ((kfree h p).hdr y).size = (h.hdr y).size ∧ ((kfree h p).hdr y).free = 0 := by
  have hH : HDR_SIZE = 20 := rfl
  have hhd : (p + 2 ^ 32 - HDR_SIZE) % 2 ^ 32 = p - HDR_SIZE := by omega
  have hp0 : p ≠ 0 := by omega
  unfold kfree
  rw [if_neg hp0]
  simp only [hhd]
  split
  · exact ⟨rfl, hf⟩
  · have h1 : setHdr h.hdr (p - HDR_SIZE) { h.hdr (p - HDR_SIZE) with free := 1 } y = h.hdr y :=
      setHdr_ne _ _ _ _ hy
    generalize setHdr h.hdr (p - HDR_SIZE) { h.hdr (p - HDR_SIZE) with free := 1 } = m1 at h1
    show (coalesce m1 (p - HDR_SIZE) y).size = _ ∧ (coalesce m1 (p - HDR_SIZE) y).free = 0
    unfold coalesce
    have hn := coalesce_next_inuse m1 (p - HDR_SIZE) y hy
    have hpv := coalesce_prev_inuse (coalesce_next m1 (p - HDR_SIZE)) (p - HDR_SIZE) y
      (by rw [hn.2, h1]; exact hf)
    rw [hpv.1, hpv.2, hn.1, hn.2, h1]
    exact ⟨rfl, hf⟩

theorem kfree_mem (h : Heap) (p : Nat) : (kfree h p).mem = h.mem := by
  unfold kfree
  split
  · rfl
  · simp only
    split <;> rfl

theorem allocBlocks_split (c s size : Nat) (post : List (Nat × Bool)) (hsz : size ≤ s) :
    ∃ x, size ≤ x ∧ x ≤ s ∧
      allocBlocks c (splitBlock s size ++ post) =
        (c + HDR_SIZE, x) :: allocBlocks (c + HDR_SIZE + s) post := by
  have hH : HDR_SIZE = 20 := rfl
  unfold splitBlock
  split
  · rename_i hsplit
    refine ⟨size, le_refl _, hsz, ?_⟩
    have e : c + HDR_SIZE + size + HDR_SIZE + (s - size - HDR_SIZE) = c + HDR_SIZE + s := by
      omega
    simp [allocBlocks, e]
  · exact ⟨s, hsz, le_refl _, by simp [allocBlocks]⟩

/-- The third branch of `krealloc` on a well-formed heap with room to grow:
for a block in use at `p` whose size `s0` is less than `new_size`, the call
returns the payload `q` of a block that was not in use before, different from
`p`; the first `s0` bytes at `q` are the first `s0` bytes that were at `p`;
afterwards the heap is well formed, its blocks in use are `q` and those in
use before other than `p`, and the block of `q` is in use with recorded size
at least `new_size`. -/
theorem krealloc_moves (h : Heap) (bs : List (Nat × Bool)) (hwf : HeapWF h bs)
    (p s0 new_size : Nat) (hp : (p, s0) ∈ allocBlocks HEAP_START bs) (hlt : s0 < new_size)
    (hb : h.heap_brk + new_size + 2 * PAGE_SIZE + HDR_SIZE + 8 ≤ 2 ^ 32) :
    (h.hdr (p - HDR_SIZE)).size = s0 ∧
    ∃ h2 q bs2, krealloc h p new_size = some (h2, q) ∧ q ≠ 0 ∧ q ≠ p ∧
      q ∉ allocPtrs HEAP_START bs ∧
      (∀ i, i < s0 → h2.mem (q + i) = h.mem (p + i)) ∧
      HeapWF h2 bs2 ∧
      (∀ x, x ∈ allocPtrs HEAP_START bs2 ↔ x = q ∨ (x ∈ allocPtrs HEAP_START bs ∧ x ≠ p)) ∧
      (h2.hdr (q - HDR_SIZE)).free = 0 ∧ new_size ≤ (h2.hdr (q - HDR_SIZE)).size := by
  have hH : HDR_SIZE = 20 := rfl
  have hP : PAGE_SIZE = 4096 := rfl
  have hS : HEAP_START = 16777216 := rfl
  have hhdr := allocBlocks_header h.hdr h.heap_brk bs 0 HEAP_START p s0 hwf.seg hp
  have hpb := allocBlocks_bounds HEAP_START bs p s0 hp
  rw [hwf.fin] at hpb
  have hbrk := hwf.brk_lt
  have hhd : (p + 2 ^ 32 - HDR_SIZE) % 2 ^ 32 = p - HDR_SIZE := by omega
  have hp0 : p ≠ 0 := by omega
  have hn0 : new_size ≠ 0 := by omega
  refine ⟨hhdr.1, ?_⟩
  obtain ⟨bs1, pre, s, post, h1, hfitc, hgrowc, hbs1, hsz, hfirst, hk, hwf1, hfree1, hsize1, ha1,
    _, _, hmem1⟩ := kmalloc_spec h bs hwf new_size hn0 hb
  -- the blocks in use before the call are those of the list the final scan runs on
  have hab : allocBlocks HEAP_START bs1 = allocBlocks HEAP_START bs := by
    by_cases hex : ∃ b ∈ bs, b.2 = true ∧ align8 new_size ≤ b.1
    · rw [hfitc hex]
    · have hno : ∀ b ∈ bs, ¬ (b.2 = true ∧ align8 new_size ≤ b.1) :=
        fun b hb1 hb2 => hex ⟨b, hb1, hb2⟩
      obtain ⟨needed, _, _, e⟩ := hgrowc hno
      rw [e, allocBlocks_grown]
  generalize hcE : endAddr HEAP_START pre = c at *
  have hab1 : allocBlocks HEAP_START bs =
      allocBlocks HEAP_START pre ++ allocBlocks (c + HDR_SIZE + s) post := by
    rw [← hab, hbs1, allocBlocks_append, hcE]
    simp [allocBlocks]
  obtain ⟨x, hx1, hx2, hsplit⟩ := allocBlocks_split c s (align8 new_size) post hsz
  have hab2 : allocBlocks HEAP_START (pre ++ (splitBlock s (align8 new_size) ++ post)) =
      allocBlocks HEAP_START pre ++ (c + HDR_SIZE, x) :: allocBlocks (c + HDR_SIZE + s) post := by
    rw [allocBlocks_append, hcE, hsplit]
  generalize hLE : pre ++ (splitBlock s (align8 new_size) ++ post) = L at *
  have hpL : (p, s0) ∈ allocBlocks HEAP_START L := by
    rw [hab2]
    rw [hab1] at hp
    rcases List.mem_append.mp hp with h0 | h0
    · exact List.mem_append_left _ h0
    · exact List.mem_append_right _ (List.mem_cons_of_mem _ h0)
  have hqL : (c + HDR_SIZE, x) ∈ allocBlocks HEAP_START L := by
    rw [hab2]
    exact List.mem_append_right _ (List.mem_cons_self _ _)
  have hqb := allocBlocks_bounds HEAP_START L _ _ hqL
  rw [hwf1.fin] at hqb
  have hbrk1 := hwf1.brk_lt
  have hcge := hcE ▸ le_endAddr HEAP_START pre
  -- the two payloads do not overlap
  have hdis : p + s0 ≤ c ∨ c + HDR_SIZE + s + HDR_SIZE ≤ p := by
    rw [hab1] at hp
    rcases List.mem_append.mp hp with h0 | h0
    · have := allocBlocks_bounds HEAP_START pre p s0 h0
      rw [hcE] at this
      exact Or.inl this.2
    · have := allocBlocks_bounds _ post p s0 h0
      exact Or.inr this.1
  have hqp : c + HDR_SIZE ≠ p := by omega
  have hh1 := allocBlocks_header h1.hdr h1.heap_brk L 0 HEAP_START p s0 hwf1.seg hpL
  -- the call
  have hkr : krealloc h p new_size =
      some (kfree { h1 with mem := kmemcpy h1.mem (c + HDR_SIZE) p s0 } p, c + HDR_SIZE) := by
    unfold krealloc
    have hq0 : c + HDR_SIZE ≠ 0 := by omega
    have hnle : ¬ (new_size ≤ (h.hdr (p - HDR_SIZE)).size) := by
      rw [hhdr.1]; omega
    simp only [hp0, if_false, hhd, hnle, hk, hq0, hh1.1]
  -- the heap after the copy, before `kfree`
  obtain ⟨h1c, hh1c⟩ : ∃ h1c : Heap, h1c = { h1 with mem := kmemcpy h1.mem (c + HDR_SIZE) p s0 } :=
    ⟨_, rfl⟩
  have hwfc : HeapWF h1c L := by
    rw [hh1c]
    exact ⟨hwf1.head, hwf1.seg, hwf1.fin, hwf1.ne, hwf1.brk_lt, hwf1.naf⟩
  have hpL2 : p ∈ allocPtrs HEAP_START L := by
    rw [allocPtrs_eq_map]
    exact List.mem_map.mpr ⟨(p, s0), hpL, rfl⟩
  obtain ⟨r1, sz, r2, hLr, hpe⟩ := allocPtrs_mem_split _ _ _ hpL2
  have hwfr := hwfc
  rw [hLr] at hwfr
  obtain ⟨bs2, hwf2, _, hal⟩ := kfree_wf h1c r1 r2 sz hwfr
  rw [← hpe] at hwf2
  have hptrsL : allocPtrs HEAP_START L =
      allocPtrs HEAP_START r1 ++ p :: allocPtrs (endAddr HEAP_START r1 + HDR_SIZE + sz) r2 := by
    rw [hLr, allocPtrs_append, hpe]
    simp [allocPtrs]
  have hptrs2 : ∀ y, y ∈ allocPtrs HEAP_START bs2 ↔ y ∈ allocPtrs HEAP_START L ∧ y ≠ p := by
    intro y
    rw [hal, hptrsL]
    simp only [List.mem_append, List.mem_cons]
    constructor
    · rintro (h0 | h0)
      · have := (allocPtrs_bounds _ _ _ h0).2
        exact ⟨Or.inl h0, by omega⟩
      · have := (allocPtrs_bounds _ _ _ h0).1
        exact ⟨Or.inr (Or.inr h0), by omega⟩
    · rintro ⟨h0 | h0 | h0, hne⟩
      · exact Or.inl h0
      · exact absurd h0 hne
      · exact Or.inr h0
  have hptrsL2 : ∀ y, y ∈ allocPtrs HEAP_START L ↔
      y = c + HDR_SIZE ∨ y ∈ allocPtrs HEAP_START bs := by
    intro y
    rw [allocPtrs_eq_map, allocPtrs_eq_map, hab2, hab1]
    simp only [List.map_append, List.map_cons, List.mem_append, List.mem_cons]
    constructor
    · rintro (h0 | h0 | h0)
      · exact Or.inr (Or.inl h0)
      · exact Or.inl h0
      · exact Or.inr (Or.inr h0)
    · rintro (h0 | h0 | h0)
      · exact Or.inr (Or.inl h0)
      · exact Or.inl h0
      · exact Or.inr (Or.inr h0)
  have hqnew : c + HDR_SIZE ∉ allocPtrs HEAP_START bs := by
    rw [allocPtrs_eq_map, hab1, List.map_append, List.mem_append]
    rintro (h0 | h0)
    · obtain ⟨⟨y, sy⟩, hy1, hy2⟩ := List.mem_map.mp h0
      have := allocBlocks_bounds HEAP_START pre y sy hy1
      rw [hcE] at this
      simp only at hy2
      omega
    · obtain ⟨⟨y, sy⟩, hy1, hy2⟩ := List.mem_map.mp h0
      have := allocBlocks_bounds _ post y sy hy1
      simp only at hy2
      omega
  have hfin := kfree_inuse h1c p c (by omega) (by omega) (by omega)
    (by rw [hh1c]; exact hfree1)
  refine ⟨kfree h1c p, c + HDR_SIZE, bs2, by rw [hkr, hh1c], by omega, hqp, hqnew, ?_, hwf2, ?_,
    ?_, ?_⟩
  · intro i hi
    rw [kfree_mem, hh1c]
    show kmemcpy h1.mem (c + HDR_SIZE) p s0 (c + HDR_SIZE + i) = h.mem (p + i)
    rw [kmemcpy_disjoint h1.mem (c + HDR_SIZE) p s0 i hi (by omega) (by omega) (by omega), hmem1]
  · intro y
    rw [hptrs2 y, hptrsL2 y]
    constructor
    · rintro ⟨h0 | h0, hne⟩
      · exact Or.inl h0
      · exact Or.inr ⟨h0, hne⟩
    · rintro (h0 | ⟨h0, hne⟩)
      · exact ⟨Or.inl h0, by rw [h0]; exact hqp⟩
      · exact ⟨Or.inr h0, hne⟩
  · rw [Nat.add_sub_cancel]
    exact hfin.2
  · rw [Nat.add_sub_cancel, hfin.1, hh1c]
    show new_size ≤ (h1.hdr c).size
    omega

/-- C31 (amended): on a well-formed heap, for every size > 0 with room for
the arena to grow without wrapping the 32-bit break (which bounds the size by
`0xFFFFFFF8`, so that the rounding does not wrap), `kmalloc(size)` returns
the payload of the first block, in list order, that is free and whose size
is at least `size` rounded up to a multiple of 8.  The list scanned, `bs1`,
is the block list itself when one of its blocks fits; otherwise it is the
list after the arena has been extended, with the new block appended or
merged into a free last block.  The block found (of size `s`, after the
blocks `pre`) is replaced by `splitBlock`: a block in use of exactly the
rounded size followed by a free block of `s - rounded size - 20` bytes when
`s` is at least the rounded size + 28, the whole block in use otherwise.
The returned block is marked non-free, its recorded size is at least `size`,
the blocks before and after it keep their sizes and free flags, and the
payload bytes are unchanged. -/
theorem C31_kmalloc_first_fit (h : Heap) (bs : List (Nat × Bool)) (hwf : HeapWF h bs)
    (size0 : Nat) (hs0 : size0 ≠ 0)
    (hb : h.heap_brk + size0 + 2 * PAGE_SIZE + HDR_SIZE + 8 ≤ 2 ^ 32) :
    ∃ bs1 pre s post h2,
      ((∃ b ∈ bs, b.2 = true ∧ align8 size0 ≤ b.1) → bs1 = bs) ∧
      ((∀ b ∈ bs, ¬ (b.2 = true ∧ align8 size0 ≤ b.1)) →
        ∃ needed, align8 size0 + 4116 ≤ needed ∧ needed ≤ align8 size0 + 8211 ∧
          bs1 = grownBlocks bs needed) ∧
      bs1 = pre ++ (s, true) :: post ∧ align8 size0 ≤ s ∧
      (∀ b ∈ pre, ¬ (b.2 = true ∧ align8 size0 ≤ b.1)) ∧
      kmalloc h size0 = some (h2, endAddr HEAP_START pre + HDR_SIZE) ∧
      HeapWF h2 (pre ++ (splitBlock s (align8 size0) ++ post)) ∧
      (h2.hdr (endAddr HEAP_START pre)).free = 0 ∧
      size0 ≤ (h2.hdr (endAddr HEAP_START pre)).size ∧
      size0 ≤ align8 size0 ∧ align8 size0 ≤ size0 + 7 ∧ align8 size0 % 8 = 0 ∧
      h2.mem = h.mem :=
  kmalloc_spec h bs hwf size0 hs0 hb

/-- C31 on a freshly initialised heap, one free block of 4076 bytes:
`kmalloc(100)`. -/
theorem C31_kmalloc_first_fit_witness :
    (100 ≠ 0 ∧ freshHeap.heap_brk + 100 + 2 * PAGE_SIZE + HDR_SIZE + 8 ≤ 2 ^ 32) ∧
    ∃ bs1 pre s post h2,
      ((∃ b ∈ [(PAGE_SIZE - HDR_SIZE, true)], b.2 = true ∧ align8 100 ≤ b.1) →
        bs1 = [(PAGE_SIZE - HDR_SIZE, true)]) ∧
      ((∀ b ∈ [(PAGE_SIZE - HDR_SIZE, true)], ¬ (b.2 = true ∧ align8 100 ≤ b.1)) →
        ∃ needed, align8 100 + 4116 ≤ needed ∧ needed ≤ align8 100 + 8211 ∧
          bs1 = grownBlocks [(PAGE_SIZE - HDR_SIZE, true)] needed) ∧
      bs1 = pre ++ (s, true) :: post ∧ align8 100 ≤ s ∧
      (∀ b ∈ pre, ¬ (b.2 = true ∧ align8 100 ≤ b.1)) ∧
      kmalloc freshHeap 100 = some (h2, endAddr HEAP_START pre + HDR_SIZE) ∧
      HeapWF h2 (pre ++ (splitBlock s (align8 100) ++ post)) ∧
      (h2.hdr (endAddr HEAP_START pre)).free = 0 ∧
      100 ≤ (h2.hdr (endAddr HEAP_START pre)).size ∧
      100 ≤ align8 100 ∧ align8 100 ≤ 100 + 7 ∧ align8 100 % 8 = 0 ∧
      h2.mem = freshHeap.mem :=
  ⟨⟨by decide, by decide⟩,
   C31_kmalloc_first_fit freshHeap _ (heap_init_wf _ _) 100 (by decide) (by decide)⟩

theorem oneBlockHeap_wf : HeapWF oneBlockHeap [(104, false), (3952, true)] :=
  ⟨by decide, by decide, by decide, by simp, by decide, by simp [NoAdjFree]⟩

/-- C33 (amended): for a block in use at `p`, of recorded size `s0`, in a
well-formed heap with room for a request of `new_size` bytes (which bounds
`new_size` by `0xFFFFFFF8`): if `s0 >= new_size`, `krealloc(p, new_size)`
returns `p` and leaves the heap unchanged; otherwise it returns the payload
`q` of a block that was not in use before, different from `p`, in use
afterwards with recorded size at least `new_size`, whose first `s0` bytes are
the first `s0` bytes that were at `p`, and `p` is no longer a block in use
while every other block in use still is.  `krealloc(NULL, n)` is
`kmalloc(n)`. -/
theorem C33_krealloc (h : Heap) (bs : List (Nat × Bool)) (hwf : HeapWF h bs)
    (p s0 new_size : Nat) (hp : (p, s0) ∈ allocBlocks HEAP_START bs)
    (hb : h.heap_brk + new_size + 2 * PAGE_SIZE + HDR_SIZE + 8 ≤ 2 ^ 32) :
    (h.hdr (p - HDR_SIZE)).size = s0 ∧
    (new_size ≤ s0 → krealloc h p new_size = some (h, p)) ∧
    (s0 < new_size →
      ∃ h2 q bs2, krealloc h p new_size = some (h2, q) ∧ q ≠ 0 ∧ q ≠ p ∧
        q ∉ allocPtrs HEAP_START bs ∧
        (∀ i, i < s0 → h2.mem (q + i) = h.mem (p + i)) ∧
        HeapWF h2 bs2 ∧
        (∀ x, x ∈ allocPtrs HEAP_START bs2 ↔ x = q ∨ (x ∈ allocPtrs HEAP_START bs ∧ x ≠ p)) ∧
        (h2.hdr (q - HDR_SIZE)).free = 0 ∧ new_size ≤ (h2.hdr (q - HDR_SIZE)).size) ∧
    krealloc h 0 new_size = kmalloc h new_size := by
  have hH : HDR_SIZE = 20 := rfl
  have hhdr := allocBlocks_header h.hdr h.heap_brk bs 0 HEAP_START p s0 hwf.seg hp
  have hpb := allocBlocks_bounds HEAP_START bs p s0 hp
  rw [hwf.fin] at hpb
  have hbrk := hwf.brk_lt
  have hS : HEAP_START = 16777216 := rfl
  refine ⟨hhdr.1, fun hle => ?_, fun hlt => ?_, krealloc_null h new_size⟩
  · apply krealloc_keeps h p new_size (by omega)
    have hhd : (p + 2 ^ 32 - HDR_SIZE) % 2 ^ 32 = p - HDR_SIZE := by omega
    rw [hhd, hhdr.1]
    exact hle
  · exact (krealloc_moves h bs hwf p s0 new_size hp hlt hb).2

/-- C33 on the heap left by `kmalloc(100)` on a fresh heap, whose block in use
is at `HEAP_START + 20` with size 104: `krealloc` to 50 bytes keeps the
block, `krealloc` to 200 bytes moves it. -/
theorem C33_krealloc_witness :
    ((16777236, 104) ∈ allocBlocks HEAP_START [(104, false), (3952, true)] ∧
      oneBlockHeap.heap_brk + 200 + 2 * PAGE_SIZE + HDR_SIZE + 8 ≤ 2 ^ 32 ∧
      50 ≤ 104 ∧ 104 < 200) ∧
    krealloc oneBlockHeap 16777236 50 = some (oneBlockHeap, 16777236) ∧
    ∃ h2 q bs2, krealloc oneBlockHeap 16777236 200 = some (h2, q) ∧ q ≠ 0 ∧ q ≠ 16777236 ∧
      q ∉ allocPtrs HEAP_START [(104, false), (3952, true)] ∧
      (∀ i, i < 104 → h2.mem (q + i) = oneBlockHeap.mem (16777236 + i)) ∧
      HeapWF h2 bs2 ∧
      (∀ x, x ∈ allocPtrs HEAP_START bs2 ↔
        x = q ∨ (x ∈ allocPtrs HEAP_START [(104, false), (3952, true)] ∧ x ≠ 16777236)) ∧
      (h2.hdr (q - HDR_SIZE)).free = 0 ∧ 200 ≤ (h2.hdr (q - HDR_SIZE)).size :=
  ⟨⟨by decide, by decide, by decide, by decide⟩,
   (C33_krealloc oneBlockHeap _ oneBlockHeap_wf 16777236 104 50 (by decide) (by decide)).2.1
     (by decide),
   (C33_krealloc oneBlockHeap _ oneBlockHeap_wf 16777236 104 200 (by decide) (by decide)).2.2.1
     (by decide)⟩

end MaiUnix
